import Mathlib

/-!
# Firewaller worker: diff engine, ports-key codec, construction, rule gathering

A shallow embedding of `worker/firewaller/firewaller.go`.

* Go strings are Lean `String`s (valid UTF-8 is assumed, so that the order of
  the bytes is the order of the characters); Go's `<` on strings is the
  lexicographic order on their characters (`strLess`).  Go's `int` is `Int`:
  ports are only compared, never computed with.
* Go maps are association lists with pairwise distinct keys; a `range` loop
  over a map visits the entries in list order.  Go leaves that order
  unspecified: `diffMaps_perm` shows that the results of `diffRanges` do not
  depend on it, and the statements about `gatherIngressRules` hold for every
  list, hence for every order of visit.
* `set.Strings` (github.com/juju/utils/set) is a duplicate-free list of
  strings.
* Functions returning `(value, error)` return a pair whose last component is
  an `Option Err`.
-/

namespace Juju

/-! ## Orders -/

/-- Lexicographic strict comparison of two lists, given a strict comparison of
the elements. -/
def lexLess {α : Type} (lt : α → α → Bool) : List α → List α → Bool
  | [], [] => false
  | [], _ :: _ => true
  | _ :: _, [] => false
  | a :: as, b :: bs => if lt a b then true else if lt b a then false else lexLess lt as bs

/-- A strict total order presented as a boolean comparison. -/
structure StrictTotal {α : Type} (lt : α → α → Bool) : Prop where
  irrefl : ∀ a, lt a a = false
  trans : ∀ a b c, lt a b = true → lt b c = true → lt a c = true
  tri : ∀ a b, lt a b = false → lt b a = false → a = b

/-- Strict comparison of two characters by code point. -/
def charLess (a b : Char) : Bool := decide (a.toNat < b.toNat)

/-- Go's `s < t` on strings. -/
def strLess (s t : String) : Bool := lexLess charLess s.data t.data

/-! ## `set.Strings` -/

/-- The type `set.Strings`. -/
abbrev Strings := List String

/-- The constructor `set.NewStrings()`. -/
def Strings.New : Strings := []

/-- The method `Strings.Add`. -/
def Strings.Add (s : Strings) (v : String) : Strings :=
  if v ∈ s then s else s ++ [v]

/-- The method `Strings.Size`. -/
def Strings.Size (s : Strings) : Nat := s.length

/-- The method `Strings.Difference`: the members of `s` that are not in `t`. -/
def Strings.Difference (s t : Strings) : Strings :=
  s.filter (fun v => decide (v ∉ t))

/-- The method `Strings.SortedValues`: the members in ascending order. -/
def Strings.SortedValues (s : Strings) : List String :=
  s.insertionSort (fun a b => strLess b a = false)

/-! ## Go maps -/

/-- The assignment `m[k] = v` on a Go map. -/
def mapSet {κ ν : Type} [DecidableEq κ] (m : List (κ × ν)) (k : κ) (v : ν) : List (κ × ν) :=
  if (m.lookup k).isSome then m.map (fun kv => if kv.1 = k then (k, v) else kv)
  else m ++ [(k, v)]

/-! ## `network.PortRange`, `network.IngressRule` -/

/-- The struct `network.PortRange`; equality is by all three fields. -/
structure PortRange where
  FromPort : Int
  ToPort : Int
  Protocol : String
  deriving DecidableEq, Repr

/-- The struct `network.IngressRule`: an embedded `PortRange` and the source
CIDRs. -/
structure IngressRule extends PortRange where
  SourceCIDRs : List String
  deriving DecidableEq, Repr

/-- Modelled from the spec: the comparison behind `network.SortIngressRules`
restricted to port ranges, "(protocol, fromPort, toPort)". -/
def PortRange.LessThan (p q : PortRange) : Bool :=
  if p.Protocol ≠ q.Protocol then strLess p.Protocol q.Protocol
  else if p.FromPort ≠ q.FromPort then decide (p.FromPort < q.FromPort)
  else decide (p.ToPort < q.ToPort)

/-- Modelled from the spec: the comparison behind `network.SortIngressRules`,
the "total order on (protocol, fromPort, toPort, sorted-CIDRs)"; the CIDR
lists are compared lexicographically. -/
def IngressRule.LessThan (r s : IngressRule) : Bool :=
  if r.toPortRange ≠ s.toPortRange then r.toPortRange.LessThan s.toPortRange
  else lexLess strLess r.SourceCIDRs s.SourceCIDRs

/-- Modelled from the spec: `network.SortIngressRules`, which is not among the
sources; it sorts by `IngressRule.LessThan`. -/
def SortIngressRules (rules : List IngressRule) : List IngressRule :=
  rules.insertionSort (fun a b => b.LessThan a = false)

/-! ## The diff engine -/

/-- The CIDRs a rule contributes in `portCidrs`: an empty `SourceCIDRs` stands
for `0.0.0.0/0`. -/
def ruleCidrs (rule : IngressRule) : List String :=
  if rule.SourceCIDRs.length = 0 then ["0.0.0.0/0"] else rule.SourceCIDRs

/-- One iteration of the loop of the closure `portCidrs` in `diffRanges`. -/
def portCidrsStep (result : List (PortRange × Strings)) (rule : IngressRule) :
    List (PortRange × Strings) :=
  let cidrs := (result.lookup rule.toPortRange).getD Strings.New
  mapSet result rule.toPortRange ((ruleCidrs rule).foldl Strings.Add cidrs)

/-- The closure `portCidrs` of `diffRanges`. -/
def portCidrs (rules : List IngressRule) : List (PortRange × Strings) :=
  rules.foldl portCidrsStep []

/-- One iteration of the first loop of `diffRanges` (over `wantedPortCidrs`). -/
def diffWantedStep (currentPortCidrs : List (PortRange × Strings))
    (acc : List IngressRule × List IngressRule) (entry : PortRange × Strings) :
    List IngressRule × List IngressRule :=
  let portRange := entry.1
  let wantedCidrs := entry.2
  match currentPortCidrs.lookup portRange with
  | none => (acc.1 ++ [⟨portRange, wantedCidrs.SortedValues⟩], acc.2)
  | some existingCidrs =>
    let toOpenCidrs := wantedCidrs.Difference existingCidrs
    let toOpen :=
      if toOpenCidrs.Size > 0 then acc.1 ++ [⟨portRange, toOpenCidrs.SortedValues⟩] else acc.1
    let toCloseCidrs := existingCidrs.Difference wantedCidrs
    let toClose :=
      if toCloseCidrs.Size > 0 then acc.2 ++ [⟨portRange, toCloseCidrs.SortedValues⟩] else acc.2
    (toOpen, toClose)

/-- One iteration of the second loop of `diffRanges` (over `currentPortCidrs`). -/
def diffCurrentStep (wantedPortCidrs : List (PortRange × Strings))
    (toClose : List IngressRule) (entry : PortRange × Strings) : List IngressRule :=
  match wantedPortCidrs.lookup entry.1 with
  | none => toClose ++ [⟨entry.1, entry.2.SortedValues⟩]
  | some _ => toClose

/-- The body of `diffRanges` from the two maps on: the two loops and the final
sorts. -/
def diffMaps (currentPortCidrs wantedPortCidrs : List (PortRange × Strings)) :
    List IngressRule × List IngressRule :=
  let acc := wantedPortCidrs.foldl (diffWantedStep currentPortCidrs) ([], [])
  let toClose := currentPortCidrs.foldl (diffCurrentStep wantedPortCidrs) acc.2
  (SortIngressRules acc.1, SortIngressRules toClose)

/-- The function `diffRanges`: the pair `(toOpen, toClose)`. -/
def diffRanges (currentRules wantedRules : List IngressRule) :
    List IngressRule × List IngressRule :=
  diffMaps (portCidrs currentRules) (portCidrs wantedRules)

/-- The set `cidrs(rules, p)` of the statements about `diffRanges`: the union of
the source CIDRs of the rules of the list whose port range is `p`, an empty
source list counting as `0.0.0.0/0`. -/
def cidrs (rules : List IngressRule) (p : PortRange) : List String :=
  (rules.filter (fun r => decide (r.toPortRange = p))).flatMap ruleCidrs


/-- The rule, if any, that the first loop of `diffRanges` appends to `toOpen`
for an entry of `wantedPortCidrs`. -/
def openOf (currentPortCidrs : List (PortRange × Strings)) (entry : PortRange × Strings) :
    Option IngressRule :=
  match currentPortCidrs.lookup entry.1 with
  | none => some ⟨entry.1, entry.2.SortedValues⟩
  | some existingCidrs =>
    if (entry.2.Difference existingCidrs).Size > 0 then
      some ⟨entry.1, (entry.2.Difference existingCidrs).SortedValues⟩
    else none

/-- The rule, if any, that the first loop of `diffRanges` appends to `toClose`
for an entry of `wantedPortCidrs`. -/
def closeOf (currentPortCidrs : List (PortRange × Strings)) (entry : PortRange × Strings) :
    Option IngressRule :=
  match currentPortCidrs.lookup entry.1 with
  | none => none
  | some existingCidrs =>
    if (existingCidrs.Difference entry.2).Size > 0 then
      some ⟨entry.1, (existingCidrs.Difference entry.2).SortedValues⟩
    else none

/-- The rule, if any, that the second loop of `diffRanges` appends to `toClose`
for an entry of `currentPortCidrs`. -/
def closeOnly (wantedPortCidrs : List (PortRange × Strings)) (entry : PortRange × Strings) :
    Option IngressRule :=
  match wantedPortCidrs.lookup entry.1 with
  | none => some ⟨entry.1, entry.2.SortedValues⟩
  | some _ => none

/-- The list `toOpen` of `diffRanges` before the final sort. -/
def rawOpen (currentPortCidrs wantedPortCidrs : List (PortRange × Strings)) :
    List IngressRule :=
  wantedPortCidrs.filterMap (openOf currentPortCidrs)

/-- The list `toClose` of `diffRanges` before the final sort. -/
def rawClose (currentPortCidrs wantedPortCidrs : List (PortRange × Strings)) :
    List IngressRule :=
  wantedPortCidrs.filterMap (closeOf currentPortCidrs) ++
    currentPortCidrs.filterMap (closeOnly wantedPortCidrs)

/-- The rule `r2` is the rule `r1`, or `r1` has an empty source list and `r2`
is the rule with the same port range and the source list `["0.0.0.0/0"]`. -/
def emptyCidrsReplaced (r1 r2 : IngressRule) : Prop :=
  r2 = r1 ∨ (r1.SourceCIDRs = [] ∧ r2 = ⟨r1.toPortRange, ["0.0.0.0/0"]⟩)

/-- Two optional sets hold the same members (both without repetition), or both
are absent. -/
def SameSet : Option Strings → Option Strings → Prop
  | none, none => True
  | some s, some t => s.Nodup ∧ t.Nodup ∧ ∀ c, c ∈ s ↔ c ∈ t
  | _, _ => False


/-! ## Errors and tags -/

/-- Error values of `github.com/juju/errors`, kept as the tree of calls that
built them. -/
inductive Err where
  /-- The calls `errors.Errorf(format, args...)` and `errors.New(format)`. -/
  | errorf (format : String) (args : List String)
  /-- The calls `errors.Annotatef(cause, format, args...)` and
  `errors.DeferredAnnotatef`. -/
  | annotatef (cause : Err) (format : String) (args : List String)
  /-- The call `errors.Trace(cause)`. -/
  | trace (cause : Err)
  deriving DecidableEq, Repr

/-- The type `names.MachineTag`; its zero value wraps the empty id. -/
structure MachineTag where
  id : String
  deriving DecidableEq, Repr

/-- The type `names.SubnetTag`; its zero value wraps the empty id. -/
structure SubnetTag where
  id : String
  deriving DecidableEq, Repr

/-- The type `names.UnitTag`. -/
structure UnitTag where
  id : String
  deriving DecidableEq, Repr

/-- The type `names.ApplicationTag`. -/
structure ApplicationTag where
  id : String
  deriving DecidableEq, Repr

/-- The zero value `names.MachineTag{}`. -/
def MachineTag.zero : MachineTag := ⟨""⟩

/-- The zero value `names.SubnetTag{}`. -/
def SubnetTag.zero : SubnetTag := ⟨""⟩

/-- The method `MachineTag.String`: kind, dash, id. -/
def MachineTag.String (t : MachineTag) : String := "machine-" ++ t.id

/-- The method `SubnetTag.String`: kind, dash, id. -/
def SubnetTag.String (t : SubnetTag) : String := "subnet-" ++ t.id

/-! ## The ports-key codec -/

/-- The call `strings.SplitN(s, ":", 2)`: the string itself when it holds no
colon, else the part before the first colon and the part after it. -/
def splitColon2 (s : String) : List String :=
  match s.data.span (fun ch => decide (ch ≠ ':')) with
  | (_, []) => [s]
  | (before, _ :: after) => [String.mk before, String.mk after]

/-- The function `parsePortsKey`; `names.NewMachineTag` and `names.NewSubnetTag`
are parameters.  The deferred annotation wraps the error, if any, on return. -/
def parsePortsKey (NewMachineTag : String → MachineTag) (NewSubnetTag : String → SubnetTag)
    (change : String) : MachineTag × SubnetTag × Option Err :=
  let deferredAnnotatef := fun (err : Option Err) =>
    err.map (fun e => Err.annotatef e "invalid ports change %q" [change])
  let parts := splitColon2 change
  if parts.length ≠ 2 then
    (MachineTag.zero, SubnetTag.zero, deferredAnnotatef (some (Err.errorf "unexpected format" [])))
  else
    let machineID := parts.getD 0 ""
    let subnetID := parts.getD 1 ""
    let machineTag := NewMachineTag machineID
    let subnetTag := if subnetID ≠ "" then NewSubnetTag subnetID else SubnetTag.zero
    (machineTag, subnetTag, deferredAnnotatef none)

/-- The ports-change case of `Firewaller.loop`, for one received batch: the
state of the worker is threaded through `openedPortsChanged`; a `some` error is
the error `loop` returns, `none` means the loop goes on to its next `select`. -/
def loopPortsChange {σ : Type} (NewMachineTag : String → MachineTag)
    (NewSubnetTag : String → SubnetTag)
    (openedPortsChanged : MachineTag → SubnetTag → σ → σ × Option Err) :
    List String → σ → σ × Option Err
  | [], fw => (fw, none)
  | portsGlobalKey :: rest, fw =>
    match parsePortsKey NewMachineTag NewSubnetTag portsGlobalKey with
    | (_, _, some err) => (fw, some (Err.trace err))
    | (machineTag, subnetTag, none) =>
      match openedPortsChanged machineTag subnetTag fw with
      | (fw2, some err) => (fw2, some (Err.trace err))
      | (fw2, none) => loopPortsChange NewMachineTag NewSubnetTag openedPortsChanged rest fw2

/-! ## The worker's tables -/

/-- The type `portRanges`, a `map[network.PortRange]bool`. -/
abbrev portRanges := List (PortRange × Bool)

/-- The struct `serviceData`, as far as `gatherIngressRules` reads it: the tag
of its application and the exposed flag. -/
structure serviceData where
  application : ApplicationTag
  exposed : Bool
  deriving DecidableEq, Repr

/-- The struct `unitData`, as far as `gatherIngressRules` reads it; the field
`serviced` holds the record the pointer leads to. -/
structure unitData where
  tag : UnitTag
  serviced : serviceData
  deriving DecidableEq, Repr

/-- The struct `machineData`: tag, tracked units, the ingress rules last
computed, and the ports defined by the units. -/
structure machineData where
  tag : MachineTag
  unitds : List (UnitTag × unitData)
  ingressRules : List IngressRule
  definedPorts : List (UnitTag × portRanges)
  deriving DecidableEq, Repr

/-- The struct `Firewaller`: the tables and the mode; `globalIngressRuleRef` is
`none` for the nil map. -/
structure Firewaller where
  machineds : List (MachineTag × machineData)
  unitds : List (UnitTag × unitData)
  applicationids : List (ApplicationTag × serviceData)
  globalMode : Bool
  globalIngressRuleRef : Option (List (String × Int))
  machinePorts : List (MachineTag × portRanges)
  deriving DecidableEq, Repr

/-- Modelled from the spec: the constant `config.FwInstance`, which is not among
the sources ("`firewall-mode` ∈ {`instance`, `global`}"). -/
def FwInstance : String := "instance"

/-- Modelled from the spec: the constant `config.FwGlobal`, which is not among
the sources ("`firewall-mode` ∈ {`instance`, `global`}"). -/
def FwGlobal : String := "global"

/-- What a call of `NewFirewaller` yields: the worker (`none` for nil), the
error, and the workers whose `loop` was handed to `catacomb.Invoke`. -/
structure NewFirewallerResult where
  worker : Option Firewaller
  err : Option Err
  invoked : List Firewaller
  deriving DecidableEq, Repr

/-- The function `NewFirewaller`; `catacombInvoke` tells whether
`catacomb.Invoke` fails for the plan of the given worker. -/
def NewFirewaller (catacombInvoke : Firewaller → Option Err) (mode : String) :
    NewFirewallerResult :=
  let fw : Firewaller :=
    { machineds := [], unitds := [], applicationids := [], globalMode := false,
      globalIngressRuleRef := none, machinePorts := [] }
  let switched : Option Firewaller :=
    if mode = FwInstance then some fw
    else if mode = FwGlobal then some { fw with globalMode := true, globalIngressRuleRef := some [] }
    else none
  match switched with
  | none => ⟨none, some (Err.errorf "invalid firewall-mode %q" [mode]), []⟩
  | some fw =>
    match catacombInvoke fw with
    | some err => ⟨none, some (Err.trace err), [fw]⟩
    | none => ⟨some fw, none, [fw]⟩

/-! ## Gathering the wanted rules -/

/-- The builtin `delete(m, k)` on a Go map. -/
def mapDelete {κ ν : Type} [DecidableEq κ] (m : List (κ × ν)) (k : κ) : List (κ × ν) :=
  m.filter (fun e => decide (e.1 ≠ k))

/-- The method `updateForRemoteRelationIngress`: it returns without touching
the set. -/
def updateForRemoteRelationIngress (_tag : ApplicationTag) (cidrs : Strings) : Strings :=
  cidrs

/-- The innermost loop of `gatherIngressRules`, over the port ranges of one
unit; `NewIngressRule` stands for `network.NewIngressRule`.  An error ends the
whole function with `nil` and the traced error. -/
def gatherPortRanges
    (NewIngressRule : String → Int → Int → List String → IngressRule × Option Err)
    (cidrs : Strings) : List (PortRange × Bool) → List IngressRule →
    List IngressRule × Option Err
  | [], want => (want, none)
  | (portRange, _) :: rest, want =>
    let sourceCidrs := cidrs.SortedValues
    match NewIngressRule portRange.Protocol portRange.FromPort portRange.ToPort sourceCidrs with
    | (_, some err) => ([], some (Err.trace err))
    | (rule, none) => gatherPortRanges NewIngressRule cidrs rest (want ++ [rule])

/-- The loop of `gatherIngressRules` over the entries of `machined.definedPorts`
of one machine. -/
def gatherDefinedPorts
    (NewIngressRule : String → Int → Int → List String → IngressRule × Option Err) :
    List (UnitTag × portRanges) → machineData → List IngressRule →
    machineData × List IngressRule × Option Err
  | [], machined, want => (machined, want, none)
  | (unitTag, ranges) :: rest, machined, want =>
    match machined.unitds.lookup unitTag with
    | none =>
      gatherDefinedPorts NewIngressRule rest
        { machined with unitds := mapDelete machined.unitds unitTag } want
    | some unitd =>
      let cidrs := Strings.New
      let cidrs := if unitd.serviced.exposed then cidrs.Add "0.0.0.0/0" else cidrs
      let cidrs := updateForRemoteRelationIngress unitd.serviced.application cidrs
      if cidrs.Size > 0 then
        match gatherPortRanges NewIngressRule cidrs ranges want with
        | (_, some err) => (machined, [], some err)
        | (want2, none) => gatherDefinedPorts NewIngressRule rest machined want2
      else gatherDefinedPorts NewIngressRule rest machined want

/-- The outer loop of `gatherIngressRules`, over the machines, with the rules
gathered so far. -/
def gatherMachines
    (NewIngressRule : String → Int → Int → List String → IngressRule × Option Err) :
    List machineData → List IngressRule → List machineData × List IngressRule × Option Err
  | [], want => ([], want, none)
  | machined :: rest, want =>
    match gatherDefinedPorts NewIngressRule machined.definedPorts machined want with
    | (machined2, _, some err) => (machined2 :: rest, [], some err)
    | (machined2, want2, none) =>
      match gatherMachines NewIngressRule rest want2 with
      | (rest2, want3, err) => (machined2 :: rest2, want3, err)

/-- The method `Firewaller.gatherIngressRules`: the machines as the call leaves
them, the rules, and the error. -/
def gatherIngressRules
    (NewIngressRule : String → Int → Int → List String → IngressRule × Option Err)
    (machines : List machineData) : List machineData × List IngressRule × Option Err :=
  gatherMachines NewIngressRule machines []

/-- The rules the statement about `gatherIngressRules` lists for one entry
`(u, ranges)` of `definedPorts`: none unless `u` is tracked in `unitds` with an
exposed application, else one rule `(p, ["0.0.0.0/0"])` for each port range `p`
of `ranges`. -/
def unitRules (machined : machineData) (entry : UnitTag × portRanges) : List IngressRule :=
  match machined.unitds.lookup entry.1 with
  | none => []
  | some unitd =>
    if unitd.serviced.exposed then
      entry.2.map (fun pr => (⟨pr.1, ["0.0.0.0/0"]⟩ : IngressRule))
    else []

/-- The rules the statement about `gatherIngressRules` lists for one machine:
those of `unitRules` for each entry of `definedPorts`. -/
def exposedRules (machined : machineData) : List IngressRule :=
  machined.definedPorts.flatMap (unitRules machined)

/-! ## The orchestrator and the cloud provider -/

/-- The values of `params.Life`. -/
inductive Life where
  | Alive
  | Dying
  | Dead
  deriving DecidableEq, Repr

/-- One call of the worker to the orchestrator's API (`fw.st` and the objects
it hands out), to the cloud provider (`fw.environ` and its instances) or to a
catacomb.  Instances are named by their id. -/
inductive Call where
  /-- The call `fw.st.Machine(tag)`, also made by `machineData.machine()`. -/
  | Machine (tag : MachineTag)
  /-- The call `m.InstanceId()` on the machine of that tag. -/
  | InstanceId (tag : MachineTag)
  /-- The call `m.ActiveSubnets()` on the machine of that tag. -/
  | ActiveSubnets (tag : MachineTag)
  /-- The call `m.OpenedPorts(subnetTag)` on the machine of that tag. -/
  | OpenedPorts (tag : MachineTag) (subnetTag : SubnetTag)
  /-- The call `m.WatchUnits()` on the machine of that tag. -/
  | WatchUnits (tag : MachineTag)
  /-- The call `fw.st.Unit(tag)`. -/
  | Unit (tag : UnitTag)
  /-- The call `unit.AssignedMachine()` on the unit of that tag. -/
  | AssignedMachine (tag : UnitTag)
  /-- The call `unit.Application()` on the unit of that tag. -/
  | Application (tag : UnitTag)
  /-- The call `service.IsExposed()` on the application of that tag. -/
  | IsExposed (tag : ApplicationTag)
  /-- The call `fw.environ.Instances(ids)`. -/
  | Instances (ids : List String)
  /-- The call `fw.environ.IngressRules()`. -/
  | IngressRules
  /-- The call `fw.environ.OpenPorts(rules)`. -/
  | OpenPorts (rules : List IngressRule)
  /-- The call `fw.environ.ClosePorts(rules)`. -/
  | ClosePorts (rules : List IngressRule)
  /-- The call `instance.IngressRules(machineId)` on the instance of that id. -/
  | InstanceIngressRules (inst : String) (machineId : String)
  /-- The call `instance.OpenPorts(machineId, rules)` on the instance of that id. -/
  | InstanceOpenPorts (inst : String) (machineId : String) (rules : List IngressRule)
  /-- The call `instance.ClosePorts(machineId, rules)` on the instance of that id. -/
  | InstanceClosePorts (inst : String) (machineId : String) (rules : List IngressRule)
  /-- The start of the watch loop of a `serviceData` by `catacomb.Invoke` and its
  registration by `fw.catacomb.Add`. -/
  | StartService (tag : ApplicationTag)
  /-- The call `worker.Stop(serviced)`. -/
  | StopService (tag : ApplicationTag)
  /-- The start of the watch loop of a `machineData` by `catacomb.Invoke` and its
  registration by `fw.catacomb.Add`. -/
  | StartMachine (tag : MachineTag)
  /-- The call `worker.Stop(machined)`. -/
  | StopMachine (tag : MachineTag)
  deriving DecidableEq, Repr

/-- The collaborators of the worker that are not among the sources.  Every
answer may depend on the calls made so far.  An answer is a pair of a value and
an error, as in Go; the value is meaningful when the error is `none`. -/
structure Api where
  /-- The predicate `params.IsCodeNotFound`. -/
  IsCodeNotFound : Err → Bool
  /-- The predicate `params.IsCodeNotAssigned`. -/
  IsCodeNotAssigned : Err → Bool
  /-- The predicate `errors.IsNotProvisioned`. -/
  IsNotProvisioned : Err → Bool
  /-- The error value `environs.ErrNoInstances`. -/
  ErrNoInstances : Err
  /-- The function `network.NewIngressRule`. -/
  NewIngressRule : String → Int → Int → List String → IngressRule × Option Err
  /-- The method `IngressRule.String`. -/
  RuleString : IngressRule → String
  /-- The answer of `fw.st.Machine(tag)`: the life of the machine, and the error. -/
  Machine : List Call → MachineTag → Life × Option Err
  /-- The answer of `m.InstanceId()`. -/
  InstanceId : List Call → MachineTag → String × Option Err
  /-- The answer of `m.ActiveSubnets()`. -/
  ActiveSubnets : List Call → MachineTag → List SubnetTag × Option Err
  /-- The answer of `m.OpenedPorts(subnetTag)`: a map from port ranges to unit
  tags. -/
  OpenedPorts : List Call → MachineTag → SubnetTag → List (PortRange × UnitTag) × Option Err
  /-- The answer of `m.WatchUnits()` and of the first receive from the channel of
  the watcher: the first batch of unit names. -/
  WatchUnits : List Call → MachineTag → List String × Option Err
  /-- The answer of `fw.st.Unit(tag)`: the life of the unit, `none` for a nil
  unit, and the error. -/
  Unit : List Call → UnitTag → Option Life × Option Err
  /-- The answer of `unit.AssignedMachine()`. -/
  AssignedMachine : List Call → UnitTag → MachineTag × Option Err
  /-- The answer of `unit.Application()`: the tag of the application. -/
  Application : List Call → UnitTag → ApplicationTag × Option Err
  /-- The answer of `service.IsExposed()`. -/
  IsExposed : List Call → ApplicationTag → Bool × Option Err
  /-- The answer of `fw.environ.Instances(ids)`: the ids of the instances. -/
  Instances : List Call → List String → List String × Option Err
  /-- The answer of `fw.environ.IngressRules()`. -/
  IngressRules : List Call → List IngressRule × Option Err
  /-- The answer of `fw.environ.OpenPorts(rules)`. -/
  OpenPorts : List Call → List IngressRule → Option Err
  /-- The answer of `fw.environ.ClosePorts(rules)`. -/
  ClosePorts : List Call → List IngressRule → Option Err
  /-- The answer of `instance.IngressRules(machineId)`. -/
  InstanceIngressRules : List Call → String → String → List IngressRule × Option Err
  /-- The answer of `instance.OpenPorts(machineId, rules)`. -/
  InstanceOpenPorts : List Call → String → String → List IngressRule → Option Err
  /-- The answer of `instance.ClosePorts(machineId, rules)`. -/
  InstanceClosePorts : List Call → String → String → List IngressRule → Option Err
  /-- The answer of `catacomb.Invoke` and `fw.catacomb.Add` for a `serviceData`. -/
  StartService : List Call → ApplicationTag → Option Err
  /-- The answer of `catacomb.Invoke` and `fw.catacomb.Add` for a `machineData`. -/
  StartMachine : List Call → MachineTag → Option Err

/-- The error that stands for the Go panic "index out of range". -/
def indexPanic : Err := Err.errorf "panic: index out of range" []

/-- The error that stands for the Go panic "assignment to entry in nil map". -/
def nilMapPanic : Err := Err.errorf "panic: assignment to entry in nil map" []

/-- The error that stands for the Go panic "nil pointer dereference". -/
def nilPanic : Err := Err.errorf "panic: nil pointer dereference" []

/-! ## The flush strategies -/

/-- The read `fw.globalIngressRuleRef[ruleName]` of a `map[string]int`: zero for a
key that is not stored. -/
def refGet (ref : List (String × Int)) (ruleName : String) : Int :=
  (ref.lookup ruleName).getD 0

/-- One iteration of the first loop of `flushGlobalPorts` (over `rawOpen`), on
the reference-count map and `toOpen`. -/
def globalOpenStep (ruleString : IngressRule → String)
    (acc : List (String × Int) × List IngressRule) (rule : IngressRule) :
    List (String × Int) × List IngressRule :=
  let ruleName := ruleString rule
  let toOpen := if refGet acc.1 ruleName = 0 then acc.2 ++ [rule] else acc.2
  (mapSet acc.1 ruleName (refGet acc.1 ruleName + 1), toOpen)

/-- One iteration of the second loop of `flushGlobalPorts` (over `rawClose`), on
the reference-count map and `toClose`. -/
def globalCloseStep (ruleString : IngressRule → String)
    (acc : List (String × Int) × List IngressRule) (rule : IngressRule) :
    List (String × Int) × List IngressRule :=
  let ruleName := ruleString rule
  let ref := mapSet acc.1 ruleName (refGet acc.1 ruleName - 1)
  if refGet ref ruleName = 0 then (mapDelete ref ruleName, acc.2 ++ [rule]) else (ref, acc.2)

/-- The method `Firewaller.flushGlobalPorts`, on the one field of the worker it
touches, the reference-count map (not nil), and on the calls made so far. -/
def flushGlobalPorts (api : Api) (ref : List (String × Int)) (calls : List Call)
    (rawOpen rawClose : List IngressRule) : List (String × Int) × List Call × Option Err :=
  let acc1 := rawOpen.foldl (globalOpenStep api.RuleString) (ref, [])
  let toOpen := acc1.2
  let acc2 := rawClose.foldl (globalCloseStep api.RuleString) (acc1.1, [])
  let toClose := acc2.2
  let ref2 := acc2.1
  let opened : List Call × Option Err :=
    if toOpen.length > 0 then (calls ++ [Call.OpenPorts toOpen], api.OpenPorts calls toOpen)
    else (calls, none)
  match opened with
  | (calls1, some err) => (ref2, calls1, some err)
  | (calls1, none) =>
    if toClose.length > 0 then
      (ref2, calls1 ++ [Call.ClosePorts toClose], api.ClosePorts calls1 toClose)
    else (ref2, calls1, none)

/-- The method `Firewaller.flushInstancePorts`, on the calls made so far; it
reads the tag of the machine only. -/
def flushInstancePorts (api : Api) (calls : List Call) (machined : machineData)
    (toOpen toClose : List IngressRule) : List Call × Option Err :=
  if toOpen.length = 0 ∧ toClose.length = 0 then (calls, none)
  else
    let calls1 := calls ++ [Call.Machine machined.tag]
    match (api.Machine calls machined.tag).2 with
    | some err => if api.IsCodeNotFound err then (calls1, none) else (calls1, some err)
    | none =>
      let machineId := machined.tag.id
      let calls2 := calls1 ++ [Call.InstanceId machined.tag]
      match api.InstanceId calls1 machined.tag with
      | (_, some err) => (calls2, some err)
      | (instanceId, none) =>
        let calls3 := calls2 ++ [Call.Instances [instanceId]]
        match api.Instances calls2 [instanceId] with
        | (_, some err) => (calls3, some err)
        | (instances, none) =>
          match instances.head? with
          | none => (calls3, some indexPanic)
          | some inst =>
            let opened : List Call × Option Err :=
              if toOpen.length > 0 then
                (calls3 ++ [Call.InstanceOpenPorts inst machineId toOpen],
                  api.InstanceOpenPorts calls3 inst machineId toOpen)
              else (calls3, none)
            match opened with
            | (calls4, some err) => (calls4, some err)
            | (calls4, none) =>
              if toClose.length > 0 then
                (calls4 ++ [Call.InstanceClosePorts inst machineId toClose],
                  api.InstanceClosePorts calls4 inst machineId toClose)
              else (calls4, none)

/-- The method `Firewaller.flushMachine`: the worker, the calls, the machine as
the call leaves it, and the error.  With a nil reference-count map the global
flush panics at its first write. -/
def flushMachine (api : Api) (fw : Firewaller) (calls : List Call) (machined : machineData) :
    Firewaller × List Call × machineData × Option Err :=
  match gatherIngressRules api.NewIngressRule [machined] with
  | (machines, _, some err) => (fw, calls, machines.headD machined, some (Err.trace err))
  | (machines, want, none) =>
    let machined := machines.headD machined
    let diff := diffRanges machined.ingressRules want
    let toOpen := diff.1
    let toClose := diff.2
    let machined := { machined with ingressRules := want }
    if fw.globalMode then
      match fw.globalIngressRuleRef with
      | none =>
        if toOpen.length = 0 ∧ toClose.length = 0 then (fw, calls, machined, none)
        else (fw, calls, machined, some nilMapPanic)
      | some ref =>
        match flushGlobalPorts api ref calls toOpen toClose with
        | (ref2, calls2, err) =>
          ({ fw with globalIngressRuleRef := some ref2 }, calls2, machined, err)
    else
      match flushInstancePorts api calls machined toOpen toClose with
      | (calls2, err) => (fw, calls2, machined, err)

/-- The method `Firewaller.reconcileGlobal`.  The error of `gatherIngressRules`
is overwritten by that of `fw.environ.IngressRules()`. -/
def reconcileGlobal (api : Api) (fw : Firewaller) (calls : List Call) :
    Firewaller × List Call × Option Err :=
  let machines := fw.machineds.map Prod.snd
  match gatherIngressRules api.NewIngressRule machines with
  | (machines2, want, _) =>
    let fw := { fw with machineds := (fw.machineds.map Prod.fst).zip machines2 }
    let calls1 := calls ++ [Call.IngressRules]
    match api.IngressRules calls with
    | (_, some err) => (fw, calls1, some err)
    | (initialPortRanges, none) =>
      let diff := diffRanges initialPortRanges want
      let toOpen := diff.1
      let toClose := diff.2
      let opened : List Call × Option Err :=
        if toOpen.length > 0 then (calls1 ++ [Call.OpenPorts toOpen], api.OpenPorts calls1 toOpen)
        else (calls1, none)
      match opened with
      | (calls2, some err) => (fw, calls2, some err)
      | (calls2, none) =>
        if toClose.length > 0 then
          (fw, calls2 ++ [Call.ClosePorts toClose], api.ClosePorts calls2 toClose)
        else (fw, calls2, none)


/-! ## Sample collaborators -/

/-- A sample of the collaborators: every call succeeds, the machines are alive
with the instance `i-<id>`, and a rule is rendered by its ports, protocol and
sources. -/
def okApi : Api where
  IsCodeNotFound := fun e => decide (e = Err.errorf "not found" [])
  IsCodeNotAssigned := fun e => decide (e = Err.errorf "not assigned" [])
  IsNotProvisioned := fun e => decide (e = Err.errorf "not provisioned" [])
  ErrNoInstances := Err.errorf "no instances found" []
  NewIngressRule := fun pr f t c => (⟨⟨f, t, pr⟩, c⟩, none)
  RuleString := fun r =>
    toString r.FromPort ++ "-" ++ toString r.ToPort ++ "/" ++ r.Protocol ++ " from " ++
      ",".intercalate r.SourceCIDRs
  Machine := fun _ _ => (Life.Alive, none)
  InstanceId := fun _ t => ("i-" ++ t.id, none)
  ActiveSubnets := fun _ _ => ([], none)
  OpenedPorts := fun _ _ _ => ([], none)
  WatchUnits := fun _ _ => ([], none)
  Unit := fun _ _ => (some Life.Alive, none)
  AssignedMachine := fun _ _ => (⟨"0"⟩, none)
  Application := fun _ _ => (⟨"app"⟩, none)
  IsExposed := fun _ _ => (true, none)
  Instances := fun _ ids => (ids, none)
  IngressRules := fun _ => ([], none)
  OpenPorts := fun _ _ => none
  ClosePorts := fun _ _ => none
  InstanceIngressRules := fun _ _ _ => ([], none)
  InstanceOpenPorts := fun _ _ _ _ => none
  InstanceClosePorts := fun _ _ _ _ => none
  StartService := fun _ _ => none
  StartMachine := fun _ _ => none

/-- The sample collaborators with a cloud whose instances refuse `OpenPorts`. -/
def failOpenApi : Api :=
  { okApi with InstanceOpenPorts := fun _ _ _ _ => some (Err.errorf "cannot open ports" []) }

/-- The sample collaborators with an orchestrator that knows no machine. -/
def notFoundApi : Api :=
  { okApi with Machine := fun _ _ => (Life.Dead, some (Err.errorf "not found" [])) }

/-- A sample machine `0` that tracks the unit `app/0` of an application with the
given exposed flag; the unit has opened `tcp/80-80`; the machine has the given
ingress rules. -/
def sampleMachine (exposed : Bool) (rules : List IngressRule) : machineData :=
  ⟨⟨"0"⟩, [(⟨"app/0"⟩, ⟨⟨"app/0"⟩, ⟨⟨"app"⟩, exposed⟩⟩)], rules,
    [(⟨"app/0"⟩, [(⟨80, 80, "tcp"⟩, true)])]⟩

/-- The worker of `NewFirewaller` in instance mode. -/
def instanceWorker : Firewaller := ⟨[], [], [], false, none, []⟩

/-- The worker of `NewFirewaller` in global mode, with the given reference-count
map. -/
def globalWorker (ref : List (String × Int)) : Firewaller := ⟨[], [], [], true, some ref, []⟩


/-! ## What the statements about `flushGlobalPorts` speak of -/

/-- The rules of a list whose count is zero before their increment, the counts
growing by one at each rule: `cnt` gives the count of a name before the first
rule, and the count before a later rule is `cnt` plus the number of earlier rules
of the list with the same name. -/
def openedSpec (ruleString : IngressRule → String) (cnt : String → Int)
    (rawOpen : List IngressRule) : List IngressRule :=
  ((rawOpen.inits.zip rawOpen).filter (fun e =>
    decide (cnt (ruleString e.2) + ((e.1.map ruleString).count (ruleString e.2) : Nat) = 0))).map
    Prod.snd

/-- The rules of a list whose count becomes zero at their decrement, the counts
shrinking by one at each rule: `cnt` gives the count of a name before the first
rule, and the count after the decrement of a rule is `cnt` minus the number of
rules of the list up to and including it with the same name. -/
def closedSpec (ruleString : IngressRule → String) (cnt : String → Int)
    (rawClose : List IngressRule) : List IngressRule :=
  ((rawClose.inits.zip rawClose).filter (fun e =>
    decide (cnt (ruleString e.2) - ((e.1.map ruleString).count (ruleString e.2) : Nat) - 1 = 0))).map
    Prod.snd

/-- The count of a name after the first loop of `flushGlobalPorts`: the count
on entry plus the number of rules of `rawOpen` with that name. -/
def countAfterOpen (ruleString : IngressRule → String) (ref : List (String × Int))
    (rawOpen : List IngressRule) (ruleName : String) : Int :=
  refGet ref ruleName + ((rawOpen.map ruleString).count ruleName : Nat)

/-- Successive calls of `flushGlobalPorts`, each with its `rawOpen` and
`rawClose`, until one returns an error. -/
def globalFlushes (api : Api) :
    List (List IngressRule × List IngressRule) → List (String × Int) → List Call →
    List (String × Int) × List Call × Option Err
  | [], ref, calls => (ref, calls, none)
  | flush :: rest, ref, calls =>
    match flushGlobalPorts api ref calls flush.1 flush.2 with
    | (ref2, calls2, some err) => (ref2, calls2, some err)
    | (ref2, calls2, none) => globalFlushes api rest ref2 calls2


/-- Every rule of the list has a positive count when it is decremented, the
counts shrinking by one at each rule: `cnt` gives the count of a name before the
first rule. -/
def closesBalanced (ruleString : IngressRule → String) (cnt : String → Int)
    (rawClose : List IngressRule) : Prop :=
  ∀ e ∈ rawClose.inits.zip rawClose,
    0 < cnt (ruleString e.2) - ((e.1.map ruleString).count (ruleString e.2) : Nat)

/-- Whether a rule of the name `ruleName` is open in the environment as far as
the calls tell: the last call of `OpenPorts` or `ClosePorts` that carried a rule
of that name was a call of `OpenPorts`. -/
def openInEnviron (ruleString : IngressRule → String) (ruleName : String)
    (calls : List Call) : Bool :=
  calls.foldl (fun b c =>
    match c with
    | Call.OpenPorts rules => if ruleName ∈ rules.map ruleString then true else b
    | Call.ClosePorts rules => if ruleName ∈ rules.map ruleString then false else b
    | _ => b) false

/-- The reference-count maps and calls reached from the empty map by calls of
`flushGlobalPorts` that return no error and in which every rule of `rawClose`
has a positive count when it is decremented. -/
inductive BalancedRun (api : Api) : List (String × Int) → List Call → Prop where
  | start : BalancedRun api [] []
  | flush (ref : List (String × Int)) (calls : List Call) (rawOpen rawClose : List IngressRule)
      (ref2 : List (String × Int)) (calls2 : List Call) :
      BalancedRun api ref calls →
      closesBalanced api.RuleString (countAfterOpen api.RuleString ref rawOpen) rawClose →
      flushGlobalPorts api ref calls rawOpen rawClose = (ref2, calls2, none) →
      BalancedRun api ref2 calls2

/-- A reference-count map with pairwise distinct keys that stores positive
counts only. -/
def PosMap (ref : List (String × Int)) : Prop :=
  (ref.map Prod.fst).Nodup ∧ ∀ s v, ref.lookup s = some v → 0 < v


/-- The number of distinct port ranges of a rule list whose rule from
`0.0.0.0/0` has the name `ruleName`. -/
def nameCount (ruleString : IngressRule → String) (rules : List IngressRule)
    (ruleName : String) : Nat :=
  (((rules.map IngressRule.toPortRange).dedup).filter (fun p =>
    decide (ruleString ⟨p, ["0.0.0.0/0"]⟩ = ruleName))).length

/-- The workers and calls reached in global mode from the worker that
`NewFirewaller` returns: by tracking a new machine, whose record `startMachine`
creates without ingress rules; by a `flushMachine` that returns no error, of a
tracked machine whose units, defined ports and exposure the events since its
last flush may have changed in any way; and by dropping a machine without
ingress rules, as `forgetMachine` does after its flush. -/
inductive GlobalRun (api : Api) : Firewaller → List Call → Prop where
  | start : GlobalRun api (globalWorker []) []
  | track (fw : Firewaller) (calls : List Call) (tag : MachineTag) (machined : machineData) :
      GlobalRun api fw calls → machined.ingressRules = [] →
      GlobalRun api { fw with machineds := fw.machineds ++ [(tag, machined)] } calls
  | flush (fw : Firewaller) (calls : List Call) (pre post : List (MachineTag × machineData))
      (tag : MachineTag) (machined changed : machineData) (fw2 : Firewaller)
      (calls2 : List Call) (machined2 : machineData) :
      GlobalRun api fw calls → fw.machineds = pre ++ (tag, machined) :: post →
      changed.ingressRules = machined.ingressRules →
      flushMachine api fw calls changed = (fw2, calls2, machined2, none) →
      GlobalRun api { fw2 with machineds := pre ++ (tag, machined2) :: post } calls2
  | forget (fw : Firewaller) (calls : List Call) (pre post : List (MachineTag × machineData))
      (tag : MachineTag) (machined : machineData) :
      GlobalRun api fw calls → fw.machineds = pre ++ (tag, machined) :: post →
      machined.ingressRules = [] →
      GlobalRun api { fw with machineds := pre ++ post } calls


/-! ## The tables with their pointers -/

/-- A pointer to a record of the worker: the address of the record on the
heap. -/
abbrev Addr := Nat

/-- The struct `unitData` with its pointers `serviced` and `machined`; `none` is
the nil pointer. -/
structure unitRecord where
  tag : UnitTag
  serviced : Option Addr
  machined : Option Addr
  deriving DecidableEq, Repr

/-- The struct `serviceData` with its map of pointers to units; `application`
is the tag of the application it holds. -/
structure serviceRecord where
  application : ApplicationTag
  exposed : Bool
  unitds : List (UnitTag × Addr)
  deriving DecidableEq, Repr

/-- The struct `machineData` with its map of pointers to units. -/
structure machineRecord where
  tag : MachineTag
  unitds : List (UnitTag × Addr)
  ingressRules : List IngressRule
  definedPorts : List (UnitTag × portRanges)
  deriving DecidableEq, Repr

/-- The struct `Firewaller` together with the heap that its pointers lead into:
the records by address, the next free address, the three tables from tags to
pointers, the mode and the reference-count map.  A pointer stored in a table or
in a record is the address of a record; an address without a record does not
occur in Go, and the functions below answer it as a nil pointer. -/
structure Tables where
  machines : List (Addr × machineRecord)
  units : List (Addr × unitRecord)
  services : List (Addr × serviceRecord)
  next : Addr
  machineds : List (MachineTag × Addr)
  unitds : List (UnitTag × Addr)
  applicationids : List (ApplicationTag × Addr)
  globalMode : Bool
  globalIngressRuleRef : Option (List (String × Int))
  deriving DecidableEq, Repr

/-- Whether an error stands for a Go panic; a panic passes through the callers
without being annotated. -/
def Err.isPanic (e : Err) : Bool :=
  decide (e = nilPanic) || decide (e = indexPanic) || decide (e = nilMapPanic)

/-- The call `errors.Annotate(err, message)` on an error a callee returned. -/
def Err.annotate (e : Err) (message : String) : Err :=
  if e.isPanic then e else Err.annotatef e message []

/-- What `gatherIngressRules` reads of the unit at an address: its tag, and the
application and exposed flag behind its pointer `serviced`; `none` when a
pointer on the way is nil. -/
def Tables.viewUnit (fw : Tables) (a : Addr) : Option unitData :=
  match fw.units.lookup a with
  | none => none
  | some u =>
    match u.serviced with
    | none => none
    | some sa =>
      match fw.services.lookup sa with
      | none => none
      | some s => some ⟨u.tag, ⟨s.application, s.exposed⟩⟩

/-- What `gatherIngressRules` reads of a machine record: the record with every
unit pointer followed.  The units it follows are those of the keys of
`definedPorts` that are in `unitds`; the view is `none` when one of them has a
nil pointer on the way, else it holds the units that can be followed. -/
def Tables.viewMachine (fw : Tables) (m : machineRecord) : Option machineData :=
  if m.definedPorts.all (fun e =>
      match m.unitds.lookup e.1 with
      | none => true
      | some a => (fw.viewUnit a).isSome) then
    some ⟨m.tag, m.unitds.filterMap (fun e => (fw.viewUnit e.2).map (fun u => (e.1, u))),
      m.ingressRules, m.definedPorts⟩
  else none

/-- The method `Firewaller.flushMachine` on the tables: `machined` is the pointer
to the machine record.  The rules are gathered and flushed as `flushMachine`
does on the record with its pointers followed, and the record on the heap gets
the `ingressRules` that call leaves. -/
def Tables.flushMachine (api : Api) (fw : Tables) (calls : List Call) (machined : Addr) :
    Tables × List Call × Option Err :=
  match fw.machines.lookup machined with
  | none => (fw, calls, some nilPanic)
  | some m =>
    match fw.viewMachine m with
    | none => (fw, calls, some nilPanic)
    | some view =>
      match Juju.flushMachine api ⟨[], [], [], fw.globalMode, fw.globalIngressRuleRef, []⟩
          calls view with
      | (fw2, calls2, view2, err) =>
        ({ fw with
            machines := mapSet fw.machines machined { m with ingressRules := view2.ingressRules }
            globalIngressRuleRef := fw2.globalIngressRuleRef }, calls2, err)

/-- The method `Firewaller.forgetUnit`; `unitd` is the pointer to the unit
record.  The call `worker.Stop(serviced)` is logged. -/
def Tables.forgetUnit (fw : Tables) (calls : List Call) (unitd : Addr) :
    Tables × List Call × Option Err :=
  match fw.units.lookup unitd with
  | none => (fw, calls, some nilPanic)
  | some u =>
    match u.serviced.bind (fun sa => (fw.services.lookup sa).map (fun s => (sa, s))) with
    | none => (fw, calls, some nilPanic)
    | some (sa, s) =>
      let stoppedService := decide (s.unitds.length = 1) && (s.unitds.lookup u.tag).isSome
      let calls := if stoppedService then calls ++ [Call.StopService s.application] else calls
      let fw := { fw with unitds := mapDelete fw.unitds u.tag }
      match u.machined.bind (fun ma => (fw.machines.lookup ma).map (fun m => (ma, m))) with
      | none => (fw, calls, some nilPanic)
      | some (ma, m) =>
        let fw := { fw with
          machines := mapSet fw.machines ma { m with unitds := mapDelete m.unitds u.tag } }
        let fw := { fw with
          services := mapSet fw.services sa { s with unitds := mapDelete s.unitds u.tag } }
        let fw := if stoppedService then
            { fw with applicationids := mapDelete fw.applicationids s.application }
          else fw
        (fw, calls, none)

/-- The method `Firewaller.startService`, for the application of the given tag:
the new record is put on the heap at the next free address. -/
def Tables.startService (api : Api) (fw : Tables) (calls : List Call)
    (service : ApplicationTag) : Tables × List Call × Option Err :=
  let calls1 := calls ++ [Call.IsExposed service]
  match api.IsExposed calls service with
  | (_, some err) => (fw, calls1, some err)
  | (exposed, none) =>
    let calls2 := calls1 ++ [Call.StartService service]
    match api.StartService calls1 service with
    | some err => (fw, calls2, some (Err.trace err))
    | none =>
      ({ fw with
          services := mapSet fw.services fw.next ⟨service, exposed, []⟩
          next := fw.next + 1
          applicationids := mapSet fw.applicationids service fw.next }, calls2, none)

/-- The function `portRangesEqual`. -/
def portRangesEqual (a b : portRanges) : Bool :=
  if a.length ≠ b.length then false
  else a.all (fun e =>
    match b.lookup e.1 with
    | none => false
    | some valueB => decide (e.2 = valueB))

/-- The function `unitPortsEqual`. -/
def unitPortsEqual (a b : List (UnitTag × portRanges)) : Bool :=
  if a.length ≠ b.length then false
  else a.all (fun e =>
    match b.lookup e.1 with
    | none => false
    | some valueB => portRangesEqual e.2 valueB)

/-- The loop of `openedPortsChanged` over the reported ports, in the order they
are reported in, with the map built so far: no map and no error when a unit is
not tracked in the `unitds` of the machine (the change is skipped). -/
def Tables.newPortRanges (fw : Tables) (m : machineRecord) :
    List (PortRange × UnitTag) → List (UnitTag × portRanges) →
    Option (List (UnitTag × portRanges)) × Option Err
  | [], acc => (some acc, none)
  | (portRange, unitTag) :: rest, acc =>
    match m.unitds.lookup unitTag with
    | none => (none, none)
    | some unitd =>
      match fw.units.lookup unitd with
      | none => (none, some nilPanic)
      | some u =>
        Tables.newPortRanges fw m rest
          (mapSet acc u.tag (mapSet ((acc.lookup u.tag).getD []) portRange true))

/-- The method `Firewaller.openedPortsChanged`. -/
def Tables.openedPortsChanged (api : Api) (fw : Tables) (calls : List Call)
    (machineTag : MachineTag) (subnetTag : SubnetTag) : Tables × List Call × Option Err :=
  match fw.machineds.lookup machineTag with
  | none => (fw, calls, none)
  | some machined =>
    match fw.machines.lookup machined with
    | none => (fw, calls, some nilPanic)
    | some m =>
      let calls1 := calls ++ [Call.Machine m.tag]
      match (api.Machine calls m.tag).2 with
      | some err => (fw, calls1, some err)
      | none =>
        let calls2 := calls1 ++ [Call.OpenedPorts m.tag subnetTag]
        match api.OpenedPorts calls1 m.tag subnetTag with
        | (_, some err) => (fw, calls2, some err)
        | (ports, none) =>
          match Tables.newPortRanges fw m ports [] with
          | (none, err) => (fw, calls2, err)
          | (some newPortRanges, _) =>
            if !unitPortsEqual m.definedPorts newPortRanges then
              Tables.flushMachine api
                { fw with
                  machines := mapSet fw.machines machined
                    { m with definedPorts := newPortRanges } }
                calls2 machined
            else (fw, calls2, none)

/-- The loop of `startUnit` over the active subnets. -/
def Tables.openedPortsLoop (api : Api) (machineTag : MachineTag) :
    List SubnetTag → Tables → List Call → Tables × List Call × Option Err
  | [], fw, calls => (fw, calls, none)
  | subnetTag :: rest, fw, calls =>
    match Tables.openedPortsChanged api fw calls machineTag subnetTag with
    | (fw2, calls2, some err) => (fw2, calls2, some err)
    | (fw2, calls2, none) => Tables.openedPortsLoop api machineTag rest fw2 calls2

/-- The method `Firewaller.startUnit`, for the unit of the given tag: the new
record is put on the heap at the next free address. -/
def Tables.startUnit (api : Api) (fw : Tables) (calls : List Call) (unitTag : UnitTag)
    (machineTag : MachineTag) : Tables × List Call × Option Err :=
  let calls1 := calls ++ [Call.Application unitTag]
  match api.Application calls unitTag with
  | (_, some err) => (fw, calls1, some err)
  | (applicationTag, none) =>
    let unitd := fw.next
    let machined := fw.machineds.lookup machineTag
    let fw := { fw with
      units := mapSet fw.units unitd ⟨unitTag, none, machined⟩
      next := fw.next + 1
      unitds := mapSet fw.unitds unitTag unitd }
    match machined.bind (fun ma => (fw.machines.lookup ma).map (fun m => (ma, m))) with
    | none => (fw, calls1, some nilPanic)
    | some (ma, m) =>
      let fw := { fw with
        machines := mapSet fw.machines ma { m with unitds := mapSet m.unitds unitTag unitd } }
      match (if (fw.applicationids.lookup applicationTag).isNone then
          Tables.startService api fw calls1 applicationTag else (fw, calls1, none)) with
      | (fw, calls2, some err) =>
        ({ fw with unitds := mapDelete fw.unitds unitTag }, calls2, some err)
      | (fw, calls2, none) =>
        let serviced := fw.applicationids.lookup applicationTag
        let fw := { fw with units := mapSet fw.units unitd ⟨unitTag, serviced, some ma⟩ }
        match serviced.bind (fun sa => (fw.services.lookup sa).map (fun s => (sa, s))) with
        | none => (fw, calls2, some nilPanic)
        | some (sa, s) =>
          let fw := { fw with
            services := mapSet fw.services sa
              { s with unitds := mapSet s.unitds unitTag unitd } }
          let calls3 := calls2 ++ [Call.Machine m.tag]
          match (api.Machine calls2 m.tag).2 with
          | some err => (fw, calls3, some err)
          | none =>
            let calls4 := calls3 ++ [Call.ActiveSubnets m.tag]
            match api.ActiveSubnets calls3 m.tag with
            | (_, some err) =>
              (fw, calls4, some (Err.annotatef err "failed getting %q active subnets"
                [machineTag.String]))
            | (subnetTags, none) => Tables.openedPortsLoop api machineTag subnetTags fw calls4

/-- The first loop of `flushUnits`: the map from machine tags to the machines
of the given units. -/
def Tables.flushTargets (fw : Tables) :
    List Addr → List (MachineTag × Addr) → List (MachineTag × Addr) × Option Err
  | [], acc => (acc, none)
  | unitd :: rest, acc =>
    match (fw.units.lookup unitd).bind (fun u =>
        u.machined.bind (fun ma => (fw.machines.lookup ma).map (fun m => (ma, m)))) with
    | none => (acc, some nilPanic)
    | some (ma, m) => Tables.flushTargets fw rest (mapSet acc m.tag ma)

/-- The second loop of `flushUnits`, over the machines, in the order of the
map. -/
def Tables.flushMachines (api : Api) :
    List Addr → Tables → List Call → Tables × List Call × Option Err
  | [], fw, calls => (fw, calls, none)
  | machined :: rest, fw, calls =>
    match Tables.flushMachine api fw calls machined with
    | (fw2, calls2, some err) => (fw2, calls2, some err)
    | (fw2, calls2, none) => Tables.flushMachines api rest fw2 calls2

/-- The method `Firewaller.flushUnits`. -/
def Tables.flushUnits (api : Api) (fw : Tables) (calls : List Call) (unitds : List Addr) :
    Tables × List Call × Option Err :=
  match Tables.flushTargets fw unitds [] with
  | (_, some err) => (fw, calls, some err)
  | (machineds, none) => Tables.flushMachines api (machineds.map Prod.snd) fw calls

/-- The last statement of the loop body of `unitsChanged`, for one unit: what
is done with the answers `unit` (`none` for nil) and `machineTag` of the
orchestrator.  After a `startUnit` without error the unit table holds the new
unit. -/
def Tables.unitChanged (api : Api) (fw : Tables) (calls : List Call) (changed : List Addr)
    (unitTag : UnitTag) (unit : Option Life) (machineTag : MachineTag) :
    Tables × List Call × List Addr × Option Err :=
  match fw.unitds.lookup unitTag with
  | some unitd =>
    match (fw.units.lookup unitd).bind (fun u =>
        u.machined.bind (fun ma => fw.machines.lookup ma)) with
    | none => (fw, calls, changed, some nilPanic)
    | some m =>
      if unit = none ∨ unit = some Life.Dead ∨ machineTag ≠ m.tag then
        match Tables.forgetUnit fw calls unitd with
        | (fw2, calls2, some err) => (fw2, calls2, changed, some err)
        | (fw2, calls2, none) => (fw2, calls2, changed ++ [unitd], none)
      else (fw, calls, changed, none)
  | none =>
    if unit ≠ none ∧ unit ≠ some Life.Dead ∧ (fw.machineds.lookup machineTag).isSome then
      match Tables.startUnit api fw calls unitTag machineTag with
      | (fw2, calls2, some err) => (fw2, calls2, changed, some err)
      | (fw2, calls2, none) =>
        match fw2.unitds.lookup unitTag with
        | none => (fw2, calls2, changed, some nilPanic)
        | some unitd => (fw2, calls2, changed ++ [unitd], none)
    else (fw, calls, changed, none)

/-- The loop of `unitsChanged` over the names of the batch, with the units
changed so far; `NewUnitTag` stands for `names.NewUnitTag`. -/
def Tables.unitsChangedLoop (api : Api) (NewUnitTag : String → UnitTag) :
    List String → Tables → List Call → List Addr →
    Tables × List Call × List Addr × Option Err
  | [], fw, calls, changed => (fw, calls, changed, none)
  | name :: rest, fw, calls, changed =>
    let unitTag := NewUnitTag name
    let calls1 := calls ++ [Call.Unit unitTag]
    match api.Unit calls unitTag with
    | (unit, err) =>
      if (match err with
          | some e => !api.IsCodeNotFound e
          | none => false) then (fw, calls1, changed, err)
      else
        match unit with
        | none =>
          match Tables.unitChanged api fw calls1 changed unitTag none MachineTag.zero with
          | (fw2, calls2, changed2, some err2) => (fw2, calls2, changed2, some err2)
          | (fw2, calls2, changed2, none) =>
            Tables.unitsChangedLoop api NewUnitTag rest fw2 calls2 changed2
        | some life =>
          let calls2 := calls1 ++ [Call.AssignedMachine unitTag]
          match api.AssignedMachine calls1 unitTag with
          | (machineTag, err) =>
            if (match err with
                | some e => api.IsCodeNotFound e
                | none => false) then
              Tables.unitsChangedLoop api NewUnitTag rest fw calls2 changed
            else if (match err with
                | some e => !api.IsCodeNotAssigned e
                | none => false) then (fw, calls2, changed, err)
            else
              match Tables.unitChanged api fw calls2 changed unitTag (some life) machineTag with
              | (fw2, calls3, changed2, some err2) => (fw2, calls3, changed2, some err2)
              | (fw2, calls3, changed2, none) =>
                Tables.unitsChangedLoop api NewUnitTag rest fw2 calls3 changed2

/-- The method `Firewaller.unitsChanged`, for the unit names of the change. -/
def Tables.unitsChanged (api : Api) (NewUnitTag : String → UnitTag) (fw : Tables)
    (calls : List Call) (units : List String) : Tables × List Call × Option Err :=
  match Tables.unitsChangedLoop api NewUnitTag units fw calls [] with
  | (fw2, calls2, _, some err) => (fw2, calls2, some err)
  | (fw2, calls2, changed, none) =>
    match Tables.flushUnits api fw2 calls2 changed with
    | (fw3, calls3, some err) => (fw3, calls3, some (err.annotate "cannot change firewall ports"))
    | (fw3, calls3, none) => (fw3, calls3, none)

/-- The sample collaborators with an orchestrator whose units are assigned to no
machine: `AssignedMachine` answers the zero machine tag and a NotAssigned
error. -/
def unassignedApi : Api :=
  { okApi with
    AssignedMachine := fun _ _ => (MachineTag.zero, some (Err.errorf "not assigned" [])) }

/-- Sample tables in instance mode: the machine `0` (at address 0) tracks the
unit `app/0` (at address 1) of the exposed application `app` (at address 2);
the unit has opened `tcp/80-80`, and the machine has the rule for it. -/
def sampleTables : Tables :=
  { machines := [(0, ⟨⟨"0"⟩, [(⟨"app/0"⟩, 1)], [⟨⟨80, 80, "tcp"⟩, ["0.0.0.0/0"]⟩],
      [(⟨"app/0"⟩, [(⟨80, 80, "tcp"⟩, true)])]⟩)]
    units := [(1, ⟨⟨"app/0"⟩, some 2, some 0⟩)]
    services := [(2, ⟨⟨"app"⟩, true, [(⟨"app/0"⟩, 1)]⟩)]
    next := 3
    machineds := [(⟨"0"⟩, 0)]
    unitds := [(⟨"app/0"⟩, 1)]
    applicationids := [(⟨"app"⟩, 2)]
    globalMode := false
    globalIngressRuleRef := none }


/-! ## Machines coming and going -/

/-- The call `errors.Trace(err)` on an error a callee returned; a panic passes
through. -/
def Err.traced (e : Err) : Err :=
  if e.isPanic then e else Err.trace e

/-- The call `errors.Annotatef(err, format, args...)` on an error a callee
returned; a panic passes through. -/
def Err.annotated (e : Err) (format : String) (args : List String) : Err :=
  if e.isPanic then e else Err.annotatef e format args

/-- The first loop of `forgetMachine`, over `machined.unitds`.  The keys are
those the map had when the loop began; a key that has been deleted from the map
since is not visited, as Go has it for a map that changes during `range`. -/
def Tables.forgetUnits (machined : Addr) :
    List UnitTag → Tables → List Call → Tables × List Call × Option Err
  | [], fw, calls => (fw, calls, none)
  | key :: rest, fw, calls =>
    match (fw.machines.lookup machined).bind (fun m => m.unitds.lookup key) with
    | none => Tables.forgetUnits machined rest fw calls
    | some unitd =>
      match Tables.forgetUnit fw calls unitd with
      | (fw2, calls2, some err) => (fw2, calls2, some err)
      | (fw2, calls2, none) => Tables.forgetUnits machined rest fw2 calls2

/-- The method `Firewaller.forgetMachine`; `machined` is the pointer to the
machine record.  The call `worker.Stop(machined)` is logged. -/
def Tables.forgetMachine (api : Api) (fw : Tables) (calls : List Call) (machined : Addr) :
    Tables × List Call × Option Err :=
  match fw.machines.lookup machined with
  | none => (fw, calls, some nilPanic)
  | some m =>
    match Tables.forgetUnits machined (m.unitds.map Prod.fst) fw calls with
    | (fw1, calls1, some err) => (fw1, calls1, some err)
    | (fw1, calls1, none) =>
      match Tables.flushMachine api fw1 calls1 machined with
      | (fw2, calls2, some err) => (fw2, calls2, some err.traced)
      | (fw2, calls2, none) =>
        ({ fw2 with machineds := mapDelete fw2.machineds m.tag },
          calls2 ++ [Call.StopMachine m.tag], none)

/-- The method `Firewaller.startMachine`.  The answer `api.WatchUnits` stands
for `m.WatchUnits()` with `fw.catacomb.Add(unitw)` and carries the first change
of the watcher; `interrupted` is the error the `select` returns when it ends
without that change (`ErrDying()`, or "machine units watcher closed"), `none`
when the change is received.  The answer `api.StartMachine` is asked for
`catacomb.Invoke` and then, on the calls with that start logged, for the final
`fw.catacomb.Add(machined)`.  The new record is put on the heap at the next
free address. -/
def Tables.startMachine (api : Api) (interrupted : List Call → MachineTag → Option Err)
    (NewUnitTag : String → UnitTag) (fw : Tables) (calls : List Call) (tag : MachineTag) :
    Tables × List Call × Option Err :=
  let calls1 := calls ++ [Call.Machine tag]
  match (api.Machine calls tag).2 with
  | some err =>
    if api.IsCodeNotFound err then (fw, calls1, none)
    else (fw, calls1, some (Err.annotatef err "cannot watch machine units" []))
  | none =>
    let calls2 := calls1 ++ [Call.WatchUnits tag]
    match api.WatchUnits calls1 tag with
    | (_, some err) => (fw, calls2, some (Err.trace err))
    | (change, none) =>
      match interrupted calls2 tag with
      | some err => (fw, calls2, some err)
      | none =>
        let machined := fw.next
        let fw := { fw with
          machines := mapSet fw.machines machined ⟨tag, [], [], []⟩
          next := fw.next + 1
          machineds := mapSet fw.machineds tag machined }
        match Tables.unitsChanged api NewUnitTag fw calls2 change with
        | (fw2, calls3, some err) =>
          ({ fw2 with machineds := mapDelete fw2.machineds tag }, calls3,
            some (err.annotated "cannot respond to units changes for %q" [tag.String]))
        | (fw2, calls3, none) =>
          let calls4 := calls3 ++ [Call.StartMachine tag]
          match api.StartMachine calls3 tag with
          | some err =>
            ({ fw2 with machineds := mapDelete fw2.machineds tag }, calls4, some (Err.trace err))
          | none => (fw2, calls4, api.StartMachine calls4 tag)

/-- The method `Firewaller.machineLifeChanged`. -/
def Tables.machineLifeChanged (api : Api) (interrupted : List Call → MachineTag → Option Err)
    (NewUnitTag : String → UnitTag) (fw : Tables) (calls : List Call) (tag : MachineTag) :
    Tables × List Call × Option Err :=
  let calls1 := calls ++ [Call.Machine tag]
  match api.Machine calls tag with
  | (life, err) =>
    let found := match err with
      | some e => !api.IsCodeNotFound e
      | none => true
    if found && err.isSome then (fw, calls1, err)
    else
      let dead := !found || decide (life = Life.Dead)
      match fw.machineds.lookup tag with
      | some machined =>
        if dead then Tables.forgetMachine api fw calls1 machined else (fw, calls1, none)
      | none =>
        if !dead then Tables.startMachine api interrupted NewUnitTag fw calls1 tag
        else (fw, calls1, none)

/-- The body of the loop of `reconcileInstances` from `m.InstanceId()` on, for
the machine of the given tag and ingress rules: the calls, the error, and
whether the loop goes on to the next machine (it does not after an error, nor
after `environs.ErrNoInstances`, where the function returns nil). -/
def reconcileInstance (api : Api) (calls : List Call) (tag : MachineTag)
    (ingressRules : List IngressRule) : List Call × Option Err × Bool :=
  let calls2 := calls ++ [Call.InstanceId tag]
  match api.InstanceId calls tag with
  | (_, some err) =>
    if api.IsNotProvisioned err then (calls2, none, true) else (calls2, some err, false)
  | (instanceId, none) =>
    let calls3 := calls2 ++ [Call.Instances [instanceId]]
    match api.Instances calls2 [instanceId] with
    | (_, some err) =>
      if err = api.ErrNoInstances then (calls3, none, false) else (calls3, some err, false)
    | (instances, none) =>
      let machineId := tag.id
      match instances.head? with
      | none => (calls3, some indexPanic, false)
      | some inst =>
        let calls4 := calls3 ++ [Call.InstanceIngressRules inst machineId]
        match api.InstanceIngressRules calls3 inst machineId with
        | (_, some err) => (calls4, some err, false)
        | (initialRules, none) =>
          let diff := diffRanges initialRules ingressRules
          let toOpen := diff.1
          let toClose := diff.2
          let opened : List Call × Option Err :=
            if toOpen.length > 0 then
              (calls4 ++ [Call.InstanceOpenPorts inst machineId toOpen],
                api.InstanceOpenPorts calls4 inst machineId toOpen)
            else (calls4, none)
          match opened with
          | (calls5, some err) => (calls5, some err, false)
          | (calls5, none) =>
            if toClose.length > 0 then
              match api.InstanceClosePorts calls5 inst machineId toClose with
              | some err =>
                (calls5 ++ [Call.InstanceClosePorts inst machineId toClose], some err, false)
              | none => (calls5 ++ [Call.InstanceClosePorts inst machineId toClose], none, true)
            else (calls5, none, true)

/-- The loop of `reconcileInstances` over `fw.machineds`.  The keys are those
the map had when the loop began; a key that has been deleted since (by
`forgetMachine`) is not visited. -/
def Tables.reconcileMachines (api : Api) :
    List MachineTag → Tables → List Call → Tables × List Call × Option Err
  | [], fw, calls => (fw, calls, none)
  | key :: rest, fw, calls =>
    match fw.machineds.lookup key with
    | none => Tables.reconcileMachines api rest fw calls
    | some machined =>
      match fw.machines.lookup machined with
      | none => (fw, calls, some nilPanic)
      | some m =>
        let calls1 := calls ++ [Call.Machine m.tag]
        match (api.Machine calls m.tag).2 with
        | some err =>
          if api.IsCodeNotFound err then
            match Tables.forgetMachine api fw calls1 machined with
            | (fw2, calls2, some err2) => (fw2, calls2, some err2)
            | (fw2, calls2, none) => Tables.reconcileMachines api rest fw2 calls2
          else (fw, calls1, some err)
        | none =>
          match reconcileInstance api calls1 m.tag m.ingressRules with
          | (calls2, some err, _) => (fw, calls2, some err)
          | (calls2, none, false) => (fw, calls2, none)
          | (calls2, none, true) => Tables.reconcileMachines api rest fw calls2

/-- The method `Firewaller.reconcileInstances`. -/
def Tables.reconcileInstances (api : Api) (fw : Tables) (calls : List Call) :
    Tables × List Call × Option Err :=
  Tables.reconcileMachines api (fw.machineds.map Prod.fst) fw calls

/-- The case of `Firewaller.loop` for a received `exposedChange`; `serviced` is
the pointer of the change and `exposed` its flag.  The error is the one `loop`
returns. -/
def Tables.exposedChanged (api : Api) (fw : Tables) (calls : List Call) (serviced : Addr)
    (exposed : Bool) : Tables × List Call × Option Err :=
  match fw.services.lookup serviced with
  | none => (fw, calls, some nilPanic)
  | some s =>
    let fw := { fw with services := mapSet fw.services serviced { s with exposed := exposed } }
    match Tables.flushUnits api fw calls (s.unitds.map Prod.snd) with
    | (fw2, calls2, some err) => (fw2, calls2, some (err.annotate "cannot change firewall ports"))
    | (fw2, calls2, none) => (fw2, calls2, none)

/-! ## The API server -/

/-- The error value `errPerm`. -/
def errPerm : Err := Err.errorf "permission denied" []

/-- The function `setPassword` of the API server: `SetPassword` stands for the
method of the entity; the result is the error and the passwords handed to that
method. -/
def setPassword (SetPassword : String → Option Err) (password : String) :
    Option Err × List String :=
  if password = "" then (some (Err.errorf "password is empty" []), [])
  else (SetPassword password, [password])

/-- The method `srvUnit.SetPassword`: `ename` is the entity name of the
logged-in entity, `unitName` is `u.u.EntityName()`, `deployer` is the pair that
`u.u.DeployerName()` returns, and `SetPassword` stands for the method of the
unit; the result is the error and the passwords handed to that method. -/
def srvUnit.SetPassword (ename unitName : String) (deployer : String × Bool)
    (SetPassword : String → Option Err) (password : String) : Option Err × List String :=
  let allow := decide (ename ≠ unitName)
  let allow := if !allow then deployer.2 && decide (ename = deployer.1) else allow
  if !allow then (some errPerm, [])
  else setPassword SetPassword password


/-- The sample collaborators with an orchestrator whose machines have no
instance yet: `InstanceId` answers a NotProvisioned error. -/
def notProvisionedApi : Api :=
  { okApi with InstanceId := fun _ _ => ("", some (Err.errorf "not provisioned" [])) }


/-! ## `openedPortsChanged` for a tracked machine -/

/-- Whether every port range of a report belongs to a unit tracked in the
`unitds` of the machine. -/
def allTracked (m : machineRecord) (ports : List (PortRange × UnitTag)) : Prop :=
  ∀ e ∈ ports, (m.unitds.lookup e.2).isSome = true

/-- The sample collaborators with an orchestrator that reports the given open
ports, for every machine and subnet. -/
def reportApi (ports : List (PortRange × UnitTag)) : Api :=
  { okApi with OpenedPorts := fun _ _ _ => (ports, none) }

/-- The tag of the unit record that the `unitds` of a machine holds under a
key: the unit that owns a port range reported for that key. -/
def Tables.owner (fw : Tables) (m : machineRecord) (key : UnitTag) : Option UnitTag :=
  (m.unitds.lookup key).bind (fun a => (fw.units.lookup a).map (fun u => u.tag))

/-- Whether two maps have the same keys, with values that are equal in the
given sense. -/
def sameEntries {κ ν : Type} [DecidableEq κ] (eqv : ν → ν → Prop) (a b : List (κ × ν)) : Prop :=
  ∀ k, (a.lookup k = none ↔ b.lookup k = none) ∧
    ∀ x y, a.lookup k = some x → b.lookup k = some y → eqv x y


/-! ## The invariants of the tables -/

/-- The back-pointer invariant: every unit record of the unit table is stored
under its own tag, its pointer `machined` leads to a machine record that is in
the machine table and holds the unit under the tag of the unit, and its pointer
`serviced` leads to an application record that is in the application table and
holds the unit under the tag of the unit. -/
def BackPointers (fw : Tables) : Prop :=
  ∀ k a, fw.unitds.lookup k = some a →
    ∃ u ma m sa s, fw.units.lookup a = some u ∧ u.tag = k ∧
      u.machined = some ma ∧ fw.machines.lookup ma = some m ∧
      m.unitds.lookup k = some a ∧ fw.machineds.lookup m.tag = some ma ∧
      u.serviced = some sa ∧ fw.services.lookup sa = some s ∧
      s.unitds.lookup k = some a ∧ fw.applicationids.lookup s.application = some sa

/-- The invariant of the tables that the operations keep: the addresses from
`next` on are free; the back-pointer invariant; every machine of the machine
table is a record stored under its own tag, and each unit in its `unitds` is a
unit of the unit table that points back to it; every application of the
application table is a record stored under its own tag. -/
structure TablesInv (fw : Tables) : Prop where
  freshUnits : ∀ a, fw.next ≤ a → fw.units.lookup a = none
  freshServices : ∀ a, fw.next ≤ a → fw.services.lookup a = none
  units : BackPointers fw
  machines : ∀ t ma, fw.machineds.lookup t = some ma →
    ∃ m, fw.machines.lookup ma = some m ∧ m.tag = t ∧
      ∀ k a, m.unitds.lookup k = some a →
        fw.unitds.lookup k = some a ∧ ∃ u, fw.units.lookup a = some u ∧ u.machined = some ma
  applications : ∀ t sa, fw.applicationids.lookup t = some sa →
    ∃ s, fw.services.lookup sa = some s ∧ s.application = t

/-- Two states of the worker with the same tables, the same unit and
application records, and machine records that agree in tag and `unitds` (they
may differ in `ingressRules` and `definedPorts`); the reference counts may
differ too. -/
def SamePointers (fw fw2 : Tables) : Prop :=
  fw2.units = fw.units ∧ fw2.services = fw.services ∧ fw2.next = fw.next ∧
  fw2.machineds = fw.machineds ∧ fw2.unitds = fw.unitds ∧
  fw2.applicationids = fw.applicationids ∧ fw2.globalMode = fw.globalMode ∧
  ∀ a, (fw2.machines.lookup a).map (fun m => (m.tag, m.unitds)) =
    (fw.machines.lookup a).map (fun m => (m.tag, m.unitds))


/-- A later state of the worker in which units have been forgotten and nothing
else has happened: the unit records, the machine table, the mode and the
reference counts are the same, the unit table has lost keys, and every machine
record has the same tag, rules and defined ports and has lost keys of its
`unitds`. -/
def Forgot (fw fw2 : Tables) : Prop :=
  fw2.units = fw.units ∧ fw2.next = fw.next ∧ fw2.machineds = fw.machineds ∧
  fw2.globalMode = fw.globalMode ∧ fw2.globalIngressRuleRef = fw.globalIngressRuleRef ∧
  (∀ k a, fw2.unitds.lookup k = some a → fw.unitds.lookup k = some a) ∧
  (∀ a m, fw.machines.lookup a = some m →
    ∃ m2, fw2.machines.lookup a = some m2 ∧ m2.tag = m.tag ∧
      m2.ingressRules = m.ingressRules ∧ m2.definedPorts = m.definedPorts ∧
      ∀ k x, m2.unitds.lookup k = some x → m.unitds.lookup k = some x)

/-- The calls that stop the watcher of an application. -/
def Call.isStopService : Call → Bool
  | Call.StopService _ => true
  | _ => false


/-- The assignment `change.serviced.exposed = change.exposed` of `loop`, on the
record `s` at the address `serviced`. -/
def Tables.setExposed (fw : Tables) (serviced : Addr) (s : serviceRecord) (exposed : Bool) :
    Tables :=
  { fw with services := mapSet fw.services serviced { s with exposed := exposed } }


/-! ## A change of the machines watcher -/

/-- The loop of `loop` over the machine ids of a change of the machines
watcher; `NewMachineTag` stands for `names.NewMachineTag`. -/
def Tables.machinesChangedLoop (api : Api)
    (interrupted : List Call → MachineTag → Option Err) (NewUnitTag : String → UnitTag)
    (NewMachineTag : String → MachineTag) :
    List String → Tables → List Call → Tables × List Call × Option Err
  | [], fw, calls => (fw, calls, none)
  | machineId :: rest, fw, calls =>
    match Tables.machineLifeChanged api interrupted NewUnitTag fw calls
        (NewMachineTag machineId) with
    | (fw2, calls2, some err) => (fw2, calls2, some err)
    | (fw2, calls2, none) =>
      Tables.machinesChangedLoop api interrupted NewUnitTag NewMachineTag rest fw2 calls2

/-- The machines of the machine table with their pointers followed, in the
order of the table; `none` when a pointer on the way is nil. -/
def Tables.viewMachines (fw : Tables) :
    List (MachineTag × Addr) → Option (List (MachineTag × machineData))
  | [] => some []
  | (tag, machined) :: rest =>
    match (fw.machines.lookup machined).bind fw.viewMachine with
    | none => none
    | some view =>
      match Tables.viewMachines fw rest with
      | none => none
      | some views => some ((tag, view) :: views)

/-- The method `Firewaller.reconcileGlobal` on the tables: the rules are
gathered and the environment is called as `reconcileGlobal` does on the records
with their pointers followed; the tables are not written. -/
def Tables.reconcileGlobal (api : Api) (fw : Tables) (calls : List Call) :
    Tables × List Call × Option Err :=
  match Tables.viewMachines fw fw.machineds with
  | none => (fw, calls, some nilPanic)
  | some views =>
    match Juju.reconcileGlobal api
        ⟨views, [], [], fw.globalMode, fw.globalIngressRuleRef, []⟩ calls with
    | (_, calls2, err) => (fw, calls2, err)

/-- The case of `loop` for a change received from the machines watcher:
`reconciled` is the local variable of `loop`, and the result holds its value
after the case, with the error `loop` returns. -/
def Tables.machinesChanged (api : Api) (interrupted : List Call → MachineTag → Option Err)
    (NewUnitTag : String → UnitTag) (NewMachineTag : String → MachineTag) (fw : Tables)
    (calls : List Call) (reconciled : Bool) (change : List String) :
    Tables × List Call × Option Err × Bool :=
  match Tables.machinesChangedLoop api interrupted NewUnitTag NewMachineTag change fw calls with
  | (fw2, calls2, some err) => (fw2, calls2, some err, reconciled)
  | (fw2, calls2, none) =>
    if !reconciled then
      match (if fw2.globalMode then Tables.reconcileGlobal api fw2 calls2
          else Tables.reconcileInstances api fw2 calls2) with
      | (fw3, calls3, some err) => (fw3, calls3, some err.traced, true)
      | (fw3, calls3, none) => (fw3, calls3, none, true)
    else (fw2, calls2, none, reconciled)

/-- A later state of the worker in which no machine record has been lost or has
changed its tag, and no address has been given back. -/
def Grows (fw fw2 : Tables) : Prop :=
  fw.next ≤ fw2.next ∧
  ∀ a m, fw.machines.lookup a = some m →
    ∃ m2, fw2.machines.lookup a = some m2 ∧ m2.tag = m.tag

/-- Every key of the machine table points to a record that has been allocated
and has the key as its tag, as `startMachine` stores it. -/
def MachineKeys (fw : Tables) : Prop :=
  ∀ t ma, fw.machineds.lookup t = some ma →
    ma < fw.next ∧ ∃ m, fw.machines.lookup ma = some m ∧ m.tag = t

/-- Whether the machine table agrees with an answer of the orchestrator for a
machine: the answer is a machine or a NotFound error, and the machine is tracked
exactly when the answer is a machine that is not dead. -/
def Tables.settled (api : Api) (fw : Tables) (tag : MachineTag)
    (answer : Life × Option Err) : Prop :=
  (answer.2 = none ∨ ∃ e, answer.2 = some e ∧ api.IsCodeNotFound e = true) ∧
  ((fw.machineds.lookup tag).isSome = true ↔ (answer.2 = none ∧ answer.1 ≠ Life.Dead))


/-! ## Order lemmas -/

theorem lexLess_irrefl {α : Type} {lt : α → α → Bool} (h : StrictTotal lt) :
    ∀ l : List α, lexLess lt l l = false
  | [] => rfl
  | a :: as => by simp [lexLess, h.irrefl a, lexLess_irrefl h as]

theorem lexLess_tri {α : Type} {lt : α → α → Bool} (h : StrictTotal lt) :
    ∀ l m : List α, lexLess lt l m = false → lexLess lt m l = false → l = m
  | [], [] => fun _ _ => rfl
  | [], _ :: _ => by simp [lexLess]
  | _ :: _, [] => by simp [lexLess]
  | a :: as, b :: bs => by
    intro h1 h2
    by_cases hab : lt a b = true
    · simp [lexLess, hab] at h1
    · by_cases hba : lt b a = true
      · simp [lexLess, hba] at h2
      · have e : a = b := h.tri a b (by simpa using hab) (by simpa using hba)
        subst e
        simp [lexLess, hab] at h1 h2
        rw [lexLess_tri h as bs h1 h2]

theorem lexLess_trans {α : Type} {lt : α → α → Bool} (h : StrictTotal lt) :
    ∀ l m n : List α, lexLess lt l m = true → lexLess lt m n = true → lexLess lt l n = true
  | [], [], _ => by simp [lexLess]
  | [], _ :: _, [] => by simp [lexLess]
  | [], _ :: _, _ :: _ => by simp [lexLess]
  | _ :: _, [], _ => by simp [lexLess]
  | _ :: _, _ :: _, [] => by simp [lexLess]
  | a :: as, b :: bs, c :: cs => by
    intro h1 h2
    by_cases hab : lt a b = true
    · by_cases hbc : lt b c = true
      · simp [lexLess, h.trans a b c hab hbc]
      · by_cases hcb : lt c b = true
        · simp [lexLess, hbc, hcb] at h2
        · have e : b = c := h.tri b c (by simpa using hbc) (by simpa using hcb)
          subst e
          simp [lexLess, hab]
    · by_cases hba : lt b a = true
      · simp [lexLess, hab, hba] at h1
      · have e : a = b := h.tri a b (by simpa using hab) (by simpa using hba)
        subst e
        by_cases hac : lt a c = true
        · simp [lexLess, hac]
        · by_cases hca : lt c a = true
          · simp [lexLess, hac, hca] at h2
          · simp [lexLess, hab] at h1
            simp [lexLess, hac, hca] at h2
            simp [lexLess, hac, hca, lexLess_trans h as bs cs h1 h2]

theorem lexLess_strictTotal {α : Type} {lt : α → α → Bool} (h : StrictTotal lt) :
    StrictTotal (lexLess lt) :=
  ⟨lexLess_irrefl h, lexLess_trans h, lexLess_tri h⟩

theorem charLess_strictTotal : StrictTotal charLess where
  irrefl a := by simp [charLess]
  trans a b c := by
    simp only [charLess, decide_eq_true_eq]
    exact Nat.lt_trans
  tri a b := by
    simp only [charLess, decide_eq_false_iff_not, Nat.not_lt]
    intro h1 h2
    have e : a.toNat = b.toNat := Nat.le_antisymm h2 h1
    apply Char.ext
    apply UInt32.ext
    exact e

theorem strLess_strictTotal : StrictTotal strLess where
  irrefl s := (lexLess_strictTotal charLess_strictTotal).irrefl s.data
  trans s t u := (lexLess_strictTotal charLess_strictTotal).trans s.data t.data u.data
  tri s t h1 h2 := by
    have e := (lexLess_strictTotal charLess_strictTotal).tri s.data t.data h1 h2
    exact String.ext e

theorem portRange_lessThan_strictTotal : StrictTotal PortRange.LessThan where
  irrefl p := by simp [PortRange.LessThan]
  trans p q r := by
    obtain ⟨pf, pt, pp⟩ := p
    obtain ⟨qf, qt, qp⟩ := q
    obtain ⟨rf, rt, rp⟩ := r
    simp only [PortRange.LessThan]
    intro h1 h2
    by_cases e1 : pp = qp
    · subst e1
      by_cases e2 : pp = rp
      · subst e2
        simp only [ne_eq, not_true_eq_false, if_false] at h1 h2 ⊢
        by_cases f1 : pf = qf
        · subst f1
          by_cases f2 : pf = rf
          · subst f2
            simp only [ne_eq, not_true_eq_false, if_false, decide_eq_true_eq] at h1 h2 ⊢
            omega
          · simpa [f2] using h2
        · by_cases f2 : qf = rf
          · subst f2
            simpa [f1] using h1
          · simp only [ne_eq, f1, f2, not_false_eq_true, if_true, decide_eq_true_eq] at h1 h2
            have f3 : pf ≠ rf := by omega
            simp only [ne_eq, f3, not_false_eq_true, if_true, decide_eq_true_eq]
            omega
      · simpa [e2] using h2
    · by_cases e2 : qp = rp
      · subst e2
        simpa [e1] using h1
      · simp only [ne_eq, e1, e2, not_false_eq_true, if_true] at h1 h2
        have h3 := strLess_strictTotal.trans pp qp rp h1 h2
        have e3 : pp ≠ rp := by
          intro e
          subst e
          rw [strLess_strictTotal.irrefl] at h3
          exact Bool.noConfusion h3
        simpa [e3] using h3
  tri p q := by
    obtain ⟨pf, pt, pp⟩ := p
    obtain ⟨qf, qt, qp⟩ := q
    simp only [PortRange.LessThan]
    intro h1 h2
    by_cases e1 : pp = qp
    · subst e1
      simp only [ne_eq, not_true_eq_false, if_false] at h1 h2
      by_cases f1 : pf = qf
      · subst f1
        simp only [ne_eq, not_true_eq_false, if_false, decide_eq_false_iff_not] at h1 h2
        have : pt = qt := by omega
        subst this
        rfl
      · have f2 : qf ≠ pf := fun e => f1 e.symm
        simp only [ne_eq, f1, f2, not_false_eq_true, if_true, decide_eq_false_iff_not] at h1 h2
        omega
    · have e2 : qp ≠ pp := fun e => e1 e.symm
      simp only [ne_eq, e1, e2, not_false_eq_true, if_true] at h1 h2
      exact absurd (strLess_strictTotal.tri pp qp h1 h2) e1

theorem ingressRule_lessThan_strictTotal : StrictTotal IngressRule.LessThan where
  irrefl r := by
    simp [IngressRule.LessThan, (lexLess_strictTotal strLess_strictTotal).irrefl]
  trans r s t := by
    simp only [IngressRule.LessThan]
    intro h1 h2
    by_cases e1 : r.toPortRange = s.toPortRange
    · by_cases e2 : s.toPortRange = t.toPortRange
      · have e3 : r.toPortRange = t.toPortRange := e1.trans e2
        simp only [ne_eq, e1, e2, e3, not_true_eq_false, if_false] at h1 h2 ⊢
        exact (lexLess_strictTotal strLess_strictTotal).trans _ _ _ h1 h2
      · have e3 : r.toPortRange ≠ t.toPortRange := by rw [e1]; exact e2
        simp only [ne_eq, e2, e3, not_false_eq_true, if_true] at h2 ⊢
        rw [e1]; exact h2
    · by_cases e2 : s.toPortRange = t.toPortRange
      · have e3 : r.toPortRange ≠ t.toPortRange := by rw [← e2]; exact e1
        simp only [ne_eq, e1, e3, not_false_eq_true, if_true] at h1 ⊢
        rw [← e2]; exact h1
      · simp only [ne_eq, e1, e2, not_false_eq_true, if_true] at h1 h2
        have h3 := portRange_lessThan_strictTotal.trans _ _ _ h1 h2
        have e3 : r.toPortRange ≠ t.toPortRange := by
          intro e
          rw [e, portRange_lessThan_strictTotal.irrefl] at h3
          exact Bool.noConfusion h3
        simpa [e3] using h3
  tri r s := by
    obtain ⟨rp, rc⟩ := r
    obtain ⟨sp, sc⟩ := s
    simp only [IngressRule.LessThan]
    intro h1 h2
    by_cases e1 : rp = sp
    · subst e1
      simp only [ne_eq, not_true_eq_false, if_false] at h1 h2
      rw [(lexLess_strictTotal strLess_strictTotal).tri rc sc h1 h2]
    · have e2 : sp ≠ rp := fun e => e1 e.symm
      simp only [ne_eq, e1, e2, not_false_eq_true, if_true] at h1 h2
      exact absurd (portRange_lessThan_strictTotal.tri rp sp h1 h2) e1

/-! ## Sorting by a strict total order -/

theorem StrictTotal.le_total {α : Type} {lt : α → α → Bool} (h : StrictTotal lt) (a b : α) :
    lt b a = false ∨ lt a b = false := by
  by_cases hba : lt b a = true
  · right
    by_cases hab : lt a b = true
    · have := h.trans a b a hab hba
      rw [h.irrefl] at this
      exact Bool.noConfusion this
    · simpa using hab
  · left
    simpa using hba

theorem StrictTotal.le_trans {α : Type} {lt : α → α → Bool} (h : StrictTotal lt) (a b c : α)
    (h1 : lt b a = false) (h2 : lt c b = false) : lt c a = false := by
  by_cases hca : lt c a = true
  · by_cases hab : lt a b = true
    · rw [h.trans c a b hca hab] at h2
      exact Bool.noConfusion h2
    · have e : a = b := h.tri a b (by simpa using hab) h1
      subst e
      rw [hca] at h2
      exact Bool.noConfusion h2
  · simpa using hca

theorem StrictTotal.sorted_sort {α : Type} {lt : α → α → Bool} (h : StrictTotal lt)
    (l : List α) : List.Sorted (fun a b => lt b a = false) (l.insertionSort (fun a b => lt b a = false)) :=
  @List.sorted_insertionSort α (fun a b => lt b a = false) _ ⟨h.le_total⟩
    ⟨fun a b c => h.le_trans a b c⟩ l

theorem StrictTotal.sort_congr {α : Type} {lt : α → α → Bool} (h : StrictTotal lt)
    {l m : List α} (hp : l.Perm m) :
    l.insertionSort (fun a b => lt b a = false) = m.insertionSort (fun a b => lt b a = false) := by
  refine @List.eq_of_perm_of_sorted α (fun a b => lt b a = false)
    ⟨fun a b h1 h2 => h.tri a b h2 h1⟩ _ _ ?_ (h.sorted_sort l) (h.sorted_sort m)
  exact ((List.perm_insertionSort _ l).trans hp).trans (List.perm_insertionSort _ m).symm

/-! ## Go maps as association lists -/

theorem lookup_map_update {κ ν : Type} [DecidableEq κ] (m : List (κ × ν)) (k q : κ) (v : ν) :
    (m.map (fun kv => if kv.1 = k then (k, v) else kv)).lookup q =
      if q = k then (m.lookup k).map (fun _ => v) else m.lookup q := by
  induction m with
  | nil => simp
  | cons e m ih =>
    obtain ⟨a, b⟩ := e
    rw [List.map_cons]
    by_cases hak : a = k
    · subst hak
      rw [if_pos rfl, List.lookup_cons, List.lookup_cons, List.lookup_cons, ih]
      by_cases hq : q = a
      · subst hq
        simp
      · have : (q == a) = false := by simpa using hq
        simp [hq, this]
    · rw [if_neg hak, List.lookup_cons, List.lookup_cons, List.lookup_cons, ih]
      have hka : (k == a) = false := by simpa using fun e => hak e.symm
      by_cases hq : q = k
      · subst hq
        simp [hka]
      · simp [hq, hka]

theorem lookup_mapSet {κ ν : Type} [DecidableEq κ] (m : List (κ × ν)) (k q : κ) (v : ν) :
    (mapSet m k v).lookup q = if q = k then some v else m.lookup q := by
  unfold mapSet
  cases hl : m.lookup k with
  | some w =>
    rw [if_pos (by simp), lookup_map_update, hl]
    by_cases hq : q = k
    · simp [hq]
    · simp [hq]
  | none =>
    rw [if_neg (by simp), List.lookup_append]
    by_cases hq : q = k
    · subst hq
      simp [hl, List.lookup_cons]
    · have : (q == k) = false := by simpa using hq
      simp [hq, List.lookup_cons, this]

theorem keys_mapSet {κ ν : Type} [DecidableEq κ] (m : List (κ × ν)) (k : κ) (v : ν) :
    (mapSet m k v).map Prod.fst =
      if (m.lookup k).isSome then m.map Prod.fst else m.map Prod.fst ++ [k] := by
  unfold mapSet
  by_cases h : (m.lookup k).isSome = true
  · rw [if_pos h, if_pos h, List.map_map]
    apply List.map_congr_left
    intro e _
    by_cases he : e.1 = k
    · simp [he]
    · simp [he]
  · rw [if_neg h, if_neg h, List.map_append]
    rfl

theorem lookup_eq_none_iff_keys {κ ν : Type} [DecidableEq κ] (m : List (κ × ν)) (k : κ) :
    m.lookup k = none ↔ k ∉ m.map Prod.fst := by
  induction m with
  | nil => simp
  | cons e m ih =>
    obtain ⟨a, b⟩ := e
    by_cases hk : k = a
    · subst hk
      simp [List.lookup_cons]
    · have : (k == a) = false := by simpa using hk
      simp [List.lookup_cons, this, ih, hk]

theorem nodupKeys_mapSet {κ ν : Type} [DecidableEq κ] (m : List (κ × ν)) (k : κ) (v : ν)
    (h : (m.map Prod.fst).Nodup) : ((mapSet m k v).map Prod.fst).Nodup := by
  rw [keys_mapSet]
  by_cases hs : (m.lookup k).isSome = true
  · rw [if_pos hs]
    exact h
  · rw [if_neg hs]
    have hn : m.lookup k = none := Option.not_isSome_iff_eq_none.mp hs
    have hk := (lookup_eq_none_iff_keys m k).mp hn
    rw [List.nodup_append]
    refine ⟨h, List.nodup_singleton k, ?_⟩
    intro x hx hx2
    rw [List.mem_singleton] at hx2
    subst hx2
    exact hk hx

theorem mem_of_lookup {κ ν : Type} [DecidableEq κ] (m : List (κ × ν)) (k : κ) (v : ν)
    (h : m.lookup k = some v) : (k, v) ∈ m := by
  induction m with
  | nil => simp at h
  | cons e m ih =>
    obtain ⟨a, b⟩ := e
    by_cases hk : k = a
    · subst hk
      simp [List.lookup_cons] at h
      simp [h]
    · have : (k == a) = false := by simpa using hk
      simp only [List.lookup_cons, this] at h
      exact List.mem_cons_of_mem _ (ih h)

theorem lookup_of_mem {κ ν : Type} [DecidableEq κ] (m : List (κ × ν)) (k : κ) (v : ν)
    (hn : (m.map Prod.fst).Nodup) (h : (k, v) ∈ m) : m.lookup k = some v := by
  induction m with
  | nil => simp at h
  | cons e m ih =>
    obtain ⟨a, b⟩ := e
    simp only [List.map_cons, List.nodup_cons] at hn
    rcases List.mem_cons.mp h with h1 | h1
    · cases h1
      simp [List.lookup_cons]
    · have hk : k ≠ a := by
        intro e
        subst e
        exact hn.1 (List.mem_map.mpr ⟨(k, v), h1, rfl⟩)
      have : (k == a) = false := by simpa using hk
      simp only [List.lookup_cons, this]
      exact ih hn.2 h1

theorem filter_key_eq {κ ν : Type} [DecidableEq κ] (m : List (κ × ν)) (k : κ)
    (hn : (m.map Prod.fst).Nodup) :
    m.filter (fun e => decide (e.1 = k)) =
      match m.lookup k with
      | none => []
      | some v => [(k, v)] := by
  induction m with
  | nil => simp
  | cons e m ih =>
    obtain ⟨a, b⟩ := e
    simp only [List.map_cons, List.nodup_cons] at hn
    by_cases hk : a = k
    · subst hk
      have hnone : m.lookup a = none := (lookup_eq_none_iff_keys m a).mpr hn.1
      have := ih hn.2
      rw [hnone] at this
      simp [List.filter_cons, List.lookup_cons, this]
    · have : (k == a) = false := by simpa using fun e => hk e.symm
      simp only [List.filter_cons, hk, decide_False, List.lookup_cons, this]
      simpa using ih hn.2

/-! ## `set.Strings` lemmas -/

theorem Strings.mem_Add (s : Strings) (v c : String) : c ∈ s.Add v ↔ c ∈ s ∨ c = v := by
  unfold Strings.Add
  by_cases h : v ∈ s
  · rw [if_pos h]
    constructor
    · exact Or.inl
    · rintro (h1 | h1)
      · exact h1
      · rw [h1]; exact h
  · rw [if_neg h]
    simp

theorem Strings.nodup_Add (s : Strings) (v : String) (h : s.Nodup) : (s.Add v).Nodup := by
  unfold Strings.Add
  by_cases hv : v ∈ s
  · rw [if_pos hv]; exact h
  · rw [if_neg hv, List.nodup_append]
    refine ⟨h, List.nodup_singleton v, ?_⟩
    intro x hx hx2
    rw [List.mem_singleton] at hx2
    subst hx2
    exact hv hx

theorem Strings.mem_foldl_Add (l : List String) (s : Strings) (c : String) :
    c ∈ l.foldl Strings.Add s ↔ c ∈ s ∨ c ∈ l := by
  induction l generalizing s with
  | nil => simp
  | cons v l ih =>
    rw [List.foldl_cons, ih, Strings.mem_Add, List.mem_cons]
    tauto

theorem Strings.nodup_foldl_Add (l : List String) (s : Strings) (h : s.Nodup) :
    (l.foldl Strings.Add s).Nodup := by
  induction l generalizing s with
  | nil => exact h
  | cons v l ih =>
    rw [List.foldl_cons]
    exact ih _ (Strings.nodup_Add s v h)

theorem Strings.mem_Difference (s t : Strings) (c : String) :
    c ∈ s.Difference t ↔ c ∈ s ∧ c ∉ t := by
  simp [Strings.Difference]

theorem Strings.mem_SortedValues (s : Strings) (c : String) : c ∈ s.SortedValues ↔ c ∈ s := by
  unfold Strings.SortedValues
  exact List.mem_insertionSort _

theorem Strings.sorted_SortedValues (s : Strings) :
    List.Sorted (fun a b => strLess b a = false) s.SortedValues :=
  strLess_strictTotal.sorted_sort s

theorem Strings.nodup_SortedValues (s : Strings) (h : s.Nodup) : s.SortedValues.Nodup :=
  (List.perm_insertionSort _ s).nodup_iff.mpr h

theorem Strings.SortedValues_congr (s t : Strings) (hs : s.Nodup) (ht : t.Nodup)
    (h : ∀ c, c ∈ s ↔ c ∈ t) : s.SortedValues = t.SortedValues :=
  strLess_strictTotal.sort_congr ((List.perm_ext_iff_of_nodup hs ht).mpr h)

theorem ruleCidrs_ne_nil (r : IngressRule) : ruleCidrs r ≠ [] := by
  unfold ruleCidrs
  by_cases h : r.SourceCIDRs.length = 0
  · rw [if_pos h]; simp
  · rw [if_neg h]
    intro e
    rw [e] at h
    exact h rfl

/-! ## The map built by `portCidrs` -/

theorem cidrs_cons (r : IngressRule) (rules : List IngressRule) (p : PortRange) :
    cidrs (r :: rules) p = (if r.toPortRange = p then ruleCidrs r else []) ++ cidrs rules p := by
  unfold cidrs
  by_cases h : r.toPortRange = p
  · simp [List.filter_cons, h]
  · simp [List.filter_cons, h]

theorem lookup_portCidrsStep (m : List (PortRange × Strings)) (r : IngressRule) (p : PortRange) :
    (portCidrsStep m r).lookup p =
      if p = r.toPortRange then
        some ((ruleCidrs r).foldl Strings.Add ((m.lookup r.toPortRange).getD Strings.New))
      else m.lookup p := by
  unfold portCidrsStep
  exact lookup_mapSet _ _ _ _

theorem nodupKeys_foldl_portCidrsStep (rules : List IngressRule) (m : List (PortRange × Strings))
    (h : (m.map Prod.fst).Nodup) : ((rules.foldl portCidrsStep m).map Prod.fst).Nodup := by
  induction rules generalizing m with
  | nil => exact h
  | cons r rules ih =>
    rw [List.foldl_cons]
    exact ih _ (nodupKeys_mapSet _ _ _ h)

theorem nodupKeys_portCidrs (rules : List IngressRule) :
    ((portCidrs rules).map Prod.fst).Nodup :=
  nodupKeys_foldl_portCidrsStep rules [] List.nodup_nil

theorem lookup_foldl_portCidrsStep (rules : List IngressRule) (m : List (PortRange × Strings))
    (p : PortRange) :
    (((rules.foldl portCidrsStep m).lookup p).isSome ↔
        (m.lookup p).isSome ∨ ∃ r ∈ rules, r.toPortRange = p) ∧
    (∀ c, c ∈ ((rules.foldl portCidrsStep m).lookup p).getD [] ↔
        c ∈ (m.lookup p).getD [] ∨ c ∈ cidrs rules p) ∧
    ((∀ s, m.lookup p = some s → s.Nodup) →
        ∀ s, (rules.foldl portCidrsStep m).lookup p = some s → s.Nodup) := by
  induction rules generalizing m with
  | nil => simp [cidrs]
  | cons r rules ih =>
    rw [List.foldl_cons]
    obtain ⟨ih1, ih2, ih3⟩ := ih (portCidrsStep m r)
    have hstep := lookup_portCidrsStep m r p
    by_cases hp : p = r.toPortRange
    · subst hp
      rw [if_pos rfl] at hstep
      refine ⟨?_, ?_, ?_⟩
      · rw [ih1, hstep]
        simp
      · intro c
        rw [ih2, hstep, cidrs_cons, if_pos rfl, List.mem_append, Option.getD_some,
          Strings.mem_foldl_Add]
        simp only [Strings.New]
        tauto
      · intro hm
        apply ih3
        intro s hs
        rw [hstep] at hs
        cases hs
        apply Strings.nodup_foldl_Add
        cases hl : m.lookup r.toPortRange with
        | none => exact List.nodup_nil
        | some t => exact hm t hl
    · rw [if_neg hp] at hstep
      have hp2 : ¬ r.toPortRange = p := fun e => hp e.symm
      refine ⟨?_, ?_, ?_⟩
      · rw [ih1, hstep]
        simp [hp2]
      · intro c
        rw [ih2, hstep, cidrs_cons, if_neg hp2]
        simp
      · intro hm
        apply ih3
        rw [hstep]
        exact hm

theorem lookup_portCidrs_none (rules : List IngressRule) (p : PortRange) :
    (portCidrs rules).lookup p = none ↔ cidrs rules p = [] := by
  have h0 := (lookup_foldl_portCidrsStep rules [] p).1
  have h : ((List.foldl portCidrsStep [] rules).lookup p).isSome = true ↔
      ∃ r ∈ rules, r.toPortRange = p := by
    rw [h0]
    simp
  constructor
  · intro hn
    have hno : ¬ ∃ r ∈ rules, r.toPortRange = p := by
      intro hex
      have := h.mpr hex
      unfold portCidrs at hn
      rw [hn] at this
      exact Bool.noConfusion this
    unfold cidrs
    have : rules.filter (fun r => decide (r.toPortRange = p)) = [] := by
      rw [List.filter_eq_nil_iff]
      intro r hr hd
      exact hno ⟨r, hr, of_decide_eq_true hd⟩
    rw [this]
    rfl
  · intro hc
    cases hl : (portCidrs rules).lookup p with
    | none => rfl
    | some s =>
      exfalso
      unfold portCidrs at hl
      rw [hl] at h
      obtain ⟨r, hr, hrp⟩ := h.mp rfl
      obtain ⟨c, hcm⟩ := List.exists_mem_of_ne_nil _ (ruleCidrs_ne_nil r)
      have : c ∈ cidrs rules p := by
        unfold cidrs
        rw [List.mem_flatMap]
        exact ⟨r, List.mem_filter.mpr ⟨hr, decide_eq_true hrp⟩, hcm⟩
      rw [hc] at this
      exact List.not_mem_nil _ this

theorem lookup_portCidrs_some (rules : List IngressRule) (p : PortRange) (s : Strings)
    (h : (portCidrs rules).lookup p = some s) :
    (∀ c, c ∈ s ↔ c ∈ cidrs rules p) ∧ s.Nodup ∧ s ≠ [] := by
  obtain ⟨_, h2, h3⟩ := lookup_foldl_portCidrsStep rules [] p
  unfold portCidrs at h
  have hmem : ∀ c, c ∈ s ↔ c ∈ cidrs rules p := by
    intro c
    have := h2 c
    rw [h] at this
    simpa using this
  refine ⟨hmem, h3 (by simp) s h, ?_⟩
  intro hs
  have hne : cidrs rules p ≠ [] := by
    intro hc
    have := (lookup_portCidrs_none rules p).mpr hc
    unfold portCidrs at this
    rw [this] at h
    exact Option.noConfusion h
  obtain ⟨c, hc⟩ := List.exists_mem_of_ne_nil _ hne
  have := (hmem c).mpr hc
  rw [hs] at this
  exact List.not_mem_nil _ this

/-! ## The two loops of `diffRanges` -/

theorem foldl_diffWantedStep (cur wan : List (PortRange × Strings))
    (acc : List IngressRule × List IngressRule) :
    wan.foldl (diffWantedStep cur) acc =
      (acc.1 ++ wan.filterMap (openOf cur), acc.2 ++ wan.filterMap (closeOf cur)) := by
  induction wan generalizing acc with
  | nil => simp
  | cons e wan ih =>
    rw [List.foldl_cons, ih]
    unfold diffWantedStep openOf closeOf
    cases hl : cur.lookup e.1 with
    | none => simp [List.filterMap_cons, hl]
    | some ex =>
      by_cases h1 : (e.2.Difference ex).Size > 0 <;>
      by_cases h2 : (ex.Difference e.2).Size > 0 <;>
      simp [List.filterMap_cons, hl, h1, h2]

theorem foldl_diffCurrentStep (cur wan : List (PortRange × Strings)) (acc : List IngressRule) :
    cur.foldl (diffCurrentStep wan) acc = acc ++ cur.filterMap (closeOnly wan) := by
  induction cur generalizing acc with
  | nil => simp
  | cons e cur ih =>
    rw [List.foldl_cons, ih]
    unfold diffCurrentStep closeOnly
    cases hl : wan.lookup e.1 with
    | none => simp [List.filterMap_cons, hl]
    | some w => simp [List.filterMap_cons, hl]

theorem diffMaps_eq (cur wan : List (PortRange × Strings)) :
    diffMaps cur wan = (SortIngressRules (rawOpen cur wan), SortIngressRules (rawClose cur wan)) := by
  unfold diffMaps rawOpen rawClose
  simp only [foldl_diffWantedStep, foldl_diffCurrentStep, List.nil_append]

theorem diffRanges_eq (current wanted : List IngressRule) :
    diffRanges current wanted =
      (SortIngressRules (rawOpen (portCidrs current) (portCidrs wanted)),
        SortIngressRules (rawClose (portCidrs current) (portCidrs wanted))) :=
  diffMaps_eq _ _

theorem filter_filterMap_key (f : PortRange × Strings → Option IngressRule)
    (hf : ∀ e r, f e = some r → r.toPortRange = e.1) (m : List (PortRange × Strings))
    (p : PortRange) :
    (m.filterMap f).filter (fun r => decide (r.toPortRange = p)) =
      (m.filter (fun e => decide (e.1 = p))).filterMap f := by
  induction m with
  | nil => rfl
  | cons e m ih =>
    cases hfe : f e with
    | none =>
      by_cases hp : e.1 = p
      · simp [List.filterMap_cons, List.filter_cons, hfe, hp, ih]
      · simp [List.filterMap_cons, List.filter_cons, hfe, hp, ih]
    | some r =>
      have hr := hf e r hfe
      by_cases hp : e.1 = p
      · have hrp : r.toPortRange = p := hr.trans hp
        simp only [List.filterMap_cons, List.filter_cons, hfe, hp, hrp, decide_True, if_true, ih]
      · have hrp : ¬ r.toPortRange = p := by rw [hr]; exact hp
        simp only [List.filterMap_cons, List.filter_cons, hfe, hp, hrp, decide_False, ih]
        simp

theorem openOf_key (cur : List (PortRange × Strings)) (e : PortRange × Strings) (r : IngressRule)
    (h : openOf cur e = some r) : r.toPortRange = e.1 := by
  unfold openOf at h
  cases hl : cur.lookup e.1 with
  | none =>
    rw [hl] at h
    cases h
    rfl
  | some ex =>
    rw [hl] at h
    by_cases h1 : (e.2.Difference ex).Size > 0
    · simp only [h1, if_true] at h
      cases h
      rfl
    · simp [h1] at h

theorem closeOf_key (cur : List (PortRange × Strings)) (e : PortRange × Strings) (r : IngressRule)
    (h : closeOf cur e = some r) : r.toPortRange = e.1 := by
  unfold closeOf at h
  cases hl : cur.lookup e.1 with
  | none =>
    rw [hl] at h
    cases h
  | some ex =>
    rw [hl] at h
    by_cases h1 : (ex.Difference e.2).Size > 0
    · simp only [h1, if_true] at h
      cases h
      rfl
    · simp [h1] at h

theorem closeOnly_key (wan : List (PortRange × Strings)) (e : PortRange × Strings)
    (r : IngressRule) (h : closeOnly wan e = some r) : r.toPortRange = e.1 := by
  unfold closeOnly at h
  cases hl : wan.lookup e.1 with
  | none =>
    rw [hl] at h
    cases h
    rfl
  | some w =>
    rw [hl] at h
    cases h

/-- The rules of the unsorted `toOpen` for one port range. -/
theorem rawOpen_filter (cur wan : List (PortRange × Strings)) (hw : (wan.map Prod.fst).Nodup)
    (p : PortRange) :
    (rawOpen cur wan).filter (fun r => decide (r.toPortRange = p)) =
      match wan.lookup p with
      | none => []
      | some w =>
        match cur.lookup p with
        | none => [⟨p, w.SortedValues⟩]
        | some ex =>
          if (w.Difference ex).Size > 0 then [⟨p, (w.Difference ex).SortedValues⟩] else [] := by
  unfold rawOpen
  rw [filter_filterMap_key _ (openOf_key _), filter_key_eq _ _ hw]
  cases hwl : wan.lookup p with
  | none => rfl
  | some w =>
    cases hc : cur.lookup p with
    | none => simp [List.filterMap_cons, openOf, hc]
    | some ex =>
      by_cases h1 : (w.Difference ex).Size > 0
      · simp [List.filterMap_cons, openOf, hc, h1]
      · simp [List.filterMap_cons, openOf, hc, h1]

/-- The rules of the unsorted `toClose` for one port range. -/
theorem rawClose_filter (cur wan : List (PortRange × Strings)) (hc : (cur.map Prod.fst).Nodup)
    (hw : (wan.map Prod.fst).Nodup) (p : PortRange) :
    (rawClose cur wan).filter (fun r => decide (r.toPortRange = p)) =
      match cur.lookup p with
      | none => []
      | some ex =>
        match wan.lookup p with
        | none => [⟨p, ex.SortedValues⟩]
        | some w =>
          if (ex.Difference w).Size > 0 then [⟨p, (ex.Difference w).SortedValues⟩] else [] := by
  unfold rawClose
  rw [List.filter_append, filter_filterMap_key _ (closeOf_key _),
    filter_filterMap_key _ (closeOnly_key _), filter_key_eq _ _ hw, filter_key_eq _ _ hc]
  cases hwl : wan.lookup p with
  | none =>
    cases hcl : cur.lookup p with
    | none => rfl
    | some ex => simp [List.filterMap_cons, closeOnly, hwl]
  | some w =>
    cases hcl : cur.lookup p with
    | none => simp [List.filterMap_cons, closeOf, hcl]
    | some ex =>
      by_cases h1 : (ex.Difference w).Size > 0
      · simp [List.filterMap_cons, closeOf, closeOnly, hcl, hwl, h1]
      · simp [List.filterMap_cons, closeOf, closeOnly, hcl, hwl, h1]

/-! ## The sorted results, one port range at a time -/

theorem filter_sort_eq (l : List IngressRule) (q : IngressRule → Bool)
    (h : (l.filter q).length ≤ 1) : (SortIngressRules l).filter q = l.filter q := by
  have hp : ((SortIngressRules l).filter q).Perm (l.filter q) :=
    (List.perm_insertionSort _ l).filter q
  match hl : l.filter q with
  | [] =>
    rw [hl] at hp
    exact List.perm_nil.mp hp
  | [a] =>
    rw [hl] at hp
    exact List.perm_singleton.mp hp
  | a :: b :: t =>
    rw [hl] at h
    simp at h

theorem rawOpen_filter_length (cur wan : List (PortRange × Strings))
    (hw : (wan.map Prod.fst).Nodup) (p : PortRange) :
    ((rawOpen cur wan).filter (fun r => decide (r.toPortRange = p))).length ≤ 1 := by
  rw [rawOpen_filter cur wan hw]
  cases wan.lookup p with
  | none => simp
  | some w =>
    cases cur.lookup p with
    | none => simp
    | some ex =>
      by_cases h1 : (w.Difference ex).Size > 0
      · simp [h1]
      · simp [h1]

theorem rawClose_filter_length (cur wan : List (PortRange × Strings))
    (hc : (cur.map Prod.fst).Nodup) (hw : (wan.map Prod.fst).Nodup) (p : PortRange) :
    ((rawClose cur wan).filter (fun r => decide (r.toPortRange = p))).length ≤ 1 := by
  rw [rawClose_filter cur wan hc hw]
  cases cur.lookup p with
  | none => simp
  | some ex =>
    cases wan.lookup p with
    | none => simp
    | some w =>
      by_cases h1 : (ex.Difference w).Size > 0
      · simp [h1]
      · simp [h1]

/-- The rules of the sorted `toOpen` for one port range, from the two maps. -/
theorem diffMaps_open_filter (cur wan : List (PortRange × Strings))
    (hw : (wan.map Prod.fst).Nodup) (p : PortRange) :
    (diffMaps cur wan).1.filter (fun r => decide (r.toPortRange = p)) =
      match wan.lookup p with
      | none => []
      | some w =>
        match cur.lookup p with
        | none => [⟨p, w.SortedValues⟩]
        | some ex =>
          if (w.Difference ex).Size > 0 then [⟨p, (w.Difference ex).SortedValues⟩] else [] := by
  rw [diffMaps_eq]
  show (SortIngressRules (rawOpen cur wan)).filter _ = _
  rw [filter_sort_eq _ _ (rawOpen_filter_length cur wan hw p), rawOpen_filter cur wan hw]

/-- The rules of the sorted `toClose` for one port range, from the two maps. -/
theorem diffMaps_close_filter (cur wan : List (PortRange × Strings))
    (hc : (cur.map Prod.fst).Nodup) (hw : (wan.map Prod.fst).Nodup) (p : PortRange) :
    (diffMaps cur wan).2.filter (fun r => decide (r.toPortRange = p)) =
      match cur.lookup p with
      | none => []
      | some ex =>
        match wan.lookup p with
        | none => [⟨p, ex.SortedValues⟩]
        | some w =>
          if (ex.Difference w).Size > 0 then [⟨p, (ex.Difference w).SortedValues⟩] else [] := by
  rw [diffMaps_eq]
  show (SortIngressRules (rawClose cur wan)).filter _ = _
  rw [filter_sort_eq _ _ (rawClose_filter_length cur wan hc hw p), rawClose_filter cur wan hc hw]

/-- The rules of `toOpen` for one port range. -/
theorem toOpen_filter (current wanted : List IngressRule) (p : PortRange) :
    (diffRanges current wanted).1.filter (fun r => decide (r.toPortRange = p)) =
      match (portCidrs wanted).lookup p with
      | none => []
      | some w =>
        match (portCidrs current).lookup p with
        | none => [⟨p, w.SortedValues⟩]
        | some ex =>
          if (w.Difference ex).Size > 0 then [⟨p, (w.Difference ex).SortedValues⟩] else [] :=
  diffMaps_open_filter _ _ (nodupKeys_portCidrs wanted) p

/-- The rules of `toClose` for one port range. -/
theorem toClose_filter (current wanted : List IngressRule) (p : PortRange) :
    (diffRanges current wanted).2.filter (fun r => decide (r.toPortRange = p)) =
      match (portCidrs current).lookup p with
      | none => []
      | some ex =>
        match (portCidrs wanted).lookup p with
        | none => [⟨p, ex.SortedValues⟩]
        | some w =>
          if (ex.Difference w).Size > 0 then [⟨p, (ex.Difference w).SortedValues⟩] else [] :=
  diffMaps_close_filter _ _ (nodupKeys_portCidrs current) (nodupKeys_portCidrs wanted) p

theorem mem_ruleCidrs_mk (p : PortRange) (l : List String) (hl : l ≠ []) (c : String) :
    c ∈ ruleCidrs ⟨p, l⟩ ↔ c ∈ l := by
  unfold ruleCidrs
  have : ¬ l.length = 0 := fun e => hl (List.length_eq_zero.mp e)
  simp only [this, if_false]

theorem SortedValues_ne_nil (s : Strings) (h : s ≠ []) : s.SortedValues ≠ [] := by
  obtain ⟨c, hc⟩ := List.exists_mem_of_ne_nil _ h
  intro e
  have := (Strings.mem_SortedValues s c).mpr hc
  rw [e] at this
  exact List.not_mem_nil _ this

theorem Size_pos_iff (s : Strings) : s.Size > 0 ↔ s ≠ [] := by
  unfold Strings.Size
  exact List.length_pos

/-- What the one-port-range slice `[⟨p, (a \ b).SortedValues⟩]`-or-nothing
contributes as CIDRs. -/
theorem mem_flatMap_diffRule (p : PortRange) (a b : Strings) (c : String) :
    c ∈ (if (a.Difference b).Size > 0 then
        [(⟨p, (a.Difference b).SortedValues⟩ : IngressRule)] else []).flatMap ruleCidrs ↔
      c ∈ a ∧ c ∉ b := by
  by_cases h1 : (a.Difference b).Size > 0
  · have hne := (Size_pos_iff _).mp h1
    rw [if_pos h1, List.flatMap_cons, List.flatMap_nil, List.append_nil,
      mem_ruleCidrs_mk _ _ (SortedValues_ne_nil _ hne), Strings.mem_SortedValues,
      Strings.mem_Difference]
  · rw [if_neg h1]
    have hnil : a.Difference b = [] := by
      by_contra hne
      exact h1 ((Size_pos_iff _).mpr hne)
    constructor
    · intro h
      simp at h
    · intro h
      have := (Strings.mem_Difference a b c).mpr h
      rw [hnil] at this
      exact absurd this (List.not_mem_nil _)

/-- The CIDRs that `toOpen` carries for a port range are those wanted and not
current. -/
theorem mem_cidrs_toOpen (current wanted : List IngressRule) (p : PortRange) (c : String) :
    c ∈ cidrs (diffRanges current wanted).1 p ↔ c ∈ cidrs wanted p ∧ c ∉ cidrs current p := by
  unfold cidrs
  rw [toOpen_filter]
  change _ ↔ c ∈ cidrs wanted p ∧ c ∉ cidrs current p
  cases hw : (portCidrs wanted).lookup p with
  | none =>
    have := (lookup_portCidrs_none wanted p).mp hw
    simp [this]
  | some w =>
    obtain ⟨hwm, _, hwne⟩ := lookup_portCidrs_some wanted p w hw
    cases hc : (portCidrs current).lookup p with
    | none =>
      have hcn := (lookup_portCidrs_none current p).mp hc
      show c ∈ List.flatMap [_] ruleCidrs ↔ _
      rw [List.flatMap_cons, List.flatMap_nil, List.append_nil,
        mem_ruleCidrs_mk _ _ (SortedValues_ne_nil _ hwne), Strings.mem_SortedValues, hwm, hcn]
      simp
    | some ex =>
      obtain ⟨hem, _, _⟩ := lookup_portCidrs_some current p ex hc
      show c ∈ List.flatMap (if _ then _ else _) ruleCidrs ↔ _
      rw [mem_flatMap_diffRule, hwm, hem]

/-- The CIDRs that `toClose` carries for a port range are those current and not
wanted. -/
theorem mem_cidrs_toClose (current wanted : List IngressRule) (p : PortRange) (c : String) :
    c ∈ cidrs (diffRanges current wanted).2 p ↔ c ∈ cidrs current p ∧ c ∉ cidrs wanted p := by
  unfold cidrs
  rw [toClose_filter]
  change _ ↔ c ∈ cidrs current p ∧ c ∉ cidrs wanted p
  cases hc : (portCidrs current).lookup p with
  | none =>
    have := (lookup_portCidrs_none current p).mp hc
    simp [this]
  | some ex =>
    obtain ⟨hem, _, hene⟩ := lookup_portCidrs_some current p ex hc
    cases hw : (portCidrs wanted).lookup p with
    | none =>
      have hwn := (lookup_portCidrs_none wanted p).mp hw
      show c ∈ List.flatMap [_] ruleCidrs ↔ _
      rw [List.flatMap_cons, List.flatMap_nil, List.append_nil,
        mem_ruleCidrs_mk _ _ (SortedValues_ne_nil _ hene), Strings.mem_SortedValues, hem, hwn]
      simp
    | some w =>
      obtain ⟨hwm, _, _⟩ := lookup_portCidrs_some wanted p w hw
      show c ∈ List.flatMap (if _ then _ else _) ruleCidrs ↔ _
      rw [mem_flatMap_diffRule, hwm, hem]

/-- C1: applying `toOpen` then `toClose` to `current` yields `wanted` as a set,
port range by port range: a CIDR is in
`(cidrs(current, p) ∪ cidrs(toOpen, p)) \ cidrs(toClose, p)` exactly when it is
in `cidrs(wanted, p)`. -/
theorem diffRanges_apply_yields_wanted (current wanted : List IngressRule) (p : PortRange)
    (c : String) :
    ((c ∈ cidrs current p ∨ c ∈ cidrs (diffRanges current wanted).1 p) ∧
        c ∉ cidrs (diffRanges current wanted).2 p) ↔ c ∈ cidrs wanted p := by
  rw [mem_cidrs_toOpen, mem_cidrs_toClose]
  tauto

theorem Strings.nodup_Difference (s t : Strings) (h : s.Nodup) : (s.Difference t).Nodup :=
  List.Nodup.filter _ h

/-- The one-port-range slice of `toOpen` in terms of a single set `S`. -/
theorem toOpen_slice (current wanted : List IngressRule) (p : PortRange) :
    ∃ S : Strings, S.Nodup ∧ (∀ c, c ∈ S ↔ c ∈ cidrs wanted p ∧ c ∉ cidrs current p) ∧
      (diffRanges current wanted).1.filter (fun r => decide (r.toPortRange = p)) =
        if S.Size > 0 then [⟨p, S.SortedValues⟩] else [] := by
  rw [toOpen_filter]
  cases hw : (portCidrs wanted).lookup p with
  | none =>
    have hwn := (lookup_portCidrs_none wanted p).mp hw
    refine ⟨[], List.nodup_nil, ?_, ?_⟩
    · simp [hwn]
    · simp [Strings.Size]
  | some w =>
    obtain ⟨hwm, hwd, hwne⟩ := lookup_portCidrs_some wanted p w hw
    cases hc : (portCidrs current).lookup p with
    | none =>
      have hcn := (lookup_portCidrs_none current p).mp hc
      refine ⟨w, hwd, ?_, ?_⟩
      · intro c
        rw [hwm, hcn]
        simp
      · rw [if_pos ((Size_pos_iff w).mpr hwne)]
    | some ex =>
      obtain ⟨hem, _, _⟩ := lookup_portCidrs_some current p ex hc
      refine ⟨w.Difference ex, Strings.nodup_Difference w ex hwd, ?_, rfl⟩
      intro c
      rw [Strings.mem_Difference, hwm, hem]

/-- The one-port-range slice of `toClose` in terms of a single set `S`. -/
theorem toClose_slice (current wanted : List IngressRule) (p : PortRange) :
    ∃ S : Strings, S.Nodup ∧ (∀ c, c ∈ S ↔ c ∈ cidrs current p ∧ c ∉ cidrs wanted p) ∧
      (diffRanges current wanted).2.filter (fun r => decide (r.toPortRange = p)) =
        if S.Size > 0 then [⟨p, S.SortedValues⟩] else [] := by
  rw [toClose_filter]
  cases hc : (portCidrs current).lookup p with
  | none =>
    have hcn := (lookup_portCidrs_none current p).mp hc
    refine ⟨[], List.nodup_nil, ?_, ?_⟩
    · simp [hcn]
    · simp [Strings.Size]
  | some ex =>
    obtain ⟨hem, hed, hene⟩ := lookup_portCidrs_some current p ex hc
    cases hw : (portCidrs wanted).lookup p with
    | none =>
      have hwn := (lookup_portCidrs_none wanted p).mp hw
      refine ⟨ex, hed, ?_, ?_⟩
      · intro c
        rw [hem, hwn]
        simp
      · rw [if_pos ((Size_pos_iff ex).mpr hene)]
    | some w =>
      obtain ⟨hwm, _, _⟩ := lookup_portCidrs_some wanted p w hw
      refine ⟨ex.Difference w, Strings.nodup_Difference ex w hed, ?_, rfl⟩
      intro c
      rw [Strings.mem_Difference, hwm, hem]

/-- From the slice of a rule list for one port range to the statement that the
list holds at most one rule for it, present exactly when the set is inhabited
and carrying exactly the set. -/
theorem slice_spec (l : List IngressRule) (p : PortRange) (S : Strings) (A : String → Prop)
    (hS : S.Nodup) (hm : ∀ c, c ∈ S ↔ A c)
    (hF : l.filter (fun r => decide (r.toPortRange = p)) =
      if S.Size > 0 then [⟨p, S.SortedValues⟩] else []) :
    ((∃ r ∈ l, r.toPortRange = p) ↔ ∃ c, A c) ∧
    ((∃ c, A c) → ∃ r, l.filter (fun r => decide (r.toPortRange = p)) = [r]) ∧
    ((¬ ∃ c, A c) → l.filter (fun r => decide (r.toPortRange = p)) = []) ∧
    (∀ r ∈ l, r.toPortRange = p → r.SourceCIDRs.Nodup ∧ ∀ c, c ∈ r.SourceCIDRs ↔ A c) := by
  have hmem : ∀ r, (r ∈ l ∧ r.toPortRange = p) ↔
      r ∈ l.filter (fun r => decide (r.toPortRange = p)) := by
    intro r
    rw [List.mem_filter]
    simp
  have hex : (∃ c, A c) ↔ S.Size > 0 := by
    rw [Size_pos_iff]
    constructor
    · rintro ⟨c, hc⟩ e
      have := (hm c).mpr hc
      rw [e] at this
      exact List.not_mem_nil _ this
    · intro hne
      obtain ⟨c, hc⟩ := List.exists_mem_of_ne_nil _ hne
      exact ⟨c, (hm c).mp hc⟩
  refine ⟨?_, ?_, ?_, ?_⟩
  · rw [hex]
    constructor
    · rintro ⟨r, hr, hrp⟩
      have hrf := (hmem r).mp ⟨hr, hrp⟩
      by_contra hs
      rw [hF, if_neg hs] at hrf
      exact List.not_mem_nil _ hrf
    · intro hs
      refine ⟨⟨p, S.SortedValues⟩, ?_, rfl⟩
      have : (⟨p, S.SortedValues⟩ : IngressRule) ∈
          l.filter (fun r => decide (r.toPortRange = p)) := by
        rw [hF, if_pos hs]
        exact List.mem_singleton.mpr rfl
      exact ((hmem _).mpr this).1
  · intro h
    rw [hF, if_pos (hex.mp h)]
    exact ⟨_, rfl⟩
  · intro h
    rw [hF, if_neg (fun hs => h (hex.mpr hs))]
  · intro r hr hrp
    have hrf := (hmem r).mp ⟨hr, hrp⟩
    rw [hF] at hrf
    by_cases hs : S.Size > 0
    · rw [if_pos hs, List.mem_singleton] at hrf
      subst hrf
      refine ⟨Strings.nodup_SortedValues S hS, ?_⟩
      intro c
      rw [Strings.mem_SortedValues, hm]
    · rw [if_neg hs] at hrf
      exact absurd hrf (List.not_mem_nil _)

/-- C2: `toOpen` holds a rule for the port range `p` exactly when
`cidrs(wanted, p) \ cidrs(current, p)` is inhabited; it then holds exactly one
rule for `p` (and none otherwise), and the source CIDRs of every rule of
`toOpen` for `p` are, without repetition, exactly that difference.  When `p`
occurs only in `wanted` the difference is all of `cidrs(wanted, p)`. -/
theorem diffRanges_toOpen_spec (current wanted : List IngressRule) (p : PortRange) :
    ((∃ r ∈ (diffRanges current wanted).1, r.toPortRange = p) ↔
        ∃ c, c ∈ cidrs wanted p ∧ c ∉ cidrs current p) ∧
    ((∃ c, c ∈ cidrs wanted p ∧ c ∉ cidrs current p) →
        ∃ r, (diffRanges current wanted).1.filter (fun r => decide (r.toPortRange = p)) = [r]) ∧
    ((¬ ∃ c, c ∈ cidrs wanted p ∧ c ∉ cidrs current p) →
        (diffRanges current wanted).1.filter (fun r => decide (r.toPortRange = p)) = []) ∧
    (∀ r ∈ (diffRanges current wanted).1, r.toPortRange = p →
        r.SourceCIDRs.Nodup ∧
          ∀ c, c ∈ r.SourceCIDRs ↔ c ∈ cidrs wanted p ∧ c ∉ cidrs current p) ∧
    (cidrs current p = [] → ∀ r ∈ (diffRanges current wanted).1, r.toPortRange = p →
        ∀ c, c ∈ r.SourceCIDRs ↔ c ∈ cidrs wanted p) := by
  obtain ⟨S, hS, hm, hF⟩ := toOpen_slice current wanted p
  obtain ⟨h1, h2, h3, h4⟩ := slice_spec _ p S _ hS hm hF
  refine ⟨h1, h2, h3, h4, ?_⟩
  intro hc r hr hrp c
  rw [(h4 r hr hrp).2 c, hc]
  simp

/-- C3: `toClose` holds a rule for the port range `p` exactly when
`cidrs(current, p) \ cidrs(wanted, p)` is inhabited; it then holds exactly one
rule for `p` (and none otherwise), and the source CIDRs of every rule of
`toClose` for `p` are, without repetition, exactly that difference.  When `p`
occurs only in `current` the difference is all of `cidrs(current, p)`. -/
theorem diffRanges_toClose_spec (current wanted : List IngressRule) (p : PortRange) :
    ((∃ r ∈ (diffRanges current wanted).2, r.toPortRange = p) ↔
        ∃ c, c ∈ cidrs current p ∧ c ∉ cidrs wanted p) ∧
    ((∃ c, c ∈ cidrs current p ∧ c ∉ cidrs wanted p) →
        ∃ r, (diffRanges current wanted).2.filter (fun r => decide (r.toPortRange = p)) = [r]) ∧
    ((¬ ∃ c, c ∈ cidrs current p ∧ c ∉ cidrs wanted p) →
        (diffRanges current wanted).2.filter (fun r => decide (r.toPortRange = p)) = []) ∧
    (∀ r ∈ (diffRanges current wanted).2, r.toPortRange = p →
        r.SourceCIDRs.Nodup ∧
          ∀ c, c ∈ r.SourceCIDRs ↔ c ∈ cidrs current p ∧ c ∉ cidrs wanted p) ∧
    (cidrs wanted p = [] → ∀ r ∈ (diffRanges current wanted).2, r.toPortRange = p →
        ∀ c, c ∈ r.SourceCIDRs ↔ c ∈ cidrs current p) := by
  obtain ⟨S, hS, hm, hF⟩ := toClose_slice current wanted p
  obtain ⟨h1, h2, h3, h4⟩ := slice_spec _ p S _ hS hm hF
  refine ⟨h1, h2, h3, h4, ?_⟩
  intro hc r hr hrp c
  rw [(h4 r hr hrp).2 c, hc]
  simp

/-! ## An empty source list stands for `0.0.0.0/0` -/

theorem portCidrsStep_replaced (m : List (PortRange × Strings)) (r1 r2 : IngressRule)
    (h : emptyCidrsReplaced r1 r2) : portCidrsStep m r2 = portCidrsStep m r1 := by
  rcases h with h | ⟨h1, h2⟩
  · rw [h]
  · subst h2
    unfold portCidrsStep ruleCidrs
    simp [h1]

theorem portCidrs_replaced (rules1 rules2 : List IngressRule)
    (h : List.Forall₂ emptyCidrsReplaced rules1 rules2) : portCidrs rules2 = portCidrs rules1 := by
  unfold portCidrs
  generalize ([] : List (PortRange × Strings)) = m
  induction h generalizing m with
  | nil => rfl
  | cons hab _ ih =>
    rw [List.foldl_cons, List.foldl_cons, portCidrsStep_replaced m _ _ hab]
    exact ih _

/-- C4: replacing, in either argument of `diffRanges`, any rules whose source
list is empty by rules with the same port range and the source list
`["0.0.0.0/0"]` leaves both results unchanged. -/
theorem diffRanges_emptyCidrs (current current2 wanted wanted2 : List IngressRule)
    (hc : List.Forall₂ emptyCidrsReplaced current current2)
    (hw : List.Forall₂ emptyCidrsReplaced wanted wanted2) :
    diffRanges current2 wanted2 = diffRanges current wanted := by
  unfold diffRanges
  rw [portCidrs_replaced _ _ hc, portCidrs_replaced _ _ hw]

theorem diffRanges_emptyCidrs_witness :
    List.Forall₂ emptyCidrsReplaced
        [⟨⟨80, 80, "tcp"⟩, []⟩, ⟨⟨22, 22, "tcp"⟩, ["10.0.0.0/8"]⟩]
        [⟨⟨80, 80, "tcp"⟩, ["0.0.0.0/0"]⟩, ⟨⟨22, 22, "tcp"⟩, ["10.0.0.0/8"]⟩] ∧
      List.Forall₂ emptyCidrsReplaced
        [⟨⟨53, 53, "udp"⟩, []⟩, ⟨⟨80, 80, "tcp"⟩, []⟩]
        [⟨⟨53, 53, "udp"⟩, ["0.0.0.0/0"]⟩, ⟨⟨80, 80, "tcp"⟩, []⟩] ∧
      diffRanges [⟨⟨80, 80, "tcp"⟩, ["0.0.0.0/0"]⟩, ⟨⟨22, 22, "tcp"⟩, ["10.0.0.0/8"]⟩]
          [⟨⟨53, 53, "udp"⟩, ["0.0.0.0/0"]⟩, ⟨⟨80, 80, "tcp"⟩, []⟩] =
        diffRanges [⟨⟨80, 80, "tcp"⟩, []⟩, ⟨⟨22, 22, "tcp"⟩, ["10.0.0.0/8"]⟩]
          [⟨⟨53, 53, "udp"⟩, []⟩, ⟨⟨80, 80, "tcp"⟩, []⟩] :=
  have h1 : List.Forall₂ emptyCidrsReplaced
      [⟨⟨80, 80, "tcp"⟩, []⟩, ⟨⟨22, 22, "tcp"⟩, ["10.0.0.0/8"]⟩]
      [⟨⟨80, 80, "tcp"⟩, ["0.0.0.0/0"]⟩, ⟨⟨22, 22, "tcp"⟩, ["10.0.0.0/8"]⟩] :=
    List.Forall₂.cons (Or.inr ⟨rfl, rfl⟩) (List.Forall₂.cons (Or.inl rfl) List.Forall₂.nil)
  have h2 : List.Forall₂ emptyCidrsReplaced
      [⟨⟨53, 53, "udp"⟩, []⟩, ⟨⟨80, 80, "tcp"⟩, []⟩]
      [⟨⟨53, 53, "udp"⟩, ["0.0.0.0/0"]⟩, ⟨⟨80, 80, "tcp"⟩, []⟩] :=
    List.Forall₂.cons (Or.inr ⟨rfl, rfl⟩) (List.Forall₂.cons (Or.inl rfl) List.Forall₂.nil)
  ⟨h1, h2, diffRanges_emptyCidrs _ _ _ _ h1 h2⟩

/-! ## Sortedness and independence of the order of the rules -/

theorem cidrs_perm (rules rules2 : List IngressRule) (h : rules.Perm rules2) (p : PortRange)
    (c : String) : c ∈ cidrs rules p ↔ c ∈ cidrs rules2 p := by
  unfold cidrs
  exact ((h.filter _).flatMap_right ruleCidrs).mem_iff

theorem lookup_portCidrs_perm (rules rules2 : List IngressRule) (h : rules.Perm rules2)
    (p : PortRange) :
    SameSet ((portCidrs rules).lookup p) ((portCidrs rules2).lookup p) := by
  cases h1 : (portCidrs rules).lookup p with
  | none =>
    have e1 := (lookup_portCidrs_none rules p).mp h1
    have e2 : cidrs rules2 p = [] := by
      apply List.eq_nil_iff_forall_not_mem.mpr
      intro c hc
      have := (cidrs_perm rules rules2 h p c).mpr hc
      rw [e1] at this
      exact List.not_mem_nil _ this
    rw [(lookup_portCidrs_none rules2 p).mpr e2]
    trivial
  | some s =>
    obtain ⟨hm, hd, hne⟩ := lookup_portCidrs_some rules p s h1
    cases h2 : (portCidrs rules2).lookup p with
    | none =>
      exfalso
      have e2 := (lookup_portCidrs_none rules2 p).mp h2
      obtain ⟨c, hc⟩ := List.exists_mem_of_ne_nil _ hne
      have := (cidrs_perm rules rules2 h p c).mp ((hm c).mp hc)
      rw [e2] at this
      exact List.not_mem_nil _ this
    | some t =>
      obtain ⟨hm2, hd2, _⟩ := lookup_portCidrs_some rules2 p t h2
      refine ⟨hd, hd2, ?_⟩
      intro c
      rw [hm, hm2]
      exact cidrs_perm rules rules2 h p c

theorem diffSlice_congr (p : PortRange) (a b a2 b2 : Strings) (ha : a.Nodup) (ha2 : a2.Nodup)
    (hab : ∀ c, c ∈ a ↔ c ∈ a2) (hb : ∀ c, c ∈ b ↔ c ∈ b2) :
    (if (a.Difference b).Size > 0 then
        [(⟨p, (a.Difference b).SortedValues⟩ : IngressRule)] else []) =
      if (a2.Difference b2).Size > 0 then [⟨p, (a2.Difference b2).SortedValues⟩] else [] := by
  have hm : ∀ c, c ∈ a.Difference b ↔ c ∈ a2.Difference b2 := by
    intro c
    rw [Strings.mem_Difference, Strings.mem_Difference, hab, hb]
  have hs : (a.Difference b).SortedValues = (a2.Difference b2).SortedValues :=
    Strings.SortedValues_congr _ _ (Strings.nodup_Difference a b ha)
      (Strings.nodup_Difference a2 b2 ha2) hm
  have hz : (a.Difference b).Size > 0 ↔ (a2.Difference b2).Size > 0 := by
    rw [Size_pos_iff, Size_pos_iff]
    constructor
    · intro hne e
      obtain ⟨c, hc⟩ := List.exists_mem_of_ne_nil _ hne
      have := (hm c).mp hc
      rw [e] at this
      exact List.not_mem_nil _ this
    · intro hne e
      obtain ⟨c, hc⟩ := List.exists_mem_of_ne_nil _ hne
      have := (hm c).mpr hc
      rw [e] at this
      exact List.not_mem_nil _ this
  by_cases h : (a.Difference b).Size > 0
  · rw [if_pos h, if_pos (hz.mp h), hs]
  · rw [if_neg h, if_neg (fun h2 => h (hz.mpr h2))]

theorem perm_of_filter_eq (l1 l2 : List IngressRule)
    (h : ∀ p, l1.filter (fun r => decide (r.toPortRange = p)) =
      l2.filter (fun r => decide (r.toPortRange = p))) : l1.Perm l2 := by
  rw [List.perm_iff_count]
  intro r
  have e1 := List.count_filter (l := l1) (p := fun s => decide (s.toPortRange = r.toPortRange))
    (a := r) (by simp)
  have e2 := List.count_filter (l := l2) (p := fun s => decide (s.toPortRange = r.toPortRange))
    (a := r) (by simp)
  rw [← e1, ← e2, h]

theorem sorted_SortIngressRules (l : List IngressRule) :
    List.Sorted (fun a b => b.LessThan a = false) (SortIngressRules l) :=
  ingressRule_lessThan_strictTotal.sorted_sort l

theorem eq_of_filter_eq_of_sorted (l1 l2 : List IngressRule)
    (h : ∀ p, l1.filter (fun r => decide (r.toPortRange = p)) =
      l2.filter (fun r => decide (r.toPortRange = p)))
    (h1 : List.Sorted (fun a b => b.LessThan a = false) l1)
    (h2 : List.Sorted (fun a b => b.LessThan a = false) l2) : l1 = l2 :=
  @List.eq_of_perm_of_sorted IngressRule (fun a b => b.LessThan a = false)
    ⟨fun a b x y => ingressRule_lessThan_strictTotal.tri a b y x⟩ _ _
    (perm_of_filter_eq l1 l2 h) h1 h2

theorem diffRanges_perm (current current2 wanted wanted2 : List IngressRule)
    (hc : current.Perm current2) (hw : wanted.Perm wanted2) :
    diffRanges current2 wanted2 = diffRanges current wanted := by
  have sc := fun p => lookup_portCidrs_perm current current2 hc p
  have sw := fun p => lookup_portCidrs_perm wanted wanted2 hw p
  apply Prod.ext
  · apply eq_of_filter_eq_of_sorted
    · intro p
      rw [toOpen_filter, toOpen_filter]
      have scp := sc p
      have swp := sw p
      revert scp swp
      cases (portCidrs wanted).lookup p <;> cases (portCidrs wanted2).lookup p <;>
        cases (portCidrs current).lookup p <;> cases (portCidrs current2).lookup p <;>
        simp only [SameSet, false_implies, implies_true, true_implies]
      · rintro ⟨hd, hd2, hm⟩
        rw [Strings.SortedValues_congr _ _ hd2 hd (fun c => (hm c).symm)]
      · rintro ⟨_, _, hm1⟩ ⟨hd, hd2, hm⟩
        exact diffSlice_congr p _ _ _ _ hd2 hd (fun c => (hm c).symm) (fun c => (hm1 c).symm)
    · rw [diffRanges_eq]; exact sorted_SortIngressRules _
    · rw [diffRanges_eq]; exact sorted_SortIngressRules _
  · apply eq_of_filter_eq_of_sorted
    · intro p
      rw [toClose_filter, toClose_filter]
      have scp := sc p
      have swp := sw p
      revert scp swp
      cases (portCidrs wanted).lookup p <;> cases (portCidrs wanted2).lookup p <;>
        cases (portCidrs current).lookup p <;> cases (portCidrs current2).lookup p <;>
        simp only [SameSet, false_implies, implies_true, true_implies]
      · rintro ⟨hd, hd2, hm⟩
        rw [Strings.SortedValues_congr _ _ hd2 hd (fun c => (hm c).symm)]
      · rintro ⟨hd, hd2, hm⟩ ⟨_, _, hm1⟩
        exact diffSlice_congr p _ _ _ _ hd2 hd (fun c => (hm c).symm) (fun c => (hm1 c).symm)
    · rw [diffRanges_eq]; exact sorted_SortIngressRules _
    · rw [diffRanges_eq]; exact sorted_SortIngressRules _

theorem lookup_perm {κ ν : Type} [DecidableEq κ] (m m2 : List (κ × ν)) (k : κ)
    (hn : (m.map Prod.fst).Nodup) (hp : m.Perm m2) : m2.lookup k = m.lookup k := by
  have hn2 : (m2.map Prod.fst).Nodup := (hp.map Prod.fst).nodup_iff.mp hn
  cases h : m.lookup k with
  | some v => exact lookup_of_mem m2 k v hn2 (hp.mem_iff.mp (mem_of_lookup m k v h))
  | none =>
    cases h2 : m2.lookup k with
    | none => rfl
    | some v =>
      have := lookup_of_mem m k v hn (hp.mem_iff.mpr (mem_of_lookup m2 k v h2))
      rw [h] at this
      exact Option.noConfusion this

/-- The order in which the two `range` loops of `diffRanges` visit the entries
of the two maps does not matter: visiting them in any other order gives the
same sorted results. -/
theorem diffMaps_perm (cur cur2 wan wan2 : List (PortRange × Strings))
    (hc : (cur.map Prod.fst).Nodup) (hw : (wan.map Prod.fst).Nodup)
    (hcp : cur.Perm cur2) (hwp : wan.Perm wan2) : diffMaps cur2 wan2 = diffMaps cur wan := by
  have hc2 : (cur2.map Prod.fst).Nodup := (hcp.map Prod.fst).nodup_iff.mp hc
  have hw2 : (wan2.map Prod.fst).Nodup := (hwp.map Prod.fst).nodup_iff.mp hw
  apply Prod.ext
  · apply eq_of_filter_eq_of_sorted
    · intro p
      rw [diffMaps_open_filter _ _ hw2, diffMaps_open_filter _ _ hw, lookup_perm cur cur2 p hc hcp,
        lookup_perm wan wan2 p hw hwp]
    · rw [diffMaps_eq]; exact sorted_SortIngressRules _
    · rw [diffMaps_eq]; exact sorted_SortIngressRules _
  · apply eq_of_filter_eq_of_sorted
    · intro p
      rw [diffMaps_close_filter _ _ hc2 hw2, diffMaps_close_filter _ _ hc hw,
        lookup_perm cur cur2 p hc hcp, lookup_perm wan wan2 p hw hwp]
    · rw [diffMaps_eq]; exact sorted_SortIngressRules _
    · rw [diffMaps_eq]; exact sorted_SortIngressRules _

theorem sorted_cidrs_of_slice (l : List IngressRule) (r : IngressRule) (hr : r ∈ l)
    (h : ∃ S : Strings, l.filter (fun s => decide (s.toPortRange = r.toPortRange)) =
      if S.Size > 0 then [⟨r.toPortRange, S.SortedValues⟩] else []) :
    List.Sorted (fun a b => strLess b a = false) r.SourceCIDRs := by
  obtain ⟨S, hS⟩ := h
  have hrf : r ∈ l.filter (fun s => decide (s.toPortRange = r.toPortRange)) := by
    rw [List.mem_filter]
    exact ⟨hr, by simp⟩
  rw [hS] at hrf
  by_cases hs : S.Size > 0
  · rw [if_pos hs, List.mem_singleton] at hrf
    rw [hrf]
    exact Strings.sorted_SortedValues S
  · rw [if_neg hs] at hrf
    exact absurd hrf (List.not_mem_nil _)

/-- C5: both lists returned by `diffRanges` are sorted in the order of
`SortIngressRules` (protocol, fromPort, toPort, CIDRs), the source CIDRs of
every returned rule are sorted, and giving the rules of `current` or of
`wanted` in another order does not change the result. -/
theorem diffRanges_sorted (current current2 wanted wanted2 : List IngressRule)
    (hc : current.Perm current2) (hw : wanted.Perm wanted2) :
    List.Sorted (fun a b => b.LessThan a = false) (diffRanges current wanted).1 ∧
    List.Sorted (fun a b => b.LessThan a = false) (diffRanges current wanted).2 ∧
    (∀ r, r ∈ (diffRanges current wanted).1 ∨ r ∈ (diffRanges current wanted).2 →
      List.Sorted (fun a b => strLess b a = false) r.SourceCIDRs) ∧
    diffRanges current2 wanted2 = diffRanges current wanted := by
  refine ⟨?_, ?_, ?_, diffRanges_perm current current2 wanted wanted2 hc hw⟩
  · rw [diffRanges_eq]; exact sorted_SortIngressRules _
  · rw [diffRanges_eq]; exact sorted_SortIngressRules _
  · rintro r (hr | hr)
    · obtain ⟨S, _, _, hF⟩ := toOpen_slice current wanted r.toPortRange
      exact sorted_cidrs_of_slice _ r hr ⟨S, hF⟩
    · obtain ⟨S, _, _, hF⟩ := toClose_slice current wanted r.toPortRange
      exact sorted_cidrs_of_slice _ r hr ⟨S, hF⟩

theorem diffRanges_sorted_witness :
    List.Perm [(⟨⟨80, 80, "tcp"⟩, ["10.0.0.0/8"]⟩ : IngressRule), ⟨⟨22, 22, "tcp"⟩, []⟩]
        [⟨⟨22, 22, "tcp"⟩, []⟩, ⟨⟨80, 80, "tcp"⟩, ["10.0.0.0/8"]⟩] ∧
      List.Perm [(⟨⟨53, 53, "udp"⟩, ["192.168.0.0/16", "10.0.0.0/8"]⟩ : IngressRule),
          ⟨⟨80, 80, "tcp"⟩, []⟩]
        [⟨⟨80, 80, "tcp"⟩, []⟩, ⟨⟨53, 53, "udp"⟩, ["192.168.0.0/16", "10.0.0.0/8"]⟩] ∧
      (diffRanges [⟨⟨80, 80, "tcp"⟩, ["10.0.0.0/8"]⟩, ⟨⟨22, 22, "tcp"⟩, []⟩]
          [⟨⟨53, 53, "udp"⟩, ["192.168.0.0/16", "10.0.0.0/8"]⟩, ⟨⟨80, 80, "tcp"⟩, []⟩]).1 =
        [⟨⟨80, 80, "tcp"⟩, ["0.0.0.0/0"]⟩,
          ⟨⟨53, 53, "udp"⟩, ["10.0.0.0/8", "192.168.0.0/16"]⟩] ∧
      diffRanges [⟨⟨22, 22, "tcp"⟩, []⟩, ⟨⟨80, 80, "tcp"⟩, ["10.0.0.0/8"]⟩]
          [⟨⟨80, 80, "tcp"⟩, []⟩, ⟨⟨53, 53, "udp"⟩, ["192.168.0.0/16", "10.0.0.0/8"]⟩] =
        diffRanges [⟨⟨80, 80, "tcp"⟩, ["10.0.0.0/8"]⟩, ⟨⟨22, 22, "tcp"⟩, []⟩]
          [⟨⟨53, 53, "udp"⟩, ["192.168.0.0/16", "10.0.0.0/8"]⟩, ⟨⟨80, 80, "tcp"⟩, []⟩] :=
  ⟨List.Perm.swap _ _ _, List.Perm.swap _ _ _, by decide,
    (diffRanges_sorted _ _ _ _ (List.Perm.swap _ _ _) (List.Perm.swap _ _ _)).2.2.2⟩

/-! ## The ports-key codec -/

theorem span_colon (b a : List Char) (hb : ':' ∉ b) :
    (b ++ ':' :: a).span (fun ch => decide (ch ≠ ':')) = (b, ':' :: a) := by
  rw [List.span_eq_take_drop]
  induction b with
  | nil => simp [List.takeWhile_cons, List.dropWhile_cons]
  | cons x b ih =>
    have hx : x ≠ ':' := fun e => hb (e ▸ List.mem_cons_self _ _)
    have hb2 : ':' ∉ b := fun h => hb (List.mem_cons_of_mem _ h)
    have ih2 := ih hb2
    simp only [Prod.mk.injEq] at ih2
    simp only [List.cons_append, List.takeWhile_cons, List.dropWhile_cons, hx, ne_eq,
      not_false_eq_true, decide_True, if_true, ih2.1, ih2.2]

theorem span_no_colon (l : List Char) (h : ':' ∉ l) :
    l.span (fun ch => decide (ch ≠ ':')) = (l, []) := by
  rw [List.span_eq_take_drop]
  induction l with
  | nil => rfl
  | cons x l ih =>
    have hx : x ≠ ':' := fun e => h (e ▸ List.mem_cons_self _ _)
    have ih2 := ih (fun h2 => h (List.mem_cons_of_mem _ h2))
    simp only [Prod.mk.injEq] at ih2
    simp only [List.takeWhile_cons, List.dropWhile_cons, hx, ne_eq, not_false_eq_true,
      decide_True, if_true, ih2.1, ih2.2]

theorem exists_split_colon (l : List Char) (h : ':' ∈ l) :
    ∃ b a, l = b ++ ':' :: a ∧ ':' ∉ b := by
  induction l with
  | nil => simp at h
  | cons x l ih =>
    by_cases hx : x = ':'
    · exact ⟨[], l, by simp [hx], by simp⟩
    · have hl : ':' ∈ l := by
        rcases List.mem_cons.mp h with e | e
        · exact absurd e.symm hx
        · exact e
      obtain ⟨b, a, e, hb⟩ := ih hl
      refine ⟨x :: b, a, by simp [e], ?_⟩
      intro hm
      rcases List.mem_cons.mp hm with e2 | e2
      · exact hx e2.symm
      · exact hb e2

theorem splitColon2_split (before after : String) (hb : ':' ∉ before.data) :
    splitColon2 (before ++ ":" ++ after) = [before, after] := by
  unfold splitColon2
  have hd : (before ++ ":" ++ after).data = before.data ++ ':' :: after.data := by
    simp [String.data_append]
  rw [hd, span_colon _ _ hb]

theorem splitColon2_no_colon (s : String) (h : ':' ∉ s.data) : splitColon2 s = [s] := by
  unfold splitColon2
  rw [span_no_colon _ h]

theorem parsePortsKey_of_split (N : String → MachineTag) (M : String → SubnetTag)
    (before after : String) (hb : ':' ∉ before.data) :
    parsePortsKey N M (before ++ ":" ++ after) =
      (N before, (if after = "" then SubnetTag.zero else M after), none) := by
  unfold parsePortsKey
  rw [splitColon2_split before after hb]
  by_cases ha : after = ""
  · simp [ha]
  · simp [ha]

theorem parsePortsKey_no_colon (N : String → MachineTag) (M : String → SubnetTag)
    (s : String) (h : ':' ∉ s.data) :
    parsePortsKey N M s =
      (MachineTag.zero, SubnetTag.zero,
        some (Err.annotatef (Err.errorf "unexpected format" []) "invalid ports change %q" [s])) := by
  unfold parsePortsKey
  rw [splitColon2_no_colon s h]
  simp

theorem parsePortsKey_colon_ok (N : String → MachineTag) (M : String → SubnetTag) (s : String)
    (h : ':' ∈ s.data) : (parsePortsKey N M s).2.2 = none := by
  obtain ⟨b, a, e, hb⟩ := exists_split_colon s.data h
  have hs : s = String.mk b ++ ":" ++ String.mk a := by
    apply String.ext
    simp [String.data_append, e]
  rw [hs, parsePortsKey_of_split N M _ _ hb]

/-- C6: for a string `s` that holds a colon, `parsePortsKey` returns no error and
splits `s` at its first colon: `s` is `before ++ ":" ++ after` with no colon in
`before`, and for every such decomposition the machine tag is the tag of
`before` and the subnet tag is the tag of the whole of `after`, or the zero
value when `after` is empty. -/
theorem parsePortsKey_splits (N : String → MachineTag) (M : String → SubnetTag) (s : String)
    (h : ':' ∈ s.data) :
    (parsePortsKey N M s).2.2 = none ∧
    (∃ before after : String, s = before ++ ":" ++ after ∧ ':' ∉ before.data) ∧
    (∀ before after : String, s = before ++ ":" ++ after → ':' ∉ before.data →
      parsePortsKey N M s =
        (N before, (if after = "" then SubnetTag.zero else M after), none)) := by
  obtain ⟨b, a, e, hb⟩ := exists_split_colon s.data h
  have hs : s = String.mk b ++ ":" ++ String.mk a := by
    apply String.ext
    simp [String.data_append, e]
  refine ⟨?_, ⟨String.mk b, String.mk a, hs, hb⟩, ?_⟩
  · rw [hs, parsePortsKey_of_split N M _ _ hb]
  · intro before after e2 hb2
    rw [e2]
    exact parsePortsKey_of_split N M before after hb2

theorem parsePortsKey_splits_witness :
    ':' ∈ "42:0.1.2.0/24".data ∧
      parsePortsKey MachineTag.mk SubnetTag.mk "42:0.1.2.0/24" =
        (⟨"42"⟩, ⟨"0.1.2.0/24"⟩, none) ∧
      (MachineTag.mk "42").String = "machine-42" ∧
      (SubnetTag.mk "0.1.2.0/24").String = "subnet-0.1.2.0/24" ∧
      parsePortsKey MachineTag.mk SubnetTag.mk "42:" = (⟨"42"⟩, SubnetTag.zero, none) :=
  ⟨by decide,
    (parsePortsKey_splits MachineTag.mk SubnetTag.mk "42:0.1.2.0/24" (by decide)).2.2
      "42" "0.1.2.0/24" (by decide) (by decide),
    by decide, by decide, by decide⟩

theorem loopPortsChange_cons {σ : Type} (N : String → MachineTag) (M : String → SubnetTag)
    (opc : MachineTag → SubnetTag → σ → σ × Option Err) (k : String) (rest : List String)
    (fw : σ) :
    loopPortsChange N M opc (k :: rest) fw =
      match parsePortsKey N M k with
      | (_, _, some err) => (fw, some (Err.trace err))
      | (machineTag, subnetTag, none) =>
        match opc machineTag subnetTag fw with
        | (fw2, some err) => (fw2, some (Err.trace err))
        | (fw2, none) => loopPortsChange N M opc rest fw2 := by
  rw [loopPortsChange]

theorem loopPortsChange_append {σ : Type} (N : String → MachineTag) (M : String → SubnetTag)
    (opc : MachineTag → SubnetTag → σ → σ × Option Err) (pre rest : List String) (fw fw2 : σ)
    (h : loopPortsChange N M opc pre fw = (fw2, none)) :
    loopPortsChange N M opc (pre ++ rest) fw = loopPortsChange N M opc rest fw2 := by
  induction pre generalizing fw with
  | nil =>
    simp only [loopPortsChange, Prod.mk.injEq, and_true] at h
    subst h
    rfl
  | cons k pre ih =>
    rw [List.cons_append, loopPortsChange_cons]
    rw [loopPortsChange_cons] at h
    rcases hp : parsePortsKey N M k with ⟨mt, stg, _ | err⟩
    · rw [hp] at h
      simp only at h ⊢
      rcases ho : opc mt stg fw with ⟨fw3, _ | err2⟩
      · rw [ho] at h
        simp only at h ⊢
        exact ih fw3 h
      · rw [ho] at h
        simp at h
    · rw [hp] at h
      simp at h

/-- C7: `parsePortsKey` returns an error exactly when the string holds no colon;
the returned tags are then the zero values and the error is the annotation
"invalid ports change" of "unexpected format"; and the ports-change case of the
loop, having handled the keys before it without error, then returns that error
traced, leaving the worker as those keys left it, whatever
`openedPortsChanged` does. -/
theorem parsePortsKey_error (N : String → MachineTag) (M : String → SubnetTag) (s : String) :
    ((parsePortsKey N M s).2.2 ≠ none ↔ ':' ∉ s.data) ∧
    (':' ∉ s.data →
      parsePortsKey N M s =
        (MachineTag.zero, SubnetTag.zero,
          some (Err.annotatef (Err.errorf "unexpected format" [])
            "invalid ports change %q" [s]))) ∧
    (':' ∉ s.data →
      ∀ (σ : Type) (opc : MachineTag → SubnetTag → σ → σ × Option Err)
        (pre post : List String) (fw fw2 : σ),
        loopPortsChange N M opc pre fw = (fw2, none) →
        loopPortsChange N M opc (pre ++ s :: post) fw =
          (fw2, some (Err.trace (Err.annotatef (Err.errorf "unexpected format" [])
            "invalid ports change %q" [s])))) := by
  refine ⟨?_, parsePortsKey_no_colon N M s, ?_⟩
  · constructor
    · intro herr hc
      exact herr (parsePortsKey_colon_ok N M s hc)
    · intro hc
      rw [parsePortsKey_no_colon N M s hc]
      simp
  · intro hc σ opc pre post fw fw2 hpre
    rw [loopPortsChange_append N M opc pre (s :: post) fw fw2 hpre, loopPortsChange_cons,
      parsePortsKey_no_colon N M s hc]

/-! ## Construction of the worker -/

/-- C8: for every mode other than "instance" and "global", `NewFirewaller`
returns no worker and the error "invalid firewall-mode", and hands no worker to
`catacomb.Invoke`; for "global" the worker it hands to `catacomb.Invoke`, and
returns when that succeeds, has empty tables, is in global mode and has an empty
reference-count map; for "instance" that worker is not in global mode (and its
reference-count map is nil). -/
theorem NewFirewaller_mode (catacombInvoke : Firewaller → Option Err) (mode : String) :
    (mode ≠ "instance" → mode ≠ "global" →
      NewFirewaller catacombInvoke mode =
        ⟨none, some (Err.errorf "invalid firewall-mode %q" [mode]), []⟩) ∧
    NewFirewaller catacombInvoke "global" =
      (match catacombInvoke ⟨[], [], [], true, some [], []⟩ with
      | some err => ⟨none, some (Err.trace err), [⟨[], [], [], true, some [], []⟩]⟩
      | none => ⟨some ⟨[], [], [], true, some [], []⟩, none, [⟨[], [], [], true, some [], []⟩]⟩) ∧
    NewFirewaller catacombInvoke "instance" =
      (match catacombInvoke ⟨[], [], [], false, none, []⟩ with
      | some err => ⟨none, some (Err.trace err), [⟨[], [], [], false, none, []⟩]⟩
      | none => ⟨some ⟨[], [], [], false, none, []⟩, none, [⟨[], [], [], false, none, []⟩]⟩) ∧
    (∀ fw, (NewFirewaller catacombInvoke "global").worker = some fw →
      fw.globalMode = true ∧ fw.globalIngressRuleRef = some []) ∧
    (∀ fw, (NewFirewaller catacombInvoke "instance").worker = some fw →
      fw.globalMode = false) := by
  have hG : NewFirewaller catacombInvoke "global" =
      (match catacombInvoke ⟨[], [], [], true, some [], []⟩ with
      | some err => ⟨none, some (Err.trace err), [⟨[], [], [], true, some [], []⟩]⟩
      | none =>
        ⟨some ⟨[], [], [], true, some [], []⟩, none, [⟨[], [], [], true, some [], []⟩]⟩) := by
    have e1 : ¬ ("global" = "instance") := by decide
    unfold NewFirewaller FwInstance FwGlobal
    dsimp only
    rw [if_neg e1, if_pos rfl]
  have hI : NewFirewaller catacombInvoke "instance" =
      (match catacombInvoke ⟨[], [], [], false, none, []⟩ with
      | some err => ⟨none, some (Err.trace err), [⟨[], [], [], false, none, []⟩]⟩
      | none =>
        ⟨some ⟨[], [], [], false, none, []⟩, none, [⟨[], [], [], false, none, []⟩]⟩) := by
    unfold NewFirewaller FwInstance FwGlobal
    dsimp only
    rw [if_pos rfl]
  refine ⟨?_, hG, hI, ?_, ?_⟩
  · intro h1 h2
    unfold NewFirewaller FwInstance FwGlobal
    dsimp only
    rw [if_neg h1, if_neg h2]
  · intro fw hfw
    rw [hG] at hfw
    cases hc : catacombInvoke ⟨[], [], [], true, some [], []⟩ with
    | some err =>
      rw [hc] at hfw
      cases hfw
    | none =>
      rw [hc] at hfw
      cases hfw
      exact ⟨rfl, rfl⟩
  · intro fw hfw
    rw [hI] at hfw
    cases hc : catacombInvoke ⟨[], [], [], false, none, []⟩ with
    | some err =>
      rw [hc] at hfw
      cases hfw
    | none =>
      rw [hc] at hfw
      cases hfw
      rfl

theorem NewFirewaller_mode_witness :
    NewFirewaller (fun _ => none) "bogus" =
        ⟨none, some (Err.errorf "invalid firewall-mode %q" ["bogus"]), []⟩ ∧
      (NewFirewaller (fun _ => none) "global").worker =
        some ⟨[], [], [], true, some [], []⟩ ∧
      (NewFirewaller (fun _ => none) "instance").worker =
        some ⟨[], [], [], false, none, []⟩ :=
  ⟨(NewFirewaller_mode (fun _ => none) "bogus").1 (by decide) (by decide),
    by decide, by decide⟩

/-! ## Gathering the wanted rules -/

theorem mapDelete_absent {κ ν : Type} [DecidableEq κ] (m : List (κ × ν)) (k : κ)
    (h : m.lookup k = none) : mapDelete m k = m := by
  unfold mapDelete
  rw [List.filter_eq_self]
  intro e he
  have hk := (lookup_eq_none_iff_keys m k).mp h
  have : e.1 ≠ k := by
    intro e2
    exact hk (List.mem_map.mpr ⟨e, he, e2⟩)
  simpa using this

theorem gatherDefinedPorts_untracked
    (N : String → Int → Int → List String → IngressRule × Option Err)
    (unitTag : UnitTag) (ranges : portRanges) (rest : List (UnitTag × portRanges))
    (machined : machineData) (want : List IngressRule)
    (h : machined.unitds.lookup unitTag = none) :
    gatherDefinedPorts N ((unitTag, ranges) :: rest) machined want =
      gatherDefinedPorts N rest machined want := by
  rw [gatherDefinedPorts, h]
  simp only
  rw [mapDelete_absent _ _ h]

theorem gatherDefinedPorts_unexposed
    (N : String → Int → Int → List String → IngressRule × Option Err)
    (unitTag : UnitTag) (ranges : portRanges) (rest : List (UnitTag × portRanges))
    (machined : machineData) (want : List IngressRule) (unitd : unitData)
    (h : machined.unitds.lookup unitTag = some unitd) (he : unitd.serviced.exposed = false) :
    gatherDefinedPorts N ((unitTag, ranges) :: rest) machined want =
      gatherDefinedPorts N rest machined want := by
  rw [gatherDefinedPorts, h]
  simp [he, updateForRemoteRelationIngress, Strings.New, Strings.Size]

theorem gatherPortRanges_ok (N : String → Int → Int → List String → IngressRule × Option Err)
    (ranges : portRanges) (want : List IngressRule)
    (hN : ∀ pr ∈ ranges, N pr.1.Protocol pr.1.FromPort pr.1.ToPort ["0.0.0.0/0"] =
      (⟨pr.1, ["0.0.0.0/0"]⟩, none)) :
    gatherPortRanges N ["0.0.0.0/0"] ranges want =
      (want ++ ranges.map (fun pr => (⟨pr.1, ["0.0.0.0/0"]⟩ : IngressRule)), none) := by
  induction ranges generalizing want with
  | nil => simp [gatherPortRanges]
  | cons pr ranges ih =>
    obtain ⟨p, b⟩ := pr
    have h1 := hN (p, b) (List.mem_cons_self _ _)
    have hs : Strings.SortedValues ["0.0.0.0/0"] = ["0.0.0.0/0"] := rfl
    rw [gatherPortRanges]
    simp only [hs]
    simp only at h1
    rw [h1]
    simp only
    rw [ih _ (fun pr hpr => hN pr (List.mem_cons_of_mem _ hpr))]
    simp

theorem gatherDefinedPorts_exposed
    (N : String → Int → Int → List String → IngressRule × Option Err)
    (unitTag : UnitTag) (ranges : portRanges) (rest : List (UnitTag × portRanges))
    (machined : machineData) (want : List IngressRule) (unitd : unitData)
    (h : machined.unitds.lookup unitTag = some unitd) (he : unitd.serviced.exposed = true)
    (hN : ∀ pr ∈ ranges, N pr.1.Protocol pr.1.FromPort pr.1.ToPort ["0.0.0.0/0"] =
      (⟨pr.1, ["0.0.0.0/0"]⟩, none)) :
    gatherDefinedPorts N ((unitTag, ranges) :: rest) machined want =
      gatherDefinedPorts N rest machined
        (want ++ ranges.map (fun pr => (⟨pr.1, ["0.0.0.0/0"]⟩ : IngressRule))) := by
  have hc : Strings.Add Strings.New "0.0.0.0/0" = ["0.0.0.0/0"] := rfl
  rw [gatherDefinedPorts, h]
  simp only [he, if_true, updateForRemoteRelationIngress, hc]
  have hz : Strings.Size ["0.0.0.0/0"] > 0 := by decide
  rw [if_pos hz, gatherPortRanges_ok N ranges want hN]

theorem gatherDefinedPorts_ok
    (N : String → Int → Int → List String → IngressRule × Option Err)
    (entries : List (UnitTag × portRanges)) (machined : machineData) (want : List IngressRule)
    (hN : ∀ e ∈ entries, ∀ pr ∈ e.2, N pr.1.Protocol pr.1.FromPort pr.1.ToPort ["0.0.0.0/0"] =
      (⟨pr.1, ["0.0.0.0/0"]⟩, none)) :
    gatherDefinedPorts N entries machined want =
      (machined, want ++ entries.flatMap (unitRules machined), none) := by
  induction entries generalizing want with
  | nil => simp [gatherDefinedPorts]
  | cons e entries ih =>
    obtain ⟨unitTag, ranges⟩ := e
    have hrest := fun w => ih w (fun e he => hN e (List.mem_cons_of_mem _ he))
    rw [List.flatMap_cons]
    cases hl : machined.unitds.lookup unitTag with
    | none =>
      rw [gatherDefinedPorts_untracked N _ _ _ _ _ hl, hrest]
      simp [unitRules, hl]
    | some unitd =>
      by_cases he : unitd.serviced.exposed = true
      · rw [gatherDefinedPorts_exposed N _ _ _ _ _ unitd hl he
          (hN (unitTag, ranges) (List.mem_cons_self _ _)), hrest]
        simp [unitRules, hl, he]
      · have he2 : unitd.serviced.exposed = false := by simpa using he
        rw [gatherDefinedPorts_unexposed N _ _ _ _ _ unitd hl he2, hrest]
        simp [unitRules, hl, he2]

theorem gatherMachines_ok (N : String → Int → Int → List String → IngressRule × Option Err)
    (machines : List machineData) (want : List IngressRule)
    (hN : ∀ m ∈ machines, ∀ e ∈ m.definedPorts, ∀ pr ∈ e.2,
      N pr.1.Protocol pr.1.FromPort pr.1.ToPort ["0.0.0.0/0"] = (⟨pr.1, ["0.0.0.0/0"]⟩, none)) :
    gatherMachines N machines want = (machines, want ++ machines.flatMap exposedRules, none) := by
  induction machines generalizing want with
  | nil => simp [gatherMachines]
  | cons m machines ih =>
    rw [gatherMachines, gatherDefinedPorts_ok N _ _ _ (hN m (List.mem_cons_self _ _))]
    simp only
    rw [ih _ (fun m2 hm2 => hN m2 (List.mem_cons_of_mem _ hm2))]
    simp [exposedRules]

theorem unitRules_unexposed (machined : machineData) (entry : UnitTag × portRanges)
    (h : ∀ u, machined.unitds.lookup entry.1 = some u → u.serviced.exposed = false) :
    unitRules machined entry = [] := by
  unfold unitRules
  cases hl : machined.unitds.lookup entry.1 with
  | none => rfl
  | some u => simp [h u hl]

theorem gatherDefinedPorts_none
    (N : String → Int → Int → List String → IngressRule × Option Err)
    (entries : List (UnitTag × portRanges)) (machined : machineData) (want : List IngressRule)
    (h : ∀ e ∈ entries, ∀ u, machined.unitds.lookup e.1 = some u → u.serviced.exposed = false) :
    gatherDefinedPorts N entries machined want = (machined, want, none) := by
  induction entries generalizing want with
  | nil => simp [gatherDefinedPorts]
  | cons e entries ih =>
    obtain ⟨unitTag, ranges⟩ := e
    have hrest := fun w => ih w (fun e he => h e (List.mem_cons_of_mem _ he))
    cases hl : machined.unitds.lookup unitTag with
    | none => rw [gatherDefinedPorts_untracked N _ _ _ _ _ hl, hrest]
    | some unitd =>
      rw [gatherDefinedPorts_unexposed N _ _ _ _ _ unitd hl
        (h (unitTag, ranges) (List.mem_cons_self _ _) unitd hl), hrest]

theorem gatherMachines_none (N : String → Int → Int → List String → IngressRule × Option Err)
    (machines : List machineData) (want : List IngressRule)
    (h : ∀ m ∈ machines, ∀ e ∈ m.definedPorts, ∀ u,
      m.unitds.lookup e.1 = some u → u.serviced.exposed = false) :
    gatherMachines N machines want = (machines, want, none) := by
  induction machines generalizing want with
  | nil => simp [gatherMachines]
  | cons m machines ih =>
    rw [gatherMachines, gatherDefinedPorts_none N _ _ _ (h m (List.mem_cons_self _ _))]
    simp only
    rw [ih _ (fun m2 hm2 => h m2 (List.mem_cons_of_mem _ hm2))]

/-- C9: when no unit that is a key of some machine's `definedPorts` and is
tracked in that machine's `unitds` belongs to an exposed application,
`gatherIngressRules` returns the empty list and no error, whatever
`network.NewIngressRule` does. -/
theorem gatherIngressRules_unexposed
    (N : String → Int → Int → List String → IngressRule × Option Err)
    (machines : List machineData)
    (h : ∀ m ∈ machines, ∀ e ∈ m.definedPorts, ∀ u,
      m.unitds.lookup e.1 = some u → u.serviced.exposed = false) :
    (gatherIngressRules N machines).2 = ([], none) := by
  unfold gatherIngressRules
  rw [gatherMachines_none N machines [] h]

theorem gatherIngressRules_unexposed_witness :
    (gatherIngressRules (fun pr f t c => (⟨⟨f, t, pr⟩, c⟩, none))
      [⟨⟨"0"⟩, [(⟨"app/0"⟩, ⟨⟨"app/0"⟩, ⟨⟨"app"⟩, false⟩⟩)], [],
        [(⟨"app/0"⟩, [(⟨80, 80, "tcp"⟩, true)]), (⟨"gone/0"⟩, [(⟨22, 22, "tcp"⟩, true)])]⟩]).2 =
      ([], none) :=
  gatherIngressRules_unexposed _ _ (by decide)

/-- C10: when `network.NewIngressRule` succeeds on every port range of every
`definedPorts` with the sources `["0.0.0.0/0"]`, returning the rule of that port
range and those sources, `gatherIngressRules` returns no error and, for each
machine, one rule `(p, ["0.0.0.0/0"])` for each pair of a key `u` of
`definedPorts` tracked in `unitds` with an exposed application and a port range
`p` of `definedPorts[u]`, and no other rule; for several machines the result is
the concatenation of the per-machine results. -/
theorem gatherIngressRules_exposed
    (N : String → Int → Int → List String → IngressRule × Option Err)
    (machines : List machineData)
    (hN : ∀ m ∈ machines, ∀ e ∈ m.definedPorts, ∀ pr ∈ e.2,
      N pr.1.Protocol pr.1.FromPort pr.1.ToPort ["0.0.0.0/0"] = (⟨pr.1, ["0.0.0.0/0"]⟩, none)) :
    (gatherIngressRules N machines).2.2 = none ∧
    (∀ m ∈ machines, (gatherIngressRules N [m]).2.2 = none ∧
      ((gatherIngressRules N [m]).2.1).Perm (exposedRules m)) ∧
    (gatherIngressRules N machines).2.1 =
      machines.flatMap (fun m => (gatherIngressRules N [m]).2.1) := by
  have hone : ∀ m ∈ machines, gatherIngressRules N [m] = ([m], exposedRules m, none) := by
    intro m hm
    unfold gatherIngressRules
    rw [gatherMachines_ok N [m] [] (by
      intro m2 hm2
      rw [List.mem_singleton] at hm2
      subst hm2
      exact hN m2 hm)]
    simp
  unfold gatherIngressRules at hone ⊢
  rw [gatherMachines_ok N machines [] hN]
  refine ⟨rfl, ?_, ?_⟩
  · intro m hm
    rw [hone m hm]
    exact ⟨rfl, List.Perm.refl _⟩
  · simp only [List.nil_append]
    apply List.flatMap_congr
    intro m hm
    rw [hone m hm]

theorem gatherIngressRules_exposed_witness :
    (gatherIngressRules (fun pr f t c => (⟨⟨f, t, pr⟩, c⟩, none))
        [⟨⟨"0"⟩, [(⟨"app/0"⟩, ⟨⟨"app/0"⟩, ⟨⟨"app"⟩, true⟩⟩),
            (⟨"db/0"⟩, ⟨⟨"db/0"⟩, ⟨⟨"db"⟩, false⟩⟩)], [],
          [(⟨"app/0"⟩, [(⟨80, 80, "tcp"⟩, true), (⟨53, 53, "udp"⟩, true)]),
            (⟨"db/0"⟩, [(⟨3306, 3306, "tcp"⟩, true)]),
            (⟨"gone/0"⟩, [(⟨22, 22, "tcp"⟩, true)])]⟩,
          ⟨⟨"1"⟩, [(⟨"app/1"⟩, ⟨⟨"app/1"⟩, ⟨⟨"app"⟩, true⟩⟩)], [],
            [(⟨"app/1"⟩, [(⟨443, 443, "tcp"⟩, true)])]⟩]).2 =
      ([⟨⟨80, 80, "tcp"⟩, ["0.0.0.0/0"]⟩, ⟨⟨53, 53, "udp"⟩, ["0.0.0.0/0"]⟩,
        ⟨⟨443, 443, "tcp"⟩, ["0.0.0.0/0"]⟩], none) ∧
      (gatherIngressRules (fun pr f t c => (⟨⟨f, t, pr⟩, c⟩, none))
        [⟨⟨"0"⟩, [(⟨"app/0"⟩, ⟨⟨"app/0"⟩, ⟨⟨"app"⟩, true⟩⟩),
            (⟨"db/0"⟩, ⟨⟨"db/0"⟩, ⟨⟨"db"⟩, false⟩⟩)], [],
          [(⟨"app/0"⟩, [(⟨80, 80, "tcp"⟩, true), (⟨53, 53, "udp"⟩, true)]),
            (⟨"db/0"⟩, [(⟨3306, 3306, "tcp"⟩, true)]),
            (⟨"gone/0"⟩, [(⟨22, 22, "tcp"⟩, true)])]⟩,
          ⟨⟨"1"⟩, [(⟨"app/1"⟩, ⟨⟨"app/1"⟩, ⟨⟨"app"⟩, true⟩⟩)], [],
            [(⟨"app/1"⟩, [(⟨443, 443, "tcp"⟩, true)])]⟩]).2.2 = none :=
  ⟨by decide, (gatherIngressRules_exposed _ _ (by decide)).1⟩

/-! ## `gatherIngressRules` leaves the machines as they were -/

theorem gatherPortRanges_err_or_ok
    (N : String → Int → Int → List String → IngressRule × Option Err)
    (cidrs : Strings) (ranges : portRanges) (want : List IngressRule) :
    (gatherPortRanges N cidrs ranges want).2 ≠ none →
      (gatherPortRanges N cidrs ranges want).1 = [] := by
  induction ranges generalizing want with
  | nil => simp [gatherPortRanges]
  | cons pr ranges ih =>
    obtain ⟨p, b⟩ := pr
    rw [gatherPortRanges]
    rcases hN : N p.Protocol p.FromPort p.ToPort cidrs.SortedValues with ⟨rule, _ | err⟩
    · simp only
      exact ih _
    · simp

theorem gatherDefinedPorts_machined
    (N : String → Int → Int → List String → IngressRule × Option Err)
    (entries : List (UnitTag × portRanges)) (machined : machineData) (want : List IngressRule) :
    (gatherDefinedPorts N entries machined want).1 = machined := by
  induction entries generalizing want with
  | nil => simp [gatherDefinedPorts]
  | cons e entries ih =>
    obtain ⟨unitTag, ranges⟩ := e
    cases hl : machined.unitds.lookup unitTag with
    | none => rw [gatherDefinedPorts_untracked N _ _ _ _ _ hl, ih]
    | some unitd =>
      rw [gatherDefinedPorts, hl]
      simp only
      split
      · split
        · split
          · rfl
          · exact ih _
        · exact ih _
      · split
        · split
          · rfl
          · exact ih _
        · exact ih _

theorem gatherMachines_machines
    (N : String → Int → Int → List String → IngressRule × Option Err)
    (machines : List machineData) (want : List IngressRule) :
    (gatherMachines N machines want).1 = machines := by
  induction machines generalizing want with
  | nil => simp [gatherMachines]
  | cons m machines ih =>
    rw [gatherMachines]
    have h1 := gatherDefinedPorts_machined N m.definedPorts m want
    rcases hg : gatherDefinedPorts N m.definedPorts m want with ⟨m2, want2, _ | err⟩
    · rw [hg] at h1
      simp only at h1 ⊢
      have h2 := ih want2
      rcases hr : gatherMachines N machines want2 with ⟨rest2, want3, err3⟩
      rw [hr] at h2
      simp only at h2 ⊢
      rw [h1, h2]
    · rw [hg] at h1
      simp only at h1 ⊢
      rw [h1]

/-- C11 (the code departs from the claim): `gatherIngressRules` returns every
machine as it was, so the `definedPorts` of a machine keeps all its keys; at
the machine whose `definedPorts` has the single key `gone/0` and whose `unitds`
is empty, no rule is emitted and `gone/0` is still a key of `definedPorts`
after the call. -/
theorem gatherIngressRules_keeps_definedPorts
    (N : String → Int → Int → List String → IngressRule × Option Err)
    (machines : List machineData) :
    (gatherIngressRules N machines).1 = machines ∧
    (gatherIngressRules N [⟨⟨"0"⟩, [], [], [(⟨"gone/0"⟩, [(⟨22, 22, "tcp"⟩, true)])]⟩]).2 =
      ([], none) ∧
    (gatherIngressRules N [⟨⟨"0"⟩, [], [], [(⟨"gone/0"⟩, [(⟨22, 22, "tcp"⟩, true)])]⟩]).1.map
        (fun m => m.definedPorts.map Prod.fst) = [[⟨"gone/0"⟩]] := by
  refine ⟨gatherMachines_machines N machines [], ?_, ?_⟩
  · unfold gatherIngressRules
    rw [gatherMachines_none N _ [] (by
      intro m hm e he u hu
      rw [List.mem_singleton] at hm
      subst hm
      simp at hu)]
  · have h := gatherMachines_machines N
      [⟨⟨"0"⟩, [], [], [(⟨"gone/0"⟩, [(⟨22, 22, "tcp"⟩, true)])]⟩] []
    unfold gatherIngressRules
    rw [h]
    rfl

/-! ## `diffRanges` of a list with itself -/

theorem Strings.Difference_self (s : Strings) : s.Difference s = [] := by
  unfold Strings.Difference
  rw [List.filter_eq_nil_iff]
  intro a ha
  simp [ha]

theorem openOf_self (cur : List (PortRange × Strings)) (hn : (cur.map Prod.fst).Nodup)
    (e : PortRange × Strings) (he : e ∈ cur) : openOf cur e = none := by
  unfold openOf
  rw [lookup_of_mem cur e.1 e.2 hn he]
  simp [Strings.Difference_self, Strings.Size]

theorem closeOf_self (cur : List (PortRange × Strings)) (hn : (cur.map Prod.fst).Nodup)
    (e : PortRange × Strings) (he : e ∈ cur) : closeOf cur e = none := by
  unfold closeOf
  rw [lookup_of_mem cur e.1 e.2 hn he]
  simp [Strings.Difference_self, Strings.Size]

theorem closeOnly_self (cur : List (PortRange × Strings)) (hn : (cur.map Prod.fst).Nodup)
    (e : PortRange × Strings) (he : e ∈ cur) : closeOnly cur e = none := by
  unfold closeOnly
  rw [lookup_of_mem cur e.1 e.2 hn he]

theorem diffRanges_self (rules : List IngressRule) : diffRanges rules rules = ([], []) := by
  have hn := nodupKeys_portCidrs rules
  have h1 : rawOpen (portCidrs rules) (portCidrs rules) = [] := by
    unfold rawOpen
    rw [List.filterMap_eq_nil_iff]
    exact fun e he => openOf_self _ hn e he
  have h2 : rawClose (portCidrs rules) (portCidrs rules) = [] := by
    unfold rawClose
    rw [List.append_eq_nil, List.filterMap_eq_nil_iff, List.filterMap_eq_nil_iff]
    exact ⟨fun e he => closeOf_self _ hn e he, fun e he => closeOnly_self _ hn e he⟩
  rw [diffRanges_eq, h1, h2]
  rfl
/-! ## `flushMachine` -/

theorem gatherDefinedPorts_congr
    (N : String → Int → Int → List String → IngressRule × Option Err)
    (entries : List (UnitTag × portRanges)) (m m2 : machineData) (want : List IngressRule)
    (h : m2.unitds = m.unitds) :
    (gatherDefinedPorts N entries m2 want).2 = (gatherDefinedPorts N entries m want).2 := by
  induction entries generalizing want with
  | nil => simp [gatherDefinedPorts]
  | cons e entries ih =>
    obtain ⟨unitTag, ranges⟩ := e
    cases hl : m.unitds.lookup unitTag with
    | none =>
      have hl2 : m2.unitds.lookup unitTag = none := by rw [h]; exact hl
      rw [gatherDefinedPorts_untracked N _ _ _ _ _ hl, gatherDefinedPorts_untracked N _ _ _ _ _ hl2]
      exact ih _
    | some unitd =>
      have hl2 : m2.unitds.lookup unitTag = some unitd := by rw [h]; exact hl
      rw [gatherDefinedPorts, gatherDefinedPorts, hl, hl2]
      simp only
      split
      · rcases gatherPortRanges N _ ranges want with ⟨w2, _ | err⟩
        · exact ih _
        · rfl
      · exact ih _

theorem gatherDefinedPorts_err_nil
    (N : String → Int → Int → List String → IngressRule × Option Err)
    (entries : List (UnitTag × portRanges)) (m : machineData) (want : List IngressRule)
    (err : Err) (h : (gatherDefinedPorts N entries m want).2.2 = some err) :
    (gatherDefinedPorts N entries m want).2.1 = [] := by
  induction entries generalizing want with
  | nil => simp [gatherDefinedPorts] at h
  | cons e entries ih =>
    obtain ⟨unitTag, ranges⟩ := e
    cases hl : m.unitds.lookup unitTag with
    | none =>
      rw [gatherDefinedPorts_untracked N _ _ _ _ _ hl] at h ⊢
      exact ih _ h
    | some unitd =>
      rw [gatherDefinedPorts, hl] at h ⊢
      simp only at h ⊢
      split at h
      · rename_i hz
        rw [if_pos hz]
        rcases hp : gatherPortRanges N _ ranges want with ⟨w2, _ | err2⟩
        · rw [hp] at h
          exact ih _ h
        · rfl
      · rename_i hz
        rw [if_neg hz]
        exact ih _ h

theorem gatherIngressRules_single
    (N : String → Int → Int → List String → IngressRule × Option Err) (m : machineData) :
    gatherIngressRules N [m] =
      ([m], (gatherDefinedPorts N m.definedPorts m []).2.1,
        (gatherDefinedPorts N m.definedPorts m []).2.2) := by
  unfold gatherIngressRules
  rw [gatherMachines]
  have h1 := gatherDefinedPorts_machined N m.definedPorts m []
  rcases hg : gatherDefinedPorts N m.definedPorts m [] with ⟨m2, want2, _ | err⟩
  · rw [hg] at h1
    simp only at h1
    subst h1
    simp [gatherMachines]
  · rw [hg] at h1
    simp only at h1
    subst h1
    have h3 := gatherDefinedPorts_err_nil N m2.definedPorts m2 [] err (by rw [hg])
    rw [hg] at h3
    simp only at h3
    rw [h3]


theorem gatherIngressRules_setRules
    (N : String → Int → Int → List String → IngressRule × Option Err) (m : machineData)
    (rules : List IngressRule) :
    (gatherIngressRules N [{ m with ingressRules := rules }]).2 = (gatherIngressRules N [m]).2 := by
  rw [gatherIngressRules_single, gatherIngressRules_single]
  show (gatherDefinedPorts N m.definedPorts { m with ingressRules := rules } []).2 =
    (gatherDefinedPorts N m.definedPorts m []).2
  exact gatherDefinedPorts_congr N _ m _ [] rfl

/-- The body of `flushMachine` once `gatherIngressRules` has returned. -/
theorem flushMachine_eq (api : Api) (fw : Firewaller) (calls : List Call) (m : machineData) :
    flushMachine api fw calls m =
      match (gatherIngressRules api.NewIngressRule [m]).2 with
      | (_, some err) => (fw, calls, m, some (Err.trace err))
      | (want, none) =>
        if fw.globalMode then
          match fw.globalIngressRuleRef with
          | none =>
            if (diffRanges m.ingressRules want).1.length = 0 ∧
                (diffRanges m.ingressRules want).2.length = 0 then
              (fw, calls, { m with ingressRules := want }, none)
            else (fw, calls, { m with ingressRules := want }, some nilMapPanic)
          | some ref =>
            ({ fw with globalIngressRuleRef := some (flushGlobalPorts api ref calls
                (diffRanges m.ingressRules want).1 (diffRanges m.ingressRules want).2).1 },
              (flushGlobalPorts api ref calls
                (diffRanges m.ingressRules want).1 (diffRanges m.ingressRules want).2).2.1,
              { m with ingressRules := want },
              (flushGlobalPorts api ref calls
                (diffRanges m.ingressRules want).1 (diffRanges m.ingressRules want).2).2.2)
        else
          (fw, (flushInstancePorts api calls { m with ingressRules := want }
              (diffRanges m.ingressRules want).1 (diffRanges m.ingressRules want).2).1,
            { m with ingressRules := want },
            (flushInstancePorts api calls { m with ingressRules := want }
              (diffRanges m.ingressRules want).1 (diffRanges m.ingressRules want).2).2) := by
  unfold flushMachine
  rw [gatherIngressRules_single]
  obtain ⟨t1, t2, t3, gm, ref, t4⟩ := fw
  rcases (gatherDefinedPorts api.NewIngressRule m.definedPorts m []).2 with ⟨want, _ | err⟩
  · cases gm <;> cases ref <;> rfl
  · rfl

/-- C12: when `gatherIngressRules(m)` returns `want` without error,
`flushMachine(m)` leaves `m` with `ingressRules = want` and otherwise as it was,
hands the flush of the mode (`flushInstancePorts`, or `flushGlobalPorts` on the
reference-count map) exactly the pair `diffRanges(old m.ingressRules, want)` and
returns what that flush returns; afterwards `gatherIngressRules(m)` is still
`want`, that is `m.ingressRules`, and the `diffRanges` of an immediately
repeated `flushMachine(m)` has an empty `toOpen` and an empty `toClose`. -/
theorem flushMachine_spec (api : Api) (fw : Firewaller) (calls : List Call) (m : machineData)
    (want : List IngressRule)
    (hg : (gatherIngressRules api.NewIngressRule [m]).2 = (want, none)) :
    (flushMachine api fw calls m).2.2.1 = { m with ingressRules := want } ∧
    (fw.globalMode = false →
      (flushMachine api fw calls m).1 = fw ∧
      ((flushMachine api fw calls m).2.1, (flushMachine api fw calls m).2.2.2) =
        flushInstancePorts api calls { m with ingressRules := want }
          (diffRanges m.ingressRules want).1 (diffRanges m.ingressRules want).2) ∧
    (fw.globalMode = true → ∀ ref, fw.globalIngressRuleRef = some ref →
      ((flushMachine api fw calls m).1.globalIngressRuleRef.getD [],
          (flushMachine api fw calls m).2.1, (flushMachine api fw calls m).2.2.2) =
        flushGlobalPorts api ref calls
          (diffRanges m.ingressRules want).1 (diffRanges m.ingressRules want).2) ∧
    (gatherIngressRules api.NewIngressRule [(flushMachine api fw calls m).2.2.1]).2 =
      ((flushMachine api fw calls m).2.2.1.ingressRules, none) ∧
    diffRanges (flushMachine api fw calls m).2.2.1.ingressRules
      (gatherIngressRules api.NewIngressRule [(flushMachine api fw calls m).2.2.1]).2.1 =
        ([], []) := by
  have hm : (flushMachine api fw calls m).2.2.1 = { m with ingressRules := want } := by
    rw [flushMachine_eq, hg]
    obtain ⟨t1, t2, t3, gm, ref, t4⟩ := fw
    cases gm
    · rfl
    · cases ref
      · simp only [if_true]
        split <;> rfl
      · rfl
  have hg2 : (gatherIngressRules api.NewIngressRule [{ m with ingressRules := want }]).2 =
      (want, none) := by
    rw [gatherIngressRules_setRules, hg]
  refine ⟨hm, ?_, ?_, ?_, ?_⟩
  · intro hmode
    rw [flushMachine_eq, hg]
    simp [hmode]
  · intro hmode ref href
    rw [flushMachine_eq, hg]
    simp [hmode, href]
  · rw [hm, hg2]
  · rw [hm, hg2]
    exact diffRanges_self want
theorem flushMachine_spec_witness :
    (gatherIngressRules okApi.NewIngressRule [sampleMachine true []]).2 =
        ([⟨⟨80, 80, "tcp"⟩, ["0.0.0.0/0"]⟩], none) ∧
      (flushMachine okApi instanceWorker [] (sampleMachine true [])).2.2.1 =
        sampleMachine true [⟨⟨80, 80, "tcp"⟩, ["0.0.0.0/0"]⟩] ∧
      (flushMachine okApi instanceWorker [] (sampleMachine true [])).2.1 =
        [Call.Machine ⟨"0"⟩, Call.InstanceId ⟨"0"⟩, Call.Instances ["i-0"],
          Call.InstanceOpenPorts "i-0" "0" [⟨⟨80, 80, "tcp"⟩, ["0.0.0.0/0"]⟩]] :=
  ⟨by decide,
    (flushMachine_spec okApi instanceWorker [] (sampleMachine true [])
      [⟨⟨80, 80, "tcp"⟩, ["0.0.0.0/0"]⟩] (by decide)).1,
    by decide⟩

/-- C13 (the claim fails): with a cloud whose instances refuse `OpenPorts`,
`flushMachine` in instance mode returns that error and the machine, whose
`ingressRules` were empty, is left with the gathered rule; with an orchestrator
that does not find the machine, `flushMachine` returns without pushing and
leaves the gathered rule as well. -/
theorem flushMachine_error_keeps_want :
    (flushMachine failOpenApi instanceWorker [] (sampleMachine true [])).2.2.2 =
        some (Err.errorf "cannot open ports" []) ∧
      (flushMachine failOpenApi instanceWorker [] (sampleMachine true [])).2.1 =
        [Call.Machine ⟨"0"⟩, Call.InstanceId ⟨"0"⟩, Call.Instances ["i-0"],
          Call.InstanceOpenPorts "i-0" "0" [⟨⟨80, 80, "tcp"⟩, ["0.0.0.0/0"]⟩]] ∧
      (sampleMachine true []).ingressRules = [] ∧
      (flushMachine failOpenApi instanceWorker [] (sampleMachine true [])).2.2.1.ingressRules =
        [⟨⟨80, 80, "tcp"⟩, ["0.0.0.0/0"]⟩] ∧
      (flushMachine notFoundApi instanceWorker [] (sampleMachine true [])).2.2.2 = none ∧
      (flushMachine notFoundApi instanceWorker [] (sampleMachine true [])).2.1 =
        [Call.Machine ⟨"0"⟩] ∧
      (flushMachine notFoundApi instanceWorker [] (sampleMachine true [])).2.2.1.ingressRules =
        [⟨⟨80, 80, "tcp"⟩, ["0.0.0.0/0"]⟩] := by
  decide

/-- C13 (amended): `flushMachine` assigns the gathered rules to
`machine.ingressRules` before the flush of the mode and never restores the old
value: whenever `gatherIngressRules` returns `want` without error,
`machine.ingressRules` is `want` after the call, whatever the flush returns;
`machine.ingressRules` keeps the value it had before the call (and no call is
made, and the traced error is returned) when `gatherIngressRules` fails. -/
theorem flushMachine_ingressRules (api : Api) (fw : Firewaller) (calls : List Call)
    (m : machineData) :
    (∀ want, (gatherIngressRules api.NewIngressRule [m]).2 = (want, none) →
      (flushMachine api fw calls m).2.2.1.ingressRules = want) ∧
    (∀ want err, (gatherIngressRules api.NewIngressRule [m]).2 = (want, some err) →
      flushMachine api fw calls m = (fw, calls, m, some (Err.trace err))) := by
  constructor
  · intro want hg
    rw [flushMachine_eq, hg]
    obtain ⟨t1, t2, t3, gm, ref, t4⟩ := fw
    cases gm
    · rfl
    · cases ref
      · simp only [if_true]
        split <;> rfl
      · rfl
  · intro want err hg
    rw [flushMachine_eq, hg]

/-- C14: `flushInstancePorts` with an empty `toOpen` and an empty `toClose`
returns no error and makes no call at all (no machine lookup, no `InstanceId`
query, no cloud call), whatever the orchestrator would answer; hence in instance
mode `flushMachine` of a machine whose gathered rules are its `ingressRules`
returns no error, makes no call and leaves the machine and the worker as they
were. -/
theorem flushInstancePorts_empty (api : Api) (fw : Firewaller) (calls : List Call)
    (m : machineData) (hmode : fw.globalMode = false)
    (hg : (gatherIngressRules api.NewIngressRule [m]).2 = (m.ingressRules, none)) :
    (∀ m2 : machineData, flushInstancePorts api calls m2 [] [] = (calls, none)) ∧
    flushMachine api fw calls m = (fw, calls, m, none) := by
  have h1 : ∀ m2 : machineData, flushInstancePorts api calls m2 [] [] = (calls, none) := by
    intro m2
    unfold flushInstancePorts
    simp
  refine ⟨h1, ?_⟩
  rw [flushMachine_eq, hg]
  simp only [hmode, diffRanges_self, h1]
  rfl

theorem flushInstancePorts_empty_witness :
    instanceWorker.globalMode = false ∧
      (gatherIngressRules notFoundApi.NewIngressRule
        [sampleMachine true [⟨⟨80, 80, "tcp"⟩, ["0.0.0.0/0"]⟩]]).2 =
        ((sampleMachine true [⟨⟨80, 80, "tcp"⟩, ["0.0.0.0/0"]⟩]).ingressRules, none) ∧
      flushMachine notFoundApi instanceWorker []
          (sampleMachine true [⟨⟨80, 80, "tcp"⟩, ["0.0.0.0/0"]⟩]) =
        (instanceWorker, [], sampleMachine true [⟨⟨80, 80, "tcp"⟩, ["0.0.0.0/0"]⟩], none) :=
  ⟨rfl, by decide,
    (flushInstancePorts_empty notFoundApi instanceWorker []
      (sampleMachine true [⟨⟨80, 80, "tcp"⟩, ["0.0.0.0/0"]⟩]) rfl (by decide)).2⟩

/-! ## The reference counts of `flushGlobalPorts` -/

theorem lookup_mapDelete {κ ν : Type} [DecidableEq κ] (m : List (κ × ν)) (k q : κ) :
    (mapDelete m k).lookup q = if q = k then none else m.lookup q := by
  unfold mapDelete
  induction m with
  | nil => simp
  | cons e m ih =>
    obtain ⟨a, b⟩ := e
    by_cases hak : a = k
    · subst hak
      rw [List.filter_cons]
      simp only [ne_eq, not_true_eq_false, decide_False, Bool.false_eq_true, if_false, ih,
        List.lookup_cons]
      by_cases hq : q = a
      · simp [hq]
      · have : (q == a) = false := by simpa using hq
        simp [hq, this]
    · rw [List.filter_cons]
      simp only [ne_eq, hak, not_false_eq_true, decide_True, if_true, List.lookup_cons, ih]
      by_cases hq : q = k
      · subst hq
        have : (q == a) = false := by simpa using fun e => hak e.symm
        simp [this]
      · simp [hq]

theorem refGet_mapSet (m : List (String × Int)) (k q : String) (v : Int) :
    refGet (mapSet m k v) q = if q = k then v else refGet m q := by
  unfold refGet
  rw [lookup_mapSet]
  by_cases hq : q = k
  · simp [hq]
  · simp [hq]

theorem refGet_mapDelete (m : List (String × Int)) (k q : String) :
    refGet (mapDelete m k) q = if q = k then 0 else refGet m q := by
  unfold refGet
  rw [lookup_mapDelete]
  by_cases hq : q = k
  · simp [hq]
  · simp [hq]

theorem refGet_globalOpenStep (name : IngressRule → String)
    (acc : List (String × Int) × List IngressRule) (x : IngressRule) (s : String) :
    refGet (globalOpenStep name acc x).1 s =
      refGet acc.1 s + (if s = name x then 1 else 0) := by
  unfold globalOpenStep
  simp only
  rw [refGet_mapSet]
  by_cases hs : s = name x
  · simp [hs]
  · simp [hs]

theorem refGet_globalCloseStep (name : IngressRule → String)
    (acc : List (String × Int) × List IngressRule) (x : IngressRule) (s : String) :
    refGet (globalCloseStep name acc x).1 s =
      refGet acc.1 s - (if s = name x then 1 else 0) := by
  unfold globalCloseStep
  simp only
  split
  · rename_i hz
    rw [refGet_mapSet] at hz
    simp only [if_true] at hz
    rw [refGet_mapDelete, refGet_mapSet]
    by_cases hs : s = name x
    · subst hs
      simp only [if_true]
      omega
    · simp [hs]
  · rw [refGet_mapSet]
    by_cases hs : s = name x
    · simp [hs]
    · simp [hs]

theorem inits_zip_cons {α : Type} (x : α) (xs : List α) :
    (x :: xs).inits.zip (x :: xs) =
      ([], x) :: (xs.inits.zip xs).map (fun e => (x :: e.1, e.2)) := by
  rw [List.inits_cons, List.zip_cons_cons, List.zip_map_left]
  congr 1

theorem openedSpec_cons (name : IngressRule → String) (cnt : String → Int) (x : IngressRule)
    (xs : List IngressRule) :
    openedSpec name cnt (x :: xs) =
      (if cnt (name x) = 0 then [x] else []) ++
        openedSpec name (fun s => cnt s + (if s = name x then 1 else 0)) xs := by
  unfold openedSpec
  rw [inits_zip_cons, List.filter_cons, List.filter_map]
  have hfun : ((fun e : List IngressRule × IngressRule =>
      decide (cnt (name e.2) + ((e.1.map name).count (name e.2) : Nat) = 0)) ∘
        fun e : List IngressRule × IngressRule => (x :: e.1, e.2)) =
      fun e : List IngressRule × IngressRule =>
        decide (cnt (name e.2) + (if name e.2 = name x then 1 else 0) +
          ((e.1.map name).count (name e.2) : Nat) = 0) := by
    funext e
    apply decide_eq_decide.mpr
    simp only [List.map_cons, List.count_cons]
    by_cases h : name x = name e.2
    · have hb : (name x == name e.2) = true := by simpa using h
      rw [if_pos hb, if_pos h.symm]
      push_cast
      constructor <;> intro hh <;> omega
    · have hb : ¬ (name x == name e.2) = true := by simpa using h
      rw [if_neg hb, if_neg (fun e2 => h e2.symm)]
      simp
  rw [hfun]
  have hmap : ∀ l : List (List IngressRule × IngressRule),
      (l.map (fun e => (x :: e.1, e.2))).map Prod.snd = l.map Prod.snd := by
    intro l
    rw [List.map_map]
    rfl
  simp only [List.map_nil, List.count_nil, Nat.cast_zero, add_zero, decide_eq_true_eq]
  by_cases h0 : cnt (name x) = 0
  · rw [if_pos h0, if_pos h0, List.map_cons, hmap]
    rfl
  · rw [if_neg h0, if_neg h0, hmap]
    rfl

theorem closedSpec_cons (name : IngressRule → String) (cnt : String → Int) (x : IngressRule)
    (xs : List IngressRule) :
    closedSpec name cnt (x :: xs) =
      (if cnt (name x) - 1 = 0 then [x] else []) ++
        closedSpec name (fun s => cnt s - (if s = name x then 1 else 0)) xs := by
  unfold closedSpec
  rw [inits_zip_cons, List.filter_cons, List.filter_map]
  have hfun : ((fun e : List IngressRule × IngressRule =>
      decide (cnt (name e.2) - ((e.1.map name).count (name e.2) : Nat) - 1 = 0)) ∘
        fun e : List IngressRule × IngressRule => (x :: e.1, e.2)) =
      fun e : List IngressRule × IngressRule =>
        decide (cnt (name e.2) - (if name e.2 = name x then 1 else 0) -
          ((e.1.map name).count (name e.2) : Nat) - 1 = 0) := by
    funext e
    apply decide_eq_decide.mpr
    simp only [List.map_cons, List.count_cons]
    by_cases h : name x = name e.2
    · have hb : (name x == name e.2) = true := by simpa using h
      rw [if_pos hb, if_pos h.symm]
      push_cast
      constructor <;> intro hh <;> omega
    · have hb : ¬ (name x == name e.2) = true := by simpa using h
      rw [if_neg hb, if_neg (fun e2 => h e2.symm)]
      simp
  rw [hfun]
  have hmap : ∀ l : List (List IngressRule × IngressRule),
      (l.map (fun e => (x :: e.1, e.2))).map Prod.snd = l.map Prod.snd := by
    intro l
    rw [List.map_map]
    rfl
  simp only [List.map_nil, List.count_nil, Nat.cast_zero, sub_zero, decide_eq_true_eq]
  by_cases h0 : cnt (name x) - 1 = 0
  · rw [if_pos h0, if_pos h0, List.map_cons, hmap]
    rfl
  · rw [if_neg h0, if_neg h0, hmap]
    rfl
theorem globalOpenStep_snd (name : IngressRule → String)
    (acc : List (String × Int) × List IngressRule) (x : IngressRule) :
    (globalOpenStep name acc x).2 = acc.2 ++ (if refGet acc.1 (name x) = 0 then [x] else []) := by
  unfold globalOpenStep
  simp only
  split <;> simp

theorem globalCloseStep_snd (name : IngressRule → String)
    (acc : List (String × Int) × List IngressRule) (x : IngressRule) :
    (globalCloseStep name acc x).2 =
      acc.2 ++ (if refGet acc.1 (name x) - 1 = 0 then [x] else []) := by
  unfold globalCloseStep
  simp only
  rw [refGet_mapSet]
  simp only [if_true]
  split <;> simp

theorem foldl_globalOpenStep (name : IngressRule → String) (rules : List IngressRule)
    (acc : List (String × Int) × List IngressRule) :
    (∀ s, refGet (rules.foldl (globalOpenStep name) acc).1 s =
      refGet acc.1 s + ((rules.map name).count s : Nat)) ∧
    (rules.foldl (globalOpenStep name) acc).2 = acc.2 ++ openedSpec name (refGet acc.1) rules := by
  induction rules generalizing acc with
  | nil => simp [openedSpec]
  | cons x xs ih =>
    rw [List.foldl_cons]
    obtain ⟨ih1, ih2⟩ := ih (globalOpenStep name acc x)
    constructor
    · intro s
      rw [ih1, refGet_globalOpenStep, List.map_cons, List.count_cons]
      by_cases hs : s = name x
      · have hb : (name x == s) = true := by simpa using hs.symm
        rw [if_pos hs, if_pos hb]
        push_cast
        omega
      · have hb : ¬ (name x == s) = true := by simpa using fun e => hs e.symm
        rw [if_neg hs, if_neg hb]
        simp
    · rw [ih2, globalOpenStep_snd, openedSpec_cons, List.append_assoc]
      have hf : refGet (globalOpenStep name acc x).1 =
          fun s => refGet acc.1 s + (if s = name x then 1 else 0) := by
        funext s
        exact refGet_globalOpenStep name acc x s
      rw [hf]

theorem foldl_globalCloseStep (name : IngressRule → String) (rules : List IngressRule)
    (acc : List (String × Int) × List IngressRule) :
    (∀ s, refGet (rules.foldl (globalCloseStep name) acc).1 s =
      refGet acc.1 s - ((rules.map name).count s : Nat)) ∧
    (rules.foldl (globalCloseStep name) acc).2 =
      acc.2 ++ closedSpec name (refGet acc.1) rules := by
  induction rules generalizing acc with
  | nil => simp [closedSpec]
  | cons x xs ih =>
    rw [List.foldl_cons]
    obtain ⟨ih1, ih2⟩ := ih (globalCloseStep name acc x)
    constructor
    · intro s
      rw [ih1, refGet_globalCloseStep, List.map_cons, List.count_cons]
      by_cases hs : s = name x
      · have hb : (name x == s) = true := by simpa using hs.symm
        rw [if_pos hs, if_pos hb]
        push_cast
        omega
      · have hb : ¬ (name x == s) = true := by simpa using fun e => hs e.symm
        rw [if_neg hs, if_neg hb]
        simp
    · rw [ih2, globalCloseStep_snd, closedSpec_cons, List.append_assoc]
      have hf : refGet (globalCloseStep name acc x).1 =
          fun s => refGet acc.1 s - (if s = name x then 1 else 0) := by
        funext s
        exact refGet_globalCloseStep name acc x s
      rw [hf]

theorem lookup_globalCloseStep_ne (name : IngressRule → String)
    (acc : List (String × Int) × List IngressRule) (x : IngressRule) (s : String)
    (hs : s ≠ name x) : (globalCloseStep name acc x).1.lookup s = acc.1.lookup s := by
  unfold globalCloseStep
  simp only
  split
  · rw [lookup_mapDelete, if_neg hs, lookup_mapSet, if_neg hs]
  · rw [lookup_mapSet, if_neg hs]

theorem lookup_globalCloseStep_self (name : IngressRule → String)
    (acc : List (String × Int) × List IngressRule) (x : IngressRule)
    (h0 : refGet (globalCloseStep name acc x).1 (name x) = 0) :
    (globalCloseStep name acc x).1.lookup (name x) = none := by
  unfold globalCloseStep at h0 ⊢
  simp only at h0 ⊢
  split
  · rw [lookup_mapDelete, if_pos rfl]
  · rename_i hz
    rw [if_neg hz] at h0
    exact absurd h0 hz

theorem foldl_globalCloseStep_untouched (name : IngressRule → String)
    (rules : List IngressRule) (acc : List (String × Int) × List IngressRule) (s : String)
    (hs : s ∉ rules.map name) :
    (rules.foldl (globalCloseStep name) acc).1.lookup s = acc.1.lookup s := by
  induction rules generalizing acc with
  | nil => rfl
  | cons x xs ih =>
    rw [List.map_cons, List.mem_cons, not_or] at hs
    rw [List.foldl_cons, ih _ hs.2, lookup_globalCloseStep_ne name acc x s hs.1]

theorem foldl_globalCloseStep_deleted (name : IngressRule → String)
    (rules : List IngressRule) (acc : List (String × Int) × List IngressRule) (s : String)
    (hs : s ∈ rules.map name)
    (h0 : refGet (rules.foldl (globalCloseStep name) acc).1 s = 0) :
    (rules.foldl (globalCloseStep name) acc).1.lookup s = none := by
  induction rules generalizing acc with
  | nil => simp at hs
  | cons x xs ih =>
    rw [List.foldl_cons] at h0 ⊢
    by_cases hx : s ∈ xs.map name
    · exact ih _ hx h0
    · have hsx : s = name x := by
        rw [List.map_cons, List.mem_cons] at hs
        rcases hs with h | h
        · exact h
        · exact absurd h hx
      have hl := foldl_globalCloseStep_untouched name xs (globalCloseStep name acc x) s hx
      rw [hl]
      subst hsx
      apply lookup_globalCloseStep_self
      have : refGet (List.foldl (globalCloseStep name) (globalCloseStep name acc x) xs).1 (name x) =
          refGet (globalCloseStep name acc x).1 (name x) := by
        unfold refGet
        rw [hl]
      rw [← this]
      exact h0

/-- The result of `flushGlobalPorts` in terms of the two filtered lists. -/
theorem flushGlobalPorts_eq (api : Api) (ref : List (String × Int)) (calls : List Call)
    (rawOpen rawClose : List IngressRule) :
    (flushGlobalPorts api ref calls rawOpen rawClose).2 =
      if (openedSpec api.RuleString (refGet ref) rawOpen).length > 0 then
        match api.OpenPorts calls (openedSpec api.RuleString (refGet ref) rawOpen) with
        | some err =>
          (calls ++ [Call.OpenPorts (openedSpec api.RuleString (refGet ref) rawOpen)], some err)
        | none =>
          if (closedSpec api.RuleString (countAfterOpen api.RuleString ref rawOpen)
              rawClose).length > 0 then
            (calls ++ [Call.OpenPorts (openedSpec api.RuleString (refGet ref) rawOpen)] ++
                [Call.ClosePorts (closedSpec api.RuleString
                  (countAfterOpen api.RuleString ref rawOpen) rawClose)],
              api.ClosePorts
                (calls ++ [Call.OpenPorts (openedSpec api.RuleString (refGet ref) rawOpen)])
                (closedSpec api.RuleString (countAfterOpen api.RuleString ref rawOpen) rawClose))
          else (calls ++ [Call.OpenPorts (openedSpec api.RuleString (refGet ref) rawOpen)], none)
      else
        if (closedSpec api.RuleString (countAfterOpen api.RuleString ref rawOpen)
            rawClose).length > 0 then
          (calls ++ [Call.ClosePorts (closedSpec api.RuleString
              (countAfterOpen api.RuleString ref rawOpen) rawClose)],
            api.ClosePorts calls
              (closedSpec api.RuleString (countAfterOpen api.RuleString ref rawOpen) rawClose))
        else (calls, none) := by
  obtain ⟨ho1, ho2⟩ := foldl_globalOpenStep api.RuleString rawOpen (ref, [])
  obtain ⟨hc1, hc2⟩ := foldl_globalCloseStep api.RuleString rawClose
    ((rawOpen.foldl (globalOpenStep api.RuleString) (ref, [])).1, [])
  have hcnt : refGet (rawOpen.foldl (globalOpenStep api.RuleString) (ref, [])).1 =
      countAfterOpen api.RuleString ref rawOpen := by
    funext s
    rw [ho1]
    rfl
  simp only [List.nil_append] at ho2 hc2
  rw [hcnt] at hc2
  unfold flushGlobalPorts
  simp only [ho2, hc2]
  by_cases hlen : (openedSpec api.RuleString (refGet ref) rawOpen).length > 0
  · rw [if_pos hlen, if_pos hlen]
    rcases hop : api.OpenPorts calls (openedSpec api.RuleString (refGet ref) rawOpen) with _ | err
    · simp only
      split <;> rfl
    · rfl
  · rw [if_neg hlen, if_neg hlen]
    simp only
    split <;> rfl
/-- C15: `flushGlobalPorts` adds to the count of every name the number of rules
of `rawOpen` with that name and takes off the number of rules of `rawClose` with
that name; a name of `rawClose` whose count ends at zero is not stored in the map
any more; `OpenPorts` receives exactly the rules of `rawOpen` whose count was
zero before their increment (`openedSpec`) and is called only when there is
one; `ClosePorts` receives exactly the rules of `rawClose` whose count becomes
zero at their decrement (`closedSpec`) and is called only when there is one
(and not at all when `OpenPorts` returned an error, which ends the function). -/
theorem flushGlobalPorts_spec (api : Api) (ref : List (String × Int)) (calls : List Call)
    (rawOpen rawClose : List IngressRule) :
    (∀ s, refGet (flushGlobalPorts api ref calls rawOpen rawClose).1 s =
      refGet ref s + ((rawOpen.map api.RuleString).count s : Nat) -
        ((rawClose.map api.RuleString).count s : Nat)) ∧
    (∀ s ∈ rawClose.map api.RuleString,
      refGet (flushGlobalPorts api ref calls rawOpen rawClose).1 s = 0 →
      (flushGlobalPorts api ref calls rawOpen rawClose).1.lookup s = none) ∧
    (flushGlobalPorts api ref calls rawOpen rawClose).2 =
      if (openedSpec api.RuleString (refGet ref) rawOpen).length > 0 then
        match api.OpenPorts calls (openedSpec api.RuleString (refGet ref) rawOpen) with
        | some err =>
          (calls ++ [Call.OpenPorts (openedSpec api.RuleString (refGet ref) rawOpen)], some err)
        | none =>
          if (closedSpec api.RuleString (countAfterOpen api.RuleString ref rawOpen)
              rawClose).length > 0 then
            (calls ++ [Call.OpenPorts (openedSpec api.RuleString (refGet ref) rawOpen)] ++
                [Call.ClosePorts (closedSpec api.RuleString
                  (countAfterOpen api.RuleString ref rawOpen) rawClose)],
              api.ClosePorts
                (calls ++ [Call.OpenPorts (openedSpec api.RuleString (refGet ref) rawOpen)])
                (closedSpec api.RuleString (countAfterOpen api.RuleString ref rawOpen) rawClose))
          else (calls ++ [Call.OpenPorts (openedSpec api.RuleString (refGet ref) rawOpen)], none)
      else
        if (closedSpec api.RuleString (countAfterOpen api.RuleString ref rawOpen)
            rawClose).length > 0 then
          (calls ++ [Call.ClosePorts (closedSpec api.RuleString
              (countAfterOpen api.RuleString ref rawOpen) rawClose)],
            api.ClosePorts calls
              (closedSpec api.RuleString (countAfterOpen api.RuleString ref rawOpen) rawClose))
        else (calls, none) := by
  have hfst : (flushGlobalPorts api ref calls rawOpen rawClose).1 =
      (rawClose.foldl (globalCloseStep api.RuleString)
        ((rawOpen.foldl (globalOpenStep api.RuleString) (ref, [])).1, [])).1 := by
    unfold flushGlobalPorts
    simp only
    split
    · rfl
    · split <;> rfl
  refine ⟨?_, ?_, flushGlobalPorts_eq api ref calls rawOpen rawClose⟩
  · intro s
    rw [hfst, (foldl_globalCloseStep api.RuleString rawClose _).1 s,
      (foldl_globalOpenStep api.RuleString rawOpen _).1 s]
  · intro s hs h0
    rw [hfst] at h0 ⊢
    exact foldl_globalCloseStep_deleted api.RuleString rawClose _ s hs h0
/-! ## Reference counting of one rule -/

theorem globalFlushes_append (api : Api) (xs ys : List (List IngressRule × List IngressRule))
    (ref ref2 : List (String × Int)) (calls calls2 : List Call)
    (h : globalFlushes api xs ref calls = (ref2, calls2, none)) :
    globalFlushes api (xs ++ ys) ref calls = globalFlushes api ys ref2 calls2 := by
  induction xs generalizing ref calls with
  | nil =>
    simp only [globalFlushes, Prod.mk.injEq, and_true] at h
    obtain ⟨h1, h2⟩ := h
    subst h1 h2
    rfl
  | cons x xs ih =>
    rw [List.cons_append, globalFlushes]
    rw [globalFlushes] at h
    rcases hf : flushGlobalPorts api ref calls x.1 x.2 with ⟨r3, c3, _ | err⟩
    · rw [hf] at h
      simp only at h ⊢
      exact ih r3 c3 h
    · rw [hf] at h
      simp at h

theorem flushGlobalPorts_open_first (api : Api) (calls : List Call) (r : IngressRule)
    (hO : ∀ cs rules, api.OpenPorts cs rules = none) :
    flushGlobalPorts api [] calls [r] [] =
      ([(api.RuleString r, 1)], calls ++ [Call.OpenPorts [r]], none) := by
  simp [flushGlobalPorts, globalOpenStep, refGet, mapSet, hO]

theorem flushGlobalPorts_open_again (api : Api) (calls : List Call) (r : IngressRule) (c : Int)
    (hc : 0 < c) :
    flushGlobalPorts api [(api.RuleString r, c)] calls [r] [] =
      ([(api.RuleString r, c + 1)], calls, none) := by
  have hne : ¬ c = 0 := by omega
  simp [flushGlobalPorts, globalOpenStep, refGet, mapSet, hne]

theorem flushGlobalPorts_close_more (api : Api) (calls : List Call) (r : IngressRule) (c : Int)
    (hc : 1 < c) :
    flushGlobalPorts api [(api.RuleString r, c)] calls [] [r] =
      ([(api.RuleString r, c - 1)], calls, none) := by
  have hne : ¬ c - 1 = 0 := by omega
  simp [flushGlobalPorts, globalCloseStep, refGet, mapSet, hne]

theorem flushGlobalPorts_close_last (api : Api) (calls : List Call) (r : IngressRule)
    (hC : ∀ cs rules, api.ClosePorts cs rules = none) :
    flushGlobalPorts api [(api.RuleString r, 1)] calls [] [r] =
      ([], calls ++ [Call.ClosePorts [r]], none) := by
  simp [flushGlobalPorts, globalCloseStep, refGet, mapSet, mapDelete, hC]

theorem globalFlushes_opens (api : Api) (calls : List Call) (r : IngressRule) (j : Nat) (c : Int)
    (hc : 0 < c) :
    globalFlushes api (List.replicate j ([r], [])) [(api.RuleString r, c)] calls =
      ([(api.RuleString r, c + j)], calls, none) := by
  induction j generalizing c with
  | zero => simp [globalFlushes]
  | succ j ih =>
    rw [List.replicate_succ, globalFlushes, flushGlobalPorts_open_again api calls r c hc]
    simp only
    rw [ih (c + 1) (by omega)]
    push_cast
    congr 3
    omega

theorem globalFlushes_closes (api : Api) (calls : List Call) (r : IngressRule) (k : Nat) (c : Int)
    (hc : (k : Int) < c) :
    globalFlushes api (List.replicate k ([], [r])) [(api.RuleString r, c)] calls =
      ([(api.RuleString r, c - k)], calls, none) := by
  induction k generalizing c with
  | zero => simp [globalFlushes]
  | succ k ih =>
    have h1 : 1 < c := by push_cast at hc; omega
    rw [List.replicate_succ, globalFlushes, flushGlobalPorts_close_more api calls r c h1]
    simp only
    rw [ih (c - 1) (by push_cast at hc; omega)]
    push_cast
    congr 3
    omega

/-- C16: when the calls to the environment succeed and the reference-count map
starts empty, `j` successive flushes that each open the rule `r` (for every `j`
from 1 to `n`) have made the single call `OpenPorts([r])`, made by the first of
them, and leave the count `j`; `k < n` further flushes that each close `r` add
no call and leave the count `n - k`; the `n`-th of them makes the single call
`ClosePorts([r])` and leaves the map empty. -/
theorem globalFlushes_refcount (api : Api) (r : IngressRule) (n : Nat) (hn : 1 ≤ n)
    (hO : ∀ cs rules, api.OpenPorts cs rules = none)
    (hC : ∀ cs rules, api.ClosePorts cs rules = none) :
    (∀ j, 1 ≤ j → j ≤ n →
      globalFlushes api (List.replicate j ([r], [])) [] [] =
        ([(api.RuleString r, (j : Int))], [Call.OpenPorts [r]], none)) ∧
    (∀ k, k < n →
      globalFlushes api (List.replicate n ([r], []) ++ List.replicate k ([], [r])) [] [] =
        ([(api.RuleString r, (n : Int) - k)], [Call.OpenPorts [r]], none)) ∧
    globalFlushes api (List.replicate n ([r], []) ++ List.replicate n ([], [r])) [] [] =
      ([], [Call.OpenPorts [r], Call.ClosePorts [r]], none) := by
  have hopen : ∀ j, 1 ≤ j →
      globalFlushes api (List.replicate j ([r], [])) [] [] =
        ([(api.RuleString r, (j : Int))], [Call.OpenPorts [r]], none) := by
    intro j hj
    obtain ⟨i, rfl⟩ : ∃ i, j = i + 1 := ⟨j - 1, by omega⟩
    rw [List.replicate_succ, globalFlushes, flushGlobalPorts_open_first api [] r hO]
    simp only [List.nil_append]
    rw [globalFlushes_opens api _ r i 1 (by omega)]
    push_cast
    congr 3
    omega
  refine ⟨fun j hj _ => hopen j hj, ?_, ?_⟩
  · intro k hk
    rw [globalFlushes_append api _ _ _ _ _ _ (hopen n hn),
      globalFlushes_closes api _ r k n (by exact_mod_cast hk)]
  · obtain ⟨i, rfl⟩ : ∃ i, n = i + 1 := ⟨n - 1, by omega⟩
    rw [globalFlushes_append api _ _ _ _ _ _ (hopen (i + 1) hn)]
    have hsplit : List.replicate (i + 1) (([] : List IngressRule), [r]) =
        List.replicate i ([], [r]) ++ [([], [r])] := by
      rw [List.replicate_succ']
    rw [hsplit, globalFlushes_append api _ _ _ _ _ _
      (globalFlushes_closes api _ r i ((i + 1 : Nat) : Int) (by push_cast; omega))]
    have h1 : ((i + 1 : Nat) : Int) - (i : Int) = 1 := by push_cast; omega
    rw [h1, globalFlushes, flushGlobalPorts_close_last api _ r hC]
    rfl

theorem globalFlushes_refcount_witness :
    1 ≤ 2 ∧
      globalFlushes okApi [([⟨⟨443, 443, "tcp"⟩, ["0.0.0.0/0"]⟩], [])] [] [] =
        ([("443-443/tcp from 0.0.0.0/0", 1)],
          [Call.OpenPorts [⟨⟨443, 443, "tcp"⟩, ["0.0.0.0/0"]⟩]], none) ∧
      globalFlushes okApi
          (List.replicate 2 ([⟨⟨443, 443, "tcp"⟩, ["0.0.0.0/0"]⟩], []) ++
            List.replicate 1 ([], [⟨⟨443, 443, "tcp"⟩, ["0.0.0.0/0"]⟩])) [] [] =
        ([("443-443/tcp from 0.0.0.0/0", 1)],
          [Call.OpenPorts [⟨⟨443, 443, "tcp"⟩, ["0.0.0.0/0"]⟩]], none) ∧
      globalFlushes okApi
          (List.replicate 2 ([⟨⟨443, 443, "tcp"⟩, ["0.0.0.0/0"]⟩], []) ++
            List.replicate 2 ([], [⟨⟨443, 443, "tcp"⟩, ["0.0.0.0/0"]⟩])) [] [] =
        ([], [Call.OpenPorts [⟨⟨443, 443, "tcp"⟩, ["0.0.0.0/0"]⟩],
          Call.ClosePorts [⟨⟨443, 443, "tcp"⟩, ["0.0.0.0/0"]⟩]], none) :=
  ⟨by decide, by decide, by decide,
    (globalFlushes_refcount okApi ⟨⟨443, 443, "tcp"⟩, ["0.0.0.0/0"]⟩ 2 (by decide)
      (fun _ _ => rfl) (fun _ _ => rfl)).2.2⟩

/-! ## Stored counts and the environment -/

/-- The function `flushGlobalPorts` on its own, called with a `rawClose` whose
rule has no count (`flushMachine` closes rules of an earlier flush only, see
`globalRun_balanced`): from the empty map, one call that closes a
rule stores it with the count -1 although it was never passed to `OpenPorts`
(no call was made at all), and a second call that opens it stores it with the
count zero. -/
theorem flushGlobalPorts_unbalanced :
    globalFlushes okApi [([], [⟨⟨443, 443, "tcp"⟩, ["0.0.0.0/0"]⟩])] [] [] =
        ([("443-443/tcp from 0.0.0.0/0", -1)], [], none) ∧
      globalFlushes okApi
          [([], [⟨⟨443, 443, "tcp"⟩, ["0.0.0.0/0"]⟩]),
            ([⟨⟨443, 443, "tcp"⟩, ["0.0.0.0/0"]⟩], [])] [] [] =
        ([("443-443/tcp from 0.0.0.0/0", 0)], [], none) := by
  decide
theorem closesBalanced_cons (name : IngressRule → String) (cnt : String → Int) (x : IngressRule)
    (xs : List IngressRule) :
    closesBalanced name cnt (x :: xs) ↔
      0 < cnt (name x) ∧
        closesBalanced name (fun s => cnt s - (if s = name x then 1 else 0)) xs := by
  unfold closesBalanced
  rw [inits_zip_cons]
  simp only [List.mem_cons, List.mem_map, forall_eq_or_imp, List.map_nil, List.count_nil,
    Nat.cast_zero, sub_zero]
  constructor
  · rintro ⟨h1, h2⟩
    refine ⟨h1, ?_⟩
    intro e he
    have := h2 (x :: e.1, e.2) ⟨e, he, rfl⟩
    simp only [List.map_cons, List.count_cons] at this
    by_cases h : name x = name e.2
    · have hb : (name x == name e.2) = true := by simpa using h
      rw [if_pos hb] at this
      rw [if_pos h.symm]
      push_cast at this
      omega
    · have hb : ¬ (name x == name e.2) = true := by simpa using h
      rw [if_neg hb] at this
      rw [if_neg (fun e2 => h e2.symm)]
      simpa using this
  · rintro ⟨h1, h2⟩
    refine ⟨h1, ?_⟩
    rintro e2 ⟨e, he, rfl⟩
    have := h2 e he
    simp only [List.map_cons, List.count_cons]
    by_cases h : name x = name e.2
    · have hb : (name x == name e.2) = true := by simpa using h
      rw [if_pos hb]
      rw [if_pos h.symm] at this
      push_cast
      omega
    · have hb : ¬ (name x == name e.2) = true := by simpa using h
      rw [if_neg hb]
      rw [if_neg (fun e2 => h e2.symm)] at this
      simpa using this

theorem count_names_cons (name : IngressRule → String) (x : IngressRule) (xs : List IngressRule)
    (s : String) :
    (((x :: xs).map name).count s : Int) =
      ((xs.map name).count s : Nat) + (if s = name x then 1 else 0) := by
  rw [List.map_cons, List.count_cons]
  by_cases h : s = name x
  · have hb : (name x == s) = true := by simpa using h.symm
    rw [if_pos hb, if_pos h]
    push_cast
    rfl
  · have hb : ¬ (name x == s) = true := by simpa using fun e => h e.symm
    rw [if_neg hb, if_neg h]
    simp

theorem closesBalanced_final_nonneg (name : IngressRule → String) (xs : List IngressRule)
    (cnt : String → Int) (h : closesBalanced name cnt xs) (s : String)
    (hs : s ∈ xs.map name) : 0 ≤ cnt s - ((xs.map name).count s : Nat) := by
  induction xs generalizing cnt with
  | nil => simp at hs
  | cons x xs ih =>
    rw [closesBalanced_cons] at h
    obtain ⟨h1, h2⟩ := h
    rw [count_names_cons]
    by_cases hx : s ∈ xs.map name
    · have := ih _ h2 hx
      simp only at this
      omega
    · have hsx : s = name x := by
        rw [List.map_cons, List.mem_cons] at hs
        rcases hs with h | h
        · exact h
        · exact absurd h hx
      have h0 : (xs.map name).count s = 0 := List.count_eq_zero_of_not_mem hx
      rw [h0, if_pos hsx]
      subst hsx
      push_cast
      omega

theorem closedSpec_final_zero (name : IngressRule → String) (xs : List IngressRule)
    (cnt : String → Int) (h : closesBalanced name cnt xs) (s : String)
    (hs : s ∈ (closedSpec name cnt xs).map name) :
    cnt s - ((xs.map name).count s : Nat) = 0 := by
  induction xs generalizing cnt with
  | nil => simp [closedSpec] at hs
  | cons x xs ih =>
    rw [closesBalanced_cons] at h
    obtain ⟨h1, h2⟩ := h
    rw [closedSpec_cons, List.map_append, List.mem_append] at hs
    rw [count_names_cons]
    rcases hs with hs | hs
    · by_cases hz : cnt (name x) - 1 = 0
      · rw [if_pos hz] at hs
        simp only [List.map_cons, List.map_nil, List.mem_singleton] at hs
        subst hs
        rw [if_pos rfl]
        by_cases hx : name x ∈ xs.map name
        · have := closesBalanced_final_nonneg name xs _ h2 (name x) hx
          simp only [if_true] at this
          have hpos : 0 < (xs.map name).count (name x) := List.count_pos_iff.mpr hx
          omega
        · have h0 : (xs.map name).count (name x) = 0 := List.count_eq_zero_of_not_mem hx
          rw [h0]
          push_cast
          omega
      · rw [if_neg hz] at hs
        simp at hs
    · have := ih _ h2 hs
      simp only at this
      omega

theorem openedSpec_of_zero (name : IngressRule → String) (xs : List IngressRule)
    (cnt : String → Int) (s : String) (h0 : cnt s = 0) (hs : s ∈ xs.map name) :
    s ∈ (openedSpec name cnt xs).map name := by
  induction xs generalizing cnt with
  | nil => simp at hs
  | cons x xs ih =>
    rw [openedSpec_cons, List.map_append, List.mem_append]
    by_cases hsx : s = name x
    · left
      subst hsx
      rw [if_pos h0]
      simp
    · right
      have hx : s ∈ xs.map name := by
        rw [List.map_cons, List.mem_cons] at hs
        rcases hs with h | h
        · exact absurd h hsx
        · exact h
      apply ih _ _ hx
      simp [hsx, h0]
theorem nodupKeys_mapDelete {κ ν : Type} [DecidableEq κ] (m : List (κ × ν)) (k : κ)
    (h : (m.map Prod.fst).Nodup) : ((mapDelete m k).map Prod.fst).Nodup := by
  unfold mapDelete
  exact List.Nodup.sublist ((List.filter_sublist m).map Prod.fst) h

theorem PosMap.refGet_nonneg {ref : List (String × Int)} (h : PosMap ref) (s : String) :
    0 ≤ refGet ref s := by
  unfold refGet
  cases hl : ref.lookup s with
  | none => simp
  | some v =>
    have := h.2 s v hl
    simp only [Option.getD_some]
    omega

theorem PosMap.openStep {name : IngressRule → String}
    {acc : List (String × Int) × List IngressRule} (h : PosMap acc.1) (x : IngressRule) :
    PosMap (globalOpenStep name acc x).1 := by
  unfold globalOpenStep
  simp only
  refine ⟨nodupKeys_mapSet _ _ _ h.1, ?_⟩
  intro s v hl
  rw [lookup_mapSet] at hl
  by_cases hs : s = name x
  · rw [if_pos hs] at hl
    cases hl
    have := h.refGet_nonneg (name x)
    omega
  · rw [if_neg hs] at hl
    exact h.2 s v hl

theorem PosMap.closeStep {name : IngressRule → String}
    {acc : List (String × Int) × List IngressRule} (h : PosMap acc.1) (x : IngressRule)
    (hpos : 0 < refGet acc.1 (name x)) : PosMap (globalCloseStep name acc x).1 := by
  unfold globalCloseStep
  simp only
  split
  · refine ⟨nodupKeys_mapDelete _ _ (nodupKeys_mapSet _ _ _ h.1), ?_⟩
    intro s v hl
    rw [lookup_mapDelete] at hl
    by_cases hs : s = name x
    · rw [if_pos hs] at hl
      cases hl
    · rw [if_neg hs, lookup_mapSet, if_neg hs] at hl
      exact h.2 s v hl
  · rename_i hz
    rw [refGet_mapSet, if_pos rfl] at hz
    refine ⟨nodupKeys_mapSet _ _ _ h.1, ?_⟩
    intro s v hl
    rw [lookup_mapSet] at hl
    by_cases hs : s = name x
    · rw [if_pos hs] at hl
      cases hl
      omega
    · rw [if_neg hs] at hl
      exact h.2 s v hl

theorem PosMap.openFold {name : IngressRule → String} (rules : List IngressRule)
    {acc : List (String × Int) × List IngressRule} (h : PosMap acc.1) :
    PosMap (rules.foldl (globalOpenStep name) acc).1 := by
  induction rules generalizing acc with
  | nil => exact h
  | cons x xs ih =>
    rw [List.foldl_cons]
    exact ih (h.openStep x)

theorem PosMap.closeFold {name : IngressRule → String} (rules : List IngressRule)
    {acc : List (String × Int) × List IngressRule} (h : PosMap acc.1)
    (hb : closesBalanced name (refGet acc.1) rules) :
    PosMap (rules.foldl (globalCloseStep name) acc).1 := by
  induction rules generalizing acc with
  | nil => exact h
  | cons x xs ih =>
    rw [List.foldl_cons]
    rw [closesBalanced_cons] at hb
    apply ih (h.closeStep x hb.1)
    have hf : refGet (globalCloseStep name acc x).1 =
        fun s => refGet acc.1 s - (if s = name x then 1 else 0) := by
      funext s
      exact refGet_globalCloseStep name acc x s
    rw [hf]
    exact hb.2

theorem flushGlobalPorts_fst (api : Api) (ref : List (String × Int)) (calls : List Call)
    (rawOpen rawClose : List IngressRule) :
    (flushGlobalPorts api ref calls rawOpen rawClose).1 =
      (rawClose.foldl (globalCloseStep api.RuleString)
        ((rawOpen.foldl (globalOpenStep api.RuleString) (ref, [])).1, [])).1 := by
  unfold flushGlobalPorts
  simp only
  split
  · rfl
  · split <;> rfl

theorem PosMap.flush (api : Api) {ref : List (String × Int)} (calls : List Call)
    (rawOpen rawClose : List IngressRule) (h : PosMap ref)
    (hb : closesBalanced api.RuleString (countAfterOpen api.RuleString ref rawOpen) rawClose) :
    PosMap (flushGlobalPorts api ref calls rawOpen rawClose).1 := by
  rw [flushGlobalPorts_fst]
  have h1 : PosMap (rawOpen.foldl (globalOpenStep api.RuleString) (ref, [])).1 :=
    @PosMap.openFold api.RuleString rawOpen (ref, []) h
  apply @PosMap.closeFold api.RuleString rawClose
    ((rawOpen.foldl (globalOpenStep api.RuleString) (ref, [])).1, []) h1
  have hcnt : refGet (rawOpen.foldl (globalOpenStep api.RuleString) (ref, [])).1 =
      countAfterOpen api.RuleString ref rawOpen := by
    funext s
    rw [(foldl_globalOpenStep api.RuleString rawOpen (ref, [])).1 s]
    rfl
  show closesBalanced api.RuleString
    (refGet (rawOpen.foldl (globalOpenStep api.RuleString) (ref, [])).1) rawClose
  rw [hcnt]
  exact hb

theorem openInEnviron_append_open (name : IngressRule → String) (s : String)
    (calls : List Call) (rules : List IngressRule) :
    openInEnviron name s (calls ++ [Call.OpenPorts rules]) =
      if s ∈ rules.map name then true else openInEnviron name s calls := by
  unfold openInEnviron
  rw [List.foldl_append]
  rfl

theorem openInEnviron_append_close (name : IngressRule → String) (s : String)
    (calls : List Call) (rules : List IngressRule) :
    openInEnviron name s (calls ++ [Call.ClosePorts rules]) =
      if s ∈ rules.map name then false else openInEnviron name s calls := by
  unfold openInEnviron
  rw [List.foldl_append]
  rfl

theorem flushGlobalPorts_calls_ok (api : Api) (ref ref2 : List (String × Int))
    (calls calls2 : List Call) (rawOpen rawClose : List IngressRule)
    (h : flushGlobalPorts api ref calls rawOpen rawClose = (ref2, calls2, none)) :
    calls2 = (calls ++
        (if (openedSpec api.RuleString (refGet ref) rawOpen).length > 0 then
          [Call.OpenPorts (openedSpec api.RuleString (refGet ref) rawOpen)] else [])) ++
      (if (closedSpec api.RuleString (countAfterOpen api.RuleString ref rawOpen)
          rawClose).length > 0 then
        [Call.ClosePorts (closedSpec api.RuleString (countAfterOpen api.RuleString ref rawOpen)
          rawClose)] else []) := by
  have h2 := flushGlobalPorts_eq api ref calls rawOpen rawClose
  rw [h] at h2
  simp only at h2
  by_cases ho : (openedSpec api.RuleString (refGet ref) rawOpen).length > 0
  · rw [if_pos ho] at h2 ⊢
    rcases hop : api.OpenPorts calls (openedSpec api.RuleString (refGet ref) rawOpen) with _ | err
    · rw [hop] at h2
      simp only at h2
      by_cases hc : (closedSpec api.RuleString (countAfterOpen api.RuleString ref rawOpen)
          rawClose).length > 0
      · rw [if_pos hc] at h2 ⊢
        exact (Prod.mk.inj h2).1
      · rw [if_neg hc] at h2 ⊢
        rw [(Prod.mk.inj h2).1]
        simp
    · rw [hop] at h2
      simp at h2
  · rw [if_neg ho] at h2 ⊢
    by_cases hc : (closedSpec api.RuleString (countAfterOpen api.RuleString ref rawOpen)
        rawClose).length > 0
    · rw [if_pos hc] at h2 ⊢
      rw [(Prod.mk.inj h2).1]
      simp
    · rw [if_neg hc] at h2 ⊢
      rw [(Prod.mk.inj h2).1]
      simp

theorem balancedRun_inv (api : Api) (ref : List (String × Int)) (calls : List Call)
    (h : BalancedRun api ref calls) :
    PosMap ref ∧ ∀ s, 0 < refGet ref s → openInEnviron api.RuleString s calls = true := by
  induction h with
  | start =>
    refine ⟨⟨List.nodup_nil, ?_⟩, ?_⟩
    · intro s v hl
      simp at hl
    · intro s hs
      simp [refGet] at hs
  | flush ref calls rawOpen rawClose ref2 calls2 _ hb hf ih =>
    obtain ⟨ihp, iho⟩ := ih
    have href : ref2 = (flushGlobalPorts api ref calls rawOpen rawClose).1 := by rw [hf]
    have hp2 : PosMap ref2 := by
      rw [href]
      exact PosMap.flush api calls rawOpen rawClose ihp hb
    refine ⟨hp2, ?_⟩
    intro s hs
    have hfinal : refGet ref2 s = countAfterOpen api.RuleString ref rawOpen s -
        ((rawClose.map api.RuleString).count s : Nat) := by
      rw [href, flushGlobalPorts_fst, (foldl_globalCloseStep api.RuleString rawClose _).1 s,
        (foldl_globalOpenStep api.RuleString rawOpen _).1 s]
      rfl
    have hnc : s ∉ (closedSpec api.RuleString (countAfterOpen api.RuleString ref rawOpen)
        rawClose).map api.RuleString := by
      intro hmem
      have := closedSpec_final_zero api.RuleString rawClose _ hb s hmem
      omega
    rw [flushGlobalPorts_calls_ok api ref ref2 calls calls2 rawOpen rawClose hf]
    have hclose : ∀ cs : List Call,
        openInEnviron api.RuleString s (cs ++
          (if (closedSpec api.RuleString (countAfterOpen api.RuleString ref rawOpen)
              rawClose).length > 0 then
            [Call.ClosePorts (closedSpec api.RuleString
              (countAfterOpen api.RuleString ref rawOpen) rawClose)] else [])) =
          openInEnviron api.RuleString s cs := by
      intro cs
      split
      · rw [openInEnviron_append_close, if_neg hnc]
      · rw [List.append_nil]
    rw [hclose]
    by_cases hmo : s ∈ (openedSpec api.RuleString (refGet ref) rawOpen).map api.RuleString
    · have hlen : (openedSpec api.RuleString (refGet ref) rawOpen).length > 0 := by
        apply List.length_pos.mpr
        intro e
        rw [e] at hmo
        simp at hmo
      rw [if_pos hlen, openInEnviron_append_open, if_pos hmo]
    · have hpos : 0 < refGet ref s := by
        by_contra hle
        have h0 : refGet ref s = 0 := by
          have := ihp.refGet_nonneg s
          omega
        have hno : s ∉ rawOpen.map api.RuleString := fun hm =>
          hmo (openedSpec_of_zero api.RuleString rawOpen _ s h0 hm)
        have hz : (rawOpen.map api.RuleString).count s = 0 := List.count_eq_zero_of_not_mem hno
        unfold countAfterOpen at hfinal
        rw [h0, hz] at hfinal
        push_cast at hfinal
        omega
      split
      · rw [openInEnviron_append_open, if_neg hmo]
        exact iho s hpos
      · rw [List.append_nil]
        exact iho s hpos

/-- After every sequence of calls of `flushGlobalPorts` that starts from the
empty map, returns no error and decrements a rule of `rawClose` only when its
count is positive, no rule is stored in the map with the count zero, and every
rule stored with a count other than zero has been passed to the `OpenPorts` of
the environment and not since been passed to its `ClosePorts`. -/
theorem balancedRun_stored (api : Api) (ref : List (String × Int)) (calls : List Call)
    (h : BalancedRun api ref calls) :
    (∀ e ∈ ref, e.2 ≠ 0) ∧
    (∀ e ∈ ref, e.2 ≠ 0 → openInEnviron api.RuleString e.1 calls = true) := by
  obtain ⟨hp, ho⟩ := balancedRun_inv api ref calls h
  have hstored : ∀ e ∈ ref, 0 < e.2 ∧ refGet ref e.1 = e.2 := by
    intro e he
    have hl := lookup_of_mem ref e.1 e.2 hp.1 he
    refine ⟨hp.2 e.1 e.2 hl, ?_⟩
    unfold refGet
    rw [hl]
    rfl
  constructor
  · intro e he
    have := (hstored e he).1
    omega
  · intro e he _
    apply ho
    rw [(hstored e he).2]
    exact (hstored e he).1

theorem balancedRun_stored_witness :
    BalancedRun okApi [("443-443/tcp from 0.0.0.0/0", 1)]
        [Call.OpenPorts [⟨⟨443, 443, "tcp"⟩, ["0.0.0.0/0"]⟩]] ∧
      openInEnviron okApi.RuleString "443-443/tcp from 0.0.0.0/0"
        [Call.OpenPorts [⟨⟨443, 443, "tcp"⟩, ["0.0.0.0/0"]⟩]] = true :=
  have hrun : BalancedRun okApi [("443-443/tcp from 0.0.0.0/0", 1)]
      [Call.OpenPorts [⟨⟨443, 443, "tcp"⟩, ["0.0.0.0/0"]⟩]] :=
    BalancedRun.flush [] [] [⟨⟨443, 443, "tcp"⟩, ["0.0.0.0/0"]⟩] [] _ _ BalancedRun.start
      (by intro e he; simp at he) (by decide)
  ⟨hrun, (balancedRun_stored okApi _ _ hrun).2 ("443-443/tcp from 0.0.0.0/0", 1)
    (List.mem_singleton.mpr rfl) (by decide)⟩

/-! ## `reconcileGlobal` -/

theorem zip_keys_values {κ ν : Type} (m : List (κ × ν)) :
    (m.map Prod.fst).zip (m.map Prod.snd) = m := by
  induction m with
  | nil => rfl
  | cons e m ih =>
    simp only [List.map_cons, List.zip_cons_cons, ih]

/-- The result of `reconcileGlobal`: the worker is returned as it was. -/
theorem reconcileGlobal_eq (api : Api) (fw : Firewaller) (calls : List Call) :
    reconcileGlobal api fw calls =
      match api.IngressRules calls with
      | (_, some err) => (fw, calls ++ [Call.IngressRules], some err)
      | (initialPortRanges, none) =>
        if (diffRanges initialPortRanges (gatherIngressRules api.NewIngressRule
            (fw.machineds.map Prod.snd)).2.1).1.length > 0 then
          match api.OpenPorts (calls ++ [Call.IngressRules])
            (diffRanges initialPortRanges (gatherIngressRules api.NewIngressRule
              (fw.machineds.map Prod.snd)).2.1).1 with
          | some err =>
            (fw, calls ++ [Call.IngressRules] ++
              [Call.OpenPorts (diffRanges initialPortRanges (gatherIngressRules
                api.NewIngressRule (fw.machineds.map Prod.snd)).2.1).1], some err)
          | none =>
            if (diffRanges initialPortRanges (gatherIngressRules api.NewIngressRule
                (fw.machineds.map Prod.snd)).2.1).2.length > 0 then
              (fw, calls ++ [Call.IngressRules] ++
                  [Call.OpenPorts (diffRanges initialPortRanges (gatherIngressRules
                    api.NewIngressRule (fw.machineds.map Prod.snd)).2.1).1] ++
                  [Call.ClosePorts (diffRanges initialPortRanges (gatherIngressRules
                    api.NewIngressRule (fw.machineds.map Prod.snd)).2.1).2],
                api.ClosePorts (calls ++ [Call.IngressRules] ++
                    [Call.OpenPorts (diffRanges initialPortRanges (gatherIngressRules
                      api.NewIngressRule (fw.machineds.map Prod.snd)).2.1).1])
                  (diffRanges initialPortRanges (gatherIngressRules api.NewIngressRule
                    (fw.machineds.map Prod.snd)).2.1).2)
            else
              (fw, calls ++ [Call.IngressRules] ++
                [Call.OpenPorts (diffRanges initialPortRanges (gatherIngressRules
                  api.NewIngressRule (fw.machineds.map Prod.snd)).2.1).1], none)
        else
          if (diffRanges initialPortRanges (gatherIngressRules api.NewIngressRule
              (fw.machineds.map Prod.snd)).2.1).2.length > 0 then
            (fw, calls ++ [Call.IngressRules] ++
                [Call.ClosePorts (diffRanges initialPortRanges (gatherIngressRules
                  api.NewIngressRule (fw.machineds.map Prod.snd)).2.1).2],
              api.ClosePorts (calls ++ [Call.IngressRules])
                (diffRanges initialPortRanges (gatherIngressRules api.NewIngressRule
                  (fw.machineds.map Prod.snd)).2.1).2)
          else (fw, calls ++ [Call.IngressRules], none) := by
  obtain ⟨ms, t2, t3, gm, ref, t4⟩ := fw
  unfold reconcileGlobal
  have hm : (gatherIngressRules api.NewIngressRule (ms.map Prod.snd)).1 = ms.map Prod.snd :=
    gatherMachines_machines _ _ []
  simp only [hm, zip_keys_values]
  rcases hi : api.IngressRules calls with ⟨initial, _ | err⟩
  · simp only
    by_cases ho : (diffRanges initial
        (gatherIngressRules api.NewIngressRule (ms.map Prod.snd)).2.1).1.length > 0
    · rw [if_pos ho, if_pos ho]
      rcases hop : api.OpenPorts (calls ++ [Call.IngressRules]) (diffRanges initial
          (gatherIngressRules api.NewIngressRule (ms.map Prod.snd)).2.1).1 with _ | err
      · simp only
      · rfl
    · rw [if_neg ho, if_neg ho]
  · rfl

/-- The method `reconcileGlobal` on its own, in a state with a machine that
gathers a rule and has not been flushed since: with
one tracked machine that wants the rule `tcp 80-80 from 0.0.0.0/0`, an empty
reference-count map and an environment with no rule open, `reconcileGlobal`
succeeds, opens the rule in the environment with one call and leaves the
reference-count map empty. -/
theorem reconcileGlobal_no_seed :
    (gatherIngressRules okApi.NewIngressRule [sampleMachine true []]).2 =
        ([⟨⟨80, 80, "tcp"⟩, ["0.0.0.0/0"]⟩], none) ∧
      (reconcileGlobal okApi ⟨[(⟨"0"⟩, sampleMachine true [])], [], [], true, some [], []⟩ []).2 =
        ([Call.IngressRules, Call.OpenPorts [⟨⟨80, 80, "tcp"⟩, ["0.0.0.0/0"]⟩]], none) ∧
      (reconcileGlobal okApi ⟨[(⟨"0"⟩, sampleMachine true [])], [], [], true, some [],
        []⟩ []).1.globalIngressRuleRef = some [] ∧
      refGet [] (okApi.RuleString ⟨⟨80, 80, "tcp"⟩, ["0.0.0.0/0"]⟩) = 0 := by
  decide

/-- The method `reconcileGlobal` asks the environment for its ingress rules,
diffs them with `diffRanges` against the rules gathered over all the machines of
the machine table, calls `OpenPorts` once with `toOpen` when it is not empty and
then `ClosePorts` once with `toClose` when it is not empty, and returns the
worker as it was: the reference-count map, the tables and the `ingressRules` of
every machine are left unchanged. -/
theorem reconcileGlobal_spec (api : Api) (fw : Firewaller) (calls : List Call) :
    (reconcileGlobal api fw calls).1 = fw ∧
    (reconcileGlobal api fw calls).1.globalIngressRuleRef = fw.globalIngressRuleRef ∧
    (∀ err, (api.IngressRules calls).2 = some err →
      (reconcileGlobal api fw calls).2 = (calls ++ [Call.IngressRules], some err)) ∧
    ((api.IngressRules calls).2 = none →
      (∀ cs rules, api.OpenPorts cs rules = none) →
      (∀ cs rules, api.ClosePorts cs rules = none) →
      (reconcileGlobal api fw calls).2 =
        (calls ++ [Call.IngressRules] ++
          (if (diffRanges (api.IngressRules calls).1 (gatherIngressRules api.NewIngressRule
              (fw.machineds.map Prod.snd)).2.1).1.length > 0 then
            [Call.OpenPorts (diffRanges (api.IngressRules calls).1 (gatherIngressRules
              api.NewIngressRule (fw.machineds.map Prod.snd)).2.1).1] else []) ++
          (if (diffRanges (api.IngressRules calls).1 (gatherIngressRules api.NewIngressRule
              (fw.machineds.map Prod.snd)).2.1).2.length > 0 then
            [Call.ClosePorts (diffRanges (api.IngressRules calls).1 (gatherIngressRules
              api.NewIngressRule (fw.machineds.map Prod.snd)).2.1).2] else []), none)) := by
  have hfw : (reconcileGlobal api fw calls).1 = fw := by
    rw [reconcileGlobal_eq]
    rcases api.IngressRules calls with ⟨initial, _ | err⟩
    · simp only
      split
      · split
        · rfl
        · split <;> rfl
      · split <;> rfl
    · rfl
  refine ⟨hfw, by rw [hfw], ?_, ?_⟩
  · intro err herr
    rw [reconcileGlobal_eq]
    rcases hi : api.IngressRules calls with ⟨initial, e⟩
    rw [hi] at herr
    simp only at herr
    subst herr
    rfl
  · intro hok hO hC
    rw [reconcileGlobal_eq]
    rcases hi : api.IngressRules calls with ⟨initial, e⟩
    rw [hi] at hok
    simp only at hok
    subst hok
    simp only [hO, hC]
    split
    · split <;> simp
    · split <;> simp

/-! ## Rules from `0.0.0.0/0` only -/

theorem mem_cidrs_of_open (rules : List IngressRule)
    (h : ∀ r ∈ rules, r.SourceCIDRs = ["0.0.0.0/0"]) (p : PortRange) (c : String) :
    c ∈ cidrs rules p ↔ c = "0.0.0.0/0" ∧ p ∈ rules.map IngressRule.toPortRange := by
  unfold cidrs
  rw [List.mem_flatMap]
  constructor
  · rintro ⟨r, hr, hc⟩
    rw [List.mem_filter] at hr
    have hp : r.toPortRange = p := of_decide_eq_true hr.2
    have hz : ruleCidrs r = ["0.0.0.0/0"] := by
      unfold ruleCidrs
      rw [h r hr.1]
      rfl
    rw [hz, List.mem_singleton] at hc
    exact ⟨hc, List.mem_map.mpr ⟨r, hr.1, hp⟩⟩
  · rintro ⟨hc, hp⟩
    obtain ⟨r, hr, hrp⟩ := List.mem_map.mp hp
    refine ⟨r, List.mem_filter.mpr ⟨hr, decide_eq_true hrp⟩, ?_⟩
    unfold ruleCidrs
    rw [h r hr, hc]
    simp

theorem eq_singleton_of_nodup {α : Type} (l : List α) (z : α) (hn : l.Nodup)
    (h : ∀ c, c ∈ l ↔ c = z) : l = [z] := by
  apply List.perm_singleton.mp
  rw [List.perm_ext_iff_of_nodup hn (List.nodup_singleton z)]
  intro c
  rw [h c, List.mem_singleton]

theorem openSlice_filter (S : Strings) (hS : S.Nodup) (cond : Prop) [Decidable cond]
    (p : PortRange) (hm : ∀ c, c ∈ S ↔ c = "0.0.0.0/0" ∧ cond) :
    (if S.Size > 0 then [(⟨p, S.SortedValues⟩ : IngressRule)] else []) =
      if cond then [⟨p, ["0.0.0.0/0"]⟩] else [] := by
  by_cases hc : cond
  · have hS1 : S = ["0.0.0.0/0"] := eq_singleton_of_nodup S _ hS (by
      intro c
      rw [hm c]
      simp [hc])
    rw [if_pos hc, hS1]
    rfl
  · have hS0 : S = [] := by
      apply List.eq_nil_iff_forall_not_mem.mpr
      intro c hcm
      exact hc ((hm c).mp hcm).2
    rw [if_neg hc, hS0]
    rfl

theorem toOpen_filter_of_open (old want : List IngressRule)
    (hold : ∀ r ∈ old, r.SourceCIDRs = ["0.0.0.0/0"])
    (hwant : ∀ r ∈ want, r.SourceCIDRs = ["0.0.0.0/0"]) (p : PortRange) :
    (diffRanges old want).1.filter (fun r => decide (r.toPortRange = p)) =
      if p ∈ want.map IngressRule.toPortRange ∧ p ∉ old.map IngressRule.toPortRange then
        [⟨p, ["0.0.0.0/0"]⟩] else [] := by
  obtain ⟨S, hS, hm, hF⟩ := toOpen_slice old want p
  rw [hF]
  apply openSlice_filter S hS
  intro c
  rw [hm, mem_cidrs_of_open want hwant, mem_cidrs_of_open old hold]
  tauto

theorem toClose_filter_of_open (old want : List IngressRule)
    (hold : ∀ r ∈ old, r.SourceCIDRs = ["0.0.0.0/0"])
    (hwant : ∀ r ∈ want, r.SourceCIDRs = ["0.0.0.0/0"]) (p : PortRange) :
    (diffRanges old want).2.filter (fun r => decide (r.toPortRange = p)) =
      if p ∈ old.map IngressRule.toPortRange ∧ p ∉ want.map IngressRule.toPortRange then
        [⟨p, ["0.0.0.0/0"]⟩] else [] := by
  obtain ⟨S, hS, hm, hF⟩ := toClose_slice old want p
  rw [hF]
  apply openSlice_filter S hS
  intro c
  rw [hm, mem_cidrs_of_open want hwant, mem_cidrs_of_open old hold]
  tauto

/-- A rule list that holds, for each port range of `A` that is not in `B`, the
one rule of that port range from `0.0.0.0/0`, and no other rule: the number of
its rules of a given name. -/
theorem count_names_of_slices (name : IngressRule → String) (l : List IngressRule)
    (A B : List PortRange)
    (h : ∀ p, l.filter (fun r => decide (r.toPortRange = p)) =
      if p ∈ A ∧ p ∉ B then [⟨p, ["0.0.0.0/0"]⟩] else [])
    (s : String) :
    (l.map name).count s =
      ((A.dedup.filter (fun p => decide (p ∉ B))).filter (fun p =>
        decide (name ⟨p, ["0.0.0.0/0"]⟩ = s))).length := by
  have hmem : ∀ r, r ∈ l ↔ r ∈ l.filter (fun q => decide (q.toPortRange = r.toPortRange)) := by
    intro r
    rw [List.mem_filter]
    simp
  have hform : ∀ r ∈ l, r = ⟨r.toPortRange, ["0.0.0.0/0"]⟩ := by
    intro r hr
    have := (hmem r).mp hr
    rw [h] at this
    split at this
    · exact List.mem_singleton.mp this
    · exact absurd this (List.not_mem_nil _)
  have hports : ∀ p, p ∈ l.map IngressRule.toPortRange ↔ p ∈ A ∧ p ∉ B := by
    intro p
    constructor
    · intro hp
      obtain ⟨r, hr, hrp⟩ := List.mem_map.mp hp
      have := (hmem r).mp hr
      rw [h, hrp] at this
      by_contra hc
      rw [if_neg hc] at this
      exact List.not_mem_nil _ this
    · intro hc
      have hf := h p
      rw [if_pos hc] at hf
      have : (⟨p, ["0.0.0.0/0"]⟩ : IngressRule) ∈
          l.filter (fun r => decide (r.toPortRange = p)) := by
        rw [hf]
        exact List.mem_singleton.mpr rfl
      exact List.mem_map.mpr ⟨_, (List.mem_filter.mp this).1, rfl⟩
  have hnodup : (l.map IngressRule.toPortRange).Nodup := by
    rw [List.nodup_iff_count_le_one]
    intro p
    rw [List.count_eq_countP, List.countP_map, List.countP_eq_length_filter]
    have hf := h p
    have heq : l.filter ((fun x => x == p) ∘ IngressRule.toPortRange) =
        l.filter (fun r => decide (r.toPortRange = p)) := by
      apply List.filter_congr
      intro r _
      show (r.toPortRange == p) = decide (r.toPortRange = p)
      by_cases hh : r.toPortRange = p
      · simp [hh]
      · simp [hh]
    rw [heq, hf]
    split <;> simp
  have hperm : (l.map IngressRule.toPortRange).Perm (A.dedup.filter (fun p => decide (p ∉ B))) := by
    rw [List.perm_ext_iff_of_nodup hnodup (List.Nodup.filter _ (List.nodup_dedup A))]
    intro p
    rw [hports, List.mem_filter, List.mem_dedup]
    simp
  rw [← (hperm.filter _).length_eq, List.count_eq_countP, List.countP_map,
    List.countP_eq_length_filter, List.filter_map, List.length_map]
  congr 1
  apply List.filter_congr
  intro r hr
  simp only [Function.comp]
  rw [← hform r hr]
  by_cases hs : name r = s
  · simp [hs]
  · have : ¬ s = name r := fun e => hs e.symm
    simp [hs, this]
theorem refGet_flushGlobalPorts (api : Api) (ref : List (String × Int)) (calls : List Call)
    (rawOpen rawClose : List IngressRule) (s : String) :
    refGet (flushGlobalPorts api ref calls rawOpen rawClose).1 s =
      refGet ref s + ((rawOpen.map api.RuleString).count s : Nat) -
        ((rawClose.map api.RuleString).count s : Nat) := by
  rw [flushGlobalPorts_fst, (foldl_globalCloseStep api.RuleString rawClose _).1 s,
    (foldl_globalOpenStep api.RuleString rawOpen _).1 s]

theorem length_filter_split {α : Type} (l : List α) (p : α → Bool) :
    l.length = (l.filter p).length + (l.filter (fun a => !p a)).length := by
  induction l with
  | nil => rfl
  | cons a l ih =>
    by_cases h : p a = true
    · simp [List.filter_cons, h]
      omega
    · simp [List.filter_cons, h]
      omega

/-- The change of `nameCount` from `old` to `want` is the number of rules of
that name that `diffRanges` opens less the number it closes, for rule lists
from `0.0.0.0/0` only. -/
theorem nameCount_diffRanges (name : IngressRule → String) (old want : List IngressRule)
    (hold : ∀ r ∈ old, r.SourceCIDRs = ["0.0.0.0/0"])
    (hwant : ∀ r ∈ want, r.SourceCIDRs = ["0.0.0.0/0"]) (s : String) :
    (nameCount name old s : Int) + (((diffRanges old want).1.map name).count s : Nat) -
        (((diffRanges old want).2.map name).count s : Nat) = (nameCount name want s : Int) := by
  rw [count_names_of_slices name _ _ _ (toOpen_filter_of_open old want hold hwant) s,
    count_names_of_slices name _ _ _ (toClose_filter_of_open old want hold hwant) s]
  unfold nameCount
  have hW := length_filter_split
    (((want.map IngressRule.toPortRange).dedup).filter (fun p =>
      decide (name ⟨p, ["0.0.0.0/0"]⟩ = s)))
    (fun p => decide (p ∉ old.map IngressRule.toPortRange))
  have hR := length_filter_split
    (((old.map IngressRule.toPortRange).dedup).filter (fun p =>
      decide (name ⟨p, ["0.0.0.0/0"]⟩ = s)))
    (fun p => decide (p ∉ want.map IngressRule.toPortRange))
  have hperm :
      ((((want.map IngressRule.toPortRange).dedup).filter (fun p =>
        decide (name ⟨p, ["0.0.0.0/0"]⟩ = s))).filter
          (fun p => !decide (p ∉ old.map IngressRule.toPortRange))).Perm
      ((((old.map IngressRule.toPortRange).dedup).filter (fun p =>
        decide (name ⟨p, ["0.0.0.0/0"]⟩ = s))).filter
          (fun p => !decide (p ∉ want.map IngressRule.toPortRange))) := by
    rw [List.perm_ext_iff_of_nodup
      (List.Nodup.filter _ (List.Nodup.filter _ (List.nodup_dedup _)))
      (List.Nodup.filter _ (List.Nodup.filter _ (List.nodup_dedup _)))]
    intro p
    simp only [List.mem_filter, List.mem_dedup, Bool.not_eq_true', decide_eq_false_iff_not,
      not_not, decide_eq_true_eq]
    tauto
  have hcommW :
      ((((want.map IngressRule.toPortRange).dedup).filter (fun p =>
        decide (name ⟨p, ["0.0.0.0/0"]⟩ = s))).filter
          (fun p => decide (p ∉ old.map IngressRule.toPortRange))) =
      ((((want.map IngressRule.toPortRange).dedup).filter
          (fun p => decide (p ∉ old.map IngressRule.toPortRange))).filter (fun p =>
        decide (name ⟨p, ["0.0.0.0/0"]⟩ = s))) := by
    rw [List.filter_filter, List.filter_filter]
    apply List.filter_congr
    intro p _
    exact Bool.and_comm _ _
  have hcommR :
      ((((old.map IngressRule.toPortRange).dedup).filter (fun p =>
        decide (name ⟨p, ["0.0.0.0/0"]⟩ = s))).filter
          (fun p => decide (p ∉ want.map IngressRule.toPortRange))) =
      ((((old.map IngressRule.toPortRange).dedup).filter
          (fun p => decide (p ∉ want.map IngressRule.toPortRange))).filter (fun p =>
        decide (name ⟨p, ["0.0.0.0/0"]⟩ = s))) := by
    rw [List.filter_filter, List.filter_filter]
    apply List.filter_congr
    intro p _
    exact Bool.and_comm _ _
  have hl := hperm.length_eq
  rw [hcommW] at hW
  rw [hcommR] at hR
  omega

/-! ## What `gatherIngressRules` returns is from `0.0.0.0/0` only -/

theorem gatherPortRanges_open
    (N : String → Int → Int → List String → IngressRule × Option Err)
    (hN : ∀ pr f t c, (N pr f t c).2 = none → (N pr f t c).1 = ⟨⟨f, t, pr⟩, c⟩)
    (cidrs : Strings) (hc : cidrs.SortedValues = ["0.0.0.0/0"])
    (ranges : portRanges) (want want2 : List IngressRule)
    (hw : ∀ r ∈ want, r.SourceCIDRs = ["0.0.0.0/0"])
    (h : gatherPortRanges N cidrs ranges want = (want2, none)) :
    ∀ r ∈ want2, r.SourceCIDRs = ["0.0.0.0/0"] := by
  induction ranges generalizing want with
  | nil =>
    rw [gatherPortRanges] at h
    cases h
    exact hw
  | cons pr ranges ih =>
    obtain ⟨p, b⟩ := pr
    rw [gatherPortRanges] at h
    have h1 := hN p.Protocol p.FromPort p.ToPort cidrs.SortedValues
    rcases hn : N p.Protocol p.FromPort p.ToPort cidrs.SortedValues with ⟨rule, _ | err⟩
    · rw [hn] at h h1
      simp only at h h1
      apply ih (want ++ [rule]) _ h
      intro r hr
      rcases List.mem_append.mp hr with hr | hr
      · exact hw r hr
      · rw [List.mem_singleton.mp hr, h1 trivial, hc]
    · rw [hn] at h
      simp at h

theorem gatherDefinedPorts_open
    (N : String → Int → Int → List String → IngressRule × Option Err)
    (hN : ∀ pr f t c, (N pr f t c).2 = none → (N pr f t c).1 = ⟨⟨f, t, pr⟩, c⟩)
    (entries : List (UnitTag × portRanges)) (m : machineData) (want want2 : List IngressRule)
    (hw : ∀ r ∈ want, r.SourceCIDRs = ["0.0.0.0/0"])
    (h : (gatherDefinedPorts N entries m want).2 = (want2, none)) :
    ∀ r ∈ want2, r.SourceCIDRs = ["0.0.0.0/0"] := by
  induction entries generalizing m want with
  | nil =>
    rw [gatherDefinedPorts] at h
    cases h
    exact hw
  | cons e entries ih =>
    obtain ⟨unitTag, ranges⟩ := e
    rw [gatherDefinedPorts] at h
    cases hl : m.unitds.lookup unitTag with
    | none =>
      rw [hl] at h
      exact ih _ want hw h
    | some unitd =>
      rw [hl] at h
      simp only at h
      cases he : unitd.serviced.exposed with
      | false =>
        rw [he] at h
        exact ih _ want hw h
      | true =>
        rw [he] at h
        simp only [if_true] at h
        split at h
        · rcases hp : gatherPortRanges N
            (updateForRemoteRelationIngress unitd.serviced.application
              (Strings.New.Add "0.0.0.0/0")) ranges want with ⟨w2, _ | err2⟩
          · rw [hp] at h
            exact ih _ w2 (gatherPortRanges_open N hN
              (updateForRemoteRelationIngress unitd.serviced.application
                (Strings.New.Add "0.0.0.0/0")) (by
                  unfold updateForRemoteRelationIngress
                  decide) ranges want w2 hw hp) h
          · rw [hp] at h
            simp at h
        · exact ih _ want hw h

theorem gatherIngressRules_open
    (N : String → Int → Int → List String → IngressRule × Option Err)
    (hN : ∀ pr f t c, (N pr f t c).2 = none → (N pr f t c).1 = ⟨⟨f, t, pr⟩, c⟩)
    (m : machineData) (want : List IngressRule)
    (h : (gatherIngressRules N [m]).2 = (want, none)) :
    ∀ r ∈ want, r.SourceCIDRs = ["0.0.0.0/0"] := by
  rw [gatherIngressRules_single] at h
  exact gatherDefinedPorts_open N hN m.definedPorts m [] want
    (fun r hr => absurd hr (List.not_mem_nil _)) h
theorem sum_pos_iff_exists (l : List Nat) : 0 < l.sum ↔ ∃ n ∈ l, 0 < n := by
  induction l with
  | nil => simp
  | cons a l ih =>
    rw [List.sum_cons]
    constructor
    · intro h
      by_cases ha : 0 < a
      · exact ⟨a, List.mem_cons_self _ _, ha⟩
      · obtain ⟨n, hn, hp⟩ := ih.mp (by omega)
        exact ⟨n, List.mem_cons_of_mem _ hn, hp⟩
    · rintro ⟨n, hn, hp⟩
      rcases List.mem_cons.mp hn with hn | hn
      · subst hn
        omega
      · have := ih.mpr ⟨n, hn, hp⟩
        omega

theorem nameCount_pos (name : IngressRule → String) (rules : List IngressRule)
    (h : ∀ r ∈ rules, r.SourceCIDRs = ["0.0.0.0/0"]) (s : String) :
    0 < nameCount name rules s ↔ ∃ r ∈ rules, name r = s := by
  unfold nameCount
  rw [List.length_pos_iff_exists_mem]
  constructor
  · rintro ⟨p, hp⟩
    rw [List.mem_filter, List.mem_dedup, List.mem_map] at hp
    obtain ⟨⟨r, hr, hrp⟩, hs⟩ := hp
    refine ⟨r, hr, ?_⟩
    have hs2 := of_decide_eq_true hs
    rw [← hs2, ← hrp, ← h r hr]
  · rintro ⟨r, hr, hs⟩
    refine ⟨r.toPortRange, ?_⟩
    rw [List.mem_filter, List.mem_dedup, List.mem_map]
    refine ⟨⟨r, hr, rfl⟩, decide_eq_true ?_⟩
    rw [← h r hr]
    exact hs

/-- The invariant of the global-mode runs: every stored rule list is from
`0.0.0.0/0` only, and the count of each rule name is the number of pairs of a
tracked machine and a distinct port range of its rule list with that name. -/
theorem globalRun_inv (api : Api)
    (hN : ∀ pr f t c, (api.NewIngressRule pr f t c).2 = none →
      (api.NewIngressRule pr f t c).1 = ⟨⟨f, t, pr⟩, c⟩)
    (fw : Firewaller) (calls : List Call) (h : GlobalRun api fw calls) :
    fw.globalMode = true ∧
    (∀ e ∈ fw.machineds, ∀ r ∈ e.2.ingressRules, r.SourceCIDRs = ["0.0.0.0/0"]) ∧
    ∃ ref, fw.globalIngressRuleRef = some ref ∧
      ∀ s, refGet ref s =
        (((fw.machineds.map (fun e => nameCount api.RuleString e.2.ingressRules s)).sum : Nat) :
          Int) := by
  induction h with
  | start =>
    refine ⟨rfl, ?_, [], rfl, ?_⟩
    · intro e he
      exact absurd he (List.not_mem_nil _)
    · intro s
      rfl
  | track fw calls tag machined _ hr ih =>
    obtain ⟨hg, hc, ref, href, hs⟩ := ih
    refine ⟨hg, ?_, ref, href, ?_⟩
    · intro e he
      rcases List.mem_append.mp he with he | he
      · exact hc e he
      · rw [List.mem_singleton.mp he]
        intro r hr2
        rw [hr] at hr2
        exact absurd hr2 (List.not_mem_nil _)
    · intro s
      rw [hs s]
      simp [nameCount, hr]
  | flush fw calls pre post tag machined changed fw2 calls2 machined2 _ hm hch hf ih =>
    obtain ⟨hg, hc, ref, href, hs⟩ := ih
    rw [flushMachine_eq] at hf
    rcases hgat : (gatherIngressRules api.NewIngressRule [changed]).2 with ⟨want, _ | err⟩
    · rw [hgat] at hf
      simp only [hg, href, if_true, Prod.mk.injEq] at hf
      obtain ⟨hf1, hf2, hf3, hf4⟩ := hf
      subst hf1 hf3
      have hwant := gatherIngressRules_open api.NewIngressRule hN changed want hgat
      have hold : ∀ r ∈ machined.ingressRules, r.SourceCIDRs = ["0.0.0.0/0"] := by
        apply hc (tag, machined)
        rw [hm]
        simp
      refine ⟨rfl, ?_, _, rfl, ?_⟩
      · intro e he
        rcases List.mem_append.mp he with he | he
        · apply hc e
          rw [hm]
          exact List.mem_append_left _ he
        · rcases List.mem_cons.mp he with he | he
          · rw [he]
            exact hwant
          · apply hc e
            rw [hm]
            exact List.mem_append_right _ (List.mem_cons_of_mem _ he)
      · intro s
        rw [refGet_flushGlobalPorts, hs s, hm, hch]
        have hk := nameCount_diffRanges api.RuleString machined.ingressRules want hold hwant s
        simp only [List.map_append, List.map_cons, List.sum_append, List.sum_cons]
        push_cast
        omega
    · rw [hgat] at hf
      simp at hf
  | forget fw calls pre post tag machined _ hm hr ih =>
    obtain ⟨hg, hc, ref, href, hs⟩ := ih
    refine ⟨hg, ?_, ref, href, ?_⟩
    · intro e he
      apply hc e
      rw [hm]
      rcases List.mem_append.mp he with he | he
      · exact List.mem_append_left _ he
      · exact List.mem_append_right _ (List.mem_cons_of_mem _ he)
    · intro s
      rw [hs s, hm]
      simp [nameCount, hr]

/-- C17: in global mode, starting from the empty tables and the empty
reference-count map of `NewFirewaller`, after every sequence of successful
`flushMachine` calls (between which machines are tracked, changed and dropped),
the rule names whose `globalIngressRuleRef` count is greater than 0 are exactly
the names of the rules in the `ingressRules` of the tracked machines; when
`IngressRule.String` tells rules apart, a rule has a count greater than 0 if
and only if it is in the `ingressRules` of a tracked machine. The constructor
`network.NewIngressRule` is taken to return, when it returns no error, the rule
it was asked for. -/
theorem globalRun_refcount (api : Api)
    (hN : ∀ pr f t c, (api.NewIngressRule pr f t c).2 = none →
      (api.NewIngressRule pr f t c).1 = ⟨⟨f, t, pr⟩, c⟩)
    (fw : Firewaller) (calls : List Call) (h : GlobalRun api fw calls) :
    fw.globalMode = true ∧
    (∀ s, 0 < refGet (fw.globalIngressRuleRef.getD []) s ↔
      ∃ e ∈ fw.machineds, ∃ r ∈ e.2.ingressRules, api.RuleString r = s) ∧
    (Function.Injective api.RuleString →
      ∀ rule, 0 < refGet (fw.globalIngressRuleRef.getD []) (api.RuleString rule) ↔
        ∃ e ∈ fw.machineds, rule ∈ e.2.ingressRules) := by
  obtain ⟨hg, hc, ref, href, hs⟩ := globalRun_inv api hN fw calls h
  have key : ∀ s, 0 < refGet (fw.globalIngressRuleRef.getD []) s ↔
      ∃ e ∈ fw.machineds, ∃ r ∈ e.2.ingressRules, api.RuleString r = s := by
    intro s
    rw [href, Option.getD_some, hs s, Nat.cast_pos, sum_pos_iff_exists]
    constructor
    · rintro ⟨n, hn, hp⟩
      obtain ⟨e, he, hen⟩ := List.mem_map.mp hn
      rw [← hen] at hp
      exact ⟨e, he, (nameCount_pos api.RuleString _ (hc e he) s).mp hp⟩
    · rintro ⟨e, he, hr⟩
      exact ⟨_, List.mem_map.mpr ⟨e, he, rfl⟩,
        (nameCount_pos api.RuleString _ (hc e he) s).mpr hr⟩
  refine ⟨hg, key, ?_⟩
  intro hinj rule
  rw [key]
  constructor
  · rintro ⟨e, he, r, hr, hrs⟩
    rw [← hinj hrs]
    exact ⟨e, he, hr⟩
  · rintro ⟨e, he, hr⟩
    exact ⟨e, he, rule, hr, rfl⟩
theorem globalRun_refcount_witness :
    GlobalRun okApi
        ⟨[(⟨"0"⟩, sampleMachine true [⟨⟨80, 80, "tcp"⟩, ["0.0.0.0/0"]⟩])], [], [], true,
          some [("80-80/tcp from 0.0.0.0/0", 1)], []⟩
        [Call.OpenPorts [⟨⟨80, 80, "tcp"⟩, ["0.0.0.0/0"]⟩]] ∧
      ∀ s, 0 < refGet [("80-80/tcp from 0.0.0.0/0", 1)] s ↔
        ∃ e ∈ [((⟨"0"⟩ : MachineTag), sampleMachine true [⟨⟨80, 80, "tcp"⟩, ["0.0.0.0/0"]⟩])],
          ∃ r ∈ e.2.ingressRules, okApi.RuleString r = s :=
  have hrun : GlobalRun okApi
      ⟨[(⟨"0"⟩, sampleMachine true [⟨⟨80, 80, "tcp"⟩, ["0.0.0.0/0"]⟩])], [], [], true,
        some [("80-80/tcp from 0.0.0.0/0", 1)], []⟩
      [Call.OpenPorts [⟨⟨80, 80, "tcp"⟩, ["0.0.0.0/0"]⟩]] :=
    GlobalRun.flush ⟨[(⟨"0"⟩, sampleMachine true [])], [], [], true, some [], []⟩ [] [] []
      ⟨"0"⟩ (sampleMachine true []) (sampleMachine true [])
      ⟨[(⟨"0"⟩, sampleMachine true [])], [], [], true,
        some [("80-80/tcp from 0.0.0.0/0", 1)], []⟩
      [Call.OpenPorts [⟨⟨80, 80, "tcp"⟩, ["0.0.0.0/0"]⟩]]
      (sampleMachine true [⟨⟨80, 80, "tcp"⟩, ["0.0.0.0/0"]⟩])
      (GlobalRun.track (globalWorker []) [] ⟨"0"⟩ (sampleMachine true []) GlobalRun.start rfl)
      rfl rfl (by decide)
  ⟨hrun, (globalRun_refcount okApi (fun _ _ _ _ _ => rfl) _ _ hrun).2.1⟩

/-! ## `unitsChanged` for a unit that is assigned to no machine -/

theorem forgetUnit_eq (fw : Tables) (calls : List Call) (unitd : Addr) (u : unitRecord)
    (ma : Addr) (m : machineRecord) (sa : Addr) (s : serviceRecord)
    (hu : fw.units.lookup unitd = some u) (hm : u.machined = some ma)
    (hma : fw.machines.lookup ma = some m) (hs : u.serviced = some sa)
    (hsa : fw.services.lookup sa = some s) :
    Tables.forgetUnit fw calls unitd =
      ({ fw with
          machines := mapSet fw.machines ma { m with unitds := mapDelete m.unitds u.tag }
          services := mapSet fw.services sa { s with unitds := mapDelete s.unitds u.tag }
          unitds := mapDelete fw.unitds u.tag
          applicationids :=
            if decide (s.unitds.length = 1) && (s.unitds.lookup u.tag).isSome then
              mapDelete fw.applicationids s.application
            else fw.applicationids },
        if decide (s.unitds.length = 1) && (s.unitds.lookup u.tag).isSome then
          calls ++ [Call.StopService s.application]
        else calls, none) := by
  unfold Tables.forgetUnit
  rw [hu]
  simp only [hs, hsa, hm, hma, Option.some_bind, Option.map_some']
  by_cases hb : (decide (s.unitds.length = 1) && (s.unitds.lookup u.tag).isSome) = true
  · simp only [hb, if_true]
  · simp only [hb, Bool.false_eq_true, if_false]

theorem unitsChangedLoop_notAssigned (api : Api) (N : String → UnitTag) (fw : Tables)
    (calls : List Call) (changed : List Addr) (name : String) (rest : List String)
    (life : Life) (mt : MachineTag) (e : Err)
    (hu : api.Unit calls (N name) = (some life, none))
    (ha : api.AssignedMachine (calls ++ [Call.Unit (N name)]) (N name) = (mt, some e))
    (hnf : api.IsCodeNotFound e = false) (hna : api.IsCodeNotAssigned e = true) :
    Tables.unitsChangedLoop api N (name :: rest) fw calls changed =
      match Tables.unitChanged api fw
          (calls ++ [Call.Unit (N name)] ++ [Call.AssignedMachine (N name)]) changed (N name)
          (some life) mt with
      | (fw2, calls3, changed2, some err2) => (fw2, calls3, changed2, some err2)
      | (fw2, calls3, changed2, none) => Tables.unitsChangedLoop api N rest fw2 calls3 changed2 := by
  rw [Tables.unitsChangedLoop]
  simp only [hu, ha, hnf, hna, Bool.not_true, Bool.false_eq_true, if_false]

theorem unitChanged_untracked (api : Api) (fw : Tables) (calls : List Call)
    (changed : List Addr) (unitTag : UnitTag) (unit : Option Life) (mt : MachineTag)
    (hk : fw.unitds.lookup unitTag = none) (hm : fw.machineds.lookup mt = none) :
    Tables.unitChanged api fw calls changed unitTag unit mt = (fw, calls, changed, none) := by
  unfold Tables.unitChanged
  rw [hk]
  simp only [hm, Option.isSome_none, Bool.false_eq_true, and_false, if_false]

theorem unitChanged_moved (api : Api) (fw : Tables) (calls : List Call)
    (changed : List Addr) (unitTag : UnitTag) (unit : Option Life) (mt : MachineTag)
    (unitd : Addr) (u : unitRecord) (ma : Addr) (m : machineRecord)
    (hk : fw.unitds.lookup unitTag = some unitd) (hu : fw.units.lookup unitd = some u)
    (hm : u.machined = some ma) (hma : fw.machines.lookup ma = some m) (hne : mt ≠ m.tag) :
    Tables.unitChanged api fw calls changed unitTag unit mt =
      match Tables.forgetUnit fw calls unitd with
      | (fw2, calls2, some err) => (fw2, calls2, changed, some err)
      | (fw2, calls2, none) => (fw2, calls2, changed ++ [unitd], none) := by
  unfold Tables.unitChanged
  rw [hk]
  simp only [hu, hm, hma, Option.some_bind]
  rw [if_pos (Or.inr (Or.inr hne))]

theorem flushUnits_single (api : Api) (fw : Tables) (calls : List Call) (unitd : Addr)
    (u : unitRecord) (ma : Addr) (m : machineRecord)
    (hu : fw.units.lookup unitd = some u) (hm : u.machined = some ma)
    (hma : fw.machines.lookup ma = some m) :
    Tables.flushUnits api fw calls [unitd] = Tables.flushMachine api fw calls ma := by
  unfold Tables.flushUnits
  simp only [Tables.flushTargets, hu, hm, hma, Option.some_bind, Option.map_some']
  have : mapSet ([] : List (MachineTag × Addr)) m.tag ma = [(m.tag, ma)] := rfl
  rw [this]
  simp only [List.map_cons, List.map_nil, Tables.flushMachines]
  rcases Tables.flushMachine api fw calls ma with ⟨fw2, calls2, _ | err⟩ <;> rfl

theorem flushUnits_nil (api : Api) (fw : Tables) (calls : List Call) :
    Tables.flushUnits api fw calls [] = (fw, calls, none) := rfl
/-- C20 (the claim fails for a tracked unit): the machine `0` tracks the unit
`app/0`, the only unit of the exposed application `app`, with the rule for its
port `tcp/80-80` open.  The unit exists and `AssignedMachine` reports
NotAssigned, with the zero machine tag.  `unitsChanged` for the batch
`["app/0"]` then forgets the unit: it is removed from the unit table and from
the `unitds` of its machine and application, the application is stopped and
removed from the application table; and the machine is flushed, which closes
the port of the unit on the instance of the machine. -/
theorem unitsChanged_notAssigned_forgets :
    unassignedApi.Unit [] ⟨"app/0"⟩ = (some Life.Alive, none) ∧
    unassignedApi.AssignedMachine [Call.Unit ⟨"app/0"⟩] ⟨"app/0"⟩ =
      (MachineTag.zero, some (Err.errorf "not assigned" [])) ∧
    unassignedApi.IsCodeNotAssigned (Err.errorf "not assigned" []) = true ∧
    sampleTables.unitds.lookup ⟨"app/0"⟩ = some 1 ∧
    Tables.unitsChanged unassignedApi UnitTag.mk sampleTables [] ["app/0"] =
      ({ sampleTables with
          machines := [(0, ⟨⟨"0"⟩, [], [], [(⟨"app/0"⟩, [(⟨80, 80, "tcp"⟩, true)])]⟩)]
          services := [(2, ⟨⟨"app"⟩, true, []⟩)]
          unitds := []
          applicationids := [] },
        [Call.Unit ⟨"app/0"⟩, Call.AssignedMachine ⟨"app/0"⟩, Call.StopService ⟨"app"⟩,
          Call.Machine ⟨"0"⟩, Call.InstanceId ⟨"0"⟩, Call.Instances ["i-0"],
          Call.InstanceClosePorts "i-0" "0" [⟨⟨80, 80, "tcp"⟩, ["0.0.0.0/0"]⟩]], none) := by
  decide

/-- C20 (amended): for a unit name in a units-changed batch whose unit exists
and whose `AssignedMachine` reports NotAssigned, together with a machine tag
`mt`: when the unit is not tracked and `mt` is not a key of the machine table,
`unitsChanged` goes on to the next name with the tables and the list of changed
units as they were, and for the batch of that name alone it returns no error,
leaves the tables as they were and makes no call beyond the two queries; when
the unit is tracked, on a machine whose tag is not `mt`, `unitsChanged` forgets
the unit with `forgetUnit`, which removes it from the unit table, adds it to the
changed units, and for the batch of that name alone it then flushes the machine
of the unit with `flushMachine` and returns what that flush returns, an error
annotated. -/
theorem unitsChanged_notAssigned (api : Api) (N : String → UnitTag) (fw : Tables)
    (calls : List Call) (name : String) (life : Life) (mt : MachineTag) (e : Err)
    (hu : api.Unit calls (N name) = (some life, none))
    (ha : api.AssignedMachine (calls ++ [Call.Unit (N name)]) (N name) = (mt, some e))
    (hnf : api.IsCodeNotFound e = false) (hna : api.IsCodeNotAssigned e = true) :
    (fw.unitds.lookup (N name) = none → fw.machineds.lookup mt = none →
      (∀ rest changed, Tables.unitsChangedLoop api N (name :: rest) fw calls changed =
        Tables.unitsChangedLoop api N rest fw
          (calls ++ [Call.Unit (N name)] ++ [Call.AssignedMachine (N name)]) changed) ∧
      Tables.unitsChanged api N fw calls [name] =
        (fw, calls ++ [Call.Unit (N name)] ++ [Call.AssignedMachine (N name)], none)) ∧
    (∀ unitd u ma m sa s, fw.unitds.lookup (N name) = some unitd →
      fw.units.lookup unitd = some u → u.machined = some ma → fw.machines.lookup ma = some m →
      u.serviced = some sa → fw.services.lookup sa = some s → mt ≠ m.tag →
      (Tables.forgetUnit fw
        (calls ++ [Call.Unit (N name)] ++ [Call.AssignedMachine (N name)]) unitd).2.2 = none ∧
      (Tables.forgetUnit fw
        (calls ++ [Call.Unit (N name)] ++ [Call.AssignedMachine (N name)]) unitd).1.unitds =
          mapDelete fw.unitds u.tag ∧
      (∀ rest changed, Tables.unitsChangedLoop api N (name :: rest) fw calls changed =
        Tables.unitsChangedLoop api N rest
          (Tables.forgetUnit fw
            (calls ++ [Call.Unit (N name)] ++ [Call.AssignedMachine (N name)]) unitd).1
          (Tables.forgetUnit fw
            (calls ++ [Call.Unit (N name)] ++ [Call.AssignedMachine (N name)]) unitd).2.1
          (changed ++ [unitd])) ∧
      Tables.unitsChanged api N fw calls [name] =
        ((Tables.flushMachine api
            (Tables.forgetUnit fw
              (calls ++ [Call.Unit (N name)] ++ [Call.AssignedMachine (N name)]) unitd).1
            (Tables.forgetUnit fw
              (calls ++ [Call.Unit (N name)] ++ [Call.AssignedMachine (N name)]) unitd).2.1
            ma).1,
          (Tables.flushMachine api
            (Tables.forgetUnit fw
              (calls ++ [Call.Unit (N name)] ++ [Call.AssignedMachine (N name)]) unitd).1
            (Tables.forgetUnit fw
              (calls ++ [Call.Unit (N name)] ++ [Call.AssignedMachine (N name)]) unitd).2.1
            ma).2.1,
          (Tables.flushMachine api
            (Tables.forgetUnit fw
              (calls ++ [Call.Unit (N name)] ++ [Call.AssignedMachine (N name)]) unitd).1
            (Tables.forgetUnit fw
              (calls ++ [Call.Unit (N name)] ++ [Call.AssignedMachine (N name)]) unitd).2.1
            ma).2.2.map (fun err => err.annotate "cannot change firewall ports"))) := by
  constructor
  · intro hk hm
    have hstep : ∀ rest changed,
        Tables.unitsChangedLoop api N (name :: rest) fw calls changed =
          Tables.unitsChangedLoop api N rest fw
            (calls ++ [Call.Unit (N name)] ++ [Call.AssignedMachine (N name)]) changed := by
      intro rest changed
      rw [unitsChangedLoop_notAssigned api N fw calls changed name rest life mt e hu ha hnf hna,
        unitChanged_untracked api fw _ changed (N name) (some life) mt hk hm]
    refine ⟨hstep, ?_⟩
    unfold Tables.unitsChanged
    rw [hstep [] []]
    rfl
  · intro unitd u ma m sa s hk hun hm hma hs hsa hne
    have hF := forgetUnit_eq fw
      (calls ++ [Call.Unit (N name)] ++ [Call.AssignedMachine (N name)]) unitd u ma m sa s
      hun hm hma hs hsa
    have hstep : ∀ rest changed,
        Tables.unitsChangedLoop api N (name :: rest) fw calls changed =
          Tables.unitsChangedLoop api N rest
            (Tables.forgetUnit fw
              (calls ++ [Call.Unit (N name)] ++ [Call.AssignedMachine (N name)]) unitd).1
            (Tables.forgetUnit fw
              (calls ++ [Call.Unit (N name)] ++ [Call.AssignedMachine (N name)]) unitd).2.1
            (changed ++ [unitd]) := by
      intro rest changed
      rw [unitsChangedLoop_notAssigned api N fw calls changed name rest life mt e hu ha hnf hna,
        unitChanged_moved api fw _ changed (N name) (some life) mt unitd u ma m hk hun hm hma hne,
        hF]
    refine ⟨by rw [hF], by rw [hF], hstep, ?_⟩
    unfold Tables.unitsChanged
    rw [hstep [] []]
    simp only [Tables.unitsChangedLoop, List.nil_append]
    rw [flushUnits_single api _ _ unitd u ma
      { m with unitds := mapDelete m.unitds u.tag } (by rw [hF]; exact hun) hm
      (by rw [hF]; simp only; rw [lookup_mapSet, if_pos rfl])]
    rcases Tables.flushMachine api
      (Tables.forgetUnit fw
        (calls ++ [Call.Unit (N name)] ++ [Call.AssignedMachine (N name)]) unitd).1
      (Tables.forgetUnit fw
        (calls ++ [Call.Unit (N name)] ++ [Call.AssignedMachine (N name)]) unitd).2.1
      ma with ⟨a, b, _ | d⟩ <;> rfl

theorem unitsChanged_notAssigned_witness :
    Tables.unitsChanged unassignedApi UnitTag.mk { sampleTables with unitds := [] } []
        ["app/0"] =
      ({ sampleTables with unitds := [] },
        [Call.Unit ⟨"app/0"⟩, Call.AssignedMachine ⟨"app/0"⟩], none) ∧
    (Tables.forgetUnit sampleTables
      ([] ++ [Call.Unit ⟨"app/0"⟩] ++ [Call.AssignedMachine ⟨"app/0"⟩]) 1).1.unitds =
        mapDelete sampleTables.unitds ⟨"app/0"⟩ :=
  ⟨((unitsChanged_notAssigned unassignedApi UnitTag.mk { sampleTables with unitds := [] } []
      "app/0" Life.Alive MachineTag.zero (Err.errorf "not assigned" []) rfl rfl (by decide)
      (by decide)).1 (by decide) (by decide)).2,
    ((unitsChanged_notAssigned unassignedApi UnitTag.mk sampleTables []
      "app/0" Life.Alive MachineTag.zero (Err.errorf "not assigned" []) rfl rfl (by decide)
      (by decide)).2 1 ⟨⟨"app/0"⟩, some 2, some 0⟩ 0
        ⟨⟨"0"⟩, [(⟨"app/0"⟩, 1)], [⟨⟨80, 80, "tcp"⟩, ["0.0.0.0/0"]⟩],
          [(⟨"app/0"⟩, [(⟨80, 80, "tcp"⟩, true)])]⟩ 2 ⟨⟨"app"⟩, true, [(⟨"app/0"⟩, 1)]⟩
        (by decide) (by decide) rfl (by decide) rfl (by decide) (by decide)).2.1⟩

/-! ## A port change for a machine that is not tracked -/

/-- C21: for a machine tag that is not a key of the machine table and every
subnet tag, `openedPortsChanged` returns no error and leaves the worker (every
table, every record, the reference counts) and the calls made so far as they
were: it makes no query and no cloud call. -/
theorem openedPortsChanged_unknown (api : Api) (fw : Tables) (calls : List Call)
    (machineTag : MachineTag) (subnetTag : SubnetTag)
    (h : fw.machineds.lookup machineTag = none) :
    Tables.openedPortsChanged api fw calls machineTag subnetTag = (fw, calls, none) := by
  unfold Tables.openedPortsChanged
  rw [h]

theorem openedPortsChanged_unknown_witness :
    Tables.openedPortsChanged okApi sampleTables [] ⟨"7"⟩ ⟨"10.0.0.0/24"⟩ =
      (sampleTables, [], none) :=
  openedPortsChanged_unknown okApi sampleTables [] ⟨"7"⟩ ⟨"10.0.0.0/24"⟩ (by decide)

/-! ## `InstanceId` of a machine that is not provisioned -/

theorem flushInstancePorts_instanceId_err (api : Api) (calls : List Call) (machined : machineData)
    (toOpen toClose : List IngressRule) (instanceId : String) (err : Err)
    (hne : ¬ (toOpen.length = 0 ∧ toClose.length = 0))
    (hm : (api.Machine calls machined.tag).2 = none)
    (hi : api.InstanceId (calls ++ [Call.Machine machined.tag]) machined.tag =
      (instanceId, some err)) :
    flushInstancePorts api calls machined toOpen toClose =
      (calls ++ [Call.Machine machined.tag] ++ [Call.InstanceId machined.tag], some err) := by
  unfold flushInstancePorts
  rw [if_neg hne]
  simp only [hm, hi]

theorem reconcileInstance_notProvisioned (api : Api) (calls : List Call) (tag : MachineTag)
    (rules : List IngressRule) (instanceId : String) (err : Err)
    (hi : api.InstanceId calls tag = (instanceId, some err))
    (hp : api.IsNotProvisioned err = true) :
    reconcileInstance api calls tag rules = (calls ++ [Call.InstanceId tag], none, true) := by
  unfold reconcileInstance
  simp only [hi, hp, if_true]

/-- C27 (the code departs from the claim in `flushInstancePorts`): when
`InstanceId()` of a machine that the orchestrator finds reports a NotProvisioned
error, the loop of `reconcileInstances` goes on to the next machine after the
two queries, without a cloud call and without an error; but `flushInstancePorts`
with a `toOpen` or `toClose` that is not empty returns that error after the two
queries, as it returns every error of `InstanceId()`. -/
theorem instanceId_notProvisioned (api : Api) (fw : Tables) (calls : List Call)
    (key : MachineTag) (rest : List MachineTag) (machined : Addr) (m : machineRecord)
    (view : machineData) (toOpen toClose : List IngressRule) (instanceId : String) (err : Err)
    (hk : fw.machineds.lookup key = some machined) (hr : fw.machines.lookup machined = some m)
    (hv : view.tag = m.tag)
    (hm : (api.Machine calls m.tag).2 = none)
    (hi : api.InstanceId (calls ++ [Call.Machine m.tag]) m.tag = (instanceId, some err))
    (hp : api.IsNotProvisioned err = true)
    (hne : toOpen ≠ [] ∨ toClose ≠ []) :
    Tables.reconcileMachines api (key :: rest) fw calls =
      Tables.reconcileMachines api rest fw
        (calls ++ [Call.Machine m.tag] ++ [Call.InstanceId m.tag]) ∧
    flushInstancePorts api calls view toOpen toClose =
      (calls ++ [Call.Machine m.tag] ++ [Call.InstanceId m.tag], some err) := by
  constructor
  · rw [Tables.reconcileMachines]
    simp only [hk, hr, hm]
    rw [reconcileInstance_notProvisioned api _ m.tag m.ingressRules instanceId err hi hp]
  · have hne2 : ¬ (toOpen.length = 0 ∧ toClose.length = 0) := by
      rintro ⟨h1, h2⟩
      rcases hne with h | h
      · exact h (List.length_eq_zero.mp h1)
      · exact h (List.length_eq_zero.mp h2)
    have := flushInstancePorts_instanceId_err api calls view toOpen toClose instanceId err hne2
      (by rw [hv]; exact hm) (by rw [hv]; exact hi)
    rw [this, hv]

theorem instanceId_notProvisioned_witness :
    Tables.reconcileMachines notProvisionedApi [⟨"0"⟩] sampleTables [] =
      Tables.reconcileMachines notProvisionedApi [] sampleTables
        ([] ++ [Call.Machine ⟨"0"⟩] ++ [Call.InstanceId ⟨"0"⟩]) ∧
    flushInstancePorts notProvisionedApi [] (sampleMachine true [])
        [⟨⟨80, 80, "tcp"⟩, ["0.0.0.0/0"]⟩] [] =
      ([] ++ [Call.Machine ⟨"0"⟩] ++ [Call.InstanceId ⟨"0"⟩],
        some (Err.errorf "not provisioned" [])) :=
  instanceId_notProvisioned notProvisionedApi sampleTables [] ⟨"0"⟩ [] 0
    ⟨⟨"0"⟩, [(⟨"app/0"⟩, 1)], [⟨⟨80, 80, "tcp"⟩, ["0.0.0.0/0"]⟩],
      [(⟨"app/0"⟩, [(⟨80, 80, "tcp"⟩, true)])]⟩
    (sampleMachine true []) [⟨⟨80, 80, "tcp"⟩, ["0.0.0.0/0"]⟩] [] ""
    (Err.errorf "not provisioned" []) (by decide) (by decide) rfl rfl rfl (by decide)
    (Or.inl (by decide))

/-! ## The API server: who may set the password of a unit -/

/-- C28 (the code departs from the claim): `srvUnit.SetPassword` computes
`allow` as `ename != u.u.EntityName()`.  Every logged-in entity other than the
unit is therefore permitted, and its password is handed to the unit; the unit
itself is refused with `errPerm`, without a call to the unit, unless it is its
own deployer.  So an unrelated unit `unit-other-0` sets the password of
`unit-app-0`, and `unit-app-0` itself gets `errPerm`. -/
theorem SetPassword_allow (ename unitName : String) (deployer : String × Bool)
    (S : String → Option Err) (password : String) :
    (ename ≠ unitName →
      srvUnit.SetPassword ename unitName deployer S password = setPassword S password) ∧
    (ename = unitName → ¬ (deployer.2 = true ∧ ename = deployer.1) →
      srvUnit.SetPassword ename unitName deployer S password = (some errPerm, [])) ∧
    (ename = unitName → deployer.2 = true → ename = deployer.1 →
      srvUnit.SetPassword ename unitName deployer S password = setPassword S password) ∧
    srvUnit.SetPassword "unit-other-0" "unit-app-0" ("machine-0", true) (fun _ => none)
      "secret" = (none, ["secret"]) ∧
    srvUnit.SetPassword "unit-app-0" "unit-app-0" ("machine-0", true) (fun _ => none)
      "secret" = (some errPerm, []) := by
  refine ⟨?_, ?_, ?_, by decide, by decide⟩
  · intro h
    unfold srvUnit.SetPassword
    simp [h]
  · intro h hd
    unfold srvUnit.SetPassword
    subst h
    by_cases h2 : deployer.2 = true
    · have h3 : ¬ ename = deployer.1 := fun e => hd ⟨h2, e⟩
      simp [h2, h3]
    · simp [h2]
  · intro h h2 h3
    unfold srvUnit.SetPassword
    subst h
    simp [h2, ← h3]

theorem openedPortsChanged_eq (api : Api) (fw : Tables) (calls : List Call)
    (machineTag : MachineTag) (subnetTag : SubnetTag) (machined : Addr) (m : machineRecord)
    (ports : List (PortRange × UnitTag))
    (hk : fw.machineds.lookup machineTag = some machined)
    (hr : fw.machines.lookup machined = some m)
    (hm : (api.Machine calls m.tag).2 = none)
    (hp : api.OpenedPorts (calls ++ [Call.Machine m.tag]) m.tag subnetTag = (ports, none)) :
    Tables.openedPortsChanged api fw calls machineTag subnetTag =
      match Tables.newPortRanges fw m ports [] with
      | (none, err) =>
        (fw, calls ++ [Call.Machine m.tag] ++ [Call.OpenedPorts m.tag subnetTag], err)
      | (some newPortRanges, _) =>
        if !unitPortsEqual m.definedPorts newPortRanges then
          Tables.flushMachine api
            { fw with
              machines := mapSet fw.machines machined { m with definedPorts := newPortRanges } }
            (calls ++ [Call.Machine m.tag] ++ [Call.OpenedPorts m.tag subnetTag]) machined
        else (fw, calls ++ [Call.Machine m.tag] ++ [Call.OpenedPorts m.tag subnetTag], none) := by
  unfold Tables.openedPortsChanged
  simp only [hk, hr, hm, hp]

theorem newPortRanges_untracked (fw : Tables) (m : machineRecord)
    (ports : List (PortRange × UnitTag)) (acc : List (UnitTag × portRanges))
    (hres : ∀ e ∈ m.unitds, (fw.units.lookup e.2).isSome = true)
    (hun : ∃ e ∈ ports, m.unitds.lookup e.2 = none) :
    Tables.newPortRanges fw m ports acc = (none, none) := by
  induction ports generalizing acc with
  | nil =>
    obtain ⟨e, he, _⟩ := hun
    exact absurd he (List.not_mem_nil _)
  | cons x rest ih =>
    obtain ⟨portRange, unitTag⟩ := x
    rw [Tables.newPortRanges]
    cases hl : m.unitds.lookup unitTag with
    | none => rfl
    | some unitd =>
      have h1 := hres (unitTag, unitd) (mem_of_lookup _ _ _ hl)
      simp only
      cases hu : fw.units.lookup unitd with
      | none => rw [hu] at h1; simp at h1
      | some u =>
        simp only
        apply ih
        obtain ⟨e, he, hen⟩ := hun
        rcases List.mem_cons.mp he with he | he
        · subst he
          rw [hl] at hen
          simp at hen
        · exact ⟨e, he, hen⟩

/-- C30: for a tracked machine whose orchestrator queries succeed (and whose
tracked units are records on the heap), if a port range reported by
`OpenedPorts` belongs to a unit that is not tracked in `m.unitds`,
`openedPortsChanged` returns no error and leaves the worker as it was, the
`definedPorts` and `ingressRules` of the machine included; the calls it makes
are the two queries `Machine` and `OpenedPorts`, so there is no flush; this
holds wherever in the report that port range stands and whatever the other
port ranges are. -/
theorem openedPortsChanged_untracked_unit (api : Api) (fw : Tables) (calls : List Call)
    (machineTag : MachineTag) (subnetTag : SubnetTag) (machined : Addr) (m : machineRecord)
    (ports : List (PortRange × UnitTag))
    (hk : fw.machineds.lookup machineTag = some machined)
    (hr : fw.machines.lookup machined = some m)
    (hm : (api.Machine calls m.tag).2 = none)
    (hp : api.OpenedPorts (calls ++ [Call.Machine m.tag]) m.tag subnetTag = (ports, none))
    (hres : ∀ e ∈ m.unitds, (fw.units.lookup e.2).isSome = true)
    (hun : ∃ e ∈ ports, m.unitds.lookup e.2 = none) :
    Tables.openedPortsChanged api fw calls machineTag subnetTag =
      (fw, calls ++ [Call.Machine m.tag] ++ [Call.OpenedPorts m.tag subnetTag], none) := by
  rw [openedPortsChanged_eq api fw calls machineTag subnetTag machined m ports hk hr hm hp,
    newPortRanges_untracked fw m ports [] hres hun]

theorem openedPortsChanged_untracked_unit_witness :
    Tables.openedPortsChanged
        (reportApi [(⟨80, 80, "tcp"⟩, ⟨"app/0"⟩), (⟨443, 443, "tcp"⟩, ⟨"db/0"⟩)]) sampleTables [] ⟨"0"⟩ ⟨"10.0.0.0/24"⟩ =
      (sampleTables,
        [] ++ [Call.Machine ⟨"0"⟩] ++ [Call.OpenedPorts ⟨"0"⟩ ⟨"10.0.0.0/24"⟩], none) :=
  openedPortsChanged_untracked_unit
    (reportApi [(⟨80, 80, "tcp"⟩, ⟨"app/0"⟩), (⟨443, 443, "tcp"⟩, ⟨"db/0"⟩)]) sampleTables [] ⟨"0"⟩ ⟨"10.0.0.0/24"⟩ 0
    ⟨⟨"0"⟩, [(⟨"app/0"⟩, 1)], [⟨⟨80, 80, "tcp"⟩, ["0.0.0.0/0"]⟩],
      [(⟨"app/0"⟩, [(⟨80, 80, "tcp"⟩, true)])]⟩
    [(⟨80, 80, "tcp"⟩, ⟨"app/0"⟩), (⟨443, 443, "tcp"⟩, ⟨"db/0"⟩)]
    (by decide) (by decide) rfl rfl (by decide) ⟨(⟨443, 443, "tcp"⟩, ⟨"db/0"⟩), by decide, by decide⟩
/-! ## Comparing maps entry by entry -/

theorem keys_perm_of_lookup {κ ν μ : Type} [DecidableEq κ] (a : List (κ × ν)) (b : List (κ × μ))
    (ha : (a.map Prod.fst).Nodup) (hb : (b.map Prod.fst).Nodup)
    (h : ∀ k, a.lookup k = none ↔ b.lookup k = none) :
    (a.map Prod.fst).Perm (b.map Prod.fst) := by
  rw [List.perm_ext_iff_of_nodup ha hb]
  intro k
  have h1 := lookup_eq_none_iff_keys a k
  have h2 := lookup_eq_none_iff_keys b k
  have h3 := h k
  constructor
  · intro hk
    by_contra hc
    exact (h1.mp (h3.mpr (h2.mpr hc))) hk
  · intro hk
    by_contra hc
    exact (h2.mp (h3.mp (h1.mpr hc))) hk

theorem assocEqual_iff {κ ν : Type} [DecidableEq κ] (eqv : ν → ν → Bool) (a b : List (κ × ν))
    (f : κ × ν → Bool)
    (hf : ∀ e, f e = true ↔ ∃ y, b.lookup e.1 = some y ∧ eqv e.2 y = true)
    (ha : (a.map Prod.fst).Nodup) (hb : (b.map Prod.fst).Nodup) :
    (if a.length ≠ b.length then false else a.all f) = true ↔
      sameEntries (fun x y => eqv x y = true) a b := by
  constructor
  · intro h
    by_cases hl : a.length ≠ b.length
    · rw [if_pos hl] at h
      exact absurd h (by simp)
    · rw [if_neg hl, List.all_eq_true] at h
      have hl2 : a.length = b.length := not_not.mp hl
      have hsome : ∀ k x, a.lookup k = some x → ∃ y, b.lookup k = some y ∧ eqv x y = true := by
        intro k x hx
        exact (hf (k, x)).mp (h (k, x) (mem_of_lookup a k x hx))
      have hsub : a.map Prod.fst ⊆ b.map Prod.fst := by
        intro k hk
        by_contra hc
        have hbn := (lookup_eq_none_iff_keys b k).mpr hc
        cases hak : a.lookup k with
        | none => exact ((lookup_eq_none_iff_keys a k).mp hak) hk
        | some x =>
          obtain ⟨y, hy, _⟩ := hsome k x hak
          rw [hbn] at hy
          simp at hy
      have hperm : (a.map Prod.fst).Perm (b.map Prod.fst) :=
        (List.subperm_of_subset ha hsub).perm_of_length_le (by simp [hl2])
      intro k
      constructor
      · rw [lookup_eq_none_iff_keys, lookup_eq_none_iff_keys, hperm.mem_iff]
      · intro x y hx hy
        obtain ⟨y2, hy2, he⟩ := hsome k x hx
        rw [hy] at hy2
        cases hy2
        exact he
  · intro h
    have hperm := keys_perm_of_lookup a b ha hb (fun k => (h k).1)
    have hl : a.length = b.length := by
      have := hperm.length_eq
      simpa using this
    rw [if_neg (by simp [hl]), List.all_eq_true]
    intro e he
    obtain ⟨k, x⟩ := e
    have hx := lookup_of_mem a k x ha he
    rw [hf]
    cases hb2 : b.lookup k with
    | none =>
      have := ((h k).1).mpr hb2
      rw [hx] at this
      simp at this
    | some y => exact ⟨y, rfl, (h k).2 x y hx hb2⟩

theorem portRangesEqual_iff (a b : portRanges) (ha : (a.map Prod.fst).Nodup)
    (hb : (b.map Prod.fst).Nodup) :
    portRangesEqual a b = true ↔ ∀ p, a.lookup p = b.lookup p := by
  unfold portRangesEqual
  rw [assocEqual_iff (fun x y => decide (x = y)) a b _ (by
    intro e
    cases b.lookup e.1 <;> simp) ha hb]
  unfold sameEntries
  constructor
  · intro h p
    cases hx : a.lookup p with
    | none => exact ((h p).1.mp hx).symm
    | some x =>
      cases hy : b.lookup p with
      | none =>
        have := (h p).1.mpr hy
        rw [hx] at this
        simp at this
      | some y =>
        have := (h p).2 x y hx hy
        rw [of_decide_eq_true this]
  · intro h k
    rw [h k]
    refine ⟨Iff.rfl, ?_⟩
    intro x y hx hy
    rw [hx] at hy
    cases hy
    simp

theorem unitPortsEqual_iff (a b : List (UnitTag × portRanges))
    (ha : (a.map Prod.fst).Nodup) (hb : (b.map Prod.fst).Nodup)
    (ha2 : ∀ e ∈ a, (e.2.map Prod.fst).Nodup) (hb2 : ∀ e ∈ b, (e.2.map Prod.fst).Nodup) :
    unitPortsEqual a b = true ↔ sameEntries (fun x y => ∀ p, x.lookup p = y.lookup p) a b := by
  unfold unitPortsEqual
  rw [assocEqual_iff portRangesEqual a b _ (by
    intro e
    cases b.lookup e.1 <;> simp) ha hb]
  unfold sameEntries
  constructor
  · intro h k
    refine ⟨(h k).1, ?_⟩
    intro x y hx hy
    exact (portRangesEqual_iff x y (ha2 (k, x) (mem_of_lookup a k x hx))
      (hb2 (k, y) (mem_of_lookup b k y hy))).mp ((h k).2 x y hx hy)
  · intro h k
    refine ⟨(h k).1, ?_⟩
    intro x y hx hy
    exact (portRangesEqual_iff x y (ha2 (k, x) (mem_of_lookup a k x hx))
      (hb2 (k, y) (mem_of_lookup b k y hy))).mpr ((h k).2 x y hx hy)
/-! ## The map that `openedPortsChanged` rebuilds -/

theorem mem_mapSet {κ ν : Type} [DecidableEq κ] (m : List (κ × ν)) (k : κ) (v : ν)
    (e : κ × ν) (h : e ∈ mapSet m k v) : e ∈ m ∨ e = (k, v) := by
  unfold mapSet at h
  split at h
  · obtain ⟨x, hx, hxe⟩ := List.mem_map.mp h
    by_cases hk : x.1 = k
    · rw [if_pos hk] at hxe
      exact Or.inr hxe.symm
    · rw [if_neg hk] at hxe
      exact Or.inl (hxe ▸ hx)
  · rcases List.mem_append.mp h with h | h
    · exact Or.inl h
    · exact Or.inr (List.mem_singleton.mp h)

theorem newPortRanges_grouped (fw : Tables) (m : machineRecord)
    (ports : List (PortRange × UnitTag)) (acc : List (UnitTag × portRanges))
    (hres : ∀ e ∈ m.unitds, (fw.units.lookup e.2).isSome = true)
    (htr : allTracked m ports)
    (hacc : (acc.map Prod.fst).Nodup) (hacc2 : ∀ e ∈ acc, (e.2.map Prod.fst).Nodup) :
    ∃ g, Tables.newPortRanges fw m ports acc = (some g, none) ∧
      (g.map Prod.fst).Nodup ∧ (∀ e ∈ g, (e.2.map Prod.fst).Nodup) ∧
      (∀ t, (g.lookup t).isSome = true ↔
        ((acc.lookup t).isSome = true ∨ ∃ e ∈ ports, fw.owner m e.2 = some t)) ∧
      (∀ t p, ((g.lookup t).getD []).lookup p =
        if (∃ e ∈ ports, e.1 = p ∧ fw.owner m e.2 = some t) then some true
        else ((acc.lookup t).getD []).lookup p) := by
  induction ports generalizing acc with
  | nil =>
    refine ⟨acc, rfl, hacc, hacc2, ?_, ?_⟩
    · intro t
      simp
    · intro t p
      simp
  | cons x rest ih =>
    obtain ⟨p0, k0⟩ := x
    have h0 := htr (p0, k0) (List.mem_cons_self _ _)
    simp only at h0
    cases hl : m.unitds.lookup k0 with
    | none => rw [hl] at h0; simp at h0
    | some a0 =>
      have h1 := hres (k0, a0) (mem_of_lookup _ _ _ hl)
      simp only at h1
      cases hu : fw.units.lookup a0 with
      | none => rw [hu] at h1; simp at h1
      | some u0 =>
        have hown : fw.owner m k0 = some u0.tag := by
          unfold Tables.owner
          rw [hl]
          simp [hu]
        have hr0 : (((acc.lookup u0.tag).getD []).map Prod.fst).Nodup := by
          cases ha : acc.lookup u0.tag with
          | none => simp
          | some r => exact hacc2 (u0.tag, r) (mem_of_lookup _ _ _ ha)
        obtain ⟨g, hg, hn1, hn2, hA, hB⟩ := ih
          (mapSet acc u0.tag (mapSet ((acc.lookup u0.tag).getD []) p0 true))
          (fun e he => htr e (List.mem_cons_of_mem _ he))
          (nodupKeys_mapSet _ _ _ hacc)
          (by
            intro e he
            rcases mem_mapSet _ _ _ _ he with he | he
            · exact hacc2 e he
            · rw [he]
              exact nodupKeys_mapSet _ _ _ hr0)
        refine ⟨g, ?_, hn1, hn2, ?_, ?_⟩
        · rw [Tables.newPortRanges]
          simp only [hl, hu]
          exact hg
        · intro t
          rw [hA t, lookup_mapSet]
          by_cases ht : t = u0.tag
          · subst ht
            simp [hown]
          · have ht2 : ¬ u0.tag = t := fun e => ht e.symm
            simp [ht, hown, ht2]
        · intro t p
          rw [hB t p, lookup_mapSet]
          by_cases hc : ∃ e ∈ rest, e.1 = p ∧ fw.owner m e.2 = some t
          · rw [if_pos hc, if_pos]
            obtain ⟨e, he, hep⟩ := hc
            exact ⟨e, List.mem_cons_of_mem _ he, hep⟩
          · rw [if_neg hc]
            by_cases ht : t = u0.tag
            · subst ht
              simp only [if_true, Option.getD_some, lookup_mapSet]
              by_cases hp : p = p0
              · subst hp
                rw [if_pos rfl, if_pos]
                exact ⟨(p, k0), List.mem_cons_self _ _, rfl, hown⟩
              · rw [if_neg hp, if_neg]
                rintro ⟨e, he, hep, _⟩
                rcases List.mem_cons.mp he with he | he
                · subst he
                  exact hp hep.symm
                · exact hc ⟨e, he, hep, by assumption⟩
            · rw [if_neg ht, if_neg]
              rintro ⟨e, he, hep, heo⟩
              rcases List.mem_cons.mp he with he | he
              · subst he
                rw [hown] at heo
                exact ht (Option.some.inj heo).symm
              · exact hc ⟨e, he, hep, heo⟩

/-- C29: for a tracked machine `m` whose orchestrator queries succeed, when
every port range reported by `OpenedPorts` belongs to a unit tracked in
`m.unitds`, `openedPortsChanged` builds the map `g` that groups the reported
port ranges by the unit that owns them: a unit is a key of `g` exactly when it
owns a reported port range, and its entry holds exactly the port ranges it owns,
each with the value `true`.  When `unitPortsEqual(m.definedPorts, g)` is false
the function replaces `m.definedPorts` by `g` and returns what `flushMachine(m)`
returns; when it is true the worker is left as it was and only the two queries
are made.  `unitPortsEqual` is true exactly when the two maps have the same
unit keys with the same port ranges under each key. -/
theorem openedPortsChanged_rebuild (api : Api) (fw : Tables) (calls : List Call)
    (machineTag : MachineTag) (subnetTag : SubnetTag) (machined : Addr) (m : machineRecord)
    (ports : List (PortRange × UnitTag))
    (hk : fw.machineds.lookup machineTag = some machined)
    (hr : fw.machines.lookup machined = some m)
    (hm : (api.Machine calls m.tag).2 = none)
    (hp : api.OpenedPorts (calls ++ [Call.Machine m.tag]) m.tag subnetTag = (ports, none))
    (hres : ∀ e ∈ m.unitds, (fw.units.lookup e.2).isSome = true)
    (htr : allTracked m ports) :
    ∃ g, Tables.newPortRanges fw m ports [] = (some g, none) ∧
      (∀ t, (g.lookup t).isSome = true ↔ ∃ e ∈ ports, fw.owner m e.2 = some t) ∧
      (∀ t p, ((g.lookup t).getD []).lookup p =
        if (∃ e ∈ ports, e.1 = p ∧ fw.owner m e.2 = some t) then some true else none) ∧
      (unitPortsEqual m.definedPorts g = false →
        Tables.openedPortsChanged api fw calls machineTag subnetTag =
          Tables.flushMachine api
            { fw with machines := mapSet fw.machines machined { m with definedPorts := g } }
            (calls ++ [Call.Machine m.tag] ++ [Call.OpenedPorts m.tag subnetTag]) machined) ∧
      (unitPortsEqual m.definedPorts g = true →
        Tables.openedPortsChanged api fw calls machineTag subnetTag =
          (fw, calls ++ [Call.Machine m.tag] ++ [Call.OpenedPorts m.tag subnetTag], none)) ∧
      ((m.definedPorts.map Prod.fst).Nodup →
        (∀ e ∈ m.definedPorts, (e.2.map Prod.fst).Nodup) →
        (unitPortsEqual m.definedPorts g = true ↔
          sameEntries (fun x y => ∀ p, x.lookup p = y.lookup p) m.definedPorts g)) := by
  obtain ⟨g, hg, hn1, hn2, hA, hB⟩ := newPortRanges_grouped fw m ports [] hres htr
    (by simp) (by simp)
  have heq := openedPortsChanged_eq api fw calls machineTag subnetTag machined m ports hk hr hm hp
  rw [hg] at heq
  refine ⟨g, hg, ?_, ?_, ?_, ?_, ?_⟩
  · intro t
    rw [hA t]
    simp
  · intro t p
    rw [hB t p]
    simp
  · intro hne
    rw [heq]
    simp [hne]
  · intro he
    rw [heq]
    simp [he]
  · intro hd1 hd2
    exact unitPortsEqual_iff m.definedPorts g hd1 hn1 hd2 hn2

theorem openedPortsChanged_rebuild_witness :
    ∃ g, Tables.newPortRanges sampleTables
        ⟨⟨"0"⟩, [(⟨"app/0"⟩, 1)], [⟨⟨80, 80, "tcp"⟩, ["0.0.0.0/0"]⟩],
          [(⟨"app/0"⟩, [(⟨80, 80, "tcp"⟩, true)])]⟩
        [(⟨443, 443, "tcp"⟩, ⟨"app/0"⟩)] [] = (some g, none) ∧
      (unitPortsEqual [(⟨"app/0"⟩, [(⟨80, 80, "tcp"⟩, true)])] g = false →
        Tables.openedPortsChanged (reportApi [(⟨443, 443, "tcp"⟩, ⟨"app/0"⟩)]) sampleTables []
            ⟨"0"⟩ ⟨"10.0.0.0/24"⟩ =
          Tables.flushMachine (reportApi [(⟨443, 443, "tcp"⟩, ⟨"app/0"⟩)])
            { sampleTables with
              machines := mapSet sampleTables.machines 0
                ⟨⟨"0"⟩, [(⟨"app/0"⟩, 1)], [⟨⟨80, 80, "tcp"⟩, ["0.0.0.0/0"]⟩], g⟩ }
            ([] ++ [Call.Machine ⟨"0"⟩] ++ [Call.OpenedPorts ⟨"0"⟩ ⟨"10.0.0.0/24"⟩]) 0) :=
  (openedPortsChanged_rebuild (reportApi [(⟨443, 443, "tcp"⟩, ⟨"app/0"⟩)]) sampleTables []
    ⟨"0"⟩ ⟨"10.0.0.0/24"⟩ 0
    ⟨⟨"0"⟩, [(⟨"app/0"⟩, 1)], [⟨⟨80, 80, "tcp"⟩, ["0.0.0.0/0"]⟩],
      [(⟨"app/0"⟩, [(⟨80, 80, "tcp"⟩, true)])]⟩
    [(⟨443, 443, "tcp"⟩, ⟨"app/0"⟩)]
    (by decide) (by decide) rfl rfl (by decide) (by unfold allTracked; decide)).imp
    (fun _ h => ⟨h.1, h.2.2.2.1⟩)

/-! ## `forgetUnit` -/

theorem only_key_iff {κ ν : Type} [DecidableEq κ] (m : List (κ × ν)) (k : κ) :
    (decide (m.length = 1) && (m.lookup k).isSome) = true ↔ m.map Prod.fst = [k] := by
  cases m with
  | nil => simp
  | cons e rest =>
    obtain ⟨a, b⟩ := e
    cases rest with
    | nil =>
      by_cases h : k = a
      · subst h
        simp
      · have h2 : ¬ a = k := fun e => h e.symm
        have h3 : (k == a) = false := by simp [h]
        simp [List.lookup, h3, h2]
    | cons e2 rest2 => simp

theorem mapDelete_eq_nil {κ ν : Type} [DecidableEq κ] (m : List (κ × ν)) (k : κ)
    (hn : (m.map Prod.fst).Nodup) (h : mapDelete m k = []) : m = [] ∨ m.map Prod.fst = [k] := by
  unfold mapDelete at h
  rw [List.filter_eq_nil_iff] at h
  cases m with
  | nil => exact Or.inl rfl
  | cons e rest =>
    right
    have he : e.1 = k := by
      have := h e (List.mem_cons_self _ _)
      simpa using this
    cases rest with
    | nil => simp [he]
    | cons e2 rest2 =>
      have he2 : e2.1 = k := by
        have := h e2 (List.mem_cons_of_mem _ (List.mem_cons_self _ _))
        simpa using this
      simp [he, he2] at hn

/-- C22: for a unit record `u` whose machine and application records are on the
heap, `forgetUnit(u)` returns without a panic; it removes `u.tag` from the unit
table, from the `unitds` of its machine and from the `unitds` of its
application, and leaves every other key of these three maps, every other
record, the machine table, the reference counts and the rules and defined ports
of every machine as they were.  The only call it can make is the stop of the
watcher of the application, so there is no flush.  The application is removed
from the application table, and its watcher stopped, exactly when `u.tag` is
the only key of the `unitds` of the application; every other key of the
application table is kept.  So when, before the call, every application of the
table has a record under its own tag with `unitds` that are not empty, the same
holds after the call. -/
theorem forgetUnit_spec (fw : Tables) (calls : List Call) (unitd : Addr) (u : unitRecord)
    (ma : Addr) (m : machineRecord) (sa : Addr) (s : serviceRecord)
    (hu : fw.units.lookup unitd = some u) (hm : u.machined = some ma)
    (hma : fw.machines.lookup ma = some m) (hs : u.serviced = some sa)
    (hsa : fw.services.lookup sa = some s) :
    (Tables.forgetUnit fw calls unitd).2.2 = none ∧
    (Tables.forgetUnit fw calls unitd).1.unitds = mapDelete fw.unitds u.tag ∧
    (∀ t, (Tables.forgetUnit fw calls unitd).1.unitds.lookup t =
      if t = u.tag then none else fw.unitds.lookup t) ∧
    (∀ a, (Tables.forgetUnit fw calls unitd).1.machines.lookup a =
      if a = ma then some { m with unitds := mapDelete m.unitds u.tag }
      else fw.machines.lookup a) ∧
    (∀ t, (mapDelete m.unitds u.tag).lookup t = if t = u.tag then none else m.unitds.lookup t) ∧
    (∀ a, (Tables.forgetUnit fw calls unitd).1.services.lookup a =
      if a = sa then some { s with unitds := mapDelete s.unitds u.tag }
      else fw.services.lookup a) ∧
    (∀ t, (mapDelete s.unitds u.tag).lookup t = if t = u.tag then none else s.unitds.lookup t) ∧
    (Tables.forgetUnit fw calls unitd).1.units = fw.units ∧
    (Tables.forgetUnit fw calls unitd).1.machineds = fw.machineds ∧
    (Tables.forgetUnit fw calls unitd).1.globalIngressRuleRef = fw.globalIngressRuleRef ∧
    (∀ t, (Tables.forgetUnit fw calls unitd).1.applicationids.lookup t =
      if s.unitds.map Prod.fst = [u.tag] ∧ t = s.application then none
      else fw.applicationids.lookup t) ∧
    (Tables.forgetUnit fw calls unitd).2.1 =
      (if s.unitds.map Prod.fst = [u.tag] then calls ++ [Call.StopService s.application]
        else calls) ∧
    ((s.unitds.map Prod.fst).Nodup →
      (∀ t a, fw.applicationids.lookup t = some a →
        ∃ r, fw.services.lookup a = some r ∧ r.application = t ∧ r.unitds ≠ []) →
      ∀ t a, (Tables.forgetUnit fw calls unitd).1.applicationids.lookup t = some a →
        ∃ r, (Tables.forgetUnit fw calls unitd).1.services.lookup a = some r ∧
          r.application = t ∧ r.unitds ≠ []) := by
  have hF := forgetUnit_eq fw calls unitd u ma m sa s hu hm hma hs hsa
  have honly := only_key_iff s.unitds u.tag
  have happ : ∀ t, (Tables.forgetUnit fw calls unitd).1.applicationids.lookup t =
      if s.unitds.map Prod.fst = [u.tag] ∧ t = s.application then none
      else fw.applicationids.lookup t := by
    intro t
    rw [hF]
    simp only
    by_cases ho : s.unitds.map Prod.fst = [u.tag]
    · rw [if_pos (honly.mpr ho), lookup_mapDelete]
      by_cases ht : t = s.application
      · rw [if_pos ht, if_pos ⟨ho, ht⟩]
      · rw [if_neg ht, if_neg (fun h => ht h.2)]
    · rw [if_neg (fun h => ho (honly.mp h)), if_neg (fun h => ho h.1)]
  have hserv : ∀ a, (Tables.forgetUnit fw calls unitd).1.services.lookup a =
      if a = sa then some { s with unitds := mapDelete s.unitds u.tag }
      else fw.services.lookup a := by
    intro a
    rw [hF]
    exact lookup_mapSet _ _ _ _
  refine ⟨by rw [hF], by rw [hF], ?_, ?_, ?_, hserv, ?_, by rw [hF], by rw [hF], by rw [hF],
    happ, ?_, ?_⟩
  · intro t
    rw [hF]
    exact lookup_mapDelete _ _ _
  · intro a
    rw [hF]
    exact lookup_mapSet _ _ _ _
  · intro t
    exact lookup_mapDelete _ _ _
  · intro t
    exact lookup_mapDelete _ _ _
  · rw [hF]
    simp only
    by_cases ho : s.unitds.map Prod.fst = [u.tag]
    · rw [if_pos (honly.mpr ho), if_pos ho]
    · rw [if_neg (fun h => ho (honly.mp h)), if_neg ho]
  · intro hnd hpre t a ht
    rw [happ t] at ht
    by_cases hc : s.unitds.map Prod.fst = [u.tag] ∧ t = s.application
    · rw [if_pos hc] at ht
      simp at ht
    · rw [if_neg hc] at ht
      obtain ⟨r, hr, hrt, hrn⟩ := hpre t a ht
      rw [hserv a]
      by_cases ha : a = sa
      · subst ha
        rw [hsa] at hr
        cases hr
        rw [if_pos rfl]
        refine ⟨_, rfl, hrt, ?_⟩
        intro hnil
        rcases mapDelete_eq_nil s.unitds u.tag hnd hnil with h | h
        · exact hrn h
        · exact hc ⟨h, hrt.symm⟩
      · rw [if_neg ha]
        exact ⟨r, hr, hrt, hrn⟩

theorem forgetUnit_spec_witness :
    (Tables.forgetUnit sampleTables [] 1).2.1 = [Call.StopService ⟨"app"⟩] ∧
    (Tables.forgetUnit sampleTables [] 1).1.unitds = [] :=
  have h := forgetUnit_spec sampleTables [] 1 ⟨⟨"app/0"⟩, some 2, some 0⟩ 0
    ⟨⟨"0"⟩, [(⟨"app/0"⟩, 1)], [⟨⟨80, 80, "tcp"⟩, ["0.0.0.0/0"]⟩],
      [(⟨"app/0"⟩, [(⟨80, 80, "tcp"⟩, true)])]⟩ 2 ⟨⟨"app"⟩, true, [(⟨"app/0"⟩, 1)]⟩
    (by decide) rfl (by decide) rfl (by decide)
  ⟨h.2.2.2.2.2.2.2.2.2.2.2.1, h.2.1⟩

/-! ## Operations that leave the pointers alone -/

theorem samePointers_refl (fw : Tables) : SamePointers fw fw :=
  ⟨rfl, rfl, rfl, rfl, rfl, rfl, rfl, fun _ => rfl⟩

theorem samePointers_trans {fw fw2 fw3 : Tables} (h1 : SamePointers fw fw2)
    (h2 : SamePointers fw2 fw3) : SamePointers fw fw3 := by
  obtain ⟨a1, a2, a3, a4, a5, a6, a7, a8⟩ := h1
  obtain ⟨b1, b2, b3, b4, b5, b6, b7, b8⟩ := h2
  exact ⟨b1.trans a1, b2.trans a2, b3.trans a3, b4.trans a4, b5.trans a5, b6.trans a6,
    b7.trans a7, fun a => (b8 a).trans (a8 a)⟩

theorem samePointers_machine {fw fw2 : Tables} (h : SamePointers fw fw2) (a : Addr)
    (m : machineRecord) (hm : fw.machines.lookup a = some m) :
    ∃ m2, fw2.machines.lookup a = some m2 ∧ m2.tag = m.tag ∧ m2.unitds = m.unitds := by
  have := h.2.2.2.2.2.2.2 a
  rw [hm] at this
  cases h2 : fw2.machines.lookup a with
  | none => rw [h2] at this; simp at this
  | some m2 =>
    rw [h2] at this
    simp only [Option.map_some', Option.some.injEq, Prod.mk.injEq] at this
    exact ⟨m2, rfl, this.1, this.2⟩

theorem samePointers_tablesInv {fw fw2 : Tables} (h : SamePointers fw fw2) (hi : TablesInv fw) :
    TablesInv fw2 := by
  have hm := fun a m => samePointers_machine h a m
  obtain ⟨e1, e2, e3, e4, e5, e6, _, _⟩ := h
  constructor
  · intro a ha
    rw [e1]
    exact hi.freshUnits a (by rw [← e3]; exact ha)
  · intro a ha
    rw [e2]
    exact hi.freshServices a (by rw [← e3]; exact ha)
  · intro k a hk
    rw [e5] at hk
    obtain ⟨u, ma, m, sa, s, h1, h2, h3, h4, h5, h6, h7, h8, h9, h10⟩ := hi.units k a hk
    obtain ⟨m2, hm2, ht, hu⟩ := hm ma m h4
    exact ⟨u, ma, m2, sa, s, by rw [e1]; exact h1, h2, h3, hm2, by rw [hu]; exact h5,
      by rw [e4, ht]; exact h6, h7, by rw [e2]; exact h8, h9, by rw [e6]; exact h10⟩
  · intro t ma ht
    rw [e4] at ht
    obtain ⟨m, h1, h2, h3⟩ := hi.machines t ma ht
    obtain ⟨m2, hm2, htag, hu⟩ := hm ma m h1
    refine ⟨m2, hm2, by rw [htag]; exact h2, ?_⟩
    intro k a hk
    rw [hu] at hk
    rw [e5, e1]
    exact h3 k a hk
  · intro t sa ht
    rw [e6] at ht
    rw [e2]
    exact hi.applications t sa ht

theorem flushMachine_samePointers (api : Api) (fw : Tables) (calls : List Call) (machined : Addr) :
    SamePointers fw (Tables.flushMachine api fw calls machined).1 := by
  unfold Tables.flushMachine
  cases hm : fw.machines.lookup machined with
  | none => exact samePointers_refl fw
  | some m =>
    simp only
    cases hv : fw.viewMachine m with
    | none => exact samePointers_refl fw
    | some view =>
      simp only
      refine ⟨rfl, rfl, rfl, rfl, rfl, rfl, rfl, ?_⟩
      intro a
      simp only
      rw [lookup_mapSet]
      by_cases ha : a = machined
      · subst ha
        rw [if_pos rfl, hm]
        rfl
      · rw [if_neg ha]

theorem openedPortsChanged_samePointers (api : Api) (fw : Tables) (calls : List Call)
    (machineTag : MachineTag) (subnetTag : SubnetTag) :
    SamePointers fw (Tables.openedPortsChanged api fw calls machineTag subnetTag).1 := by
  unfold Tables.openedPortsChanged
  cases hk : fw.machineds.lookup machineTag with
  | none => exact samePointers_refl fw
  | some machined =>
    simp only
    cases hm : fw.machines.lookup machined with
    | none => exact samePointers_refl fw
    | some m =>
      simp only
      cases h1 : (api.Machine calls m.tag).2 with
      | some err => exact samePointers_refl fw
      | none =>
        simp only
        rcases h2 : api.OpenedPorts (calls ++ [Call.Machine m.tag]) m.tag subnetTag with
          ⟨ports, _ | err⟩
        · simp only
          rcases h3 : Tables.newPortRanges fw m ports [] with ⟨_ | g, e⟩
          · exact samePointers_refl fw
          · simp only
            split
            · refine samePointers_trans ?_ (flushMachine_samePointers api _ _ machined)
              refine ⟨rfl, rfl, rfl, rfl, rfl, rfl, rfl, ?_⟩
              intro a
              simp only
              rw [lookup_mapSet]
              by_cases ha : a = machined
              · subst ha
                rw [if_pos rfl, hm]
                rfl
              · rw [if_neg ha]
            · exact samePointers_refl fw
        · exact samePointers_refl fw

theorem openedPortsLoop_samePointers (api : Api) (machineTag : MachineTag)
    (subnetTags : List SubnetTag) (fw : Tables) (calls : List Call) :
    SamePointers fw (Tables.openedPortsLoop api machineTag subnetTags fw calls).1 := by
  induction subnetTags generalizing fw calls with
  | nil => exact samePointers_refl fw
  | cons t rest ih =>
    rw [Tables.openedPortsLoop]
    have h1 := openedPortsChanged_samePointers api fw calls machineTag t
    rcases h : Tables.openedPortsChanged api fw calls machineTag t with ⟨fw2, calls2, _ | err⟩
    · rw [h] at h1
      exact samePointers_trans h1 (ih fw2 calls2)
    · rw [h] at h1
      exact h1

theorem flushMachines_samePointers (api : Api) (machineds : List Addr) (fw : Tables)
    (calls : List Call) :
    SamePointers fw (Tables.flushMachines api machineds fw calls).1 := by
  induction machineds generalizing fw calls with
  | nil => exact samePointers_refl fw
  | cons a rest ih =>
    rw [Tables.flushMachines]
    have h1 := flushMachine_samePointers api fw calls a
    rcases h : Tables.flushMachine api fw calls a with ⟨fw2, calls2, _ | err⟩
    · rw [h] at h1
      exact samePointers_trans h1 (ih fw2 calls2)
    · rw [h] at h1
      exact h1

theorem flushUnits_samePointers (api : Api) (fw : Tables) (calls : List Call)
    (unitds : List Addr) :
    SamePointers fw (Tables.flushUnits api fw calls unitds).1 := by
  unfold Tables.flushUnits
  rcases h : Tables.flushTargets fw unitds [] with ⟨machineds, _ | err⟩
  · exact flushMachines_samePointers api _ fw calls
  · exact samePointers_refl fw

/-! ## `forgetUnit` keeps the invariant -/

theorem lookup_of_keys_singleton {κ ν : Type} [DecidableEq κ] (m : List (κ × ν)) (k q : κ)
    (h : m.map Prod.fst = [k]) (hq : q ≠ k) : m.lookup q = none := by
  rw [lookup_eq_none_iff_keys, h]
  simpa using hq

theorem forgetUnit_tablesInv (fw : Tables) (calls : List Call) (k : UnitTag) (unitd : Addr)
    (hi : TablesInv fw) (hk : fw.unitds.lookup k = some unitd) :
    (Tables.forgetUnit fw calls unitd).2.2 = none ∧
    TablesInv (Tables.forgetUnit fw calls unitd).1 := by
  obtain ⟨u, ma, m, sa, s, h1, h2, h3, h4, h5, h6, h7, h8, h9, h10⟩ := hi.units k unitd hk
  have hF := forgetUnit_eq fw calls unitd u ma m sa s h1 h3 h4 h7 h8
  have honly := only_key_iff s.unitds u.tag
  rw [hF]
  refine ⟨rfl, ?_⟩
  subst h2
  constructor
  · intro a ha
    exact hi.freshUnits a ha
  · intro a ha
    show (mapSet fw.services sa _).lookup a = none
    rw [lookup_mapSet]
    have hn := hi.freshServices a ha
    by_cases hc : a = sa
    · subst hc
      rw [h8] at hn
      simp at hn
    · rw [if_neg hc]
      exact hn
  · intro k2 a2 hk2
    have hk2b : (mapDelete fw.unitds u.tag).lookup k2 = some a2 := hk2
    rw [lookup_mapDelete] at hk2b
    by_cases hkk : k2 = u.tag
    · rw [if_pos hkk] at hk2b
      simp at hk2b
    · rw [if_neg hkk] at hk2b
      obtain ⟨u2, ma2, m2, sa2, s2, g1, g2, g3, g4, g5, g6, g7, g8, g9, g10⟩ :=
        hi.units k2 a2 hk2b
      have hmach : ∃ m3, (mapSet fw.machines ma
            { m with unitds := mapDelete m.unitds u.tag }).lookup ma2 = some m3 ∧
          m3.unitds.lookup k2 = some a2 ∧ m3.tag = m2.tag := by
        rw [lookup_mapSet]
        by_cases hc : ma2 = ma
        · subst hc
          rw [h4] at g4
          cases g4
          rw [if_pos rfl]
          refine ⟨_, rfl, ?_, rfl⟩
          show (mapDelete m.unitds u.tag).lookup k2 = some a2
          rw [lookup_mapDelete, if_neg hkk]
          exact g5
        · rw [if_neg hc]
          exact ⟨m2, g4, g5, rfl⟩
      have hserv : ∃ s3, (mapSet fw.services sa
            { s with unitds := mapDelete s.unitds u.tag }).lookup sa2 = some s3 ∧
          s3.unitds.lookup k2 = some a2 ∧ s3.application = s2.application := by
        rw [lookup_mapSet]
        by_cases hc : sa2 = sa
        · subst hc
          rw [h8] at g8
          cases g8
          rw [if_pos rfl]
          refine ⟨_, rfl, ?_, rfl⟩
          show (mapDelete s.unitds u.tag).lookup k2 = some a2
          rw [lookup_mapDelete, if_neg hkk]
          exact g9
        · rw [if_neg hc]
          exact ⟨s2, g8, g9, rfl⟩
      obtain ⟨m3, hm3, hm3u, hm3t⟩ := hmach
      obtain ⟨s3, hs3, hs3u, hs3a⟩ := hserv
      refine ⟨u2, ma2, m3, sa2, s3, g1, g2, g3, hm3, hm3u, by rw [hm3t]; exact g6, g7, hs3,
        hs3u, ?_⟩
      rw [hs3a]
      by_cases ho : (decide (s.unitds.length = 1) && (s.unitds.lookup u.tag).isSome) = true
      · simp only [ho, if_true]
        rw [lookup_mapDelete]
        by_cases hap : s2.application = s.application
        · exfalso
          rw [hap, h10] at g10
          cases g10
          rw [h8] at g8
          cases g8
          rw [lookup_of_keys_singleton s.unitds u.tag k2 (honly.mp ho) hkk] at g9
          simp at g9
        · rw [if_neg hap]
          exact g10
      · simp only [ho, Bool.false_eq_true, if_false]
        exact g10
  · intro t ma2 ht
    obtain ⟨m2, g1, g2, g3⟩ := hi.machines t ma2 ht
    show ∃ m3, (mapSet fw.machines ma _).lookup ma2 = some m3 ∧ _
    rw [lookup_mapSet]
    by_cases hc : ma2 = ma
    · subst hc
      rw [h4] at g1
      cases g1
      rw [if_pos rfl]
      refine ⟨_, rfl, g2, ?_⟩
      intro k2 a2 hk2
      have hk2b : (mapDelete m.unitds u.tag).lookup k2 = some a2 := hk2
      rw [lookup_mapDelete] at hk2b
      by_cases hkk : k2 = u.tag
      · rw [if_pos hkk] at hk2b
        simp at hk2b
      · rw [if_neg hkk] at hk2b
        obtain ⟨e1, e2⟩ := g3 k2 a2 hk2b
        refine ⟨?_, e2⟩
        show (mapDelete fw.unitds u.tag).lookup k2 = some a2
        rw [lookup_mapDelete, if_neg hkk]
        exact e1
    · rw [if_neg hc]
      refine ⟨m2, g1, g2, ?_⟩
      intro k2 a2 hk2
      obtain ⟨e1, u2, e2, e3⟩ := g3 k2 a2 hk2
      refine ⟨?_, u2, e2, e3⟩
      show (mapDelete fw.unitds u.tag).lookup k2 = some a2
      rw [lookup_mapDelete]
      by_cases hkk : k2 = u.tag
      · exfalso
        subst hkk
        rw [hk] at e1
        cases e1
        rw [h1] at e2
        cases e2
        rw [h3] at e3
        exact hc (Option.some.inj e3).symm
      · rw [if_neg hkk]
        exact e1
  · intro t sa2 ht
    have ht2 : fw.applicationids.lookup t = some sa2 := by
      by_cases ho : (decide (s.unitds.length = 1) && (s.unitds.lookup u.tag).isSome) = true
      · simp only [ho, if_true] at ht
        rw [lookup_mapDelete] at ht
        split at ht
        · simp at ht
        · exact ht
      · simp only [ho, Bool.false_eq_true, if_false] at ht
        exact ht
    obtain ⟨s2, g1, g2⟩ := hi.applications t sa2 ht2
    show ∃ s3, (mapSet fw.services sa _).lookup sa2 = some s3 ∧ _
    rw [lookup_mapSet]
    by_cases hc : sa2 = sa
    · subst hc
      rw [h8] at g1
      cases g1
      rw [if_pos rfl]
      exact ⟨_, rfl, g2⟩
    · rw [if_neg hc]
      exact ⟨s2, g1, g2⟩

/-! ## `startUnit` keeps the invariant -/

theorem tablesInv_addUnit (fw fw5 : Tables) (unitTag : UnitTag) (ma : Addr) (m : machineRecord)
    (sa : Addr) (s0 : serviceRecord) (appTag : ApplicationTag)
    (hi : TablesInv fw) (hun : fw.unitds.lookup unitTag = none)
    (hmt : fw.machineds.lookup m.tag = some ma) (hm : fw.machines.lookup ma = some m)
    (hs0 : s0.application = appTag)
    (hsa : (fw.services.lookup sa = some s0 ∧ fw.applicationids.lookup appTag = some sa) ∨
      (fw.services.lookup sa = none ∧ fw.applicationids.lookup appTag = none))
    (eUnits : ∀ a, fw5.units.lookup a =
      if a = fw.next then some ⟨unitTag, some sa, some ma⟩ else fw.units.lookup a)
    (eUnitds : ∀ k, fw5.unitds.lookup k =
      if k = unitTag then some fw.next else fw.unitds.lookup k)
    (eMachines : ∀ a, fw5.machines.lookup a =
      if a = ma then some { m with unitds := mapSet m.unitds unitTag fw.next }
      else fw.machines.lookup a)
    (eMachineds : fw5.machineds = fw.machineds)
    (eServices : ∀ a, fw5.services.lookup a =
      if a = sa then some { s0 with unitds := mapSet s0.unitds unitTag fw.next }
      else fw.services.lookup a)
    (eApps : ∀ t, fw5.applicationids.lookup t =
      if t = appTag then some sa else fw.applicationids.lookup t)
    (eNext : fw.next < fw5.next ∧ sa < fw5.next) :
    TablesInv fw5 := by
  have hfreshNext : fw.units.lookup fw.next = none := hi.freshUnits fw.next (le_refl _)
  have hne_next : ∀ a u, fw.units.lookup a = some u → a ≠ fw.next := by
    intro a u hau hc
    rw [hc, hfreshNext] at hau
    simp at hau
  constructor
  · intro a ha
    have h1 : fw.next < a := Nat.lt_of_lt_of_le eNext.1 ha
    rw [eUnits, if_neg (Nat.ne_of_gt h1)]
    exact hi.freshUnits a (Nat.le_of_lt h1)
  · intro a ha
    have h1 : fw.next < a := Nat.lt_of_lt_of_le eNext.1 ha
    have h2 : sa < a := Nat.lt_of_lt_of_le eNext.2 ha
    rw [eServices, if_neg (Nat.ne_of_gt h2)]
    exact hi.freshServices a (Nat.le_of_lt h1)
  · intro k a hk
    rw [eUnitds] at hk
    by_cases hkk : k = unitTag
    · subst hkk
      rw [if_pos rfl] at hk
      cases hk
      refine ⟨⟨k, some sa, some ma⟩, ma, { m with unitds := mapSet m.unitds k fw.next }, sa,
        { s0 with unitds := mapSet s0.unitds k fw.next }, ?_, rfl, rfl, ?_, ?_, ?_, rfl, ?_, ?_, ?_⟩
      · rw [eUnits, if_pos rfl]
      · rw [eMachines, if_pos rfl]
      · show (mapSet m.unitds k fw.next).lookup k = some fw.next
        rw [lookup_mapSet, if_pos rfl]
      · rw [eMachineds]
        exact hmt
      · rw [eServices, if_pos rfl]
      · show (mapSet s0.unitds k fw.next).lookup k = some fw.next
        rw [lookup_mapSet, if_pos rfl]
      · show fw5.applicationids.lookup s0.application = some sa
        rw [eApps, if_pos hs0]
    · rw [if_neg hkk] at hk
      obtain ⟨u2, ma2, m2, sa2, s2, g1, g2, g3, g4, g5, g6, g7, g8, g9, g10⟩ := hi.units k a hk
      have hmach : ∃ m3, fw5.machines.lookup ma2 = some m3 ∧
          m3.unitds.lookup k = some a ∧ m3.tag = m2.tag := by
        rw [eMachines]
        by_cases hc : ma2 = ma
        · subst hc
          rw [hm] at g4
          cases g4
          rw [if_pos rfl]
          refine ⟨_, rfl, ?_, rfl⟩
          show (mapSet m.unitds unitTag fw.next).lookup k = some a
          rw [lookup_mapSet, if_neg hkk]
          exact g5
        · rw [if_neg hc]
          exact ⟨m2, g4, g5, rfl⟩
      have hserv : ∃ s3, fw5.services.lookup sa2 = some s3 ∧
          s3.unitds.lookup k = some a ∧ s3.application = s2.application := by
        rw [eServices]
        by_cases hc : sa2 = sa
        · subst hc
          rcases hsa with ⟨hb1, _⟩ | ⟨ha1, _⟩
          · rw [hb1] at g8
            cases g8
            rw [if_pos rfl]
            refine ⟨_, rfl, ?_, rfl⟩
            show (mapSet s0.unitds unitTag fw.next).lookup k = some a
            rw [lookup_mapSet, if_neg hkk]
            exact g9
          · rw [ha1] at g8
            simp at g8
        · rw [if_neg hc]
          exact ⟨s2, g8, g9, rfl⟩
      obtain ⟨m3, hm3, hm3u, hm3t⟩ := hmach
      obtain ⟨s3, hs3, hs3u, hs3a⟩ := hserv
      refine ⟨u2, ma2, m3, sa2, s3, ?_, g2, g3, hm3, hm3u, ?_, g7, hs3, hs3u, ?_⟩
      · rw [eUnits, if_neg (hne_next a u2 g1)]
        exact g1
      · rw [eMachineds, hm3t]
        exact g6
      · rw [hs3a, eApps]
        by_cases hap : s2.application = appTag
        · rw [if_pos hap]
          rcases hsa with ⟨_, hb2⟩ | ⟨_, ha2⟩
          · rw [hap, hb2] at g10
            exact g10.symm ▸ rfl
          · rw [hap, ha2] at g10
            simp at g10
        · rw [if_neg hap]
          exact g10
  · intro t ma2 ht
    rw [eMachineds] at ht
    obtain ⟨m2, g1, g2, g3⟩ := hi.machines t ma2 ht
    rw [eMachines]
    by_cases hc : ma2 = ma
    · subst hc
      rw [hm] at g1
      cases g1
      rw [if_pos rfl]
      refine ⟨_, rfl, g2, ?_⟩
      intro k a hk
      have hkb : (mapSet m.unitds unitTag fw.next).lookup k = some a := hk
      rw [lookup_mapSet] at hkb
      by_cases hkk : k = unitTag
      · rw [if_pos hkk] at hkb
        cases hkb
        refine ⟨by rw [eUnitds, if_pos hkk], ⟨unitTag, some sa, some ma2⟩, ?_, rfl⟩
        rw [eUnits, if_pos rfl]
      · rw [if_neg hkk] at hkb
        obtain ⟨e1, u2, e2, e3⟩ := g3 k a hkb
        refine ⟨by rw [eUnitds, if_neg hkk]; exact e1, u2, ?_, e3⟩
        rw [eUnits, if_neg (hne_next a u2 e2)]
        exact e2
    · rw [if_neg hc]
      refine ⟨m2, g1, g2, ?_⟩
      intro k a hk
      obtain ⟨e1, u2, e2, e3⟩ := g3 k a hk
      have hkk : k ≠ unitTag := by
        intro hkk
        rw [hkk, hun] at e1
        simp at e1
      refine ⟨by rw [eUnitds, if_neg hkk]; exact e1, u2, ?_, e3⟩
      rw [eUnits, if_neg (hne_next a u2 e2)]
      exact e2
  · intro t sa2 ht
    rw [eApps] at ht
    rw [eServices]
    by_cases htt : t = appTag
    · rw [if_pos htt] at ht
      cases ht
      rw [if_pos rfl]
      exact ⟨_, rfl, by rw [htt]; exact hs0⟩
    · rw [if_neg htt] at ht
      obtain ⟨s2, g1, g2⟩ := hi.applications t sa2 ht
      by_cases hc : sa2 = sa
      · subst hc
        rcases hsa with ⟨hb1, _⟩ | ⟨ha1, _⟩
        · rw [hb1] at g1
          cases g1
          rw [if_pos rfl]
          exact ⟨_, rfl, g2⟩
        · rw [ha1] at g1
          simp at g1
      · rw [if_neg hc]
        exact ⟨s2, g1, g2⟩
theorem lookup_mapSet_twice {κ ν : Type} [DecidableEq κ] (m : List (κ × ν)) (k q : κ) (v w : ν) :
    (mapSet (mapSet m k v) k w).lookup q = if q = k then some w else m.lookup q := by
  rw [lookup_mapSet, lookup_mapSet]
  by_cases h : q = k
  · simp [h]
  · simp [h]

theorem startUnit_tablesInv (api : Api) (fw : Tables) (calls : List Call) (unitTag : UnitTag)
    (machineTag : MachineTag) (ma : Addr) (hi : TablesInv fw)
    (hun : fw.unitds.lookup unitTag = none)
    (hmt : fw.machineds.lookup machineTag = some ma)
    (hok : (Tables.startUnit api fw calls unitTag machineTag).2.2 = none) :
    TablesInv (Tables.startUnit api fw calls unitTag machineTag).1 := by
  obtain ⟨m, hm, hmtag, _⟩ := hi.machines machineTag ma hmt
  unfold Tables.startUnit at hok ⊢
  rcases hA : api.Application calls unitTag with ⟨appTag, _ | err⟩
  · rw [hA] at hok
    simp only [hmt, Option.some_bind, hm, Option.map_some'] at hok ⊢
    cases hApp : fw.applicationids.lookup appTag with
    | some sa =>
      obtain ⟨s, hs, hsapp⟩ := hi.applications appTag sa hApp
      simp only [hApp, Option.isNone_some, Bool.false_eq_true, if_false, Option.some_bind, hs,
        Option.map_some'] at hok ⊢
      have hinv5 : TablesInv
          { fw with
            machines := mapSet fw.machines ma { m with unitds := mapSet m.unitds unitTag fw.next }
            units := mapSet (mapSet fw.units fw.next ⟨unitTag, none, some ma⟩) fw.next
              ⟨unitTag, some sa, some ma⟩
            services := mapSet fw.services sa { s with unitds := mapSet s.unitds unitTag fw.next }
            next := fw.next + 1
            unitds := mapSet fw.unitds unitTag fw.next } := by
        apply tablesInv_addUnit fw _ unitTag ma m sa s appTag hi hun (by rw [hmtag]; exact hmt)
          hm hsapp (Or.inl ⟨hs, hApp⟩)
        · intro a
          exact lookup_mapSet_twice _ _ _ _ _
        · intro k
          exact lookup_mapSet _ _ _ _
        · intro a
          exact lookup_mapSet _ _ _ _
        · rfl
        · intro a
          exact lookup_mapSet _ _ _ _
        · intro t
          show fw.applicationids.lookup t = _
          by_cases ht : t = appTag
          · rw [if_pos ht, ht, hApp]
          · rw [if_neg ht]
        · exact ⟨Nat.lt_succ_self _, by
            show sa < fw.next + 1
            by_contra hc
            have := hi.freshServices sa (Nat.le_of_lt_succ (Nat.lt_succ_of_le (by
              have : fw.next + 1 ≤ sa := Nat.le_of_not_lt hc
              exact Nat.le_of_succ_le this)))
            rw [hs] at this
            simp at this⟩
      cases hM : (api.Machine (calls ++ [Call.Application unitTag]) m.tag).2 with
      | some err =>
        rw [hM] at hok
        simp at hok
      | none =>
        simp only [hM] at hok ⊢
        rcases hS : api.ActiveSubnets
          (calls ++ [Call.Application unitTag] ++ [Call.Machine m.tag]) m.tag with
          ⟨subnetTags, _ | err⟩
        · simp only [hS] at hok ⊢
          exact samePointers_tablesInv (openedPortsLoop_samePointers api machineTag subnetTags _ _)
            hinv5
        · rw [hS] at hok
          simp at hok
    | none =>
      simp only [hApp, Option.isNone_none, if_true] at hok ⊢
      unfold Tables.startService at hok ⊢
      rcases hE : api.IsExposed (calls ++ [Call.Application unitTag]) appTag with
        ⟨exposed, _ | err⟩
      · rw [hE] at hok
        simp only [hE] at hok ⊢
        cases hSt : api.StartService
            (calls ++ [Call.Application unitTag] ++ [Call.IsExposed appTag]) appTag with
        | some err =>
          rw [hSt] at hok
          simp at hok
        | none =>
          simp only [hSt, lookup_mapSet, if_true, Option.some_bind, Option.map_some'] at hok ⊢
          have hinv5 : TablesInv
              { fw with
                machines := mapSet fw.machines ma
                  { m with unitds := mapSet m.unitds unitTag fw.next }
                units := mapSet (mapSet fw.units fw.next ⟨unitTag, none, some ma⟩) fw.next
                  ⟨unitTag, some (fw.next + 1), some ma⟩
                services := mapSet (mapSet fw.services (fw.next + 1) ⟨appTag, exposed, []⟩)
                  (fw.next + 1) ⟨appTag, exposed, mapSet [] unitTag fw.next⟩
                next := fw.next + 1 + 1
                unitds := mapSet fw.unitds unitTag fw.next
                applicationids := mapSet fw.applicationids appTag (fw.next + 1) } := by
            apply tablesInv_addUnit fw _ unitTag ma m (fw.next + 1) ⟨appTag, exposed, []⟩ appTag
              hi hun (by rw [hmtag]; exact hmt) hm rfl
              (Or.inr ⟨hi.freshServices _ (Nat.le_succ _), hApp⟩)
            · intro a
              exact lookup_mapSet_twice _ _ _ _ _
            · intro k
              exact lookup_mapSet _ _ _ _
            · intro a
              exact lookup_mapSet _ _ _ _
            · rfl
            · intro a
              exact lookup_mapSet_twice _ _ _ _ _
            · intro t
              exact lookup_mapSet _ _ _ _
            · exact ⟨Nat.lt_succ_of_lt (Nat.lt_succ_self _), Nat.lt_succ_self _⟩
          cases hM : (api.Machine (calls ++ [Call.Application unitTag] ++
              [Call.IsExposed appTag] ++ [Call.StartService appTag]) m.tag).2 with
          | some err =>
            rw [hM] at hok
            simp at hok
          | none =>
            simp only [hM] at hok ⊢
            rcases hS : api.ActiveSubnets
              (calls ++ [Call.Application unitTag] ++ [Call.IsExposed appTag] ++
                [Call.StartService appTag] ++ [Call.Machine m.tag]) m.tag with
              ⟨subnetTags, _ | err⟩
            · simp only [hS] at hok ⊢
              exact samePointers_tablesInv
                (openedPortsLoop_samePointers api machineTag subnetTags _ _) hinv5
            · rw [hS] at hok
              simp at hok
      · rw [hE] at hok
        simp at hok
  · rw [hA] at hok
    simp at hok

/-! ## `unitsChanged` keeps the invariant -/

theorem unitChanged_tablesInv (api : Api) (fw : Tables) (calls : List Call)
    (changed : List Addr) (unitTag : UnitTag) (unit : Option Life) (machineTag : MachineTag)
    (hi : TablesInv fw) :
    (Tables.unitChanged api fw calls changed unitTag unit machineTag).2.2.2 = none →
    TablesInv (Tables.unitChanged api fw calls changed unitTag unit machineTag).1 := by
  unfold Tables.unitChanged
  cases hk : fw.unitds.lookup unitTag with
  | some unitd =>
    simp only
    have hf := forgetUnit_tablesInv fw calls unitTag unitd hi hk
    split
    · intro _
      exact hi
    · split
      · rcases hF : Tables.forgetUnit fw calls unitd with ⟨fw2, calls2, _ | err⟩
        · rw [hF] at hf
          intro _
          exact hf.2
        · rw [hF] at hf
          intro _
          exact hf.2
      · intro _
        exact hi
  | none =>
    simp only
    split
    · rename_i hc
      cases hmt : fw.machineds.lookup machineTag with
      | none =>
        rw [hmt] at hc
        simp at hc
      | some ma =>
        have hs := startUnit_tablesInv api fw calls unitTag machineTag ma hi hk hmt
        rcases hS : Tables.startUnit api fw calls unitTag machineTag with ⟨fw2, calls2, _ | err⟩
        · rw [hS] at hs
          simp only
          split <;> exact fun _ => hs rfl
        · simp
    · intro _
      exact hi

theorem unitsChangedLoop_tablesInv (api : Api) (N : String → UnitTag) (units : List String)
    (fw : Tables) (calls : List Call) (changed : List Addr) (hi : TablesInv fw) :
    (Tables.unitsChangedLoop api N units fw calls changed).2.2.2 = none →
    TablesInv (Tables.unitsChangedLoop api N units fw calls changed).1 := by
  induction units generalizing fw calls changed with
  | nil =>
    intro _
    exact hi
  | cons name rest ih =>
    rw [Tables.unitsChangedLoop]
    rcases hU : api.Unit calls (N name) with ⟨unit, err⟩
    simp only
    split
    · intro _
      exact hi
    · cases unit with
      | none =>
        simp only
        have h1 := unitChanged_tablesInv api fw (calls ++ [Call.Unit (N name)]) changed (N name)
          none MachineTag.zero hi
        rcases hC : Tables.unitChanged api fw (calls ++ [Call.Unit (N name)]) changed (N name)
          none MachineTag.zero with ⟨fw2, calls2, changed2, _ | err2⟩
        · rw [hC] at h1
          exact ih fw2 calls2 changed2 (h1 rfl)
        · simp
      | some life =>
        rcases hA : api.AssignedMachine (calls ++ [Call.Unit (N name)]) (N name) with
          ⟨machineTag, err3⟩
        simp only [hA]
        split
        · exact ih fw _ changed hi
        · split
          · intro _
            exact hi
          · have h1 := unitChanged_tablesInv api fw
              (calls ++ [Call.Unit (N name)] ++ [Call.AssignedMachine (N name)]) changed (N name)
              (some life) machineTag hi
            rcases hC : Tables.unitChanged api fw
              (calls ++ [Call.Unit (N name)] ++ [Call.AssignedMachine (N name)]) changed (N name)
              (some life) machineTag with ⟨fw2, calls2, changed2, _ | err2⟩
            · rw [hC] at h1
              exact ih fw2 calls2 changed2 (h1 rfl)
            · simp

theorem unitsChanged_tablesInv (api : Api) (N : String → UnitTag) (fw : Tables)
    (calls : List Call) (units : List String) (hi : TablesInv fw) :
    (Tables.unitsChanged api N fw calls units).2.2 = none →
    TablesInv (Tables.unitsChanged api N fw calls units).1 := by
  unfold Tables.unitsChanged
  have h1 := unitsChangedLoop_tablesInv api N units fw calls [] hi
  rcases hL : Tables.unitsChangedLoop api N units fw calls [] with
    ⟨fw2, calls2, changed, _ | err⟩
  · rw [hL] at h1
    simp only
    have h2 := flushUnits_samePointers api fw2 calls2 changed
    rcases hF : Tables.flushUnits api fw2 calls2 changed with ⟨fw3, calls3, _ | err⟩
    · rw [hF] at h2
      intro _
      exact samePointers_tablesInv h2 (h1 rfl)
    · simp
  · simp

/-! ## `forgetMachine` -/

theorem forgot_refl (fw : Tables) : Forgot fw fw :=
  ⟨rfl, rfl, rfl, rfl, rfl, fun _ _ h => h, fun _ m h => ⟨m, h, rfl, rfl, rfl, fun _ _ h2 => h2⟩⟩

theorem forgot_trans {fw fw2 fw3 : Tables} (h1 : Forgot fw fw2) (h2 : Forgot fw2 fw3) :
    Forgot fw fw3 := by
  obtain ⟨a1, a2, a3, a4, a5, a6, a7⟩ := h1
  obtain ⟨b1, b2, b3, b4, b5, b6, b7⟩ := h2
  refine ⟨b1.trans a1, b2.trans a2, b3.trans a3, b4.trans a4, b5.trans a5,
    fun k a h => a6 k a (b6 k a h), ?_⟩
  intro a m hm
  obtain ⟨m2, g1, g2, g3, g4, g5⟩ := a7 a m hm
  obtain ⟨m3, e1, e2, e3, e4, e5⟩ := b7 a m2 g1
  exact ⟨m3, e1, e2.trans g2, e3.trans g3, e4.trans g4, fun k x h => g5 k x (e5 k x h)⟩

theorem forgetUnit_forgot (fw : Tables) (calls : List Call) (unitd : Addr) (u : unitRecord)
    (ma : Addr) (m : machineRecord) (sa : Addr) (s : serviceRecord)
    (hu : fw.units.lookup unitd = some u) (hm : u.machined = some ma)
    (hma : fw.machines.lookup ma = some m) (hs : u.serviced = some sa)
    (hsa : fw.services.lookup sa = some s) :
    Forgot fw (Tables.forgetUnit fw calls unitd).1 ∧
    ∃ stops, (Tables.forgetUnit fw calls unitd).2.1 = calls ++ stops ∧
      stops.all Call.isStopService = true := by
  rw [forgetUnit_eq fw calls unitd u ma m sa s hu hm hma hs hsa]
  refine ⟨⟨rfl, rfl, rfl, rfl, rfl, ?_, ?_⟩, ?_⟩
  · intro k a hk
    have hk2 : (mapDelete fw.unitds u.tag).lookup k = some a := hk
    rw [lookup_mapDelete] at hk2
    split at hk2
    · simp at hk2
    · exact hk2
  · intro a m0 hm0
    show ∃ m2, (mapSet fw.machines ma _).lookup a = some m2 ∧ _
    rw [lookup_mapSet]
    by_cases hc : a = ma
    · subst hc
      rw [hma] at hm0
      cases hm0
      rw [if_pos rfl]
      refine ⟨_, rfl, rfl, rfl, rfl, ?_⟩
      intro k x hk
      have hk2 : (mapDelete m.unitds u.tag).lookup k = some x := hk
      rw [lookup_mapDelete] at hk2
      split at hk2
      · simp at hk2
      · exact hk2
    · rw [if_neg hc]
      exact ⟨m0, hm0, rfl, rfl, rfl, fun _ _ h => h⟩
  · simp only
    split
    · exact ⟨[Call.StopService s.application], rfl, rfl⟩
    · exact ⟨[], (List.append_nil _).symm, rfl⟩

theorem forgetUnits_spec (ma : Addr) (t : MachineTag) (keys : List UnitTag) (fw : Tables)
    (calls : List Call) (hi : TablesInv fw) (ht : fw.machineds.lookup t = some ma) :
    ∃ fw1 calls1, Tables.forgetUnits ma keys fw calls = (fw1, calls1, none) ∧
      TablesInv fw1 ∧ Forgot fw fw1 ∧
      (∃ stops, calls1 = calls ++ stops ∧ stops.all Call.isStopService = true) ∧
      ∀ k ∈ keys, ∀ m1, fw1.machines.lookup ma = some m1 → m1.unitds.lookup k = none := by
  induction keys generalizing fw calls with
  | nil =>
    exact ⟨fw, calls, rfl, hi, forgot_refl fw, ⟨[], (List.append_nil _).symm, rfl⟩,
      fun k hk => absurd hk (List.not_mem_nil _)⟩
  | cons key rest ih =>
    obtain ⟨m, hm, hmt, hconv⟩ := hi.machines t ma ht
    rw [Tables.forgetUnits]
    simp only [hm, Option.some_bind]
    cases hl : m.unitds.lookup key with
    | none =>
      simp only
      obtain ⟨fw1, calls1, e1, e2, e3, e4, e5⟩ := ih fw calls hi ht
      refine ⟨fw1, calls1, e1, e2, e3, e4, ?_⟩
      intro k hk m1 hm1
      rcases List.mem_cons.mp hk with hk | hk
      · subst hk
        obtain ⟨m2, g1, _, _, _, g5⟩ := e3.2.2.2.2.2.2 ma m hm
        rw [hm1] at g1
        cases g1
        cases h2 : m1.unitds.lookup k with
        | none => rfl
        | some x =>
          have := g5 k x h2
          rw [hl] at this
          simp at this
      · exact e5 k hk m1 hm1
    | some unitd =>
      simp only
      obtain ⟨htab, u, hu, hum⟩ := hconv key unitd hl
      obtain ⟨u2, ma2, m2, sa, s, h1, h2, h3, h4, h5, h6, h7, h8, h9, h10⟩ :=
        hi.units key unitd htab
      rw [hu] at h1
      cases h1
      subst h2
      rw [hum] at h3
      cases h3
      rw [hm] at h4
      cases h4
      have hinv := forgetUnit_tablesInv fw calls u.tag unitd hi htab
      have hfg := forgetUnit_forgot fw calls unitd u ma m sa s hu hum hm h7 h8
      have hF := forgetUnit_eq fw calls unitd u ma m sa s hu hum hm h7 h8
      rcases hR : Tables.forgetUnit fw calls unitd with ⟨fwA, callsA, errA⟩
      rw [hR] at hinv hfg hF
      simp only at hinv hfg
      obtain ⟨hnone, hinvA⟩ := hinv
      subst hnone
      simp only
      have htA : fwA.machineds.lookup t = some ma := by
        rw [hfg.1.2.2.1]
        exact ht
      obtain ⟨fw1, calls1, e1, e2, e3, e4, e5⟩ := ih fwA callsA hinvA htA
      obtain ⟨stopsA, hsA, hsA2⟩ := hfg.2
      obtain ⟨stops1, hs1, hs12⟩ := e4
      refine ⟨fw1, calls1, e1, e2, forgot_trans hfg.1 e3,
        ⟨stopsA ++ stops1, by rw [hs1, hsA, List.append_assoc], by
          rw [List.all_append, hsA2, hs12]
          rfl⟩, ?_⟩
      intro k hk m1 hm1
      rcases List.mem_cons.mp hk with hk | hk
      · rw [hk]
        have hmA : fwA.machines.lookup ma =
            some { m with unitds := mapDelete m.unitds u.tag } := by
          have := congrArg (fun r => r.1.machines.lookup ma) hF
          simp only at this
          rw [this]
          exact (lookup_mapSet _ _ _ _).trans (if_pos rfl)
        obtain ⟨m3, g1, _, _, _, g5⟩ := e3.2.2.2.2.2.2 ma _ hmA
        rw [hm1] at g1
        cases g1
        cases hx : m1.unitds.lookup u.tag with
        | none => rfl
        | some x =>
          have := g5 u.tag x hx
          have h0 : (mapDelete m.unitds u.tag).lookup u.tag = some x := this
          rw [lookup_mapDelete, if_pos rfl] at h0
          simp at h0
      · exact e5 k hk m1 hm1

theorem eq_nil_of_lookup_none {κ ν : Type} [DecidableEq κ] (m : List (κ × ν))
    (h : ∀ k ∈ m.map Prod.fst, m.lookup k = none) : m = [] := by
  cases m with
  | nil => rfl
  | cons e rest =>
    have := h e.1 (by simp)
    simp [List.lookup] at this

theorem diffRanges_nil_open (rules : List IngressRule) : (diffRanges rules []).1 = [] := by
  cases h : (diffRanges rules []).1 with
  | nil => rfl
  | cons r rest =>
    exfalso
    obtain ⟨c, hc⟩ := List.exists_mem_of_ne_nil _ (ruleCidrs_ne_nil r)
    have h1 : c ∈ cidrs (diffRanges rules []).1 r.toPortRange := by
      rw [h, cidrs_cons, if_pos rfl]
      exact List.mem_append_left _ hc
    have h2 := (mem_cidrs_toOpen rules [] r.toPortRange c).mp h1
    have h3 : cidrs [] r.toPortRange = [] := rfl
    rw [h3] at h2
    exact absurd h2.1 (List.not_mem_nil _)

theorem diffRanges_nil_close (rules : List IngressRule) (p : PortRange) (c : String) :
    c ∈ cidrs (diffRanges rules []).2 p ↔ c ∈ cidrs rules p := by
  rw [mem_cidrs_toClose]
  have h3 : cidrs [] p = [] := rfl
  rw [h3]
  simp

theorem viewMachine_no_units (fw : Tables) (tag : MachineTag) (rules : List IngressRule)
    (ports : List (UnitTag × portRanges)) :
    fw.viewMachine ⟨tag, [], rules, ports⟩ = some ⟨tag, [], rules, ports⟩ := by
  unfold Tables.viewMachine
  rw [if_pos]
  · rfl
  · rw [List.all_eq_true]
    intro e _
    rfl

theorem gatherIngressRules_no_units
    (N : String → Int → Int → List String → IngressRule × Option Err)
    (tag : MachineTag) (rules : List IngressRule) (ports : List (UnitTag × portRanges)) :
    gatherIngressRules N [⟨tag, [], rules, ports⟩] = ([⟨tag, [], rules, ports⟩], [], none) := by
  unfold gatherIngressRules
  apply gatherMachines_none
  intro m _ e _ u hu
  rcases List.mem_singleton.mp ‹m ∈ _› with rfl
  simp at hu

theorem flushMachine_no_units (api : Api) (fw1 : Tables) (calls1 : List Call) (ma : Addr)
    (m : machineRecord) (hm : fw1.machines.lookup ma = some { m with unitds := [] }) :
    Tables.flushMachine api fw1 calls1 ma =
      if fw1.globalMode then
        match fw1.globalIngressRuleRef with
        | none =>
          if (diffRanges m.ingressRules []).2.length = 0 then
            ({ fw1 with
                machines := mapSet fw1.machines ma { m with unitds := [], ingressRules := [] } },
              calls1, none)
          else
            ({ fw1 with
                machines := mapSet fw1.machines ma { m with unitds := [], ingressRules := [] } },
              calls1, some nilMapPanic)
        | some ref =>
          ({ fw1 with
              machines := mapSet fw1.machines ma { m with unitds := [], ingressRules := [] }
              globalIngressRuleRef := some (flushGlobalPorts api ref calls1 []
                (diffRanges m.ingressRules []).2).1 },
            (flushGlobalPorts api ref calls1 [] (diffRanges m.ingressRules []).2).2.1,
            (flushGlobalPorts api ref calls1 [] (diffRanges m.ingressRules []).2).2.2)
      else
        ({ fw1 with
            machines := mapSet fw1.machines ma { m with unitds := [], ingressRules := [] } },
          (flushInstancePorts api calls1 ⟨m.tag, [], [], m.definedPorts⟩ []
            (diffRanges m.ingressRules []).2).1,
          (flushInstancePorts api calls1 ⟨m.tag, [], [], m.definedPorts⟩ []
            (diffRanges m.ingressRules []).2).2) := by
  unfold Tables.flushMachine
  rw [hm]
  simp only
  rw [viewMachine_no_units]
  simp only
  rw [flushMachine_eq, gatherIngressRules_no_units]
  simp only [diffRanges_nil_open, List.length_nil, true_and]
  cases hg : fw1.globalMode with
  | false => simp
  | true =>
    simp only [if_true]
    cases hr : fw1.globalIngressRuleRef with
    | none =>
      simp only
      split <;> simp [hr]
    | some ref => simp
theorem tablesInv_dropMachine (fw2 : Tables) (t : MachineTag) (ma : Addr) (m2 : machineRecord)
    (hi : TablesInv fw2) (ht : fw2.machineds.lookup t = some ma)
    (hm : fw2.machines.lookup ma = some m2) (hempty : m2.unitds = []) :
    TablesInv { fw2 with machineds := mapDelete fw2.machineds t } := by
  constructor
  · exact hi.freshUnits
  · exact hi.freshServices
  · intro k a hk
    obtain ⟨u, ma3, m3, sa, s, g1, g2, g3, g4, g5, g6, g7, g8, g9, g10⟩ := hi.units k a hk
    refine ⟨u, ma3, m3, sa, s, g1, g2, g3, g4, g5, ?_, g7, g8, g9, g10⟩
    show (mapDelete fw2.machineds t).lookup m3.tag = some ma3
    rw [lookup_mapDelete]
    by_cases hc : m3.tag = t
    · exfalso
      rw [hc, ht] at g6
      cases g6
      rw [hm] at g4
      cases g4
      rw [hempty] at g5
      simp at g5
    · rw [if_neg hc]
      exact g6
  · intro t2 ma2 ht2
    have ht3 : (mapDelete fw2.machineds t).lookup t2 = some ma2 := ht2
    rw [lookup_mapDelete] at ht3
    split at ht3
    · simp at ht3
    · exact hi.machines t2 ma2 ht3
  · exact hi.applications

theorem openedPortsChanged_dropped (api : Api) (fw : Tables) (calls : List Call)
    (machineTag : MachineTag) (subnetTag : SubnetTag)
    (h : fw.machineds.lookup machineTag = none) :
    Tables.openedPortsChanged api fw calls machineTag subnetTag = (fw, calls, none) := by
  unfold Tables.openedPortsChanged
  rw [h]

theorem forgetMachine_loop (fw : Tables) (calls : List Call) (t : MachineTag) (ma : Addr)
    (m : machineRecord) (hi : TablesInv fw) (ht : fw.machineds.lookup t = some ma)
    (hm : fw.machines.lookup ma = some m) :
    ∃ fw1 calls1, Tables.forgetUnits ma (m.unitds.map Prod.fst) fw calls = (fw1, calls1, none) ∧
      TablesInv fw1 ∧ Forgot fw fw1 ∧
      (∃ stops, calls1 = calls ++ stops ∧ stops.all Call.isStopService = true) ∧
      fw1.machines.lookup ma = some { m with unitds := [] } ∧
      (∀ k a, m.unitds.lookup k = some a → fw1.unitds.lookup k = none) := by
  obtain ⟨fw1, calls1, e1, e2, e3, e4, e5⟩ :=
    forgetUnits_spec ma t (m.unitds.map Prod.fst) fw calls hi ht
  obtain ⟨m1, g1, g2, g3, g4, g5⟩ := e3.2.2.2.2.2.2 ma m hm
  have hnil : m1.unitds = [] := by
    apply eq_nil_of_lookup_none
    intro k hk
    cases hx : m1.unitds.lookup k with
    | none => rfl
    | some x =>
      have h1 := g5 k x hx
      have h2 : k ∈ m.unitds.map Prod.fst := by
        by_contra hc
        rw [(lookup_eq_none_iff_keys m.unitds k).mpr hc] at h1
        simp at h1
      rw [e5 k h2 m1 g1] at hx
      simp at hx
  have hm1 : m1 = { m with unitds := [] } := by
    cases m1
    cases m
    simp only at g2 g3 g4 hnil
    subst g2 g3 g4 hnil
    rfl
  refine ⟨fw1, calls1, e1, e2, e3, e4, by rw [g1, hm1], ?_⟩
  intro k a hk
  cases hx : fw1.unitds.lookup k with
  | none => rfl
  | some a2 =>
    exfalso
    obtain ⟨u2, ma2, m2, sa2, s2, f1, f2, f3, f4, f5, _⟩ := e2.units k a2 hx
    have h0 := e3.2.2.2.2.2.1 k a2 hx
    obtain ⟨mm, hmm, _, hconv⟩ := hi.machines t ma ht
    rw [hm] at hmm
    cases hmm
    obtain ⟨c1, u, c2, c3⟩ := hconv k a hk
    rw [c1] at h0
    cases h0
    rw [e3.1, c2] at f1
    cases f1
    rw [c3] at f3
    cases f3
    rw [g1] at f4
    cases f4
    rw [hnil] at f5
    simp at f5

/-- C24: for a machine `m` of the machine table, in a state that satisfies the
invariant of the tables, `forgetMachine(m)` first forgets every unit of `m`,
which makes no call but stops of application watchers, takes every unit of `m`
out of the unit table and leaves `m` with empty `unitds` and its rules `R` and
defined ports; then it calls `flushMachine(m)` once.  In that flush the gathered
rules are empty, so `toOpen` is empty and `toClose` has, for every port range,
exactly the CIDRs that `R` has for it; the flush of the mode gets that pair, and
`m.ingressRules` becomes empty.  When `forgetMachine` returns no error, `m` is
not in the machine table any more, none of its units is in the unit table, the
invariant still holds, and `openedPortsChanged` for the tag of `m` changes
nothing and makes no call. -/
theorem forgetMachine_spec (api : Api) (fw : Tables) (calls : List Call) (t : MachineTag)
    (ma : Addr) (m : machineRecord) (hi : TablesInv fw)
    (ht : fw.machineds.lookup t = some ma) (hm : fw.machines.lookup ma = some m) :
    ∃ fw1 calls1,
      Tables.forgetUnits ma (m.unitds.map Prod.fst) fw calls = (fw1, calls1, none) ∧
      (∃ stops, calls1 = calls ++ stops ∧ stops.all Call.isStopService = true) ∧
      fw1.machines.lookup ma = some { m with unitds := [] } ∧
      (∀ k a, m.unitds.lookup k = some a → fw1.unitds.lookup k = none) ∧
      Tables.forgetMachine api fw calls ma =
        (match Tables.flushMachine api fw1 calls1 ma with
        | (fw2, calls2, some err) => (fw2, calls2, some err.traced)
        | (fw2, calls2, none) =>
          ({ fw2 with machineds := mapDelete fw2.machineds t },
            calls2 ++ [Call.StopMachine t], none)) ∧
      (gatherIngressRules api.NewIngressRule
        [⟨m.tag, [], m.ingressRules, m.definedPorts⟩]).2 = ([], none) ∧
      (diffRanges m.ingressRules []).1 = [] ∧
      (∀ p c, c ∈ cidrs (diffRanges m.ingressRules []).2 p ↔ c ∈ cidrs m.ingressRules p) ∧
      (fw1.globalMode = false →
        Tables.flushMachine api fw1 calls1 ma =
          ({ fw1 with
              machines := mapSet fw1.machines ma { m with unitds := [], ingressRules := [] } },
            (flushInstancePorts api calls1 ⟨m.tag, [], [], m.definedPorts⟩ []
              (diffRanges m.ingressRules []).2).1,
            (flushInstancePorts api calls1 ⟨m.tag, [], [], m.definedPorts⟩ []
              (diffRanges m.ingressRules []).2).2)) ∧
      (fw1.globalMode = true → ∀ ref, fw1.globalIngressRuleRef = some ref →
        Tables.flushMachine api fw1 calls1 ma =
          ({ fw1 with
              machines := mapSet fw1.machines ma { m with unitds := [], ingressRules := [] }
              globalIngressRuleRef := some (flushGlobalPorts api ref calls1 []
                (diffRanges m.ingressRules []).2).1 },
            (flushGlobalPorts api ref calls1 [] (diffRanges m.ingressRules []).2).2.1,
            (flushGlobalPorts api ref calls1 [] (diffRanges m.ingressRules []).2).2.2)) ∧
      ((Tables.forgetMachine api fw calls ma).2.2 = none →
        (Tables.forgetMachine api fw calls ma).1.machineds.lookup t = none ∧
        (∀ k a, m.unitds.lookup k = some a →
          (Tables.forgetMachine api fw calls ma).1.unitds.lookup k = none) ∧
        TablesInv (Tables.forgetMachine api fw calls ma).1 ∧
        ∀ cs subnetTag,
          Tables.openedPortsChanged api (Tables.forgetMachine api fw calls ma).1 cs t subnetTag =
            ((Tables.forgetMachine api fw calls ma).1, cs, none)) := by
  obtain ⟨fw1, calls1, e1, e2, e3, e4, e5, e6⟩ := forgetMachine_loop fw calls t ma m hi ht hm
  obtain ⟨mm, hmm, hmt, _⟩ := hi.machines t ma ht
  rw [hm] at hmm
  cases hmm
  have hflush := flushMachine_no_units api fw1 calls1 ma m e5
  have heq : Tables.forgetMachine api fw calls ma =
      (match Tables.flushMachine api fw1 calls1 ma with
      | (fw2, calls2, some err) => (fw2, calls2, some err.traced)
      | (fw2, calls2, none) =>
        ({ fw2 with machineds := mapDelete fw2.machineds t },
          calls2 ++ [Call.StopMachine t], none)) := by
    unfold Tables.forgetMachine
    rw [hm]
    simp only
    rw [e1]
    simp only [hmt]
  refine ⟨fw1, calls1, e1, e4, e5, e6, heq, ?_, diffRanges_nil_open _,
    diffRanges_nil_close _, ?_, ?_, ?_⟩
  · rw [gatherIngressRules_no_units]
  · intro hg
    rw [hflush, hg]
    simp
  · intro hg ref hr
    rw [hflush, hg, hr]
    simp
  · rw [heq]
    have hsp := flushMachine_samePointers api fw1 calls1 ma
    rcases hF : Tables.flushMachine api fw1 calls1 ma with ⟨fw2, calls2, _ | err⟩
    · rw [hF] at hsp
      simp only at hsp ⊢
      intro _
      have hi2 : TablesInv fw2 := samePointers_tablesInv hsp e2
      obtain ⟨m2, hm2, _, hm2u⟩ := samePointers_machine hsp ma _ e5
      have ht2 : fw2.machineds.lookup t = some ma := by
        rw [hsp.2.2.2.1, e3.2.2.1]
        exact ht
      have hlk : (mapDelete fw2.machineds t).lookup t = none := by
        rw [lookup_mapDelete, if_pos rfl]
      refine ⟨hlk, ?_, tablesInv_dropMachine fw2 t ma m2 hi2 ht2 hm2 hm2u, ?_⟩
      · intro k a hk
        show fw2.unitds.lookup k = none
        rw [hsp.2.2.2.2.1]
        exact e6 k a hk
      · intro cs subnetTag
        exact openedPortsChanged_dropped api _ cs t subnetTag hlk
    · simp

/-! ## The sample tables satisfy the invariant -/

theorem lookup_singleton {κ ν : Type} [DecidableEq κ] (k0 k : κ) (v0 a : ν)
    (h : [(k0, v0)].lookup k = some a) : k = k0 ∧ a = v0 := by
  by_cases hk : k = k0
  · subst hk
    simp [List.lookup] at h
    exact ⟨rfl, h.symm⟩
  · have h3 : (k == k0) = false := by simp [hk]
    simp [List.lookup, h3] at h

theorem lookup_singleton_none {κ ν : Type} [DecidableEq κ] (k0 k : κ) (v0 : ν)
    (hk : k ≠ k0) : [(k0, v0)].lookup k = none := by
  have h3 : (k == k0) = false := by simp [hk]
  simp [List.lookup, h3]

theorem sampleTables_inv : TablesInv sampleTables := by
  constructor
  · intro a ha
    apply lookup_singleton_none
    intro hc
    rw [hc] at ha
    exact absurd ha (by decide)
  · intro a ha
    apply lookup_singleton_none
    intro hc
    rw [hc] at ha
    exact absurd ha (by decide)
  · intro k a hk
    obtain ⟨h1, h2⟩ := lookup_singleton _ _ _ _ hk
    subst h1 h2
    exact ⟨⟨⟨"app/0"⟩, some 2, some 0⟩, 0,
      ⟨⟨"0"⟩, [(⟨"app/0"⟩, 1)], [⟨⟨80, 80, "tcp"⟩, ["0.0.0.0/0"]⟩],
        [(⟨"app/0"⟩, [(⟨80, 80, "tcp"⟩, true)])]⟩, 2, ⟨⟨"app"⟩, true, [(⟨"app/0"⟩, 1)]⟩,
      by decide, rfl, rfl, by decide, by decide, by decide, rfl, by decide, by decide, by decide⟩
  · intro t ma ht
    obtain ⟨h1, h2⟩ := lookup_singleton _ _ _ _ ht
    subst h1 h2
    refine ⟨⟨⟨"0"⟩, [(⟨"app/0"⟩, 1)], [⟨⟨80, 80, "tcp"⟩, ["0.0.0.0/0"]⟩],
        [(⟨"app/0"⟩, [(⟨80, 80, "tcp"⟩, true)])]⟩, by decide, rfl, ?_⟩
    intro k a hk
    obtain ⟨h1, h2⟩ := lookup_singleton _ _ _ _ hk
    subst h1 h2
    exact ⟨by decide, ⟨⟨"app/0"⟩, some 2, some 0⟩, by decide, rfl⟩
  · intro t sa ht
    obtain ⟨h1, h2⟩ := lookup_singleton _ _ _ _ ht
    subst h1 h2
    exact ⟨⟨⟨"app"⟩, true, [(⟨"app/0"⟩, 1)]⟩, by decide, rfl⟩

theorem forgetMachine_spec_witness :
    ∃ fw1 calls1,
      Tables.forgetUnits 0 [⟨"app/0"⟩] sampleTables [] = (fw1, calls1, none) ∧
      (diffRanges [⟨⟨80, 80, "tcp"⟩, ["0.0.0.0/0"]⟩] []).1 = [] :=
  (forgetMachine_spec okApi sampleTables [] ⟨"0"⟩ 0
    ⟨⟨"0"⟩, [(⟨"app/0"⟩, 1)], [⟨⟨80, 80, "tcp"⟩, ["0.0.0.0/0"]⟩],
      [(⟨"app/0"⟩, [(⟨80, 80, "tcp"⟩, true)])]⟩
    sampleTables_inv (by decide) (by decide)).imp
    (fun _ h => h.imp (fun _ h2 => ⟨h2.1, h2.2.2.2.2.2.2.1⟩))

/-! ## The back-pointer invariant is kept -/

theorem forgetMachine_tablesInv (api : Api) (fw : Tables) (calls : List Call) (t : MachineTag)
    (ma : Addr) (hi : TablesInv fw) (ht : fw.machineds.lookup t = some ma) :
    (Tables.forgetMachine api fw calls ma).2.2 = none →
    TablesInv (Tables.forgetMachine api fw calls ma).1 := by
  obtain ⟨m, hm, hmt, _⟩ := hi.machines t ma ht
  obtain ⟨fw1, calls1, e1, e2, e3, e4, e5, e6⟩ := forgetMachine_loop fw calls t ma m hi ht hm
  unfold Tables.forgetMachine
  rw [hm]
  simp only
  rw [e1]
  simp only [hmt]
  have hsp := flushMachine_samePointers api fw1 calls1 ma
  rcases hF : Tables.flushMachine api fw1 calls1 ma with ⟨fw2, calls2, _ | err⟩
  · rw [hF] at hsp
    simp only at hsp ⊢
    intro _
    obtain ⟨m2, hm2, _, hm2u⟩ := samePointers_machine hsp ma _ e5
    exact tablesInv_dropMachine fw2 t ma m2 (samePointers_tablesInv hsp e2)
      (by rw [hsp.2.2.2.1, e3.2.2.1]; exact ht) hm2 hm2u
  · simp

/-- C23: in a state of the tables that satisfies the invariant `TablesInv` (the
back-pointer invariant, that is every unit `u` of the unit table is held by
`u.machined.unitds` and by `u.serviced.unitds` under `u.tag`, with `u.machined`
in the machine table and `u.serviced` in the application table; together with
what makes it inductive: free addresses are free, table keys are the tags of
the records, and the units of a tracked machine are units of the unit table),
the invariant holds again, and so the back-pointer invariant, after a
`startUnit` that returns no error (for a unit that is not tracked and a machine
that is), after a `forgetUnit` of a unit of the unit table (which returns without
a panic), after a `unitsChanged` that returns no error, and after a
`forgetMachine` of a machine of the machine table that returns no error. -/
theorem backPointers_preserved (api : Api) (N : String → UnitTag) (fw : Tables)
    (calls : List Call) (hi : TablesInv fw) :
    BackPointers fw ∧
    (∀ unitTag machineTag, fw.unitds.lookup unitTag = none →
      (fw.machineds.lookup machineTag).isSome = true →
      (Tables.startUnit api fw calls unitTag machineTag).2.2 = none →
      TablesInv (Tables.startUnit api fw calls unitTag machineTag).1 ∧
      BackPointers (Tables.startUnit api fw calls unitTag machineTag).1) ∧
    (∀ k unitd, fw.unitds.lookup k = some unitd →
      (Tables.forgetUnit fw calls unitd).2.2 = none ∧
      TablesInv (Tables.forgetUnit fw calls unitd).1 ∧
      BackPointers (Tables.forgetUnit fw calls unitd).1) ∧
    (∀ units, (Tables.unitsChanged api N fw calls units).2.2 = none →
      TablesInv (Tables.unitsChanged api N fw calls units).1 ∧
      BackPointers (Tables.unitsChanged api N fw calls units).1) ∧
    (∀ t machined, fw.machineds.lookup t = some machined →
      (Tables.forgetMachine api fw calls machined).2.2 = none →
      TablesInv (Tables.forgetMachine api fw calls machined).1 ∧
      BackPointers (Tables.forgetMachine api fw calls machined).1) := by
  refine ⟨hi.units, ?_, ?_, ?_, ?_⟩
  · intro unitTag machineTag hun hmt hok
    cases hl : fw.machineds.lookup machineTag with
    | none =>
      rw [hl] at hmt
      simp at hmt
    | some ma =>
      have := startUnit_tablesInv api fw calls unitTag machineTag ma hi hun hl hok
      exact ⟨this, this.units⟩
  · intro k unitd hk
    have := forgetUnit_tablesInv fw calls k unitd hi hk
    exact ⟨this.1, this.2, this.2.units⟩
  · intro units hok
    have := unitsChanged_tablesInv api N fw calls units hi hok
    exact ⟨this, this.units⟩
  · intro t machined ht hok
    have := forgetMachine_tablesInv api fw calls t machined hi ht hok
    exact ⟨this, this.units⟩

theorem backPointers_preserved_witness :
    BackPointers sampleTables ∧
    BackPointers (Tables.forgetUnit sampleTables [] 1).1 ∧
    BackPointers (Tables.forgetMachine okApi sampleTables [] 0).1 :=
  have h := backPointers_preserved okApi UnitTag.mk sampleTables [] sampleTables_inv
  ⟨h.1, (h.2.2.1 ⟨"app/0"⟩ 1 (by decide)).2.2, (h.2.2.2.2 ⟨"0"⟩ 0 (by decide) (by decide)).2⟩

/-! ## The machine table is left alone by the unit operations -/

theorem forgetUnit_machineds (fw : Tables) (calls : List Call) (unitd : Addr) :
    (Tables.forgetUnit fw calls unitd).1.machineds = fw.machineds := by
  unfold Tables.forgetUnit
  split
  · rfl
  · split
    · rfl
    · simp only
      split
      · rfl
      · simp only
        split <;> rfl

theorem startService_machineds (api : Api) (fw : Tables) (calls : List Call)
    (service : ApplicationTag) :
    (Tables.startService api fw calls service).1.machineds = fw.machineds := by
  unfold Tables.startService
  simp only
  split
  · rfl
  · split <;> rfl

theorem startUnit_machineds (api : Api) (fw : Tables) (calls : List Call) (unitTag : UnitTag)
    (machineTag : MachineTag) :
    (Tables.startUnit api fw calls unitTag machineTag).1.machineds = fw.machineds := by
  unfold Tables.startUnit
  simp only
  split
  · rfl
  · split
    · rfl
    · rename_i ma m _
      have hS : ∀ (fwX : Tables) (c : List Call) (app : ApplicationTag) (b : Bool),
          (if b = true then Tables.startService api fwX c app
            else (fwX, c, none)).1.machineds = fwX.machineds := by
        intro fwX c app b
        split
        · exact startService_machineds api fwX c app
        · rfl
      split
      · rename_i fwS calls2 err heq
        have := congrArg (fun r : Tables × List Call × Option Err => r.1.machineds) heq
        simp only at this
        show fwS.machineds = fw.machineds
        rw [← this]
        exact hS _ _ _ _
      · rename_i fwS calls2 heq
        have h1 : fwS.machineds = fw.machineds := by
          have := congrArg (fun r : Tables × List Call × Option Err => r.1.machineds) heq
          simp only at this
          rw [← this]
          exact hS _ _ _ _
        split
        · exact h1
        · split
          · exact h1
          · split
            · exact h1
            · exact ((openedPortsLoop_samePointers api machineTag _ _ _).2.2.2.1).trans h1
theorem unitChanged_machineds (api : Api) (fw : Tables) (calls : List Call)
    (changed : List Addr) (unitTag : UnitTag) (unit : Option Life) (machineTag : MachineTag) :
    (Tables.unitChanged api fw calls changed unitTag unit machineTag).1.machineds =
      fw.machineds := by
  unfold Tables.unitChanged
  split
  · split
    · rfl
    · split
      · have h := forgetUnit_machineds fw calls ‹Addr›
        split
        · rename_i heq
          rw [heq] at h
          exact h
        · rename_i heq
          rw [heq] at h
          exact h
      · rfl
  · split
    · have h := startUnit_machineds api fw calls unitTag machineTag
      split
      · rename_i heq
        rw [heq] at h
        exact h
      · rename_i heq
        rw [heq] at h
        split <;> exact h
    · rfl

theorem unitsChangedLoop_machineds (api : Api) (N : String → UnitTag) (units : List String)
    (fw : Tables) (calls : List Call) (changed : List Addr) :
    (Tables.unitsChangedLoop api N units fw calls changed).1.machineds = fw.machineds := by
  induction units generalizing fw calls changed with
  | nil => rfl
  | cons name rest ih =>
    rw [Tables.unitsChangedLoop]
    simp only
    split
    · rfl
    · split
      · have h := unitChanged_machineds api fw (calls ++ [Call.Unit (N name)]) changed (N name)
          none MachineTag.zero
        split
        · rename_i heq
          rw [heq] at h
          exact h
        · rename_i heq
          rw [heq] at h
          rw [ih]
          exact h
      · split
        · exact ih _ _ _
        · split
          · rfl
          · rename_i life _ _ _
            have h := unitChanged_machineds api fw
              (calls ++ [Call.Unit (N name)] ++ [Call.AssignedMachine (N name)]) changed (N name)
              (some life) (api.AssignedMachine (calls ++ [Call.Unit (N name)]) (N name)).1
            split
            · rename_i heq
              rw [heq] at h
              exact h
            · rename_i heq
              rw [heq] at h
              rw [ih]
              exact h

theorem unitsChanged_machineds (api : Api) (N : String → UnitTag) (fw : Tables)
    (calls : List Call) (units : List String) :
    (Tables.unitsChanged api N fw calls units).1.machineds = fw.machineds := by
  unfold Tables.unitsChanged
  have h1 := unitsChangedLoop_machineds api N units fw calls []
  split
  · rename_i heq
    rw [heq] at h1
    exact h1
  · rename_i fw2 calls2 changed heq
    rw [heq] at h1
    have h2 := (flushUnits_samePointers api fw2 calls2 changed).2.2.2.1
    split
    · rename_i heq2
      rw [heq2] at h2
      exact h2.trans h1
    · rename_i heq2
      rw [heq2] at h2
      exact h2.trans h1

/-! ## The same machines-changed event twice -/

theorem startMachine_tracked (api : Api) (interrupted : List Call → MachineTag → Option Err)
    (N : String → UnitTag) (fw : Tables) (calls : List Call) (tag : MachineTag)
    (hm : (api.Machine calls tag).2 = none) :
    (Tables.startMachine api interrupted N fw calls tag).2.2 = none →
    ((Tables.startMachine api interrupted N fw calls tag).1.machineds.lookup tag).isSome = true := by
  unfold Tables.startMachine
  simp only [hm]
  split
  · simp
  · split
    · simp
    · have h := unitsChanged_machineds api N
        { fw with
          machines := mapSet fw.machines fw.next ⟨tag, [], [], []⟩
          next := fw.next + 1
          machineds := mapSet fw.machineds tag fw.next }
        (calls ++ [Call.Machine tag] ++ [Call.WatchUnits tag]) ‹List String›
      split
      · simp
      · rename_i heq
        rw [heq] at h
        simp only at h
        split
        · simp
        · intro _
          simp only
          rw [h, lookup_mapSet, if_pos rfl]
          rfl

theorem forgetMachine_untracked (api : Api) (fw : Tables) (calls : List Call) (ma : Addr)
    (m : machineRecord) (hm : fw.machines.lookup ma = some m) :
    (Tables.forgetMachine api fw calls ma).2.2 = none →
    (Tables.forgetMachine api fw calls ma).1.machineds.lookup m.tag = none := by
  unfold Tables.forgetMachine
  rw [hm]
  simp only
  split
  · simp
  · split
    · simp
    · intro _
      simp only
      rw [lookup_mapDelete, if_pos rfl]

/-- One machine, two calls in a row: let the orchestrator give the same answer
for the machine at every query, let the machine table hold a record under that
tag only if the record has that tag, and let `machineLifeChanged(tag)` have
returned no error.  Then a
second `machineLifeChanged(tag)` returns no error and leaves the worker as the
first call left it (the machine, unit and application tables, every record and
the reference counts), and the only call it makes is the query `Machine(tag)`:
no cloud call, no start and no stop. -/
theorem machineLifeChanged_twice (api : Api)
    (interrupted : List Call → MachineTag → Option Err) (N : String → UnitTag) (fw : Tables)
    (calls : List Call) (tag : MachineTag) (life : Life) (err : Option Err)
    (hconst : ∀ cs, api.Machine cs tag = (life, err))
    (hkey : ∀ ma m, fw.machineds.lookup tag = some ma → fw.machines.lookup ma = some m →
      m.tag = tag)
    (hok : (Tables.machineLifeChanged api interrupted N fw calls tag).2.2 = none) :
    Tables.machineLifeChanged api interrupted N
        (Tables.machineLifeChanged api interrupted N fw calls tag).1
        (Tables.machineLifeChanged api interrupted N fw calls tag).2.1 tag =
      ((Tables.machineLifeChanged api interrupted N fw calls tag).1,
        (Tables.machineLifeChanged api interrupted N fw calls tag).2.1 ++ [Call.Machine tag],
        none) := by
  have hsecond : ∀ (fw2 : Tables) (cs : List Call),
      (err = none ∨ ∃ e, err = some e ∧ api.IsCodeNotFound e = true) →
      ((fw2.machineds.lookup tag).isSome = true →
        ¬ ((∃ e, err = some e ∧ api.IsCodeNotFound e = true) ∨ life = Life.Dead)) →
      (fw2.machineds.lookup tag = none →
        ((∃ e, err = some e ∧ api.IsCodeNotFound e = true) ∨ life = Life.Dead)) →
      Tables.machineLifeChanged api interrupted N fw2 cs tag =
        (fw2, cs ++ [Call.Machine tag], none) := by
    intro fw2 cs herr hknown hunknown
    unfold Tables.machineLifeChanged
    rw [hconst]
    simp only
    rcases herr with rfl | ⟨e, rfl, he⟩
    · cases hl : fw2.machineds.lookup tag with
      | none =>
        have := hunknown hl
        rcases this with ⟨e, h1, _⟩ | h
        · simp at h1
        · simp [h]
      | some ma =>
        have := hknown (by rw [hl]; rfl)
        have hd : ¬ life = Life.Dead := fun h => this (Or.inr h)
        simp [hd]
    · cases hl : fw2.machineds.lookup tag with
      | none => simp [he]
      | some ma =>
        exact absurd (Or.inl ⟨e, rfl, he⟩) (hknown (by rw [hl]; rfl))
  have hfirst : (err = none ∨ ∃ e, err = some e ∧ api.IsCodeNotFound e = true) ∧
      (((Tables.machineLifeChanged api interrupted N fw calls tag).1.machineds.lookup
          tag).isSome = true →
        ¬ ((∃ e, err = some e ∧ api.IsCodeNotFound e = true) ∨ life = Life.Dead)) ∧
      ((Tables.machineLifeChanged api interrupted N fw calls tag).1.machineds.lookup tag = none →
        ((∃ e, err = some e ∧ api.IsCodeNotFound e = true) ∨ life = Life.Dead)) := by
    unfold Tables.machineLifeChanged at hok ⊢
    rw [hconst] at hok ⊢
    simp only at hok ⊢
    cases err with
    | some e =>
      cases he : api.IsCodeNotFound e with
      | false =>
        simp [he] at hok
      | true =>
        simp only [he, Bool.not_true, Option.isSome_some, Bool.and_true, Bool.false_eq_true,
          if_false, Bool.not_false, Bool.true_or, if_true] at hok ⊢
        refine ⟨Or.inr ⟨e, rfl, he⟩, ?_, ?_⟩
        · cases hl : fw.machineds.lookup tag with
          | none =>
            simp [hl]
          | some ma =>
            rw [hl] at hok
            simp only [hl] at hok ⊢
            cases hm : fw.machines.lookup ma with
            | none =>
              unfold Tables.forgetMachine at hok
              rw [hm] at hok
              simp at hok
            | some m =>
              have := forgetMachine_untracked api fw (calls ++ [Call.Machine tag]) ma m hm hok
              rw [hkey ma m hl hm] at this
              rw [this]
              simp
        · intro _
          exact Or.inl ⟨e, rfl, he⟩
    | none =>
      simp only [Option.isSome_none, Bool.and_false, Bool.false_eq_true, if_false,
        Bool.not_true, Bool.false_or] at hok ⊢
      refine ⟨by simp, ?_, ?_⟩
      · cases hl : fw.machineds.lookup tag with
        | none =>
          simp only [hl] at hok ⊢
          by_cases hd : life = Life.Dead
          · simp [hd, hl]
          · intro _
            simp [hd]
        | some ma =>
          simp only [hl] at hok ⊢
          by_cases hd : life = Life.Dead
          · simp only [hd, decide_True, if_true] at hok ⊢
            cases hm : fw.machines.lookup ma with
            | none =>
              unfold Tables.forgetMachine at hok
              rw [hm] at hok
              simp at hok
            | some m =>
              have := forgetMachine_untracked api fw (calls ++ [Call.Machine tag]) ma m hm hok
              rw [hkey ma m hl hm] at this
              rw [this]
              simp
          · intro _
            simp [hd]
      · cases hl : fw.machineds.lookup tag with
        | none =>
          simp only [hl] at hok ⊢
          by_cases hd : life = Life.Dead
          · intro _
            exact Or.inr hd
          · simp only [hd, decide_False, Bool.not_false, if_true] at hok ⊢
            have := startMachine_tracked api interrupted N fw (calls ++ [Call.Machine tag]) tag
              (by rw [hconst]) hok
            intro hn
            rw [hn] at this
            simp at this
        | some ma =>
          simp only [hl] at hok ⊢
          by_cases hd : life = Life.Dead
          · intro _
            exact Or.inr hd
          · simp [hd, hl]
  exact hsecond _ _ hfirst.1 hfirst.2.1 hfirst.2.2

theorem machineLifeChanged_twice_witness :
    Tables.machineLifeChanged okApi (fun _ _ => none) UnitTag.mk
        (Tables.machineLifeChanged okApi (fun _ _ => none) UnitTag.mk sampleTables []
          ⟨"1"⟩).1
        (Tables.machineLifeChanged okApi (fun _ _ => none) UnitTag.mk sampleTables []
          ⟨"1"⟩).2.1 ⟨"1"⟩ =
      ((Tables.machineLifeChanged okApi (fun _ _ => none) UnitTag.mk sampleTables []
          ⟨"1"⟩).1,
        (Tables.machineLifeChanged okApi (fun _ _ => none) UnitTag.mk sampleTables []
          ⟨"1"⟩).2.1 ++ [Call.Machine ⟨"1"⟩], none) :=
  machineLifeChanged_twice okApi (fun _ _ => none) UnitTag.mk sampleTables [] ⟨"1"⟩
    Life.Alive none (fun _ => rfl)
    (fun ma m h _ => absurd (lookup_singleton _ _ _ _ h).1 (by decide)) (by decide)


/-! ## An application is no longer exposed -/

/-! ## An application that is no longer exposed -/

theorem mem_exposedRules (v : machineData) (r : IngressRule) :
    r ∈ exposedRules v ↔
      ∃ e ∈ v.definedPorts, ∃ ud, v.unitds.lookup e.1 = some ud ∧
        ud.serviced.exposed = true ∧ ∃ pr ∈ e.2, r = ⟨pr.1, ["0.0.0.0/0"]⟩ := by
  unfold exposedRules
  rw [List.mem_flatMap]
  constructor
  · rintro ⟨e, he, hr⟩
    unfold unitRules at hr
    cases hl : v.unitds.lookup e.1 with
    | none => rw [hl] at hr; simp at hr
    | some ud =>
      rw [hl] at hr
      simp only at hr
      by_cases hx : ud.serviced.exposed = true
      · rw [if_pos hx] at hr
        obtain ⟨pr, hpr, hrr⟩ := List.mem_map.mp hr
        exact ⟨e, he, ud, hl, hx, pr, hpr, hrr.symm⟩
      · rw [if_neg hx] at hr
        simp at hr
  · rintro ⟨e, he, ud, hl, hx, pr, hpr, hrr⟩
    refine ⟨e, he, ?_⟩
    unfold unitRules
    rw [hl]
    simp only
    rw [if_pos hx]
    exact List.mem_map.mpr ⟨pr, hpr, hrr.symm⟩

theorem exposedRules_open (v : machineData) :
    ∀ r ∈ exposedRules v, r.SourceCIDRs = ["0.0.0.0/0"] := by
  intro r hr
  obtain ⟨e, _, ud, _, _, pr, _, hrr⟩ := (mem_exposedRules v r).mp hr
  rw [hrr]

theorem mem_of_filter_singleton (l : List IngressRule) (p : PortRange) (r : IngressRule)
    (h : l.filter (fun q => decide (q.toPortRange = p)) = [r]) : r ∈ l := by
  have : r ∈ l.filter (fun q => decide (q.toPortRange = p)) := by
    rw [h]
    exact List.mem_singleton.mpr rfl
  exact (List.mem_filter.mp this).1

theorem diffRanges_unexpose (old want : List IngressRule)
    (hold : ∀ r ∈ old, r.SourceCIDRs = ["0.0.0.0/0"])
    (hwant : ∀ r ∈ want, r.SourceCIDRs = ["0.0.0.0/0"])
    (hsub : ∀ p, p ∈ want.map IngressRule.toPortRange → p ∈ old.map IngressRule.toPortRange) :
    (diffRanges old want).1 = [] ∧
    ∀ p, p ∈ old.map IngressRule.toPortRange → p ∉ want.map IngressRule.toPortRange →
      (⟨p, ["0.0.0.0/0"]⟩ : IngressRule) ∈ (diffRanges old want).2 := by
  constructor
  · cases h : (diffRanges old want).1 with
    | nil => rfl
    | cons r rest =>
      exfalso
      have h1 := toOpen_filter_of_open old want hold hwant r.toPortRange
      have h2 : r ∈ (diffRanges old want).1.filter
          (fun q => decide (q.toPortRange = r.toPortRange)) := by
        rw [h, List.mem_filter]
        exact ⟨List.mem_cons_self _ _, by simp⟩
      rw [h1] at h2
      split at h2
      · rename_i hc
        exact hc.2 (hsub _ hc.1)
      · exact absurd h2 (List.not_mem_nil _)
  · intro p hp hnp
    have h1 := toClose_filter_of_open old want hold hwant p
    rw [if_pos ⟨hp, hnp⟩] at h1
    exact mem_of_filter_singleton _ p _ h1

theorem lookup_filterMap_nodup {κ ν μ : Type} [DecidableEq κ] (l : List (κ × ν))
    (f : ν → Option μ) (hn : (l.map Prod.fst).Nodup) (k : κ) :
    (l.filterMap (fun e => (f e.2).map (fun u => (e.1, u)))).lookup k = (l.lookup k).bind f := by
  induction l with
  | nil => rfl
  | cons e rest ih =>
    obtain ⟨k0, a0⟩ := e
    have hn2 : (rest.map Prod.fst).Nodup := (List.nodup_cons.mp hn).2
    have hk0 : k0 ∉ rest.map Prod.fst := (List.nodup_cons.mp hn).1
    have ih2 := ih hn2
    by_cases hk : k = k0
    · subst hk
      have hb : (k == k) = true := by simp
      cases hf : f a0 with
      | none =>
        simp only [List.filterMap_cons, hf, Option.map_none', List.lookup, hb, Option.some_bind]
        rw [ih2, (lookup_eq_none_iff_keys rest k).mpr hk0]
        rfl
      | some u =>
        simp only [List.filterMap_cons, hf, Option.map_some', List.lookup, hb, Option.some_bind]
    · have hb : (k == k0) = false := by simp [hk]
      cases hf : f a0 with
      | none =>
        simp only [List.filterMap_cons, hf, Option.map_none', List.lookup, hb]
        exact ih2
      | some u =>
        simp only [List.filterMap_cons, hf, Option.map_some', List.lookup, hb]
        exact ih2

theorem viewUnit_setExposed (fw : Tables) (sa : Addr) (s : serviceRecord) (b : Bool)
    (a : Addr) :
    (fw.setExposed sa s b).viewUnit a =
      match fw.units.lookup a with
      | none => none
      | some u =>
        match u.serviced with
        | none => none
        | some sa2 =>
          if sa2 = sa then some ⟨u.tag, ⟨s.application, b⟩⟩ else fw.viewUnit a := by
  unfold Tables.viewUnit Tables.setExposed
  simp only
  cases hu : fw.units.lookup a with
  | none => rfl
  | some u =>
    simp only
    cases hsv : u.serviced with
    | none => rfl
    | some sa2 =>
      simp only
      rw [lookup_mapSet]
      by_cases hc : sa2 = sa
      · rw [if_pos hc, if_pos hc]
      · rw [if_neg hc, if_neg hc]

theorem viewUnit_of_service (fw : Tables) (a : Addr) (u : unitRecord) (sa : Addr)
    (s : serviceRecord) (hu : fw.units.lookup a = some u) (hsv : u.serviced = some sa)
    (hs : fw.services.lookup sa = some s) :
    fw.viewUnit a = some ⟨u.tag, ⟨s.application, s.exposed⟩⟩ := by
  unfold Tables.viewUnit
  rw [hu]
  simp only [hsv, hs]

theorem viewUnit_setExposed_isSome (fw : Tables) (sa : Addr) (s : serviceRecord) (b : Bool)
    (hs : fw.services.lookup sa = some s) (a : Addr) :
    ((fw.setExposed sa s b).viewUnit a).isSome = (fw.viewUnit a).isSome := by
  rw [viewUnit_setExposed fw sa s b a]
  cases hu : fw.units.lookup a with
  | none =>
    unfold Tables.viewUnit
    rw [hu]
  | some u =>
    simp only
    cases hsv : u.serviced with
    | none =>
      unfold Tables.viewUnit
      rw [hu]
      simp only [hsv]
    | some sa2 =>
      simp only
      by_cases hc : sa2 = sa
      · subst hc
        rw [if_pos rfl, viewUnit_of_service fw a u sa2 s hu hsv hs]
        rfl
      · rw [if_neg hc]

theorem viewUnit_unexposed (fw : Tables) (sa : Addr) (s : serviceRecord)
    (a : Addr) (ud : unitData)
    (h : (fw.setExposed sa s false).viewUnit a = some ud) (hx : ud.serviced.exposed = true) :
    fw.viewUnit a = some ud ∧
    ∃ u sa2 s2, fw.units.lookup a = some u ∧ u.serviced = some sa2 ∧ sa2 ≠ sa ∧
      fw.services.lookup sa2 = some s2 ∧ s2.exposed = true := by
  rw [viewUnit_setExposed fw sa s false a] at h
  cases hu : fw.units.lookup a with
  | none => rw [hu] at h; simp at h
  | some u =>
    rw [hu] at h
    simp only at h
    cases hsv : u.serviced with
    | none => rw [hsv] at h; simp at h
    | some sa2 =>
      rw [hsv] at h
      simp only at h
      by_cases hc : sa2 = sa
      · rw [if_pos hc] at h
        cases h
        simp at hx
      · rw [if_neg hc] at h
        refine ⟨h, u, sa2, ?_⟩
        cases hs2 : fw.services.lookup sa2 with
        | none =>
          unfold Tables.viewUnit at h
          rw [hu] at h
          simp only [hsv, hs2] at h
          simp at h
        | some s2 =>
          rw [viewUnit_of_service fw a u sa2 s2 hu hsv hs2] at h
          cases h
          exact ⟨s2, rfl, hsv, hc, rfl, hx⟩

theorem viewMachine_setExposed (fw : Tables) (sa : Addr) (s : serviceRecord) (b : Bool)
    (hs : fw.services.lookup sa = some s) (m : machineRecord) (v0 : machineData)
    (hv0 : fw.viewMachine m = some v0) :
    (fw.setExposed sa s b).viewMachine m =
      some ⟨m.tag,
        m.unitds.filterMap (fun e =>
          ((fw.setExposed sa s b).viewUnit e.2).map (fun u => (e.1, u))),
        m.ingressRules, m.definedPorts⟩ ∧
    v0 = ⟨m.tag, m.unitds.filterMap (fun e => (fw.viewUnit e.2).map (fun u => (e.1, u))),
      m.ingressRules, m.definedPorts⟩ := by
  unfold Tables.viewMachine at hv0 ⊢
  split at hv0
  · rename_i hall
    constructor
    · rw [if_pos]
      rw [List.all_eq_true] at hall ⊢
      intro e he
      have := hall e he
      cases hl : m.unitds.lookup e.1 with
      | none => rfl
      | some a =>
        rw [hl] at this
        simp only at this ⊢
        rw [viewUnit_setExposed_isSome fw sa s b hs a]
        exact this
    · exact (Option.some.inj hv0).symm
  · simp at hv0

theorem flushTargets_congr (fw fw2 : Tables) (h1 : fw2.units = fw.units)
    (h2 : fw2.machines = fw.machines) (l : List Addr) (acc : List (MachineTag × Addr)) :
    Tables.flushTargets fw2 l acc = Tables.flushTargets fw l acc := by
  induction l generalizing acc with
  | nil => rfl
  | cons a rest ih =>
    rw [Tables.flushTargets, Tables.flushTargets, h1, h2]
    split
    · rfl
    · exact ih _

theorem flushTargets_hosts (fw : Tables) (hi : TablesInv fw) (l : List Addr)
    (acc : List (MachineTag × Addr))
    (hl : ∀ a ∈ l, ∃ k, fw.unitds.lookup k = some a)
    (hacc : ∀ t ma, acc.lookup t = some ma → fw.machineds.lookup t = some ma) :
    ∃ tg, Tables.flushTargets fw l acc = (tg, none) ∧
      (∀ t ma, tg.lookup t = some ma → fw.machineds.lookup t = some ma) ∧
      (∀ t ma, acc.lookup t = some ma → tg.lookup t = some ma) ∧
      ∀ a ∈ l, ∀ u ma, fw.units.lookup a = some u → u.machined = some ma →
        ma ∈ tg.map Prod.snd := by
  induction l generalizing acc with
  | nil =>
    exact ⟨acc, rfl, hacc, fun _ _ h => h, fun a ha => absurd ha (List.not_mem_nil _)⟩
  | cons a rest ih =>
    obtain ⟨k, hk⟩ := hl a (List.mem_cons_self _ _)
    obtain ⟨u, ma, m, sa, s, g1, g2, g3, g4, g5, g6, _⟩ := hi.units k a hk
    have hacc2 : ∀ t ma2, (mapSet acc m.tag ma).lookup t = some ma2 →
        fw.machineds.lookup t = some ma2 := by
      intro t ma2 h
      rw [lookup_mapSet] at h
      by_cases ht : t = m.tag
      · rw [if_pos ht] at h
        cases h
        rw [ht]
        exact g6
      · rw [if_neg ht] at h
        exact hacc t ma2 h
    obtain ⟨tg, e1, e2, e3, e4⟩ := ih (mapSet acc m.tag ma)
      (fun b hb => hl b (List.mem_cons_of_mem _ hb)) hacc2
    refine ⟨tg, ?_, e2, ?_, ?_⟩
    · rw [Tables.flushTargets]
      simp only [g1, g3, g4, Option.some_bind, Option.map_some']
      exact e1
    · intro t ma2 h
      apply e3
      rw [lookup_mapSet]
      by_cases ht : t = m.tag
      · rw [if_pos ht]
        have := hacc t ma2 h
        rw [ht, g6] at this
        exact this
      · rw [if_neg ht]
        exact h
    · intro b hb u2 ma2 hu2 hm2
      rcases List.mem_cons.mp hb with hb | hb
      · subst hb
        rw [g1] at hu2
        cases hu2
        rw [g3] at hm2
        cases hm2
        have := e3 m.tag ma (by rw [lookup_mapSet, if_pos rfl])
        exact List.mem_map.mpr ⟨(m.tag, ma), mem_of_lookup _ _ _ this, rfl⟩
      · exact e4 b hb u2 ma2 hu2 hm2

theorem viewUnit_congr (fw fw2 : Tables) (h1 : fw2.units = fw.units)
    (h2 : fw2.services = fw.services) (a : Addr) : fw2.viewUnit a = fw.viewUnit a := by
  unfold Tables.viewUnit
  rw [h1, h2]

theorem viewMachine_congr (fw fw2 : Tables) (h1 : fw2.units = fw.units)
    (h2 : fw2.services = fw.services) (m : machineRecord) :
    fw2.viewMachine m = fw.viewMachine m := by
  unfold Tables.viewMachine
  have : fw2.viewUnit = fw.viewUnit := funext (viewUnit_congr fw fw2 h1 h2)
  rw [this]

theorem tables_flushMachine_eq (api : Api) (fwX : Tables) (cs : List Call) (ma : Addr)
    (m : machineRecord) (v : machineData) (want : List IngressRule)
    (hm : fwX.machines.lookup ma = some m) (hv : fwX.viewMachine m = some v)
    (hg : (gatherIngressRules api.NewIngressRule [v]).2 = (want, none)) :
    (Tables.flushMachine api fwX cs ma).1.machines.lookup ma =
      some { m with ingressRules := want } ∧
    (fwX.globalMode = false →
      ((Tables.flushMachine api fwX cs ma).2.1, (Tables.flushMachine api fwX cs ma).2.2) =
        flushInstancePorts api cs { v with ingressRules := want }
          (diffRanges v.ingressRules want).1 (diffRanges v.ingressRules want).2) ∧
    (fwX.globalMode = true → ∀ ref, fwX.globalIngressRuleRef = some ref →
      (Tables.flushMachine api fwX cs ma).1.globalIngressRuleRef =
        some (flushGlobalPorts api ref cs
          (diffRanges v.ingressRules want).1 (diffRanges v.ingressRules want).2).1 ∧
      ((Tables.flushMachine api fwX cs ma).2.1, (Tables.flushMachine api fwX cs ma).2.2) =
        (flushGlobalPorts api ref cs
          (diffRanges v.ingressRules want).1 (diffRanges v.ingressRules want).2).2) := by
  unfold Tables.flushMachine
  rw [hm]
  simp only
  rw [hv]
  simp only
  rw [flushMachine_eq, hg]
  simp only
  refine ⟨?_, ?_, ?_⟩
  · cases hgm : fwX.globalMode with
    | false =>
      simp only [Bool.false_eq_true, if_false]
      rw [lookup_mapSet, if_pos rfl]
    | true =>
      simp only [if_true]
      cases hr : fwX.globalIngressRuleRef with
      | none =>
        simp only
        split
        · simp only
          rw [lookup_mapSet, if_pos rfl]
        · simp only
          rw [lookup_mapSet, if_pos rfl]
      | some ref =>
        simp only
        rw [lookup_mapSet, if_pos rfl]
  · intro hgm
    rw [hgm]
    rfl
  · intro hgm ref hr
    rw [hgm, hr]
    exact ⟨rfl, rfl⟩

/-! ## The flushes of `flushUnits`, one machine after the other -/

theorem flushGlobalPorts_calls (api : Api) (ref : List (String × Int)) (cs : List Call)
    (o c : List IngressRule) : ∃ mid, (flushGlobalPorts api ref cs o c).2.1 = cs ++ mid := by
  show ∃ mid, ((flushGlobalPorts api ref cs o c).2).1 = cs ++ mid
  rw [flushGlobalPorts_eq]
  repeat' split
  all_goals first
    | exact ⟨[], (List.append_nil _).symm⟩
    | (simp only [List.append_assoc]; exact ⟨_, rfl⟩)

theorem flushInstancePorts_calls (api : Api) (cs : List Call) (v : machineData)
    (o c : List IngressRule) : ∃ mid, (flushInstancePorts api cs v o c).1 = cs ++ mid := by
  unfold flushInstancePorts
  by_cases h0 : o.length = 0 ∧ c.length = 0
  · rw [if_pos h0]
    exact ⟨[], (List.append_nil _).symm⟩
  · rw [if_neg h0]
    simp only
    rcases (api.Machine cs v.tag).2 with _ | err
    · simp only
      rcases api.InstanceId (cs ++ [Call.Machine v.tag]) v.tag with ⟨iid, _ | err⟩
      · simp only
        rcases api.Instances (cs ++ [Call.Machine v.tag] ++ [Call.InstanceId v.tag]) [iid]
          with ⟨insts, _ | err⟩
        · simp only
          rcases insts.head? with _ | inst
          · simp only [List.append_assoc]
            exact ⟨_, rfl⟩
          · simp only
            by_cases ho : o.length > 0
            · simp only [ho, if_true]
              rcases api.InstanceOpenPorts (cs ++ [Call.Machine v.tag] ++
                [Call.InstanceId v.tag] ++ [Call.Instances [iid]]) inst v.tag.id o with _ | err
              · simp only
                split
                · simp only [List.append_assoc]
                  exact ⟨_, rfl⟩
                · simp only [List.append_assoc]
                  exact ⟨_, rfl⟩
              · simp only [List.append_assoc]
                exact ⟨_, rfl⟩
            · simp only [ho, if_false]
              split
              · simp only [List.append_assoc]
                exact ⟨_, rfl⟩
              · simp only [List.append_assoc]
                exact ⟨_, rfl⟩
        · simp only [List.append_assoc]
          exact ⟨_, rfl⟩
      · simp only [List.append_assoc]
        exact ⟨_, rfl⟩
    · simp only
      split
      · exact ⟨_, rfl⟩
      · exact ⟨_, rfl⟩

theorem flushMachine_calls (api : Api) (fw : Firewaller) (cs : List Call) (v : machineData) :
    ∃ mid, (flushMachine api fw cs v).2.1 = cs ++ mid := by
  rw [flushMachine_eq]
  rcases (gatherIngressRules api.NewIngressRule [v]).2 with ⟨want, _ | err⟩
  · simp only
    split
    · split
      · split
        · exact ⟨[], (List.append_nil _).symm⟩
        · exact ⟨[], (List.append_nil _).symm⟩
      · exact flushGlobalPorts_calls api _ cs _ _
    · exact flushInstancePorts_calls api cs _ _ _
  · exact ⟨[], (List.append_nil _).symm⟩

theorem tables_flushMachine_calls (api : Api) (fw : Tables) (cs : List Call) (b : Addr) :
    ∃ mid, (Tables.flushMachine api fw cs b).2.1 = cs ++ mid := by
  unfold Tables.flushMachine
  cases fw.machines.lookup b with
  | none => exact ⟨[], (List.append_nil _).symm⟩
  | some m =>
    simp only
    cases fw.viewMachine m with
    | none => exact ⟨[], (List.append_nil _).symm⟩
    | some view =>
      simp only
      exact flushMachine_calls api _ cs view

theorem tables_flushMachine_other (api : Api) (fw : Tables) (cs : List Call) (b a : Addr)
    (h : a ≠ b) :
    (Tables.flushMachine api fw cs b).1.machines.lookup a = fw.machines.lookup a := by
  unfold Tables.flushMachine
  cases fw.machines.lookup b with
  | none => rfl
  | some m =>
    simp only
    cases fw.viewMachine m with
    | none => rfl
    | some view =>
      simp only
      rw [lookup_mapSet, if_neg h]

theorem viewMachine_setRules (fw : Tables) (m : machineRecord) (rules : List IngressRule) :
    fw.viewMachine { m with ingressRules := rules } =
      (fw.viewMachine m).map (fun v => { v with ingressRules := rules }) := by
  unfold Tables.viewMachine
  simp only
  split <;> rfl

theorem flushMachines_calls (api : Api) (l : List Addr) (fw : Tables) (cs : List Call) :
    ∃ mid, (Tables.flushMachines api l fw cs).2.1 = cs ++ mid := by
  induction l generalizing fw cs with
  | nil => exact ⟨[], (List.append_nil _).symm⟩
  | cons b l ih =>
    rw [Tables.flushMachines]
    obtain ⟨mid, hmid⟩ := tables_flushMachine_calls api fw cs b
    rcases hF : Tables.flushMachine api fw cs b with ⟨fw2, cs2, _ | err⟩
    · rw [hF] at hmid
      simp only at hmid ⊢
      obtain ⟨mid2, h2⟩ := ih fw2 cs2
      rw [h2, hmid]
      exact ⟨mid ++ mid2, List.append_assoc _ _ _⟩
    · rw [hF] at hmid
      exact ⟨mid, hmid⟩

/-- A machine whose rules are what it gathers keeps them through the flushes of
`flushUnits`, its own included. -/
theorem flushMachines_keeps (api : Api) (fw1 : Tables) (ma : Addr) (m : machineRecord)
    (v1 : machineData) (want : List IngressRule) (hv : fw1.viewMachine m = some v1)
    (hg : (gatherIngressRules api.NewIngressRule [v1]).2 = (want, none))
    (l : List Addr) (fwX : Tables) (cs : List Call)
    (hU : fwX.units = fw1.units) (hS : fwX.services = fw1.services)
    (hm : fwX.machines.lookup ma = some { m with ingressRules := want }) :
    (Tables.flushMachines api l fwX cs).1.machines.lookup ma =
      some { m with ingressRules := want } := by
  induction l generalizing fwX cs with
  | nil => exact hm
  | cons b l ih =>
    rw [Tables.flushMachines]
    have hsp := flushMachine_samePointers api fwX cs b
    have hstep : (Tables.flushMachine api fwX cs b).1.machines.lookup ma =
        some { m with ingressRules := want } := by
      by_cases hb : ma = b
      · subst hb
        have hvX : fwX.viewMachine { m with ingressRules := want } =
            some { v1 with ingressRules := want } := by
          rw [viewMachine_setRules, viewMachine_congr fw1 fwX hU hS, hv]
          rfl
        have := (tables_flushMachine_eq api fwX cs ma _ _ want hm hvX
          ((gatherIngressRules_setRules api.NewIngressRule v1 want).trans hg)).1
        exact this
      · rw [tables_flushMachine_other api fwX cs b ma hb]
        exact hm
    rcases hF : Tables.flushMachine api fwX cs b with ⟨fw2, cs2, _ | err⟩
    · rw [hF] at hsp hstep
      simp only at hsp hstep ⊢
      exact ih fw2 cs2 (hsp.1.trans hU) (hsp.2.1.trans hS) hstep
    · rw [hF] at hstep
      exact hstep

/-- In a `flushUnits` that returns no error, a machine among the targets is
flushed: the state and the calls before its first flush, that flush, and what
the machine is left with at the end. -/
theorem flushMachines_flushes (api : Api) (fw1 : Tables) (ma : Addr) (m : machineRecord)
    (v1 : machineData) (want : List IngressRule) (hv : fw1.viewMachine m = some v1)
    (hg : (gatherIngressRules api.NewIngressRule [v1]).2 = (want, none))
    (l : List Addr) (hmem : ma ∈ l) (fwX : Tables) (cs : List Call)
    (hU : fwX.units = fw1.units) (hS : fwX.services = fw1.services)
    (hm : fwX.machines.lookup ma = some m)
    (hok : (Tables.flushMachines api l fwX cs).2.2 = none) :
    ∃ fwA csA mid rest, csA = cs ++ mid ∧ fwA.units = fw1.units ∧
      fwA.services = fw1.services ∧ fwA.globalMode = fwX.globalMode ∧
      fwA.machines.lookup ma = some m ∧
      (Tables.flushMachine api fwA csA ma).2.2 = none ∧
      (Tables.flushMachines api l fwX cs).2.1 =
        (Tables.flushMachine api fwA csA ma).2.1 ++ rest ∧
      (Tables.flushMachines api l fwX cs).1.machines.lookup ma =
        some { m with ingressRules := want } := by
  induction l generalizing fwX cs with
  | nil => simp at hmem
  | cons b l ih =>
    rw [Tables.flushMachines] at hok ⊢
    have hsp := flushMachine_samePointers api fwX cs b
    by_cases hb : ma = b
    · subst hb
      have hvX : fwX.viewMachine m = some v1 := (viewMachine_congr fw1 fwX hU hS m).trans hv
      have hl := (tables_flushMachine_eq api fwX cs ma m v1 want hm hvX hg).1
      rcases hF : Tables.flushMachine api fwX cs ma with ⟨fw2, cs2, _ | err⟩
      · rw [hF] at hsp hl
        simp only at hsp hl ⊢
        obtain ⟨rest, hrest⟩ := flushMachines_calls api l fw2 cs2
        refine ⟨fwX, cs, [], rest, (List.append_nil _).symm, hU, hS, rfl, hm, ?_, ?_, ?_⟩
        · rw [hF]
        · rw [hF]
          exact hrest
        · exact flushMachines_keeps api fw1 ma m v1 want hv hg l fw2 cs2
            (hsp.1.trans hU) (hsp.2.1.trans hS) hl
      · rw [hF] at hok
        simp at hok
    · have hmem2 : ma ∈ l := by
        rcases List.mem_cons.mp hmem with h | h
        · exact absurd h hb
        · exact h
      have hoth := tables_flushMachine_other api fwX cs b ma hb
      obtain ⟨mid1, hmid1⟩ := tables_flushMachine_calls api fwX cs b
      rcases hF : Tables.flushMachine api fwX cs b with ⟨fw2, cs2, _ | err⟩
      · rw [hF] at hsp hoth hmid1 hok
        simp only at hsp hoth hmid1 hok ⊢
        obtain ⟨fwA, csA, mid, rest, e1, e2, e3, e4, e5, e6, e7, e8⟩ :=
          ih hmem2 fw2 cs2 (hsp.1.trans hU) (hsp.2.1.trans hS) (hoth.trans hm) hok
        refine ⟨fwA, csA, mid1 ++ mid, rest, ?_, e2, e3, e4.trans hsp.2.2.2.2.2.2.1, e5, e6,
          e7, e8⟩
        rw [e1, hmid1, List.append_assoc]
      · rw [hF] at hok
        simp at hok

/-- C26: let the rules of a machine `m` be those of its last flush (the rules
that `gatherIngressRules` gave while the application was exposed), and let
`network.NewIngressRule` return the rule it is asked for.  For an `exposedChange`
to false of an exposed application, `loop` sets the flag of the record and calls
`flushUnits` with all units of the application, which (in a state that
satisfies the invariant of the tables) flushes, among the machines of the map it
builds, every machine that one of these units points to.  In the flush of `m`
the gathered rules are those of the units whose application is still exposed;
`toOpen` is empty; for every port range `p` that a unit of the application
defines on `m` and no unit of another, exposed application defines on `m`,
`toClose` holds the rule `(p, ["0.0.0.0/0"])` and the gathered rules hold no
rule for `p`; the flush of the mode gets the empty `toOpen` and that `toClose`,
and `m.ingressRules` becomes the gathered rules.  When the handler returns no
error and `m` is the machine of a unit of the application, the run of the
handler holds that flush of `m`: there are a state and calls, reached from the
handler's own by flushes of other machines, at which `flushMachine(m)` is called
and returns no error; the calls of the flush of the mode with the empty `toOpen`
and that `toClose` are part of the calls of the handler; and in the state the
handler returns, the flag of the application is false and `m.ingressRules` are
the gathered rules, which hold no rule for `p`. -/
theorem exposedChanged_unexposed (api : Api) (fw : Tables) (calls : List Call) (sa : Addr)
    (s : serviceRecord) (ma : Addr) (m : machineRecord) (v0 : machineData)
    (hN : ∀ pr f t c, api.NewIngressRule pr f t c = (⟨⟨f, t, pr⟩, c⟩, none))
    (hs : fw.services.lookup sa = some s) (hexp : s.exposed = true)
    (hnd : (m.unitds.map Prod.fst).Nodup)
    (hv0 : fw.viewMachine m = some v0) (hsync : m.ingressRules = exposedRules v0) :
    Tables.exposedChanged api fw calls sa false =
      ((Tables.flushUnits api (fw.setExposed sa s false) calls (s.unitds.map Prod.snd)).1,
        (Tables.flushUnits api (fw.setExposed sa s false) calls (s.unitds.map Prod.snd)).2.1,
        (Tables.flushUnits api (fw.setExposed sa s false) calls
          (s.unitds.map Prod.snd)).2.2.map (fun e => e.annotate "cannot change firewall ports")) ∧
    (TablesInv fw → (∀ e ∈ s.unitds, fw.unitds.lookup e.1 = some e.2) →
      ∃ targets,
        Tables.flushTargets (fw.setExposed sa s false) (s.unitds.map Prod.snd) [] =
          (targets, none) ∧
        Tables.flushUnits api (fw.setExposed sa s false) calls (s.unitds.map Prod.snd) =
          Tables.flushMachines api (targets.map Prod.snd) (fw.setExposed sa s false) calls ∧
        ∀ e ∈ s.unitds, ∀ u ma2, fw.units.lookup e.2 = some u → u.machined = some ma2 →
          ma2 ∈ targets.map Prod.snd) ∧
    ∃ v1, (fw.setExposed sa s false).viewMachine m = some v1 ∧
      (gatherIngressRules api.NewIngressRule [v1]).2 = (exposedRules v1, none) ∧
      (diffRanges m.ingressRules (exposedRules v1)).1 = [] ∧
      (∀ k a u ranges p, m.unitds.lookup k = some a → fw.units.lookup a = some u →
        u.serviced = some sa → (k, ranges) ∈ m.definedPorts → p ∈ ranges.map Prod.fst →
        (∀ e ∈ m.definedPorts, p ∈ e.2.map Prod.fst → ∀ a2 u2 sa2 s2,
          m.unitds.lookup e.1 = some a2 → fw.units.lookup a2 = some u2 →
          u2.serviced = some sa2 → sa2 ≠ sa → fw.services.lookup sa2 = some s2 →
          s2.exposed = false) →
        (⟨p, ["0.0.0.0/0"]⟩ : IngressRule) ∈ (diffRanges m.ingressRules (exposedRules v1)).2 ∧
        ∀ r ∈ exposedRules v1, r.toPortRange ≠ p) ∧
      (∀ fwX cs, fwX.units = fw.units → fwX.services = (fw.setExposed sa s false).services →
        fwX.machines.lookup ma = some m →
        (Tables.flushMachine api fwX cs ma).1.machines.lookup ma =
          some { m with ingressRules := exposedRules v1 } ∧
        (fwX.globalMode = false →
          ((Tables.flushMachine api fwX cs ma).2.1, (Tables.flushMachine api fwX cs ma).2.2) =
            flushInstancePorts api cs { v1 with ingressRules := exposedRules v1 } []
              (diffRanges m.ingressRules (exposedRules v1)).2) ∧
        (fwX.globalMode = true → ∀ ref, fwX.globalIngressRuleRef = some ref →
          ((Tables.flushMachine api fwX cs ma).2.1, (Tables.flushMachine api fwX cs ma).2.2) =
            (flushGlobalPorts api ref cs []
              (diffRanges m.ingressRules (exposedRules v1)).2).2)) ∧
      (TablesInv fw → (∀ e ∈ s.unitds, fw.unitds.lookup e.1 = some e.2) →
        fw.machines.lookup ma = some m →
        (∃ e ∈ s.unitds, ∃ u, fw.units.lookup e.2 = some u ∧ u.machined = some ma) →
        (Tables.exposedChanged api fw calls sa false).2.2 = none →
        (Tables.exposedChanged api fw calls sa false).1.services.lookup sa =
          some { s with exposed := false } ∧
        (Tables.exposedChanged api fw calls sa false).1.machines.lookup ma =
          some { m with ingressRules := exposedRules v1 } ∧
        ∃ fwA csA mid rest, csA = calls ++ mid ∧ fwA.units = fw.units ∧
          fwA.services = (fw.setExposed sa s false).services ∧
          fwA.globalMode = fw.globalMode ∧
          fwA.machines.lookup ma = some m ∧
          (Tables.flushMachine api fwA csA ma).2.2 = none ∧
          (Tables.exposedChanged api fw calls sa false).2.1 =
            (Tables.flushMachine api fwA csA ma).2.1 ++ rest ∧
          (fw.globalMode = false →
            (Tables.flushMachine api fwA csA ma).2.1 =
              (flushInstancePorts api csA { v1 with ingressRules := exposedRules v1 } []
                (diffRanges m.ingressRules (exposedRules v1)).2).1) ∧
          (fw.globalMode = true → ∀ ref, fwA.globalIngressRuleRef = some ref →
            (Tables.flushMachine api fwA csA ma).2.1 =
              (flushGlobalPorts api ref csA []
                (diffRanges m.ingressRules (exposedRules v1)).2).2.1)) := by
  obtain ⟨hv1, hv0e⟩ := viewMachine_setExposed fw sa s false hs m v0 hv0
  have hlk0 : ∀ k, v0.unitds.lookup k = (m.unitds.lookup k).bind fw.viewUnit := by
    intro k
    rw [hv0e]
    exact lookup_filterMap_nodup m.unitds fw.viewUnit hnd k
  have hgather : ∀ v : machineData,
      (gatherIngressRules api.NewIngressRule [v]).2 = (exposedRules v, none) := by
    intro v
    unfold gatherIngressRules
    rw [gatherMachines_ok api.NewIngressRule [v] [] (fun _ _ _ _ _ _ => hN _ _ _ _)]
    simp
  have hH : Tables.exposedChanged api fw calls sa false =
      ((Tables.flushUnits api (fw.setExposed sa s false) calls (s.unitds.map Prod.snd)).1,
        (Tables.flushUnits api (fw.setExposed sa s false) calls (s.unitds.map Prod.snd)).2.1,
        (Tables.flushUnits api (fw.setExposed sa s false) calls
          (s.unitds.map Prod.snd)).2.2.map
            (fun e => e.annotate "cannot change firewall ports")) := by
    unfold Tables.exposedChanged
    rw [hs]
    show (match Tables.flushUnits api (fw.setExposed sa s false) calls
        (s.unitds.map Prod.snd) with
      | (fw2, calls2, some err) =>
        (fw2, calls2, some (err.annotate "cannot change firewall ports"))
      | (fw2, calls2, none) => (fw2, calls2, none)) = _
    rcases Tables.flushUnits api (fw.setExposed sa s false) calls (s.unitds.map Prod.snd) with
      ⟨a, b, _ | c⟩ <;> rfl
  have hT : TablesInv fw → (∀ e ∈ s.unitds, fw.unitds.lookup e.1 = some e.2) →
      ∃ targets,
        Tables.flushTargets (fw.setExposed sa s false) (s.unitds.map Prod.snd) [] =
          (targets, none) ∧
        Tables.flushUnits api (fw.setExposed sa s false) calls (s.unitds.map Prod.snd) =
          Tables.flushMachines api (targets.map Prod.snd) (fw.setExposed sa s false) calls ∧
        ∀ e ∈ s.unitds, ∀ u ma2, fw.units.lookup e.2 = some u → u.machined = some ma2 →
          ma2 ∈ targets.map Prod.snd := by
    intro hi hunits
    obtain ⟨tg, e1, _, _, e4⟩ := flushTargets_hosts fw hi (s.unitds.map Prod.snd) []
      (by
        intro a ha
        obtain ⟨e, he, hea⟩ := List.mem_map.mp ha
        exact ⟨e.1, by rw [← hea]; exact hunits e he⟩)
      (by
        intro t ma2 h
        simp at h)
    have e1b : Tables.flushTargets (fw.setExposed sa s false) (s.unitds.map Prod.snd) [] =
        (tg, none) := by
      rw [flushTargets_congr fw (fw.setExposed sa s false) rfl rfl]
      exact e1
    refine ⟨tg, e1b, ?_, ?_⟩
    · unfold Tables.flushUnits
      rw [e1b]
    · intro e he u ma2 hu hm2
      exact e4 e.2 (List.mem_map.mpr ⟨e, he, rfl⟩) u ma2 hu hm2
  have hlk1 : ∀ k,
      (m.unitds.filterMap (fun e =>
        ((fw.setExposed sa s false).viewUnit e.2).map (fun u => (e.1, u)))).lookup k =
      (m.unitds.lookup k).bind (fw.setExposed sa s false).viewUnit := by
    intro k
    exact lookup_filterMap_nodup m.unitds _ hnd k
  have hdef0 : v0.definedPorts = m.definedPorts := by rw [hv0e]
  have hstill : ∀ r, r ∈ exposedRules
        (⟨m.tag, m.unitds.filterMap (fun e =>
          ((fw.setExposed sa s false).viewUnit e.2).map (fun u => (e.1, u))),
          m.ingressRules, m.definedPorts⟩ : machineData) →
      ∃ e ∈ m.definedPorts, ∃ a2 u2 sa2 s2 pr, m.unitds.lookup e.1 = some a2 ∧
        fw.units.lookup a2 = some u2 ∧ u2.serviced = some sa2 ∧ sa2 ≠ sa ∧
        fw.services.lookup sa2 = some s2 ∧ s2.exposed = true ∧ pr ∈ e.2 ∧
        r = ⟨pr.1, ["0.0.0.0/0"]⟩ ∧ r ∈ exposedRules v0 := by
    intro r hr
    obtain ⟨e, he, ud1, hl1, hx1, pr, hpr, hrr⟩ := (mem_exposedRules _ r).mp hr
    have hl1b := hl1
    simp only at hl1b he
    rw [hlk1] at hl1b
    cases hma : m.unitds.lookup e.1 with
    | none => rw [hma] at hl1b; simp at hl1b
    | some a2 =>
      rw [hma] at hl1b
      simp only [Option.some_bind] at hl1b
      obtain ⟨h0, u2, sa2, s2, g1, g2, g3, g4, g5⟩ :=
        viewUnit_unexposed fw sa s a2 ud1 hl1b hx1
      refine ⟨e, he, a2, u2, sa2, s2, pr, hma, g1, g2, g3, g4, g5, hpr, hrr, ?_⟩
      rw [mem_exposedRules]
      refine ⟨e, by rw [hdef0]; exact he, ud1, ?_, hx1, pr, hpr, hrr⟩
      rw [hlk0, hma]
      exact h0
  have hdiff := diffRanges_unexpose (exposedRules v0) (exposedRules
      (⟨m.tag, m.unitds.filterMap (fun e =>
        ((fw.setExposed sa s false).viewUnit e.2).map (fun u => (e.1, u))),
        m.ingressRules, m.definedPorts⟩ : machineData))
    (exposedRules_open v0) (exposedRules_open _)
    (by
      intro p hp
      obtain ⟨r, hr, hrp⟩ := List.mem_map.mp hp
      obtain ⟨e, _, a2, u2, sa2, s2, pr, _, _, _, _, _, _, _, _, hr0⟩ := hstill r hr
      exact List.mem_map.mpr ⟨r, hr0, hrp⟩)
  rw [← hsync] at hdiff
  have hX : ∀ fwX cs, fwX.units = fw.units →
      fwX.services = (fw.setExposed sa s false).services →
      fwX.machines.lookup ma = some m →
      (Tables.flushMachine api fwX cs ma).1.machines.lookup ma =
        some { m with ingressRules := (exposedRules
          (⟨m.tag, m.unitds.filterMap (fun e =>
            ((fw.setExposed sa s false).viewUnit e.2).map (fun u => (e.1, u))),
            m.ingressRules, m.definedPorts⟩ : machineData)) } ∧
      (fwX.globalMode = false →
        ((Tables.flushMachine api fwX cs ma).2.1, (Tables.flushMachine api fwX cs ma).2.2) =
          flushInstancePorts api cs
            { (⟨m.tag, m.unitds.filterMap (fun e =>
                ((fw.setExposed sa s false).viewUnit e.2).map (fun u => (e.1, u))),
                m.ingressRules, m.definedPorts⟩ : machineData) with
              ingressRules := (exposedRules
                (⟨m.tag, m.unitds.filterMap (fun e =>
                  ((fw.setExposed sa s false).viewUnit e.2).map (fun u => (e.1, u))),
                  m.ingressRules, m.definedPorts⟩ : machineData)) } []
            (diffRanges m.ingressRules (exposedRules
              (⟨m.tag, m.unitds.filterMap (fun e =>
                ((fw.setExposed sa s false).viewUnit e.2).map (fun u => (e.1, u))),
                m.ingressRules, m.definedPorts⟩ : machineData))).2) ∧
      (fwX.globalMode = true → ∀ ref, fwX.globalIngressRuleRef = some ref →
        ((Tables.flushMachine api fwX cs ma).2.1, (Tables.flushMachine api fwX cs ma).2.2) =
          (flushGlobalPorts api ref cs []
            (diffRanges m.ingressRules (exposedRules
              (⟨m.tag, m.unitds.filterMap (fun e =>
                ((fw.setExposed sa s false).viewUnit e.2).map (fun u => (e.1, u))),
                m.ingressRules, m.definedPorts⟩ : machineData))).2).2) := by
    intro fwX cs hxu hxs hxm
    have hvX : fwX.viewMachine m = some _ :=
      (viewMachine_congr (fw.setExposed sa s false) fwX hxu hxs m).trans hv1
    have := tables_flushMachine_eq api fwX cs ma m _ _ hxm hvX (hgather _)
    simp only at this
    rw [hdiff.1] at this
    exact ⟨this.1, this.2.1, fun hg ref hr => (this.2.2 hg ref hr).2⟩
  refine ⟨hH, hT, _, hv1, hgather _, hdiff.1, ?_, hX, ?_⟩
  · intro k a u ranges p hka hu hus hkr hp hno
    have hnot : ∀ r ∈ exposedRules
          (⟨m.tag, m.unitds.filterMap (fun e =>
            ((fw.setExposed sa s false).viewUnit e.2).map (fun u => (e.1, u))),
            m.ingressRules, m.definedPorts⟩ : machineData), r.toPortRange ≠ p := by
      intro r hr hrp
      obtain ⟨e, he, a2, u2, sa2, s2, pr, f1, f2, f3, f4, f5, f6, f7, f8, _⟩ := hstill r hr
      have hpe : p ∈ e.2.map Prod.fst := by
        rw [← hrp, f8]
        exact List.mem_map.mpr ⟨pr, f7, rfl⟩
      have := hno e he hpe a2 u2 sa2 s2 f1 f2 f3 f4 f5
      rw [f6] at this
      simp at this
    refine ⟨hdiff.2 p ?_ ?_, hnot⟩
    · obtain ⟨pr, hpr, hprp⟩ := List.mem_map.mp hp
      rw [hsync]
      apply List.mem_map.mpr
      refine ⟨⟨pr.1, ["0.0.0.0/0"]⟩, ?_, hprp⟩
      rw [mem_exposedRules]
      refine ⟨(k, ranges), by rw [hdef0]; exact hkr,
        ⟨u.tag, ⟨s.application, s.exposed⟩⟩, ?_, hexp, pr, hpr, rfl⟩
      rw [hlk0]
      simp only
      rw [hka]
      exact viewUnit_of_service fw a u sa s hu hus hs
    · intro hc
      obtain ⟨r, hr, hrp⟩ := List.mem_map.mp hc
      exact hnot r hr hrp
  · intro hi hunits hm hhost hok
    obtain ⟨tg, _, hfu, hmemAll⟩ := hT hi hunits
    obtain ⟨e, he, u, hu, hum⟩ := hhost
    have hmem : ma ∈ tg.map Prod.snd := hmemAll e he u ma hu hum
    have hokF : (Tables.flushMachines api (tg.map Prod.snd) (fw.setExposed sa s false)
        calls).2.2 = none := by
      rw [hH, hfu] at hok
      simp only [Option.map_eq_none'] at hok
      exact hok
    obtain ⟨fwA, csA, mid, rest, e1, e2, e3, e4, e5, e6, e7, e8⟩ :=
      flushMachines_flushes api (fw.setExposed sa s false) ma m _ _ hv1 (hgather _)
        (tg.map Prod.snd) hmem (fw.setExposed sa s false) calls rfl rfl hm hokF
    have hsp := flushMachines_samePointers api (tg.map Prod.snd) (fw.setExposed sa s false)
      calls
    have hst : (Tables.exposedChanged api fw calls sa false).1 =
        (Tables.flushMachines api (tg.map Prod.snd) (fw.setExposed sa s false) calls).1 := by
      rw [hH, hfu]
    have hcl : (Tables.exposedChanged api fw calls sa false).2.1 =
        (Tables.flushMachines api (tg.map Prod.snd) (fw.setExposed sa s false) calls).2.1 := by
      rw [hH, hfu]
    refine ⟨?_, ?_, fwA, csA, mid, rest, e1, e2, e3, e4, e5, e6, ?_, ?_, ?_⟩
    · rw [hst, hsp.2.1]
      show (mapSet fw.services sa { s with exposed := false }).lookup sa = _
      rw [lookup_mapSet, if_pos rfl]
    · rw [hst]
      exact e8
    · rw [hcl]
      exact e7
    · intro hg
      have := (hX fwA csA e2 e3 e5).2.1 (e4.trans hg)
      exact congrArg Prod.fst this
    · intro hg ref hr
      have := (hX fwA csA e2 e3 e5).2.2 (e4.trans hg) ref hr
      exact congrArg Prod.fst this

theorem exposedChanged_unexposed_witness :
    ∃ v1,
      (sampleTables.setExposed 2 ⟨⟨"app"⟩, true, [(⟨"app/0"⟩, 1)]⟩ false).viewMachine
        ⟨⟨"0"⟩, [(⟨"app/0"⟩, 1)], [⟨⟨80, 80, "tcp"⟩, ["0.0.0.0/0"]⟩],
          [(⟨"app/0"⟩, [(⟨80, 80, "tcp"⟩, true)])]⟩ = some v1 ∧
      (diffRanges [⟨⟨80, 80, "tcp"⟩, ["0.0.0.0/0"]⟩] (exposedRules v1)).1 = [] ∧
      (⟨⟨80, 80, "tcp"⟩, ["0.0.0.0/0"]⟩ : IngressRule) ∈
        (diffRanges [⟨⟨80, 80, "tcp"⟩, ["0.0.0.0/0"]⟩] (exposedRules v1)).2 ∧
      (Tables.exposedChanged okApi sampleTables [] 2 false).1.machines.lookup 0 =
        some ⟨⟨"0"⟩, [(⟨"app/0"⟩, 1)], exposedRules v1,
          [(⟨"app/0"⟩, [(⟨80, 80, "tcp"⟩, true)])]⟩ :=
  (exposedChanged_unexposed okApi sampleTables [] 2 ⟨⟨"app"⟩, true, [(⟨"app/0"⟩, 1)]⟩ 0
    ⟨⟨"0"⟩, [(⟨"app/0"⟩, 1)], [⟨⟨80, 80, "tcp"⟩, ["0.0.0.0/0"]⟩],
      [(⟨"app/0"⟩, [(⟨80, 80, "tcp"⟩, true)])]⟩
    ⟨⟨"0"⟩, [(⟨"app/0"⟩, ⟨⟨"app/0"⟩, ⟨⟨"app"⟩, true⟩⟩)], [⟨⟨80, 80, "tcp"⟩, ["0.0.0.0/0"]⟩],
      [(⟨"app/0"⟩, [(⟨80, 80, "tcp"⟩, true)])]⟩
    (fun _ _ _ _ => rfl) (by decide) rfl (by decide) (by decide) (by decide)).2.2.imp
    (fun _ h => ⟨h.1, h.2.2.1,
      (h.2.2.2.1 ⟨"app/0"⟩ 1 ⟨⟨"app/0"⟩, some 2, some 0⟩ [(⟨80, 80, "tcp"⟩, true)]
        ⟨80, 80, "tcp"⟩ (by decide) (by decide) rfl (by decide) (by decide)
        (by
          intro e he _ a2 u2 sa2 s2 h1 h2 h3 h4
          rw [List.mem_singleton] at he
          subst he
          have ha : a2 = 1 := by
            have : (some 1 : Option Addr) = some a2 := h1
            exact (Option.some.inj this).symm
          subst ha
          have hu : u2 = ⟨⟨"app/0"⟩, some 2, some 0⟩ := by
            have : (some ⟨⟨"app/0"⟩, some 2, some 0⟩ : Option unitRecord) = some u2 := h2
            exact (Option.some.inj this).symm
          subst hu
          exact absurd (Option.some.inj h3).symm h4)).1,
      (h.2.2.2.2.2 sampleTables_inv (by decide) (by decide)
        ⟨(⟨"app/0"⟩, 1), by decide, ⟨⟨"app/0"⟩, some 2, some 0⟩, by decide, rfl⟩
        (by decide)).2.1⟩)

/-- The handler of an `exposedChange` to false, run on the sample tables in
instance mode: the flag is cleared, the rules of machine 0 are emptied, and the
instance of the machine is asked to close `tcp 80-80` from `0.0.0.0/0`. -/
theorem exposedChanged_sample :
    (Tables.exposedChanged okApi sampleTables [] 2 false).2 =
      ([Call.Machine ⟨"0"⟩, Call.InstanceId ⟨"0"⟩, Call.Instances ["i-0"],
        Call.InstanceClosePorts "i-0" "0" [⟨⟨80, 80, "tcp"⟩, ["0.0.0.0/0"]⟩]], none) ∧
    (Tables.exposedChanged okApi sampleTables [] 2 false).1.machines.lookup 0 =
      some ⟨⟨"0"⟩, [(⟨"app/0"⟩, 1)], [],
        [(⟨"app/0"⟩, [(⟨80, 80, "tcp"⟩, true)])]⟩ ∧
    (Tables.exposedChanged okApi sampleTables [] 2 false).1.services.lookup 2 =
      some ⟨⟨"app"⟩, false, [(⟨"app/0"⟩, 1)]⟩ := by
  decide

/-! ## The flushes of a run close only what is counted -/

theorem closesBalanced_of_count_le (name : IngressRule → String) (xs : List IngressRule)
    (cnt : String → Int) (h : ∀ s, (((xs.map name).count s : Nat) : Int) ≤ cnt s) :
    closesBalanced name cnt xs := by
  induction xs generalizing cnt with
  | nil =>
    intro e he
    simp at he
  | cons x xs ih =>
    rw [closesBalanced_cons]
    constructor
    · have := h (name x)
      simp only [List.map_cons, List.count_cons_self] at this
      push_cast at this
      omega
    · apply ih
      intro s
      have := h s
      simp only [List.map_cons, List.count_cons] at this
      by_cases hs : s = name x
      · subst hs
        simp only [beq_self_eq_true, if_true] at this ⊢
        push_cast at this
        omega
      · have hne : (name x == s) = false := by
          simp
          exact fun e => hs e.symm
        simp only [hne, if_neg hs] at this ⊢
        simpa using this

theorem globalRun_balanced (api : Api)
    (hN : ∀ pr f t c, (api.NewIngressRule pr f t c).2 = none →
      (api.NewIngressRule pr f t c).1 = ⟨⟨f, t, pr⟩, c⟩)
    (fw : Firewaller) (calls : List Call) (h : GlobalRun api fw calls) :
    ∃ ref, fw.globalIngressRuleRef = some ref ∧ BalancedRun api ref calls := by
  induction h with
  | start => exact ⟨[], rfl, BalancedRun.start⟩
  | track fw calls tag machined _ hr ih => exact ih
  | flush fw calls pre post tag machined changed fw2 calls2 machined2 hrun hm hch hf ih =>
    obtain ⟨ref, href, hb⟩ := ih
    obtain ⟨hg, hc, ref1, href1, hs⟩ := globalRun_inv api hN fw calls hrun
    rw [href] at href1
    cases href1
    rw [flushMachine_eq] at hf
    rcases hgat : (gatherIngressRules api.NewIngressRule [changed]).2 with ⟨want, _ | err⟩
    · rw [hgat] at hf
      simp only [hg, href, if_true, Prod.mk.injEq] at hf
      obtain ⟨hf1, hf2, hf3, hf4⟩ := hf
      subst hf1
      have hwant := gatherIngressRules_open api.NewIngressRule hN changed want hgat
      have hold : ∀ r ∈ machined.ingressRules, r.SourceCIDRs = ["0.0.0.0/0"] := by
        apply hc (tag, machined)
        rw [hm]
        simp
      refine ⟨_, rfl, BalancedRun.flush ref calls (diffRanges changed.ingressRules want).1
        (diffRanges changed.ingressRules want).2 _ _ hb ?_ ?_⟩
      · apply closesBalanced_of_count_le
        intro s
        have hk := nameCount_diffRanges api.RuleString machined.ingressRules want hold hwant s
        have hsum := hs s
        rw [hm] at hsum
        simp only [List.map_append, List.map_cons, List.sum_append, List.sum_cons,
          Nat.cast_add] at hsum
        unfold countAfterOpen
        rw [hch]
        have h1 : (0 : Int) ≤ ((List.map (fun e : MachineTag × machineData =>
            nameCount api.RuleString e.2.ingressRules s) pre).sum : Nat) := Int.natCast_nonneg _
        have h2 : (0 : Int) ≤ ((List.map (fun e : MachineTag × machineData =>
            nameCount api.RuleString e.2.ingressRules s) post).sum : Nat) := Int.natCast_nonneg _
        have h3 : (0 : Int) ≤ (nameCount api.RuleString want s : Nat) := Int.natCast_nonneg _
        omega
      · rw [← hf2, ← hf4]
    · rw [hgat] at hf
      simp at hf
  | forget fw calls pre post tag machined _ hm hr ih => exact ih

/-- C18: the calls of `flushGlobalPorts` that the worker makes are those of
`flushMachine`, with the `toOpen` and `toClose` that `diffRanges` gives for the
rules of the machine at its last flush and its gathered rules.  After every run
in global mode from the worker of `NewFirewaller` with its empty reference-count
map (machines tracked, flushed without error after any change, dropped), no
rule is stored in `globalIngressRuleRef` with the count zero, and every rule
stored with a count other than zero has been passed to the `OpenPorts` of the
environment and not since been passed to its `ClosePorts`.  The constructor
`network.NewIngressRule` is taken to return, when it returns no error, the rule
it was asked for. -/
theorem globalRun_stored (api : Api)
    (hN : ∀ pr f t c, (api.NewIngressRule pr f t c).2 = none →
      (api.NewIngressRule pr f t c).1 = ⟨⟨f, t, pr⟩, c⟩)
    (fw : Firewaller) (calls : List Call) (h : GlobalRun api fw calls) :
    ∃ ref, fw.globalIngressRuleRef = some ref ∧
      (∀ e ∈ ref, e.2 ≠ 0) ∧
      (∀ e ∈ ref, e.2 ≠ 0 → openInEnviron api.RuleString e.1 calls = true) := by
  obtain ⟨ref, href, hb⟩ := globalRun_balanced api hN fw calls h
  exact ⟨ref, href, balancedRun_stored api ref calls hb⟩

theorem globalRun_stored_witness :
    GlobalRun okApi
        ⟨[(⟨"0"⟩, sampleMachine false []),
          (⟨"1"⟩, { sampleMachine true [⟨⟨80, 80, "tcp"⟩, ["0.0.0.0/0"]⟩] with tag := ⟨"1"⟩ })],
          [], [], true, some [("80-80/tcp from 0.0.0.0/0", 1)], []⟩
        [Call.OpenPorts [⟨⟨80, 80, "tcp"⟩, ["0.0.0.0/0"]⟩]] ∧
      openInEnviron okApi.RuleString "80-80/tcp from 0.0.0.0/0"
        [Call.OpenPorts [⟨⟨80, 80, "tcp"⟩, ["0.0.0.0/0"]⟩]] = true := by
  have h2 : GlobalRun okApi
      ⟨[(⟨"0"⟩, sampleMachine true []), (⟨"1"⟩, { sampleMachine true [] with tag := ⟨"1"⟩ })],
        [], [], true, some [], []⟩ [] :=
    GlobalRun.track _ [] ⟨"1"⟩ { sampleMachine true [] with tag := ⟨"1"⟩ }
      (GlobalRun.track (globalWorker []) [] ⟨"0"⟩ (sampleMachine true []) GlobalRun.start rfl)
      rfl
  have h3 : GlobalRun okApi
      ⟨[(⟨"0"⟩, sampleMachine true [⟨⟨80, 80, "tcp"⟩, ["0.0.0.0/0"]⟩]),
        (⟨"1"⟩, { sampleMachine true [] with tag := ⟨"1"⟩ })],
        [], [], true, some [("80-80/tcp from 0.0.0.0/0", 1)], []⟩
      [Call.OpenPorts [⟨⟨80, 80, "tcp"⟩, ["0.0.0.0/0"]⟩]] :=
    GlobalRun.flush _ [] [] [(⟨"1"⟩, { sampleMachine true [] with tag := ⟨"1"⟩ })]
      ⟨"0"⟩ (sampleMachine true []) (sampleMachine true [])
      ⟨[(⟨"0"⟩, sampleMachine true []), (⟨"1"⟩, { sampleMachine true [] with tag := ⟨"1"⟩ })],
        [], [], true, some [("80-80/tcp from 0.0.0.0/0", 1)], []⟩
      [Call.OpenPorts [⟨⟨80, 80, "tcp"⟩, ["0.0.0.0/0"]⟩]]
      (sampleMachine true [⟨⟨80, 80, "tcp"⟩, ["0.0.0.0/0"]⟩]) h2 rfl rfl (by decide)
  have h4 : GlobalRun okApi
      ⟨[(⟨"0"⟩, sampleMachine true [⟨⟨80, 80, "tcp"⟩, ["0.0.0.0/0"]⟩]),
        (⟨"1"⟩, { sampleMachine true [⟨⟨80, 80, "tcp"⟩, ["0.0.0.0/0"]⟩] with tag := ⟨"1"⟩ })],
        [], [], true, some [("80-80/tcp from 0.0.0.0/0", 2)], []⟩
      [Call.OpenPorts [⟨⟨80, 80, "tcp"⟩, ["0.0.0.0/0"]⟩]] :=
    GlobalRun.flush _ _ [(⟨"0"⟩, sampleMachine true [⟨⟨80, 80, "tcp"⟩, ["0.0.0.0/0"]⟩])] []
      ⟨"1"⟩ { sampleMachine true [] with tag := ⟨"1"⟩ }
      { sampleMachine true [] with tag := ⟨"1"⟩ }
      ⟨[(⟨"0"⟩, sampleMachine true [⟨⟨80, 80, "tcp"⟩, ["0.0.0.0/0"]⟩]),
        (⟨"1"⟩, { sampleMachine true [] with tag := ⟨"1"⟩ })],
        [], [], true, some [("80-80/tcp from 0.0.0.0/0", 2)], []⟩
      [Call.OpenPorts [⟨⟨80, 80, "tcp"⟩, ["0.0.0.0/0"]⟩]]
      { sampleMachine true [⟨⟨80, 80, "tcp"⟩, ["0.0.0.0/0"]⟩] with tag := ⟨"1"⟩ }
      h3 rfl rfl (by decide)
  have h5 : GlobalRun okApi
      ⟨[(⟨"0"⟩, sampleMachine false []),
        (⟨"1"⟩, { sampleMachine true [⟨⟨80, 80, "tcp"⟩, ["0.0.0.0/0"]⟩] with tag := ⟨"1"⟩ })],
        [], [], true, some [("80-80/tcp from 0.0.0.0/0", 1)], []⟩
      [Call.OpenPorts [⟨⟨80, 80, "tcp"⟩, ["0.0.0.0/0"]⟩]] :=
    GlobalRun.flush _ _ []
      [(⟨"1"⟩, { sampleMachine true [⟨⟨80, 80, "tcp"⟩, ["0.0.0.0/0"]⟩] with tag := ⟨"1"⟩ })]
      ⟨"0"⟩ (sampleMachine true [⟨⟨80, 80, "tcp"⟩, ["0.0.0.0/0"]⟩])
      (sampleMachine false [⟨⟨80, 80, "tcp"⟩, ["0.0.0.0/0"]⟩])
      ⟨[(⟨"0"⟩, sampleMachine true [⟨⟨80, 80, "tcp"⟩, ["0.0.0.0/0"]⟩]),
        (⟨"1"⟩, { sampleMachine true [⟨⟨80, 80, "tcp"⟩, ["0.0.0.0/0"]⟩] with tag := ⟨"1"⟩ })],
        [], [], true, some [("80-80/tcp from 0.0.0.0/0", 1)], []⟩
      [Call.OpenPorts [⟨⟨80, 80, "tcp"⟩, ["0.0.0.0/0"]⟩]]
      (sampleMachine false []) h4 rfl rfl (by decide)
  obtain ⟨ref, href, _, h1⟩ := globalRun_stored okApi (fun _ _ _ _ _ => rfl) _ _ h5
  cases href
  exact ⟨h5, h1 ("80-80/tcp from 0.0.0.0/0", 1) (List.mem_singleton.mpr rfl) (by decide)⟩

/-! ## The counts at `reconcileGlobal` -/

theorem nameCount_of_injective (name : IngressRule → String) (hinj : Function.Injective name)
    (rules : List IngressRule) (hr : ∀ r ∈ rules, r.SourceCIDRs = ["0.0.0.0/0"])
    (r : IngressRule) (hc : r.SourceCIDRs = ["0.0.0.0/0"]) :
    nameCount name rules (name r) = if r ∈ rules then 1 else 0 := by
  unfold nameCount
  have hf : ((rules.map IngressRule.toPortRange).dedup).filter (fun p =>
      decide (name ⟨p, ["0.0.0.0/0"]⟩ = name r)) =
      ((rules.map IngressRule.toPortRange).dedup).filter (fun p => p == r.toPortRange) := by
    apply List.filter_congr
    intro p _
    have hrr : r = ⟨r.toPortRange, ["0.0.0.0/0"]⟩ := by
      rw [← hc]
    by_cases hp : p = r.toPortRange
    · subst hp
      rw [← hrr]
      simp
    · have : name ⟨p, ["0.0.0.0/0"]⟩ ≠ name r := by
        intro e
        have e2 := hinj e
        rw [← e2] at hp
        exact hp rfl
      simp [this, hp]
  rw [hf, ← List.countP_eq_length_filter, ← List.count_eq_countP,
    List.count_eq_of_nodup (List.nodup_dedup _)]
  have hm : r.toPortRange ∈ (rules.map IngressRule.toPortRange).dedup ↔ r ∈ rules := by
    rw [List.mem_dedup, List.mem_map]
    constructor
    · rintro ⟨r2, h2, e⟩
      have : r2 = r := by
        obtain ⟨p2, c2⟩ := r2
        obtain ⟨p, c⟩ := r
        have hc2 := hr _ h2
        simp only at e hc hc2
        rw [e, hc, hc2]
      rw [← this]
      exact h2
    · intro h
      exact ⟨r, h, rfl⟩
  by_cases h : r ∈ rules
  · rw [if_pos (hm.mpr h), if_pos h]
  · rw [if_neg (fun x => h (hm.mp x)), if_neg h]

theorem sum_indicator {α : Type} (l : List α) (p : α → Bool) :
    (l.map (fun a => if p a = true then 1 else 0)).sum = (l.filter p).length := by
  induction l with
  | nil => rfl
  | cons a l ih =>
    rw [List.map_cons, List.sum_cons, ih, List.filter_cons]
    by_cases h : p a = true
    · rw [if_pos h, if_pos h, List.length_cons]
      omega
    · rw [if_neg h, if_neg h]
      omega

/-- C19: let the worker be in a state of a run in global mode in which the
rules of every tracked machine are its gathered rules (every event that changes
what a machine gathers ends with a flush of that machine), and let
`network.NewIngressRule` return the rule it is asked for.  A `reconcileGlobal`
that returns no error gathers the rules over all tracked machines (the
concatenation of what each machine gathers), asks the environment for its
rules, diffs them with `diffRanges` against the gathered rules and calls
`OpenPorts` once with `toOpen` and then `ClosePorts` once with `toClose`, each
only when its list is not empty.  It returns the worker as it was, and the
reference-count map, which the flushes of the run have written, holds for every
rule name the number of pairs of a tracked machine and a distinct port range it
gathers with that name; when `IngressRule.String` tells rules apart, every
wanted rule has as count the number of tracked machines that want it. -/
theorem reconcileGlobal_counts (api : Api)
    (hN : ∀ pr f t c, api.NewIngressRule pr f t c = (⟨⟨f, t, pr⟩, c⟩, none))
    (fw : Firewaller) (calls : List Call) (h : GlobalRun api fw calls)
    (hsync : ∀ e ∈ fw.machineds,
      (gatherIngressRules api.NewIngressRule [e.2]).2.1 = e.2.ingressRules)
    (hok : (reconcileGlobal api fw calls).2.2 = none) :
    (gatherIngressRules api.NewIngressRule (fw.machineds.map Prod.snd)).2 =
      (fw.machineds.flatMap (fun e => (gatherIngressRules api.NewIngressRule [e.2]).2.1),
        none) ∧
    (reconcileGlobal api fw calls).2.1 =
      calls ++ [Call.IngressRules] ++
        (if (diffRanges (api.IngressRules calls).1 (gatherIngressRules api.NewIngressRule
            (fw.machineds.map Prod.snd)).2.1).1.length > 0 then
          [Call.OpenPorts (diffRanges (api.IngressRules calls).1 (gatherIngressRules
            api.NewIngressRule (fw.machineds.map Prod.snd)).2.1).1] else []) ++
        (if (diffRanges (api.IngressRules calls).1 (gatherIngressRules api.NewIngressRule
            (fw.machineds.map Prod.snd)).2.1).2.length > 0 then
          [Call.ClosePorts (diffRanges (api.IngressRules calls).1 (gatherIngressRules
            api.NewIngressRule (fw.machineds.map Prod.snd)).2.1).2] else []) ∧
    (reconcileGlobal api fw calls).1 = fw ∧
    ∃ ref, (reconcileGlobal api fw calls).1.globalIngressRuleRef = some ref ∧
      (∀ s, refGet ref s =
        (((fw.machineds.map (fun e => nameCount api.RuleString
          (gatherIngressRules api.NewIngressRule [e.2]).2.1 s)).sum : Nat) : Int)) ∧
      (Function.Injective api.RuleString →
        ∀ r ∈ (gatherIngressRules api.NewIngressRule (fw.machineds.map Prod.snd)).2.1,
          refGet ref (api.RuleString r) =
            (((fw.machineds.filter (fun e =>
              decide (r ∈ (gatherIngressRules api.NewIngressRule [e.2]).2.1))).length : Nat) :
              Int)) := by
  have hNw : ∀ pr f t c, (api.NewIngressRule pr f t c).2 = none →
      (api.NewIngressRule pr f t c).1 = ⟨⟨f, t, pr⟩, c⟩ := by
    intro pr f t c _
    rw [hN]
  have hone : ∀ m : machineData,
      gatherIngressRules api.NewIngressRule [m] = ([m], exposedRules m, none) := by
    intro m
    unfold gatherIngressRules
    rw [gatherMachines_ok api.NewIngressRule [m] [] (fun _ _ _ _ _ _ => hN _ _ _ _)]
    simp
  have hall : gatherIngressRules api.NewIngressRule (fw.machineds.map Prod.snd) =
      (fw.machineds.map Prod.snd, (fw.machineds.map Prod.snd).flatMap exposedRules, none) := by
    unfold gatherIngressRules
    rw [gatherMachines_ok api.NewIngressRule _ [] (fun _ _ _ _ _ _ => hN _ _ _ _)]
    simp
  have hflat : (fw.machineds.map Prod.snd).flatMap exposedRules =
      fw.machineds.flatMap (fun e => (gatherIngressRules api.NewIngressRule [e.2]).2.1) := by
    simp only [hone, List.flatMap_map]
  obtain ⟨hg, hc, ref, href, hs⟩ := globalRun_inv api hNw fw calls h
  have hfw := (reconcileGlobal_spec api fw calls).1
  have hcnt : ∀ s, refGet ref s =
      (((fw.machineds.map (fun e => nameCount api.RuleString
        (gatherIngressRules api.NewIngressRule [e.2]).2.1 s)).sum : Nat) : Int) := by
    intro s
    rw [hs s]
    congr 2
    apply List.map_congr_left
    intro e he
    rw [hsync e he]
  refine ⟨?_, ?_, hfw, ref, by rw [hfw]; exact href, hcnt, ?_⟩
  · rw [hall, hflat]
  · rw [reconcileGlobal_eq] at hok ⊢
    rcases hi : api.IngressRules calls with ⟨initial, _ | err⟩
    · rw [hi] at hok
      simp only at hok ⊢
      by_cases ho : (diffRanges initial (gatherIngressRules api.NewIngressRule
          (fw.machineds.map Prod.snd)).2.1).1.length > 0
      · rw [if_pos ho] at hok
        rw [if_pos ho, if_pos ho]
        rcases hop : api.OpenPorts (calls ++ [Call.IngressRules]) (diffRanges initial
            (gatherIngressRules api.NewIngressRule (fw.machineds.map Prod.snd)).2.1).1
          with _ | err
        · rw [hop] at hok
          simp only at hok ⊢
          by_cases hcl : (diffRanges initial (gatherIngressRules api.NewIngressRule
              (fw.machineds.map Prod.snd)).2.1).2.length > 0
          · rw [if_pos hcl, if_pos hcl]
          · rw [if_neg hcl, if_neg hcl, List.append_nil]
        · rw [hop] at hok
          simp at hok
      · rw [if_neg ho, if_neg ho, List.append_nil]
        by_cases hcl : (diffRanges initial (gatherIngressRules api.NewIngressRule
            (fw.machineds.map Prod.snd)).2.1).2.length > 0
        · rw [if_pos hcl, if_pos hcl]
        · rw [if_neg hcl, if_neg hcl, List.append_nil]
    · rw [hi] at hok
      simp at hok
  · intro hinj r hr
    rw [hcnt (api.RuleString r), ← sum_indicator]
    have hrc : r.SourceCIDRs = ["0.0.0.0/0"] := by
      rw [hall, hflat] at hr
      obtain ⟨e, he, hre⟩ := List.mem_flatMap.mp hr
      rw [hsync e he] at hre
      exact hc e he r hre
    congr 2
    apply List.map_congr_left
    intro e he
    rw [nameCount_of_injective api.RuleString hinj _ (by
      rw [hsync e he]
      exact hc e he) r hrc]
    by_cases hm : r ∈ (gatherIngressRules api.NewIngressRule [e.2]).2.1
    · simp [hm]
    · simp [hm]

theorem reconcileGlobal_counts_witness :
    ∃ ref,
      (reconcileGlobal okApi
        ⟨[(⟨"0"⟩, sampleMachine true [⟨⟨80, 80, "tcp"⟩, ["0.0.0.0/0"]⟩])], [], [], true,
          some [("80-80/tcp from 0.0.0.0/0", 1)], []⟩
        [Call.OpenPorts [⟨⟨80, 80, "tcp"⟩, ["0.0.0.0/0"]⟩]]).1.globalIngressRuleRef =
        some ref ∧
      refGet ref "80-80/tcp from 0.0.0.0/0" = 1 := by
  have hrun : GlobalRun okApi
      ⟨[(⟨"0"⟩, sampleMachine true [⟨⟨80, 80, "tcp"⟩, ["0.0.0.0/0"]⟩])], [], [], true,
        some [("80-80/tcp from 0.0.0.0/0", 1)], []⟩
      [Call.OpenPorts [⟨⟨80, 80, "tcp"⟩, ["0.0.0.0/0"]⟩]] :=
    GlobalRun.flush ⟨[(⟨"0"⟩, sampleMachine true [])], [], [], true, some [], []⟩ [] [] []
      ⟨"0"⟩ (sampleMachine true []) (sampleMachine true [])
      ⟨[(⟨"0"⟩, sampleMachine true [])], [], [], true,
        some [("80-80/tcp from 0.0.0.0/0", 1)], []⟩
      [Call.OpenPorts [⟨⟨80, 80, "tcp"⟩, ["0.0.0.0/0"]⟩]]
      (sampleMachine true [⟨⟨80, 80, "tcp"⟩, ["0.0.0.0/0"]⟩])
      (GlobalRun.track (globalWorker []) [] ⟨"0"⟩ (sampleMachine true []) GlobalRun.start rfl)
      rfl rfl (by decide)
  obtain ⟨_, _, _, ref, href, hcnt, _⟩ := reconcileGlobal_counts okApi (fun _ _ _ _ => rfl)
    _ _ hrun (by decide) (by decide)
  refine ⟨ref, href, ?_⟩
  rw [hcnt]
  decide

/-! ## Machine records are kept -/

theorem grows_refl (fw : Tables) : Grows fw fw :=
  ⟨Nat.le_refl _, fun _ m h => ⟨m, h, rfl⟩⟩

theorem grows_trans {fw fw2 fw3 : Tables} (h1 : Grows fw fw2) (h2 : Grows fw2 fw3) :
    Grows fw fw3 := by
  refine ⟨Nat.le_trans h1.1 h2.1, ?_⟩
  intro a m hm
  obtain ⟨m2, e1, e2⟩ := h1.2 a m hm
  obtain ⟨m3, g1, g2⟩ := h2.2 a m2 e1
  exact ⟨m3, g1, g2.trans e2⟩

theorem grows_of_samePointers {fw fw2 : Tables} (h : SamePointers fw fw2) : Grows fw fw2 := by
  refine ⟨Nat.le_of_eq h.2.2.1.symm, ?_⟩
  intro a m hm
  obtain ⟨m2, e1, e2, _⟩ := samePointers_machine h a m hm
  exact ⟨m2, e1, e2⟩

theorem grows_same (fw fw2 : Tables) (hn : fw.next ≤ fw2.next)
    (hm : fw2.machines = fw.machines) : Grows fw fw2 := by
  refine ⟨hn, ?_⟩
  intro a m h
  exact ⟨m, by rw [hm]; exact h, rfl⟩

theorem grows_mapSet (fw fw2 : Tables) (ma : Addr) (m m2 : machineRecord)
    (hn : fw.next ≤ fw2.next) (hm : fw.machines.lookup ma = some m)
    (h : fw2.machines = mapSet fw.machines ma m2) (ht : m2.tag = m.tag) : Grows fw fw2 := by
  refine ⟨hn, ?_⟩
  intro a x hx
  rw [h, lookup_mapSet]
  by_cases ha : a = ma
  · subst ha
    rw [if_pos rfl]
    rw [hm] at hx
    cases hx
    exact ⟨m2, rfl, ht⟩
  · rw [if_neg ha]
    exact ⟨x, hx, rfl⟩

theorem bind_pair_eq {α β : Type} (o : Option α) (f : α → Option β) (a : α) (b : β)
    (h : o.bind (fun x => (f x).map (fun y => (x, y))) = some (a, b)) :
    o = some a ∧ f a = some b := by
  cases o with
  | none => simp at h
  | some x =>
    simp only [Option.some_bind] at h
    cases hf : f x with
    | none => rw [hf] at h; simp at h
    | some y =>
      rw [hf] at h
      simp only [Option.map_some', Option.some.injEq, Prod.mk.injEq] at h
      obtain ⟨h1, h2⟩ := h
      subst h1 h2
      exact ⟨rfl, hf⟩

theorem forgetUnit_grows (fw : Tables) (calls : List Call) (unitd : Addr) :
    Grows fw (Tables.forgetUnit fw calls unitd).1 := by
  unfold Tables.forgetUnit
  split
  · exact grows_refl fw
  · split
    · exact grows_refl fw
    · simp only
      split
      · exact grows_same _ _ (Nat.le_refl _) rfl
      · rename_i ma m heq
        have hm := (bind_pair_eq _ _ ma m heq).2
        simp only
        split
        · exact grows_mapSet fw _ ma m _ (Nat.le_refl _) hm rfl rfl
        · exact grows_mapSet fw _ ma m _ (Nat.le_refl _) hm rfl rfl

theorem startService_grows (api : Api) (fw : Tables) (calls : List Call)
    (service : ApplicationTag) : Grows fw (Tables.startService api fw calls service).1 := by
  unfold Tables.startService
  simp only
  split
  · exact grows_refl fw
  · split
    · exact grows_refl fw
    · exact grows_same _ _ (Nat.le_succ _) rfl

theorem openedPortsLoop_grows (api : Api) (machineTag : MachineTag) (subnets : List SubnetTag)
    (fw : Tables) (calls : List Call) :
    Grows fw (Tables.openedPortsLoop api machineTag subnets fw calls).1 :=
  grows_of_samePointers (openedPortsLoop_samePointers api machineTag subnets fw calls)

theorem startUnit_grows (api : Api) (fw : Tables) (calls : List Call) (unitTag : UnitTag)
    (machineTag : MachineTag) :
    Grows fw (Tables.startUnit api fw calls unitTag machineTag).1 := by
  unfold Tables.startUnit
  simp only
  split
  · exact grows_refl fw
  · split
    · exact grows_same _ _ (Nat.le_succ _) rfl
    · rename_i ma m heq
      have hm : fw.machines.lookup ma = some m := (bind_pair_eq _ _ ma m heq).2
      have hS : ∀ (fwX : Tables) (c : List Call) (app : ApplicationTag) (b : Bool),
          Grows fwX (if b = true then Tables.startService api fwX c app
            else (fwX, c, none)).1 := by
        intro fwX c app b
        split
        · exact startService_grows api fwX c app
        · exact grows_refl fwX
      have h0 : Grows fw
          { fw with
            units := mapSet fw.units fw.next ⟨unitTag, none, fw.machineds.lookup machineTag⟩
            next := fw.next + 1
            unitds := mapSet fw.unitds unitTag fw.next
            machines := mapSet fw.machines ma
              { m with unitds := mapSet m.unitds unitTag fw.next } } :=
        grows_mapSet fw _ ma m _ (Nat.le_succ _) hm rfl rfl
      split
      · rename_i fwS calls2 err heq2
        have := congrArg (fun r : Tables × List Call × Option Err => r.1) heq2
        simp only at this
        have h1 : Grows fw fwS := by
          rw [← this]
          exact grows_trans h0 (hS _ _ _ _)
        exact grows_trans h1 (grows_same _ _ (Nat.le_refl _) rfl)
      · rename_i fwS calls2 heq2
        have := congrArg (fun r : Tables × List Call × Option Err => r.1) heq2
        simp only at this
        have h1 : Grows fw fwS := by
          rw [← this]
          exact grows_trans h0 (hS _ _ _ _)
        split
        · exact grows_trans h1 (grows_same _ _ (Nat.le_refl _) rfl)
        · split
          · exact grows_trans h1 (grows_same _ _ (Nat.le_refl _) rfl)
          · split
            · exact grows_trans h1 (grows_same _ _ (Nat.le_refl _) rfl)
            · exact grows_trans h1 (grows_trans
                (grows_same fwS _ (by exact Nat.le_refl _) (by rfl))
                (openedPortsLoop_grows api machineTag _ _ _))

theorem unitChanged_grows (api : Api) (fw : Tables) (calls : List Call)
    (changed : List Addr) (unitTag : UnitTag) (unit : Option Life) (machineTag : MachineTag) :
    Grows fw (Tables.unitChanged api fw calls changed unitTag unit machineTag).1 := by
  unfold Tables.unitChanged
  split
  · split
    · exact grows_refl fw
    · split
      · have h := forgetUnit_grows fw calls ‹Addr›
        split
        · rename_i heq
          rw [heq] at h
          exact h
        · rename_i heq
          rw [heq] at h
          exact h
      · exact grows_refl fw
  · split
    · have h := startUnit_grows api fw calls unitTag machineTag
      split
      · rename_i heq
        rw [heq] at h
        exact h
      · rename_i heq
        rw [heq] at h
        split <;> exact h
    · exact grows_refl fw

theorem unitsChangedLoop_grows (api : Api) (N : String → UnitTag) (units : List String)
    (fw : Tables) (calls : List Call) (changed : List Addr) :
    Grows fw (Tables.unitsChangedLoop api N units fw calls changed).1 := by
  induction units generalizing fw calls changed with
  | nil => exact grows_refl fw
  | cons name rest ih =>
    rw [Tables.unitsChangedLoop]
    simp only
    split
    · exact grows_refl fw
    · split
      · have h := unitChanged_grows api fw (calls ++ [Call.Unit (N name)]) changed (N name)
          none MachineTag.zero
        split
        · rename_i heq
          rw [heq] at h
          exact h
        · rename_i heq
          rw [heq] at h
          exact grows_trans h (ih _ _ _)
      · split
        · exact ih _ _ _
        · split
          · exact grows_refl fw
          · rename_i life _ _ _
            have h := unitChanged_grows api fw
              (calls ++ [Call.Unit (N name)] ++ [Call.AssignedMachine (N name)]) changed (N name)
              (some life) (api.AssignedMachine (calls ++ [Call.Unit (N name)]) (N name)).1
            split
            · rename_i heq
              rw [heq] at h
              exact h
            · rename_i heq
              rw [heq] at h
              exact grows_trans h (ih _ _ _)

theorem unitsChanged_grows (api : Api) (N : String → UnitTag) (fw : Tables)
    (calls : List Call) (units : List String) :
    Grows fw (Tables.unitsChanged api N fw calls units).1 := by
  unfold Tables.unitsChanged
  have h1 := unitsChangedLoop_grows api N units fw calls []
  split
  · rename_i heq
    rw [heq] at h1
    exact h1
  · rename_i fw2 calls2 changed heq
    rw [heq] at h1
    have h2 := grows_of_samePointers (flushUnits_samePointers api fw2 calls2 changed)
    split
    · rename_i heq2
      rw [heq2] at h2
      exact grows_trans h1 h2
    · rename_i heq2
      rw [heq2] at h2
      exact grows_trans h1 h2

theorem forgetUnits_grows (ma : Addr) (keys : List UnitTag) (fw : Tables) (calls : List Call) :
    Grows fw (Tables.forgetUnits ma keys fw calls).1 ∧
    (Tables.forgetUnits ma keys fw calls).1.machineds = fw.machineds := by
  induction keys generalizing fw calls with
  | nil => exact ⟨grows_refl fw, rfl⟩
  | cons key rest ih =>
    rw [Tables.forgetUnits]
    split
    · exact ih fw calls
    · rename_i unitd _
      have h := forgetUnit_grows fw calls unitd
      have h2 := forgetUnit_machineds fw calls unitd
      split
      · rename_i heq
        rw [heq] at h h2
        exact ⟨h, h2⟩
      · rename_i heq
        rw [heq] at h h2
        exact ⟨grows_trans h (ih _ _).1, (ih _ _).2.trans h2⟩

/-! ## The keys of the machine table -/

theorem machineKeys_grows {fw fw2 : Tables} (hk : MachineKeys fw) (hg : Grows fw fw2)
    (hsub : ∀ t ma, fw2.machineds.lookup t = some ma → fw.machineds.lookup t = some ma) :
    MachineKeys fw2 := by
  intro t ma h
  obtain ⟨h1, m, h2, h3⟩ := hk t ma (hsub t ma h)
  obtain ⟨m2, e1, e2⟩ := hg.2 ma m h2
  exact ⟨Nat.lt_of_lt_of_le h1 hg.1, m2, e1, e2.trans h3⟩

theorem forgetMachine_grows (api : Api) (fw : Tables) (calls : List Call) (ma : Addr) :
    Grows fw (Tables.forgetMachine api fw calls ma).1 ∧
    ((Tables.forgetMachine api fw calls ma).1.machineds = fw.machineds ∨
      ∃ m, fw.machines.lookup ma = some m ∧
        (Tables.forgetMachine api fw calls ma).1.machineds = mapDelete fw.machineds m.tag) := by
  unfold Tables.forgetMachine
  cases hm : fw.machines.lookup ma with
  | none => exact ⟨grows_refl fw, Or.inl rfl⟩
  | some m =>
    simp only
    have hU := forgetUnits_grows ma (m.unitds.map Prod.fst) fw calls
    rcases hF : Tables.forgetUnits ma (m.unitds.map Prod.fst) fw calls with ⟨fw1, calls1, _ | err⟩
    · rw [hF] at hU
      simp only at hU ⊢
      have hsp := flushMachine_samePointers api fw1 calls1 ma
      rcases hG : Tables.flushMachine api fw1 calls1 ma with ⟨fw2, calls2, _ | err⟩
      · rw [hG] at hsp
        simp only at hsp ⊢
        refine ⟨grows_trans hU.1 (grows_trans (grows_of_samePointers hsp)
          (grows_same fw2 _ (by exact Nat.le_refl _) (by rfl))), Or.inr ⟨m, rfl, ?_⟩⟩
        show mapDelete fw2.machineds m.tag = mapDelete fw.machineds m.tag
        rw [hsp.2.2.2.1, hU.2]
      · rw [hG] at hsp
        simp only at hsp ⊢
        exact ⟨grows_trans hU.1 (grows_of_samePointers hsp), Or.inl (hsp.2.2.2.1.trans hU.2)⟩
    · rw [hF] at hU
      exact ⟨hU.1, Or.inl hU.2⟩

theorem forgetMachine_keys (api : Api) (fw : Tables) (calls : List Call) (t : MachineTag)
    (ma : Addr) (hk : MachineKeys fw) (ht : fw.machineds.lookup t = some ma) :
    MachineKeys (Tables.forgetMachine api fw calls ma).1 ∧
    (∀ t2, t2 ≠ t →
      (Tables.forgetMachine api fw calls ma).1.machineds.lookup t2 = fw.machineds.lookup t2) ∧
    ((Tables.forgetMachine api fw calls ma).2.2 = none →
      (Tables.forgetMachine api fw calls ma).1.machineds.lookup t = none) := by
  obtain ⟨_, m, hm, hmt⟩ := hk t ma ht
  obtain ⟨hg, hmd⟩ := forgetMachine_grows api fw calls ma
  have hlk : ∀ t2, (Tables.forgetMachine api fw calls ma).1.machineds.lookup t2 =
      fw.machineds.lookup t2 ∨
      ((Tables.forgetMachine api fw calls ma).1.machineds.lookup t2 = none ∧ t2 = t) := by
    intro t2
    rcases hmd with h | ⟨m2, h1, h2⟩
    · rw [h]
      exact Or.inl rfl
    · rw [hm] at h1
      cases h1
      rw [h2, lookup_mapDelete, hmt]
      by_cases h3 : t2 = t
      · rw [if_pos h3]
        exact Or.inr ⟨rfl, h3⟩
      · rw [if_neg h3]
        exact Or.inl rfl
  refine ⟨machineKeys_grows hk hg ?_, ?_, ?_⟩
  · intro t2 x hx
    rcases hlk t2 with h | ⟨h, _⟩
    · rw [← h]
      exact hx
    · rw [h] at hx
      cases hx
  · intro t2 hne
    rcases hlk t2 with h | ⟨_, h⟩
    · exact h
    · exact absurd h hne
  · intro hok
    have := forgetMachine_untracked api fw calls ma m hm hok
    rw [hmt] at this
    exact this

theorem machineKeys_track (fw : Tables) (tag : MachineTag) (hk : MachineKeys fw) :
    MachineKeys { fw with
      machines := mapSet fw.machines fw.next ⟨tag, [], [], []⟩
      next := fw.next + 1
      machineds := mapSet fw.machineds tag fw.next } := by
  intro t ma h
  simp only at h ⊢
  rw [lookup_mapSet] at h
  by_cases ht : t = tag
  · rw [if_pos ht] at h
    cases h
    refine ⟨Nat.lt_succ_self _, ⟨tag, [], [], []⟩, ?_, ht.symm⟩
    rw [lookup_mapSet, if_pos rfl]
  · rw [if_neg ht] at h
    obtain ⟨h1, m, h2, h3⟩ := hk t ma h
    refine ⟨Nat.lt_succ_of_lt h1, m, ?_, h3⟩
    rw [lookup_mapSet, if_neg (Nat.ne_of_lt h1)]
    exact h2

theorem startMachine_keys (api : Api) (interrupted : List Call → MachineTag → Option Err)
    (N : String → UnitTag) (fw : Tables) (calls : List Call) (tag : MachineTag)
    (hk : MachineKeys fw) :
    MachineKeys (Tables.startMachine api interrupted N fw calls tag).1 ∧
    ∀ t2, t2 ≠ tag →
      (Tables.startMachine api interrupted N fw calls tag).1.machineds.lookup t2 =
        fw.machineds.lookup t2 := by
  unfold Tables.startMachine
  simp only
  split
  · split
    · exact ⟨hk, fun _ _ => rfl⟩
    · exact ⟨hk, fun _ _ => rfl⟩
  · split
    · exact ⟨hk, fun _ _ => rfl⟩
    · split
      · exact ⟨hk, fun _ _ => rfl⟩
      · have hk1 := machineKeys_track fw tag hk
        have hg := unitsChanged_grows api N
          { fw with
            machines := mapSet fw.machines fw.next ⟨tag, [], [], []⟩
            next := fw.next + 1
            machineds := mapSet fw.machineds tag fw.next }
          (calls ++ [Call.Machine tag] ++ [Call.WatchUnits tag]) ‹List String›
        have hm := unitsChanged_machineds api N
          { fw with
            machines := mapSet fw.machines fw.next ⟨tag, [], [], []⟩
            next := fw.next + 1
            machineds := mapSet fw.machineds tag fw.next }
          (calls ++ [Call.Machine tag] ++ [Call.WatchUnits tag]) ‹List String›
        have hdel : ∀ fw2 : Tables,
            Grows { fw with
              machines := mapSet fw.machines fw.next ⟨tag, [], [], []⟩
              next := fw.next + 1
              machineds := mapSet fw.machineds tag fw.next } fw2 →
            fw2.machineds = mapSet fw.machineds tag fw.next →
            MachineKeys { fw2 with machineds := mapDelete fw2.machineds tag } ∧
            ∀ t2, t2 ≠ tag →
              (mapDelete fw2.machineds tag).lookup t2 = fw.machineds.lookup t2 := by
          intro fw2 h1 h2
          constructor
          · apply machineKeys_grows hk1 (grows_trans h1 (grows_same fw2 _
              (by exact Nat.le_refl _) (by rfl)))
            intro t2 x hx
            simp only at hx ⊢
            rw [lookup_mapDelete] at hx
            by_cases h3 : t2 = tag
            · rw [if_pos h3] at hx
              cases hx
            · rw [if_neg h3, h2] at hx
              exact hx
          · intro t2 hne
            rw [lookup_mapDelete, if_neg hne, h2, lookup_mapSet, if_neg hne]
        split
        · rename_i fw2 calls3 err heq
          rw [heq] at hg hm
          exact hdel fw2 hg hm
        · rename_i fw2 calls3 heq
          rw [heq] at hg hm
          simp only at hg hm
          split
          · exact hdel fw2 hg hm
          · refine ⟨machineKeys_grows hk1 hg ?_, ?_⟩
            · intro t2 x hx
              rw [hm] at hx
              exact hx
            · intro t2 hne
              simp only
              rw [hm, lookup_mapSet, if_neg hne]

theorem machineLifeChanged_keys (api : Api) (interrupted : List Call → MachineTag → Option Err)
    (N : String → UnitTag) (fw : Tables) (calls : List Call) (tag : MachineTag)
    (hk : MachineKeys fw) :
    MachineKeys (Tables.machineLifeChanged api interrupted N fw calls tag).1 ∧
    ∀ t2, t2 ≠ tag →
      (Tables.machineLifeChanged api interrupted N fw calls tag).1.machineds.lookup t2 =
        fw.machineds.lookup t2 := by
  unfold Tables.machineLifeChanged
  simp only
  split
  · exact ⟨hk, fun _ _ => rfl⟩
  · cases hl : fw.machineds.lookup tag with
    | none =>
      simp only
      split
      · exact startMachine_keys api interrupted N fw _ tag hk
      · exact ⟨hk, fun _ _ => rfl⟩
    | some ma =>
      simp only
      split
      · have := forgetMachine_keys api fw (calls ++ [Call.Machine tag]) tag ma hk hl
        exact ⟨this.1, this.2.1⟩
      · exact ⟨hk, fun _ _ => rfl⟩

theorem machineLifeChanged_settles (api : Api)
    (interrupted : List Call → MachineTag → Option Err) (N : String → UnitTag) (fw : Tables)
    (calls : List Call) (tag : MachineTag) (hk : MachineKeys fw)
    (hconst : ∀ cs cs2, api.Machine cs tag = api.Machine cs2 tag)
    (hok : (Tables.machineLifeChanged api interrupted N fw calls tag).2.2 = none) :
    (Tables.machineLifeChanged api interrupted N fw calls tag).1.settled api tag
      (api.Machine [] tag) := by
  rcases hans : api.Machine [] tag with ⟨life, err⟩
  have hc : ∀ cs, api.Machine cs tag = (life, err) := fun cs => (hconst cs []).trans hans
  unfold Tables.settled
  unfold Tables.machineLifeChanged at hok ⊢
  rw [hc] at hok ⊢
  simp only at hok ⊢
  cases err with
  | some e =>
    cases he : api.IsCodeNotFound e with
    | false => simp [he] at hok
    | true =>
      simp only [he, Bool.not_true, Option.isSome_some, Bool.and_true, Bool.false_eq_true,
        if_false, Bool.not_false, Bool.true_or, if_true] at hok ⊢
      refine ⟨Or.inr ⟨e, rfl, he⟩, ?_⟩
      cases hl : fw.machineds.lookup tag with
      | none => simp [hl]
      | some ma =>
        simp only [hl] at hok ⊢
        have := (forgetMachine_keys api fw (calls ++ [Call.Machine tag]) tag ma hk hl).2.2 hok
        rw [this]
        simp
  | none =>
    simp only [Option.isSome_none, Bool.and_false, Bool.false_eq_true, if_false,
      Bool.not_true, Bool.false_or] at hok ⊢
    refine ⟨Or.inl trivial, ?_⟩
    cases hl : fw.machineds.lookup tag with
    | none =>
      simp only [hl] at hok ⊢
      by_cases hd : life = Life.Dead
      · simp [hd, hl]
      · simp only [hd, decide_False, Bool.not_false, if_true] at hok ⊢
        have := startMachine_tracked api interrupted N fw (calls ++ [Call.Machine tag]) tag
          (by rw [hc]) hok
        rw [this]
        simp [hd]
    | some ma =>
      simp only [hl] at hok ⊢
      by_cases hd : life = Life.Dead
      · simp only [hd, decide_True, if_true] at hok ⊢
        have := (forgetMachine_keys api fw (calls ++ [Call.Machine tag]) tag ma hk hl).2.2 hok
        rw [this]
        simp
      · simp [hd, hl]

theorem machineLifeChanged_settled (api : Api)
    (interrupted : List Call → MachineTag → Option Err) (N : String → UnitTag) (fw : Tables)
    (cs : List Call) (tag : MachineTag)
    (hconst : ∀ cs cs2, api.Machine cs tag = api.Machine cs2 tag)
    (hs : fw.settled api tag (api.Machine [] tag)) :
    Tables.machineLifeChanged api interrupted N fw cs tag =
      (fw, cs ++ [Call.Machine tag], none) := by
  unfold Tables.settled at hs
  rcases hans : api.Machine [] tag with ⟨life, err⟩
  rw [hans] at hs
  simp only at hs
  obtain ⟨herr, htr⟩ := hs
  unfold Tables.machineLifeChanged
  rw [(hconst cs []).trans hans]
  simp only
  rcases herr with rfl | ⟨e, rfl, he⟩
  · cases hl : fw.machineds.lookup tag with
    | none =>
      rw [hl] at htr
      simp only [Option.isSome_none, Bool.false_eq_true, true_and, false_iff, ne_eq,
        not_not] at htr
      simp [htr]
    | some ma =>
      rw [hl] at htr
      simp only [Option.isSome_some, true_and, true_iff, ne_eq] at htr
      simp [htr]
  · cases hl : fw.machineds.lookup tag with
    | none => simp [he]
    | some ma =>
      rw [hl] at htr
      simp at htr

/-! ## The same change of the machines watcher twice -/

theorem settled_congr (api : Api) (fw fw2 : Tables) (tag : MachineTag)
    (answer : Life × Option Err)
    (h : fw2.machineds.lookup tag = fw.machineds.lookup tag)
    (hs : fw.settled api tag answer) : fw2.settled api tag answer := by
  unfold Tables.settled at hs ⊢
  rw [h]
  exact hs

theorem machinesChangedLoop_settles (api : Api)
    (interrupted : List Call → MachineTag → Option Err) (N : String → UnitTag)
    (T : String → MachineTag) (change : List String) (fw : Tables) (calls : List Call)
    (hk : MachineKeys fw)
    (hconst : ∀ id ∈ change, ∀ cs cs2, api.Machine cs (T id) = api.Machine cs2 (T id))
    (hok : (Tables.machinesChangedLoop api interrupted N T change fw calls).2.2 = none) :
    MachineKeys (Tables.machinesChangedLoop api interrupted N T change fw calls).1 ∧
    (∀ id ∈ change,
      (Tables.machinesChangedLoop api interrupted N T change fw calls).1.settled api (T id)
        (api.Machine [] (T id))) ∧
    ∀ t, (∀ cs cs2, api.Machine cs t = api.Machine cs2 t) →
      fw.settled api t (api.Machine [] t) →
      (Tables.machinesChangedLoop api interrupted N T change fw calls).1.settled api t
        (api.Machine [] t) := by
  induction change generalizing fw calls with
  | nil => exact ⟨hk, fun id h => absurd h (List.not_mem_nil _), fun _ _ h => h⟩
  | cons id rest ih =>
    rw [Tables.machinesChangedLoop] at hok ⊢
    have hkeys := machineLifeChanged_keys api interrupted N fw calls (T id) hk
    have hset := machineLifeChanged_settles api interrupted N fw calls (T id) hk
      (hconst id (List.mem_cons_self _ _))
    rcases hM : Tables.machineLifeChanged api interrupted N fw calls (T id) with
      ⟨fw2, calls2, _ | err⟩
    · rw [hM] at hok hkeys hset
      simp only at hok hkeys hset ⊢
      obtain ⟨i1, i2, i3⟩ := ih fw2 calls2 hkeys.1
        (fun id2 h => hconst id2 (List.mem_cons_of_mem _ h)) hok
      refine ⟨i1, ?_, ?_⟩
      · intro id2 h2
        rcases List.mem_cons.mp h2 with h | h
        · subst h
          exact i3 (T id2) (hconst id2 (List.mem_cons_self _ _)) (hset (by trivial))
        · exact i2 id2 h
      · intro t hc hs
        apply i3 t hc
        by_cases ht : t = T id
        · subst ht
          exact hset (by trivial)
        · exact settled_congr api fw fw2 t _ (hkeys.2 t ht) hs
    · rw [hM] at hok
      simp at hok

theorem machinesChangedLoop_settled (api : Api)
    (interrupted : List Call → MachineTag → Option Err) (N : String → UnitTag)
    (T : String → MachineTag) (change : List String) (fw : Tables) (cs : List Call)
    (hconst : ∀ id ∈ change, ∀ cs cs2, api.Machine cs (T id) = api.Machine cs2 (T id))
    (hs : ∀ id ∈ change, fw.settled api (T id) (api.Machine [] (T id))) :
    Tables.machinesChangedLoop api interrupted N T change fw cs =
      (fw, cs ++ change.map (fun id => Call.Machine (T id)), none) := by
  induction change generalizing cs with
  | nil => simp [Tables.machinesChangedLoop]
  | cons id rest ih =>
    rw [Tables.machinesChangedLoop, machineLifeChanged_settled api interrupted N fw cs (T id)
      (hconst id (List.mem_cons_self _ _)) (hs id (List.mem_cons_self _ _))]
    simp only
    rw [ih _ (fun id2 h => hconst id2 (List.mem_cons_of_mem _ h))
      (fun id2 h => hs id2 (List.mem_cons_of_mem _ h))]
    simp

theorem reconcileMachines_settled (api : Api) (keys : List MachineTag) (fw : Tables)
    (calls : List Call) (hk : MachineKeys fw)
    (hok : (Tables.reconcileMachines api keys fw calls).2.2 = none)
    (t : MachineTag) (hc : ∀ cs cs2, api.Machine cs t = api.Machine cs2 t)
    (hs : fw.settled api t (api.Machine [] t)) :
    (Tables.reconcileMachines api keys fw calls).1.settled api t (api.Machine [] t) := by
  induction keys generalizing fw calls with
  | nil => exact hs
  | cons key rest ih =>
    rw [Tables.reconcileMachines] at hok ⊢
    cases hl : fw.machineds.lookup key with
    | none =>
      rw [hl] at hok
      simp only at hok ⊢
      exact ih fw calls hk hok hs
    | some machined =>
      rw [hl] at hok
      simp only at hok ⊢
      obtain ⟨_, m, hm, hmt⟩ := hk key machined hl
      rw [hm] at hok ⊢
      simp only at hok ⊢
      rcases hM : (api.Machine calls m.tag).2 with _ | err
      · rw [hM] at hok
        simp only at hok ⊢
        rcases hR : reconcileInstance api (calls ++ [Call.Machine m.tag]) m.tag m.ingressRules
          with ⟨calls2, _ | err, _ | _⟩
        · rw [hR] at hok
          simp only at hok ⊢
          exact hs
        · rw [hR] at hok
          simp only at hok ⊢
          exact ih fw calls2 hk hok hs
        · rw [hR] at hok
          simp at hok
        · rw [hR] at hok
          simp at hok
      · rw [hM] at hok
        simp only at hok ⊢
        by_cases hnf : api.IsCodeNotFound err = true
        · rw [if_pos hnf] at hok ⊢
          have hkeys := forgetMachine_keys api fw (calls ++ [Call.Machine m.tag]) key machined
            hk hl
          have hne : t ≠ key := by
            intro e
            subst e
            unfold Tables.settled at hs
            have h1 := hs.2.mp (by rw [hl]; rfl)
            rw [hc [] calls, ← hmt, hM] at h1
            simp at h1
          rcases hF : Tables.forgetMachine api fw (calls ++ [Call.Machine m.tag]) machined with
            ⟨fw2, calls2, _ | err2⟩
          · rw [hF] at hok hkeys
            simp only at hok hkeys ⊢
            exact ih fw2 calls2 hkeys.1 hok
              (settled_congr api fw fw2 t _ (hkeys.2.1 t hne) hs)
          · rw [hF] at hok
            simp at hok
        · rw [if_neg hnf] at hok
          simp at hok

theorem tables_reconcileGlobal_fst (api : Api) (fw : Tables) (calls : List Call) :
    (Tables.reconcileGlobal api fw calls).1 = fw := by
  unfold Tables.reconcileGlobal
  split
  · rfl
  · rfl

theorem sampleTables_keys : MachineKeys sampleTables := by
  intro t ma h
  obtain ⟨h1, h2⟩ := lookup_singleton (⟨"0"⟩ : MachineTag) t 0 ma h
  subst h1 h2
  exact ⟨by decide, _, rfl, rfl⟩

/-- C25: let every key of the machine table point to a record with that tag
(as `startMachine` stores it), let the answer of the orchestrator for each
machine of a change of the machines watcher be the same at every query, and let
the case of `loop` for that change, the loop over its machines with
`machineLifeChanged` and, at the first change, the reconcile, have returned no
error.  Then every machine of the change is tracked exactly when the
orchestrator answers a machine that is not dead; the variable `reconciled` is
true; and the same change again, in the state the first one left or in any
later state that tracks the machines of the change as the first one left them,
returns no error, leaves the worker as it was (the machine, unit and application
tables, every record and the reference counts), and makes only the queries
`Machine(tag)`, one for each machine of the change: no cloud call, no start and
no forget. -/
theorem machinesChanged_twice (api : Api)
    (interrupted : List Call → MachineTag → Option Err) (N : String → UnitTag)
    (T : String → MachineTag) (fw : Tables) (calls : List Call) (reconciled : Bool)
    (change : List String) (hk : MachineKeys fw)
    (hconst : ∀ id ∈ change, ∀ cs cs2, api.Machine cs (T id) = api.Machine cs2 (T id))
    (hok : (Tables.machinesChanged api interrupted N T fw calls reconciled change).2.2.1 =
      none) :
    (Tables.machinesChanged api interrupted N T fw calls reconciled change).2.2.2 = true ∧
    (∀ id ∈ change,
      (Tables.machinesChanged api interrupted N T fw calls reconciled change).1.settled api
        (T id) (api.Machine [] (T id))) ∧
    (∀ fwL cs,
      (∀ id ∈ change, fwL.machineds.lookup (T id) =
        (Tables.machinesChanged api interrupted N T fw calls reconciled
          change).1.machineds.lookup (T id)) →
      Tables.machinesChanged api interrupted N T fwL cs true change =
        (fwL, cs ++ change.map (fun id => Call.Machine (T id)), none, true)) ∧
    Tables.machinesChanged api interrupted N T
        (Tables.machinesChanged api interrupted N T fw calls reconciled change).1
        (Tables.machinesChanged api interrupted N T fw calls reconciled change).2.1
        (Tables.machinesChanged api interrupted N T fw calls reconciled change).2.2.2 change =
      ((Tables.machinesChanged api interrupted N T fw calls reconciled change).1,
        (Tables.machinesChanged api interrupted N T fw calls reconciled change).2.1 ++
          change.map (fun id => Call.Machine (T id)), none, true) := by
  have hsecond : ∀ fwL cs,
      (∀ id ∈ change, fwL.settled api (T id) (api.Machine [] (T id))) →
      Tables.machinesChanged api interrupted N T fwL cs true change =
        (fwL, cs ++ change.map (fun id => Call.Machine (T id)), none, true) := by
    intro fwL cs hs
    unfold Tables.machinesChanged
    rw [machinesChangedLoop_settled api interrupted N T change fwL cs hconst hs]
    rfl
  have hfirst : (Tables.machinesChanged api interrupted N T fw calls reconciled
        change).2.2.2 = true ∧
      ∀ id ∈ change,
        (Tables.machinesChanged api interrupted N T fw calls reconciled change).1.settled api
          (T id) (api.Machine [] (T id)) := by
    unfold Tables.machinesChanged at hok ⊢
    have hL := machinesChangedLoop_settles api interrupted N T change fw calls hk hconst
    rcases hloop : Tables.machinesChangedLoop api interrupted N T change fw calls with
      ⟨fw2, calls2, _ | err⟩
    · rw [hloop] at hok hL
      simp only at hok hL ⊢
      obtain ⟨hk2, hs2, _⟩ := hL (by trivial)
      cases reconciled with
      | true => exact ⟨by trivial, hs2⟩
      | false =>
        simp only [Bool.not_false, if_true] at hok ⊢
        cases hg : fw2.globalMode with
        | true =>
          rw [hg] at hok
          simp only [if_true] at hok ⊢
          have hst := tables_reconcileGlobal_fst api fw2 calls2
          rcases hR : Tables.reconcileGlobal api fw2 calls2 with ⟨fw3, calls3, _ | err⟩
          · rw [hR] at hst
            simp only at hst ⊢
            subst hst
            exact ⟨by trivial, hs2⟩
          · rw [hR] at hok
            simp at hok
        | false =>
          rw [hg] at hok
          simp only [Bool.false_eq_true, if_false] at hok ⊢
          have hrec := fun h3 id hid => reconcileMachines_settled api
            (fw2.machineds.map Prod.fst) fw2 calls2 hk2 h3 (T id) (hconst id hid) (hs2 id hid)
          unfold Tables.reconcileInstances at hok ⊢
          rcases hR : Tables.reconcileMachines api (fw2.machineds.map Prod.fst) fw2 calls2 with
            ⟨fw3, calls3, _ | err⟩
          · rw [hR] at hrec
            simp only at hrec ⊢
            exact ⟨by trivial, hrec (by trivial)⟩
          · rw [hR] at hok
            simp at hok
    · rw [hloop] at hok
      simp at hok
  refine ⟨hfirst.1, hfirst.2, ?_, ?_⟩
  · intro fwL cs hsame
    apply hsecond
    intro id hid
    exact settled_congr api _ fwL (T id) _ (hsame id hid) (hfirst.2 id hid)
  · rw [hfirst.1]
    exact hsecond _ _ hfirst.2

theorem machinesChanged_twice_witness :
    Tables.machinesChanged okApi (fun _ _ => none) UnitTag.mk MachineTag.mk
        (Tables.machinesChanged okApi (fun _ _ => none) UnitTag.mk MachineTag.mk sampleTables
          [] false ["0", "1"]).1
        (Tables.machinesChanged okApi (fun _ _ => none) UnitTag.mk MachineTag.mk sampleTables
          [] false ["0", "1"]).2.1 true ["0", "1"] =
      ((Tables.machinesChanged okApi (fun _ _ => none) UnitTag.mk MachineTag.mk sampleTables
          [] false ["0", "1"]).1,
        (Tables.machinesChanged okApi (fun _ _ => none) UnitTag.mk MachineTag.mk sampleTables
          [] false ["0", "1"]).2.1 ++ [Call.Machine ⟨"0"⟩, Call.Machine ⟨"1"⟩], none, true) :=
  (machinesChanged_twice okApi (fun _ _ => none) UnitTag.mk MachineTag.mk sampleTables []
    false ["0", "1"] sampleTables_keys (fun _ _ _ _ => rfl) (by decide)).2.2.1 _ _
    (fun _ _ => rfl)

/-- The first change of the machines watcher on the sample tables, with the
machines 0 (tracked) and 1 (new): machine 1 is started, and the reconcile of
instance mode opens on the instance of machine 0 the rule it finds missing. -/
theorem machinesChanged_sample :
    (Tables.machinesChanged okApi (fun _ _ => none) UnitTag.mk MachineTag.mk sampleTables
        [] false ["0", "1"]).2 =
      ([Call.Machine ⟨"0"⟩, Call.Machine ⟨"1"⟩, Call.Machine ⟨"1"⟩, Call.WatchUnits ⟨"1"⟩,
        Call.StartMachine ⟨"1"⟩, Call.Machine ⟨"0"⟩, Call.InstanceId ⟨"0"⟩,
        Call.Instances ["i-0"], Call.InstanceIngressRules "i-0" "0",
        Call.InstanceOpenPorts "i-0" "0" [⟨⟨80, 80, "tcp"⟩, ["0.0.0.0/0"]⟩],
        Call.Machine ⟨"1"⟩, Call.InstanceId ⟨"1"⟩, Call.Instances ["i-1"],
        Call.InstanceIngressRules "i-1" "1"], none, true) ∧
    (Tables.machinesChanged okApi (fun _ _ => none) UnitTag.mk MachineTag.mk sampleTables
        [] false ["0", "1"]).1.machineds = [(⟨"0"⟩, 0), (⟨"1"⟩, 3)] := by
  decide

end Juju
